import Mathlib

/-!
# Timetable CSP: plain backtracking and forward checking

A shallow embedding of `Problem2_Timetable_CSP` (`heuristics.h`,
`backtracking.h`, `forward_checking.h`).

Conventions of the embedding.

* `std::vector<T>` is `List T`.  Every `v[i]` of the source is a checked access
  returning `Option`: an index outside the vector makes the whole computation
  `none`.
* `int` data (teacher ids, capacities, slots, the `-1` sentinels) is `Int`;
  loop counters that run from `0` up to a size are `Nat`.  Where the source
  stores a computed value in an `int`, the value is reduced by `toInt32`: the
  initial `min_remaining` of `selectUnassignedVariableMRV`, which is narrowed
  from `size_t`, and the counters `assignment_count` and `backtrack_count`.
* The mutable members of a solver object (`assignment`, `domain`,
  `backtrack_count`, `assignment_count`) form `SolverState`; the immutable
  member `problem` is passed alongside.
* The recursion of `backtrack()` is driven by a fuel argument; `solve` supplies
  `courses.size() + 1`, which is shown to be enough.
* `std::sort` with the comparator `a.timeslot < b.timeslot` is a parameter
  `srt`; the C++ standard only promises a permutation ordered by the
  comparator (`StdSort`).  `librarySort` is the routine of the GNU C++ library
  (`LibStdCxx.sort`), used for the runs in which the order of equal timeslots
  matters.
* The two `backtrack()` functions differ only in the propagation step and in
  the restore of the domain.  `genTry` and `genBacktrack` give both in one
  text with a flag; each solver's own text is proved equal to it
  (`bt_backtrack_eq`, `fc_backtrack_eq`) and the search lemmas are proved once.
-/

namespace Timetable

/-! ## Data model (`heuristics.h`) -/

structure Room where
  id : Int
  name : String
  capacity : Int
  busy_slots : List Int

structure Teacher where
  id : Int
  name : String
  busy_slots : List Int

structure Course where
  id : Int
  name : String
  teacher_id : Int
  students : Int
  student_groups : List Int

structure Assignment where
  timeslot : Int
  room : Int
deriving DecidableEq

structure Value where
  timeslot : Int
  room : Int
  course_id : Int
deriving DecidableEq

structure TimetableProblem where
  courses : List Course
  teachers : List Teacher
  rooms : List Room
  timeslots : Int

/-- The mutable members of `BacktrackingSolver` / `ForwardCheckingSolver`. -/
structure SolverState where
  assignment : List Assignment
  domain : List (List Bool)
  backtrack_count : Int
  assignment_count : Int
deriving DecidableEq

/-- The value an `int` (32 bits, two's complement) holds after the integer `z`
is stored in it: `z` reduced modulo `2^32` into `[-2^31, 2^31)`. -/
def toInt32 (z : Int) : Int :=
  (z + 2147483648) % 4294967296 - 2147483648

/-- Checked read `v[i]` with an `int` index. -/
def vecAt {α : Type} (v : List α) (i : Int) : Option α :=
  if i < 0 then none else v[i.toNat]?

/-- Checked write `v[i] = x` with an `int` index. -/
def vecSet {α : Type} (v : List α) (i : Int) (x : α) : Option (List α) :=
  if i < 0 then none
  else if i.toNat < v.length then some (v.set i.toNat x) else none

/-- Checked write `v[i] = x` with a `size_t` index. -/
def vecSetN {α : Type} (v : List α) (i : Nat) (x : α) : Option (List α) :=
  if i < v.length then some (v.set i x) else none

/-- Contract of `std::sort(values.begin(), values.end(), cmp)` with
`cmp a b = a.timeslot < b.timeslot`: the result is a permutation of the input
in which no later element compares less than an earlier one. -/
def StdSort (srt : List Value → List Value) : Prop :=
  ∀ l, (srt l).Perm l ∧ (srt l).Pairwise (fun a b => ¬ b.timeslot < a.timeslot)

/-- Insertion step of a stable sort by timeslot: `v` goes behind the elements
that compare less than it. -/
def insertByTimeslot (v : Value) : List Value → List Value
  | [] => [v]
  | w :: ws => if w.timeslot < v.timeslot then w :: insertByTimeslot v ws else v :: w :: ws

/-- One function that meets `StdSort`: stable insertion sort by timeslot. -/
def insertionSortByTimeslot : List Value → List Value
  | [] => []
  | v :: vs => insertByTimeslot v (insertionSortByTimeslot vs)

/-- `shareStudentGroups(c1, c2)`. -/
def shareStudentGroups (c1 c2 : Course) : Bool :=
  c1.student_groups.any (fun group1 => c2.student_groups.any (fun group2 => group1 == group2))

/-! ## Variable ordering (`selectUnassignedVariableMRV`) -/

/-- Inner loop over `r` of the remaining-value count. -/
def countRooms (domain : List (List Bool)) (i : Nat) (nrooms t : Nat) :
    List Nat → Nat → Option Nat
  | [], remaining => some remaining
  | r :: rs, remaining => do
    let row ← domain[i]?
    let b ← row[t * nrooms + r]?
    countRooms domain i nrooms t rs (if b then remaining + 1 else remaining)

/-- Loop over `t` of the remaining-value count. -/
def countSlots (domain : List (List Bool)) (i : Nat) (nrooms : Nat) :
    List Nat → Nat → Option Nat
  | [], remaining => some remaining
  | t :: ts, remaining => do
    let remaining1 ← countRooms domain i nrooms t (List.range nrooms) remaining
    countSlots domain i nrooms ts remaining1

/-- Loop over the courses in `selectUnassignedVariableMRV`, carrying
`min_remaining` and `selected_course`.  `remaining` counts the `true` entries
of one row, at most `timeslots * rooms.size()` of them: it stays inside `int`
whenever the row has at most `INT_MAX` entries (beyond that `remaining++`
overflows, which C++ leaves undefined), and is kept exact here. -/
def mrvLoop (p : TimetableProblem) (assignment : List Assignment)
    (domain : List (List Bool)) : List Nat → Int → Int → Option Int
  | [], _, selected_course => some selected_course
  | i :: is, min_remaining, selected_course => do
    let a ← assignment[i]?
    if a.timeslot ≠ -1 then mrvLoop p assignment domain is min_remaining selected_course
    else
      let remaining ← countSlots domain i p.rooms.length (List.range p.timeslots.toNat) 0
      if (remaining : Int) < min_remaining then
        mrvLoop p assignment domain is (remaining : Int) (i : Int)
      else mrvLoop p assignment domain is min_remaining selected_course

/-- `selectUnassignedVariableMRV(problem, assignment, domain)`.  The source
computes `problem.timeslots * problem.rooms.size() + 1` in `size_t` and stores
it in `int min_remaining`. -/
def selectUnassignedVariableMRV (p : TimetableProblem) (assignment : List Assignment)
    (domain : List (List Bool)) : Option Int :=
  mrvLoop p assignment domain (List.range p.courses.length)
    (toInt32 (p.timeslots * (p.rooms.length : Int) + 1)) (-1)

/-- The initial value of `min_remaining` fits an `int`:
`timeslots * rooms.size() + 1 ≤ INT_MAX`. -/
def MinRemainingFits (p : TimetableProblem) : Prop :=
  p.timeslots * (p.rooms.length : Int) + 1 ≤ 2147483647

/-! ## Value ordering (`orderDomainValues`) -/

/-- Inner loop over `r` collecting the viable values. -/
def collectRooms (domain : List (List Bool)) (course_id : Int) (nrooms t : Nat) :
    List Nat → List Value → Option (List Value)
  | [], values => some values
  | r :: rs, values => do
    let row ← vecAt domain course_id
    let b ← row[t * nrooms + r]?
    collectRooms domain course_id nrooms t rs
      (if b then values ++ [Value.mk (t : Int) (r : Int) course_id] else values)

/-- Loop over `t` collecting the viable values. -/
def collectSlots (domain : List (List Bool)) (course_id : Int) (nrooms : Nat) :
    List Nat → List Value → Option (List Value)
  | [], values => some values
  | t :: ts, values => do
    let values1 ← collectRooms domain course_id nrooms t (List.range nrooms) values
    collectSlots domain course_id nrooms ts values1

/-- `orderDomainValues(problem, course_id, domain)`. -/
def orderDomainValues (srt : List Value → List Value) (p : TimetableProblem)
    (course_id : Int) (domain : List (List Bool)) : Option (List Value) := do
  let _course ← vecAt p.courses course_id
  let values ← collectSlots domain course_id p.rooms.length (List.range p.timeslots.toNat) []
  some (srt values)

/-! ## Consistency check (`isConsistent`, the same text in both solvers) -/

/-- The teacher double-booking loop; `some true` means a clash was found. -/
def teacherClashLoop (p : TimetableProblem) (assignment : List Assignment)
    (course : Course) (course_id timeslot : Int) : List Nat → Option Bool
  | [] => some false
  | other_course_id :: rest =>
    if (other_course_id : Int) = course_id then
      teacherClashLoop p assignment course course_id timeslot rest
    else do
      let a ← assignment[other_course_id]?
      if a.timeslot = timeslot ∧ a.timeslot ≠ -1 then
        let other_course ← p.courses[other_course_id]?
        if other_course.teacher_id = course.teacher_id then some true
        else teacherClashLoop p assignment course course_id timeslot rest
      else teacherClashLoop p assignment course course_id timeslot rest

/-- The student-group loop; `some true` means a clash was found. -/
def groupClashLoop (p : TimetableProblem) (assignment : List Assignment)
    (course : Course) (course_id timeslot : Int) : List Nat → Option Bool
  | [] => some false
  | other_course_id :: rest =>
    if (other_course_id : Int) = course_id then
      groupClashLoop p assignment course course_id timeslot rest
    else do
      let a ← assignment[other_course_id]?
      if a.timeslot = timeslot ∧ a.timeslot ≠ -1 then
        let other_course ← p.courses[other_course_id]?
        if shareStudentGroups course other_course then some true
        else groupClashLoop p assignment course course_id timeslot rest
      else groupClashLoop p assignment course course_id timeslot rest

/-- Body shared by `BacktrackingSolver::isConsistent` and
`ForwardCheckingSolver::isConsistent`. -/
def isConsistentBody (p : TimetableProblem) (assignment : List Assignment)
    (course_id timeslot room : Int) : Option Bool := do
  let course ← vecAt p.courses course_id
  let room_obj ← vecAt p.rooms room
  let teacher ← vecAt p.teachers course.teacher_id
  if course.students > room_obj.capacity then some false
  else if teacher.busy_slots.any (fun busy_slot => busy_slot == timeslot) then some false
  else if room_obj.busy_slots.any (fun busy_slot => busy_slot == timeslot) then some false
  else do
    let clash1 ← teacherClashLoop p assignment course course_id timeslot
      (List.range p.courses.length)
    if clash1 then some false
    else do
      let clash2 ← groupClashLoop p assignment course course_id timeslot
        (List.range p.courses.length)
      if clash2 then some false else some true

/-! ## Forward checking (`ForwardCheckingSolver::forwardCheck`) -/

/-- Inner loop over `check_r` of the wipeout scan (`break` on the first hit). -/
def scanRooms (row : List Bool) (nrooms check_t : Nat) : List Nat → Option Bool
  | [] => some false
  | check_r :: rest => do
    let b ← row[check_t * nrooms + check_r]?
    if b then some true else scanRooms row nrooms check_t rest

/-- Loop over `check_t` of the wipeout scan; the result is `has_valid_values`. -/
def scanSlots (row : List Bool) (nrooms : Nat) : List Nat → Option Bool
  | [] => some false
  | check_t :: rest => do
    let has_valid_values ← scanRooms row nrooms check_t (List.range nrooms)
    if has_valid_values then some true else scanSlots row nrooms rest

/-- The flag `consistent` that the body of `forwardCheck` computes for the pair
`(t, r)` of `other_course`. -/
def fcConsistent (assigned_course other_course : Course) (timeslot room : Int) (t r : Nat) :
    Bool :=
  if (t : Int) = timeslot then
    !(decide (other_course.teacher_id = assigned_course.teacher_id)
      || decide ((r : Int) = room)
      || shareStudentGroups assigned_course other_course)
  else true

/-- Loop over `r` in `forwardCheck` for one `other_course_id` and one `t`.
The Boolean is `false` when the function returned on a domain wipeout. -/
def fcRooms (p : TimetableProblem) (assigned_course other_course : Course)
    (other_course_id : Nat) (timeslot room : Int) (t : Nat) :
    List Nat → List (List Bool) → Option (Bool × List (List Bool))
  | [], domain => some (true, domain)
  | r :: rest, domain => do
    let domain_index := t * p.rooms.length + r
    let row ← domain[other_course_id]?
    let b ← row[domain_index]?
    if !b then fcRooms p assigned_course other_course other_course_id timeslot room t rest domain
    else
      let consistent := fcConsistent assigned_course other_course timeslot room t r
      if !consistent then do
        let row1 ← vecSetN row domain_index false
        let domain1 ← vecSetN domain other_course_id row1
        let has_valid_values ← scanSlots row1 p.rooms.length (List.range p.timeslots.toNat)
        if !has_valid_values then some (false, domain1)
        else fcRooms p assigned_course other_course other_course_id timeslot room t rest domain1
      else fcRooms p assigned_course other_course other_course_id timeslot room t rest domain

/-- Loop over `t` in `forwardCheck` for one `other_course_id`. -/
def fcSlots (p : TimetableProblem) (assigned_course other_course : Course)
    (other_course_id : Nat) (timeslot room : Int) :
    List Nat → List (List Bool) → Option (Bool × List (List Bool))
  | [], domain => some (true, domain)
  | t :: rest, domain => do
    let res ← fcRooms p assigned_course other_course other_course_id timeslot room t
      (List.range p.rooms.length) domain
    if res.1 then fcSlots p assigned_course other_course other_course_id timeslot room rest res.2
    else some (false, res.2)

/-- Loop over `other_course_id` in `forwardCheck`. -/
def fcCourses (p : TimetableProblem) (assignment : List Assignment) (assigned_course : Course)
    (assigned_course_id timeslot room : Int) :
    List Nat → List (List Bool) → Option (Bool × List (List Bool))
  | [], domain => some (true, domain)
  | other_course_id :: rest, domain =>
    if (other_course_id : Int) = assigned_course_id then
      fcCourses p assignment assigned_course assigned_course_id timeslot room rest domain
    else do
      let a ← assignment[other_course_id]?
      if a.timeslot ≠ -1 then
        fcCourses p assignment assigned_course assigned_course_id timeslot room rest domain
      else do
        let other_course ← p.courses[other_course_id]?
        let res ← fcSlots p assigned_course other_course other_course_id timeslot room
          (List.range p.timeslots.toNat) domain
        if res.1 then
          fcCourses p assignment assigned_course assigned_course_id timeslot room rest res.2
        else some (false, res.2)

/-- `initializeDomain()`: one row of `timeslots * rooms.size()` entries per
course, all `true`.  The product is computed in `size_t`, so a negative
`timeslots` with at least one room asks `resize` for more than `max_size()`
elements, which throws. -/
def initializeDomain (p : TimetableProblem) : Option (List (List Bool)) :=
  if p.courses.length ≠ 0 ∧ p.timeslots < 0 ∧ p.rooms.length ≠ 0 then none
  else some (List.replicate p.courses.length
    (List.replicate (p.timeslots.toNat * p.rooms.length) true))

/-- The constructor of either solver: all courses unassigned, counters zero,
full domain. -/
def newSolver (p : TimetableProblem) : Option SolverState := do
  let domain ← initializeDomain p
  some { assignment := List.replicate p.courses.length ⟨-1, -1⟩
         domain := domain
         backtrack_count := 0
         assignment_count := 0 }

/-! ## Plain backtracking (`backtracking.h`) -/

namespace BacktrackingSolver

/-- `BacktrackingSolver::isConsistent`, evaluated on the current assignment. -/
def isConsistent (p : TimetableProblem) (s : SolverState) (course_id timeslot room : Int) :
    Option Bool :=
  isConsistentBody p s.assignment course_id timeslot room

/-- The `for (const Value& value : ordered_values)` loop of `backtrack()`;
`recurse` is the recursive call `backtrack()`. -/
def tryValues (p : TimetableProblem) (recurse : SolverState → Option (Bool × SolverState))
    (course_id : Int) : List Value → SolverState → Option (Bool × SolverState)
  | [], s => some (false, s)
  | value :: rest, s => do
    let s1 : SolverState := { s with assignment_count := toInt32 (s.assignment_count + 1) }
    let ok ← isConsistent p s1 course_id value.timeslot value.room
    if ok then do
      let a2 ← vecSet s1.assignment course_id ⟨value.timeslot, value.room⟩
      let res ← recurse { s1 with assignment := a2 }
      if res.1 then some (true, res.2)
      else do
        let a4 ← vecSet res.2.assignment course_id ⟨-1, -1⟩
        tryValues p recurse course_id rest
          { res.2 with assignment := a4,
                       backtrack_count := toInt32 (res.2.backtrack_count + 1) }
    else tryValues p recurse course_id rest s1

/-- `BacktrackingSolver::backtrack()`. -/
def backtrack (srt : List Value → List Value) (p : TimetableProblem) :
    Nat → SolverState → Option (Bool × SolverState)
  | 0, _ => none
  | fuel + 1, s => do
    let course_id ← selectUnassignedVariableMRV p s.assignment s.domain
    if course_id = -1 then some (true, s)
    else do
      let ordered_values ← orderDomainValues srt p course_id s.domain
      tryValues p (backtrack srt p fuel) course_id ordered_values s

/-- `BacktrackingSolver bt(problem); bt.solve()`: the result and the final
members. -/
def solve (srt : List Value → List Value) (p : TimetableProblem) :
    Option (Bool × SolverState) := do
  let s ← newSolver p
  backtrack srt p (p.courses.length + 1) s

end BacktrackingSolver

/-! ## Backtracking with forward checking (`forward_checking.h`) -/

namespace ForwardCheckingSolver

/-- `ForwardCheckingSolver::isConsistent`, evaluated on the current assignment. -/
def isConsistent (p : TimetableProblem) (s : SolverState) (course_id timeslot room : Int) :
    Option Bool :=
  isConsistentBody p s.assignment course_id timeslot room

/-- `ForwardCheckingSolver::forwardCheck`: the result and the pruned domain. -/
def forwardCheck (p : TimetableProblem) (s : SolverState)
    (assigned_course_id timeslot room : Int) : Option (Bool × SolverState) := do
  let assigned_course ← vecAt p.courses assigned_course_id
  let res ← fcCourses p s.assignment assigned_course assigned_course_id timeslot room
    (List.range p.courses.length) s.domain
  some (res.1, { s with domain := res.2 })

/-- The undo at the end of the loop body: `domain = old_domain;
assignment[course_id] = Assignment(-1, -1); backtrack_count++`. -/
def restore (old_domain : List (List Bool)) (course_id : Int) (s : SolverState) :
    Option SolverState := do
  let a4 ← vecSet s.assignment course_id ⟨-1, -1⟩
  some { s with domain := old_domain, assignment := a4,
                backtrack_count := toInt32 (s.backtrack_count + 1) }

/-- The `for (const Value& value : ordered_values)` loop of `backtrack()`;
`recurse` is the recursive call `backtrack()`. -/
def tryValues (p : TimetableProblem) (recurse : SolverState → Option (Bool × SolverState))
    (course_id : Int) : List Value → SolverState → Option (Bool × SolverState)
  | [], s => some (false, s)
  | value :: rest, s => do
    let s1 : SolverState := { s with assignment_count := toInt32 (s.assignment_count + 1) }
    let ok ← isConsistent p s1 course_id value.timeslot value.room
    if ok then do
      let old_domain := s1.domain
      let a2 ← vecSet s1.assignment course_id ⟨value.timeslot, value.room⟩
      let fc ← forwardCheck p { s1 with assignment := a2 } course_id value.timeslot value.room
      if fc.1 then do
        let res ← recurse fc.2
        if res.1 then some (true, res.2)
        else do
          let s4 ← restore old_domain course_id res.2
          tryValues p recurse course_id rest s4
      else do
        let s4 ← restore old_domain course_id fc.2
        tryValues p recurse course_id rest s4
    else tryValues p recurse course_id rest s1

/-- `ForwardCheckingSolver::backtrack()`. -/
def backtrack (srt : List Value → List Value) (p : TimetableProblem) :
    Nat → SolverState → Option (Bool × SolverState)
  | 0, _ => none
  | fuel + 1, s => do
    let course_id ← selectUnassignedVariableMRV p s.assignment s.domain
    if course_id = -1 then some (true, s)
    else do
      let ordered_values ← orderDomainValues srt p course_id s.domain
      tryValues p (backtrack srt p fuel) course_id ordered_values s

/-- `ForwardCheckingSolver fc(problem); fc.solve()`: the result and the final
members. -/
def solve (srt : List Value → List Value) (p : TimetableProblem) :
    Option (Bool × SolverState) := do
  let s ← newSolver p
  backtrack srt p (p.courses.length + 1) s

end ForwardCheckingSolver

/-! ## Predicates used in the statements -/

/-- A validated problem: the timeslot count is not negative and every course's
`teacher_id` indexes `teachers`. -/
def Validated (p : TimetableProblem) : Prop :=
  0 ≤ p.timeslots ∧
    ∀ c ∈ p.courses, 0 ≤ c.teacher_id ∧ c.teacher_id < (p.teachers.length : Int)

/-- The domain entry of course `c` at flat index `idx` is `true`. -/
def Viable (d : List (List Bool)) (c idx : Nat) : Prop :=
  ∃ row, d[c]? = some row ∧ row[idx]? = some true

/-- Checks 1-3 of `isConsistent`: capacity, teacher availability, room
availability. -/
def StaticOK (p : TimetableProblem) (c : Nat) (t r : Int) : Prop :=
  ∃ course room_obj teacher, p.courses[c]? = some course ∧ vecAt p.rooms r = some room_obj ∧
    vecAt p.teachers course.teacher_id = some teacher ∧
    course.students ≤ room_obj.capacity ∧ t ∉ teacher.busy_slots ∧ t ∉ room_obj.busy_slots

/-- Courses `c` and `o` have the same teacher or share a student group. -/
def Conflict (p : TimetableProblem) (c o : Nat) : Prop :=
  ∃ cc co, p.courses[c]? = some cc ∧ p.courses[o]? = some co ∧
    (co.teacher_id = cc.teacher_id ∨ shareStudentGroups cc co = true)

/-- Checks 4-5 of `isConsistent` fail: another course is assigned to timeslot
`t` and conflicts with `c`. -/
def Clash (p : TimetableProblem) (a : List Assignment) (c : Nat) (t : Int) : Prop :=
  ∃ o ao, o ≠ c ∧ o < p.courses.length ∧ a[o]? = some ao ∧ ao.timeslot = t ∧ t ≠ -1 ∧
    Conflict p c o

/-- Domain `d'` arises from `d` by switching entries from `true` to `false`,
each switch justified by `Reason course index`. -/
def PrunedFrom (Reason : Nat → Nat → Prop) (d d' : List (List Bool)) : Prop :=
  d'.length = d.length ∧
    ∀ o row, d[o]? = some row → ∃ row', d'[o]? = some row' ∧ row'.length = row.length ∧
      ∀ idx, row'[idx]? = row[idx]? ∨
        (row[idx]? = some true ∧ row'[idx]? = some false ∧ Reason o idx)

/-- The pruning rule of `forwardCheck(cid, timeslot, room)`: the entry `idx` of
the unassigned course `o ≠ cid` lies at the committed timeslot and `o` has the
committed course's teacher, or the entry is the committed room, or the two
courses share a student group. -/
def PruneReason (p : TimetableProblem) (a : List Assignment) (cid timeslot room : Int)
    (o idx : Nat) : Prop :=
  (o : Int) ≠ cid ∧ (∃ ao, a[o]? = some ao ∧ ao.timeslot = -1) ∧
    ∃ assigned other, vecAt p.courses cid = some assigned ∧ p.courses[o]? = some other ∧
      ∃ t r, r < p.rooms.length ∧ idx = t * p.rooms.length + r ∧ (t : Int) = timeslot ∧
        (other.teacher_id = assigned.teacher_id ∨ (r : Int) = room ∨
          shareStudentGroups assigned other = true)

/-- The vectors of a solver state have the sizes the constructor gave them. -/
def Shape (p : TimetableProblem) (s : SolverState) : Prop :=
  s.assignment.length = p.courses.length ∧ s.domain.length = p.courses.length ∧
    ∀ row ∈ s.domain, row.length = p.timeslots.toNat * p.rooms.length

/-- Every unassigned entry is exactly `Assignment(-1, -1)`. -/
def Sentinel (a : List Assignment) : Prop :=
  ∀ x ∈ a, x.timeslot = -1 → x.room = -1

/-- Number of courses whose `timeslot` is `-1`. -/
def unassignedCount (a : List Assignment) : Nat :=
  a.countP (fun x => decide (x.timeslot = -1))

/-- Every assigned entry is a timeslot in `[0, timeslots)` and a room in
`[0, rooms.size())`. -/
def InRange (p : TimetableProblem) (a : List Assignment) : Prop :=
  ∀ x ∈ a, x.timeslot ≠ -1 →
    0 ≤ x.timeslot ∧ x.timeslot < p.timeslots ∧ 0 ≤ x.room ∧ x.room < (p.rooms.length : Int)

/-- Every assigned course passes checks 1-5 against the assignment `a`. -/
def ConsistentAll (p : TimetableProblem) (a : List Assignment) : Prop :=
  ∀ i x, a[i]? = some x → x.timeslot ≠ -1 → StaticOK p i x.timeslot x.room ∧ ¬ Clash p a i x.timeslot

/-- A complete in-range assignment `S` in which every course passes checks
1-5; with `excl` also no two courses share a timeslot and a room. -/
def GoodSolution (excl : Bool) (p : TimetableProblem) (S : List Assignment) : Prop :=
  S.length = p.courses.length ∧
    (∀ i x, S[i]? = some x → ∃ t r : Nat, x = ⟨(t : Int), (r : Int)⟩ ∧ t < p.timeslots.toNat ∧
      r < p.rooms.length ∧ StaticOK p i (t : Int) (r : Int) ∧ ¬ Clash p S i (t : Int)) ∧
    (excl = true → ∀ (i j : Nat) (x y : Assignment), i ≠ j → S[i]? = some x → S[j]? = some y →
      x.timeslot = y.timeslot → x.room ≠ y.room)

/-- State `(a, d)` can still be extended to `S`: assigned courses agree with
`S`, and the value `S` gives an unassigned course is still in its domain. -/
def Compatible (p : TimetableProblem) (S a : List Assignment) (d : List (List Bool)) : Prop :=
  ∀ i x, a[i]? = some x →
    (x.timeslot ≠ -1 → S[i]? = some x) ∧
    (x.timeslot = -1 → ∃ t r : Nat, S[i]? = some ⟨(t : Int), (r : Int)⟩ ∧
      Viable d i (t * p.rooms.length + r))

/-- Propagation after a commit: `forwardCheck` in the forward-checking solver,
nothing in the plain one. -/
def genPropagate (fc : Bool) (p : TimetableProblem) (s : SolverState)
    (course_id timeslot room : Int) : Option (Bool × SolverState) :=
  if fc then ForwardCheckingSolver.forwardCheck p s course_id timeslot room else some (true, s)

/-- The recursive call, skipped when propagation reported a wipeout. -/
def genDescend (recurse : SolverState → Option (Bool × SolverState))
    (fcr : Bool × SolverState) : Option (Bool × SolverState) :=
  if fcr.1 then recurse fcr.2 else some (false, fcr.2)

/-- The undo after a failed candidate: `domain = old_domain` (forward checking
only), `assignment[course_id] = Assignment(-1, -1)`, `backtrack_count++`. -/
def genRestore (fc : Bool) (old_domain : List (List Bool)) (s : SolverState)
    (a4 : List Assignment) : SolverState :=
  { s with domain := if fc then old_domain else s.domain, assignment := a4,
           backtrack_count := toInt32 (s.backtrack_count + 1) }

/-- The candidate loop of both solvers in one text: with `fc = false` it is
`BacktrackingSolver::backtrack`'s loop, with `fc = true` it is
`ForwardCheckingSolver::backtrack`'s. -/
def genTry (fc : Bool) (p : TimetableProblem)
    (recurse : SolverState → Option (Bool × SolverState)) (course_id : Int) :
    List Value → SolverState → Option (Bool × SolverState)
  | [], s => some (false, s)
  | value :: rest, s => do
    let s1 : SolverState := { s with assignment_count := toInt32 (s.assignment_count + 1) }
    let ok ← isConsistentBody p s1.assignment course_id value.timeslot value.room
    if ok then do
      let a2 ← vecSet s1.assignment course_id ⟨value.timeslot, value.room⟩
      let fcr ← genPropagate fc p { s1 with assignment := a2 } course_id value.timeslot value.room
      let res ← genDescend recurse fcr
      if res.1 then some (true, res.2)
      else do
        let a4 ← vecSet res.2.assignment course_id ⟨-1, -1⟩
        genTry fc p recurse course_id rest (genRestore fc s1.domain res.2 a4)
    else genTry fc p recurse course_id rest s1

/-- Candidate `v` for course `c` was tried in a state with assignment `a` and
domain `d` and abandoned: it failed `isConsistent`, or it was committed and the
propagation or the recursive call failed. -/
def AttemptFails (fc : Bool) (p : TimetableProblem)
    (recurse : SolverState → Option (Bool × SolverState)) (c : Nat) (a : List Assignment)
    (d : List (List Bool)) (v : Value) : Prop :=
  isConsistentBody p a (c : Int) v.timeslot v.room = some false ∨
    ∃ (bc ac : Int) (fcr r : Bool × SolverState),
      genPropagate fc p ⟨a.set c ⟨v.timeslot, v.room⟩, d, bc, ac⟩ (c : Int) v.timeslot v.room
        = some fcr ∧
      genDescend recurse fcr = some r ∧ r.1 = false

/-- Candidate `v` for course `c` was tried in a state with assignment `a` and
domain `d`, passed `isConsistent` and propagation, and the recursive call
returned `res`. -/
def AttemptSucceeds (fc : Bool) (p : TimetableProblem)
    (recurse : SolverState → Option (Bool × SolverState)) (c : Nat) (a : List Assignment)
    (d : List (List Bool)) (v : Value) (res : Bool × SolverState) : Prop :=
  isConsistentBody p a (c : Int) v.timeslot v.room = some true ∧
    ∃ (bc ac : Int) (fcr : Bool × SolverState),
      genPropagate fc p ⟨a.set c ⟨v.timeslot, v.room⟩, d, bc, ac⟩ (c : Int) v.timeslot v.room
        = some fcr ∧
      fcr.1 = true ∧ recurse fcr.2 = some res

/-- Both `backtrack()` functions in one text, see `genTry`. -/
def genBacktrack (fc : Bool) (srt : List Value → List Value) (p : TimetableProblem) :
    Nat → SolverState → Option (Bool × SolverState)
  | 0, _ => none
  | fuel + 1, s => do
    let course_id ← selectUnassignedVariableMRV p s.assignment s.domain
    if course_id = -1 then some (true, s)
    else do
      let ordered_values ← orderDomainValues srt p course_id s.domain
      genTry fc p (genBacktrack fc srt p fuel) course_id ordered_values s

/-- Executable form of `Sentinel` on a solver state. -/
def sentinelCheck (s : SolverState) : Bool :=
  s.assignment.all (fun x => decide (x.timeslot = -1 → x.room = -1))

/-- The common `backtrack()` with `assert(P(state))` as its first statement: a
failed assertion aborts the run. -/
def genBacktrackAsserting (P : SolverState → Bool) (fc : Bool) (srt : List Value → List Value)
    (p : TimetableProblem) : Nat → SolverState → Option (Bool × SolverState)
  | 0, _ => none
  | fuel + 1, s =>
    if P s then do
      let course_id ← selectUnassignedVariableMRV p s.assignment s.domain
      if course_id = -1 then some (true, s)
      else do
        let ordered_values ← orderDomainValues srt p course_id s.domain
        genTry fc p (genBacktrackAsserting P fc srt p fuel) course_id ordered_values s
    else none

/-- The `remaining` that `selectUnassignedVariableMRV` computes for course `i`. -/
def remainingCount (p : TimetableProblem) (domain : List (List Bool)) (i : Nat) : Option Nat :=
  countSlots domain i p.rooms.length (List.range p.timeslots.toNat) 0

/-- Two courses of one teacher, three timeslots, two rooms. -/
def demoProblem : TimetableProblem :=
  { courses := [⟨0, "AI", 0, 25, [0, 1]⟩, ⟨1, "Web Dev", 0, 32, [2, 3]⟩]
    teachers := [⟨0, "Dr. Smith", [0]⟩]
    rooms := [⟨0, "Room A", 40, [1]⟩, ⟨1, "Room B", 35, []⟩]
    timeslots := 3 }

/-- Two courses with the same teacher and a common student group, one
timeslot, one room. -/
def clashProblem : TimetableProblem :=
  { courses := [⟨0, "AI", 0, 25, [0, 1]⟩, ⟨1, "ML", 0, 22, [1]⟩]
    teachers := [⟨0, "Dr. Smith", []⟩]
    rooms := [⟨0, "Room A", 40, []⟩]
    timeslots := 1 }

/-- One course, one teacher, one room, two timeslots. -/
def singleProblem : TimetableProblem :=
  { courses := [⟨0, "AI", 0, 25, [0, 1]⟩]
    teachers := [⟨0, "Dr. Smith", []⟩]
    rooms := [⟨0, "Room A", 40, []⟩]
    timeslots := 2 }

/-- Two unrelated courses (different teachers, disjoint student groups), one
timeslot, one room. -/
def roomShareProblem : TimetableProblem :=
  { courses := [⟨0, "AI", 0, 25, [0]⟩, ⟨1, "Database", 1, 30, [2]⟩]
    teachers := [⟨0, "Dr. Smith", []⟩, ⟨1, "Dr. Johnson", []⟩]
    rooms := [⟨0, "Room A", 40, []⟩]
    timeslots := 1 }

/-- Two courses of one teacher, one room that is too small for course 0, and
`INT_MAX` timeslots: `timeslots * rooms.size() + 1` is `2^31`. -/
def wrapProblem : TimetableProblem :=
  { courses := [⟨0, "AI", 0, 50, [0]⟩, ⟨1, "ML", 0, 25, [1]⟩]
    teachers := [⟨0, "Dr. Smith", []⟩]
    rooms := [⟨0, "Room A", 40, []⟩]
    timeslots := 2147483647 }

/-- The state the constructor builds for `wrapProblem`: both courses
unassigned, two rows of `INT_MAX` entries, counters zero. -/
def wrapStart : SolverState :=
  ⟨[⟨-1, -1⟩, ⟨-1, -1⟩], List.replicate 2 (List.replicate 2147483647 true), 0, 0⟩

/-- Number of indices `idx` in `[lo, lo + len)` whose entry in `row` is `true`. -/
def trueCount (row : List Bool) (lo len : Nat) : Nat :=
  (List.range' lo len).countP (fun idx => row[idx]? == some true)

/-- Loop invariant of `selectUnassignedVariableMRV` after the courses below `m`:
either nothing is selected and all of them are assigned, or `selected_course`
is the first of them with the least `remaining` among the unassigned ones and
`min_remaining` is that count. -/
def MrvInv (p : TimetableProblem) (a : List Assignment) (d : List (List Bool)) (m : Nat)
    (min_remaining selected_course : Int) : Prop :=
  (selected_course = -1 ∧
    ((p.timeslots.toNat * p.rooms.length : Nat) : Int) < min_remaining ∧
    ∀ j, j < m → ∀ aj, a[j]? = some aj → aj.timeslot ≠ -1) ∨
  (∃ i k : Nat, selected_course = (i : Int) ∧ min_remaining = (k : Int) ∧ i < m ∧
    (∃ ai, a[i]? = some ai ∧ ai.timeslot = -1) ∧ remainingCount p d i = some k ∧
    (∀ j, j < m → (∃ aj, a[j]? = some aj ∧ aj.timeslot = -1) →
      ∀ kj, remainingCount p d j = some kj → k ≤ kj) ∧
    (∀ j, j < i → (∃ aj, a[j]? = some aj ∧ aj.timeslot = -1) →
      ∀ kj, remainingCount p d j = some kj → k < kj))

/-- Strict lexicographic order on `(timeslot, room)`. -/
def LexLt (v w : Value) : Prop :=
  v.timeslot < w.timeslot ∨ (v.timeslot = w.timeslot ∧ v.room < w.room)

/-! ## The library routine behind `sort(values.begin(), values.end(), comp)`

`heuristics.h` calls `std::sort` with a comparator that looks at the timeslot
only.  The functions below follow the GNU C++ library (`bits/stl_algo.h`,
`bits/stl_heap.h`): an introsort with the median of three as pivot, depth limit
`2 * lg n`, a heap sort once the limit is used up, and a final insertion sort
over ranges of at most 16 elements.  Iterators are positions in the list, every
read is checked, and the loops whose end the library leaves to a sentinel take
the length of the list as their budget. -/

namespace LibStdCxx

/-- The comparator of `orderDomainValues`: `a.timeslot < b.timeslot`. -/
def comp (a b : Value) : Bool :=
  decide (a.timeslot < b.timeslot)

/-- `std::iter_swap(i, j)`. -/
def iter_swap (arr : List Value) (i j : Nat) : Option (List Value) := do
  let x ← arr[i]?
  let y ← arr[j]?
  some ((arr.set i y).set j x)

/-- `__move_median_to_first(result, a, b, c, comp)`. -/
def move_median_to_first (arr : List Value) (result a b c : Nat) : Option (List Value) := do
  let va ← arr[a]?
  let vb ← arr[b]?
  let vc ← arr[c]?
  if comp va vb then
    if comp vb vc then iter_swap arr result b
    else if comp va vc then iter_swap arr result c
    else iter_swap arr result a
  else if comp va vc then iter_swap arr result a
  else if comp vb vc then iter_swap arr result c
  else iter_swap arr result b

/-- The loop `while (comp(first, pivot)) ++first;` of `__unguarded_partition`. -/
def scanUp (arr : List Value) (pivot : Nat) : Nat → Nat → Option Nat
  | 0, _ => none
  | budget + 1, first => do
    let x ← arr[first]?
    let pv ← arr[pivot]?
    if comp x pv then scanUp arr pivot budget (first + 1) else some first

/-- The loop `while (comp(pivot, last)) --last;` of `__unguarded_partition`. -/
def scanDown (arr : List Value) (pivot : Nat) : Nat → Nat → Option Nat
  | 0, _ => none
  | budget + 1, last => do
    let pv ← arr[pivot]?
    let x ← arr[last]?
    if comp pv x then
      if last = 0 then none else scanDown arr pivot budget (last - 1)
    else some last

/-- `__unguarded_partition(first, last, pivot, comp)`: the cut and the array. -/
def unguarded_partition (pivot : Nat) :
    Nat → List Value → Nat → Nat → Option (Nat × List Value)
  | 0, _, _, _ => none
  | budget + 1, arr, first, last => do
    let first1 ← scanUp arr pivot (arr.length + 1) first
    if last = 0 then none
    else do
      let last1 ← scanDown arr pivot (arr.length + 1) (last - 1)
      if first1 < last1 then do
        let arr1 ← iter_swap arr first1 last1
        unguarded_partition pivot budget arr1 (first1 + 1) last1
      else some (first1, arr)

/-- `__unguarded_partition_pivot(first, last, comp)`. -/
def unguarded_partition_pivot (arr : List Value) (first last : Nat) :
    Option (Nat × List Value) := do
  let mid := first + (last - first) / 2
  let arr1 ← move_median_to_first arr first (first + 1) mid (last - 1)
  unguarded_partition first (arr.length + 1) arr1 (first + 1) last

/-- The loop of `__push_heap(first, holeIndex, topIndex, value, comp)`. -/
def push_heap (first topIndex : Nat) (value : Value) :
    Nat → List Value → Nat → Option (List Value)
  | 0, _, _ => none
  | budget + 1, arr, holeIndex =>
    let parent := (holeIndex - 1) / 2
    if holeIndex > topIndex then do
      let pv ← arr[first + parent]?
      if comp pv value then
        push_heap first topIndex value budget (arr.set (first + holeIndex) pv) parent
      else some (arr.set (first + holeIndex) value)
    else some (arr.set (first + holeIndex) value)

/-- The first loop of `__adjust_heap`: the array, `holeIndex` and `secondChild`
after it. -/
def siftDown (first len : Nat) :
    Nat → List Value → Nat → Nat → Option (List Value × Nat × Nat)
  | 0, _, _, _ => none
  | budget + 1, arr, holeIndex, secondChild =>
    if secondChild < (len - 1) / 2 then do
      let child := 2 * (secondChild + 1)
      let x ← arr[first + child]?
      let y ← arr[first + (child - 1)]?
      let child1 := if comp x y then child - 1 else child
      let z ← arr[first + child1]?
      siftDown first len budget (arr.set (first + holeIndex) z) child1 child1
    else some (arr, holeIndex, secondChild)

/-- The step of `__adjust_heap` for a last node with one child only. -/
def lastChild (first len : Nat) (arr : List Value) (holeIndex secondChild : Nat) :
    Option (List Value × Nat) :=
  if len % 2 = 0 ∧ secondChild = (len - 2) / 2 then do
    let child := 2 * (secondChild + 1)
    let z ← arr[first + (child - 1)]?
    some (arr.set (first + holeIndex) z, child - 1)
  else some (arr, holeIndex)

/-- `__adjust_heap(first, holeIndex, len, value, comp)`. -/
def adjust_heap (arr : List Value) (first holeIndex len : Nat) (value : Value) :
    Option (List Value) := do
  let (arr1, hole1, secondChild) ← siftDown first len (len + 1) arr holeIndex holeIndex
  let (arr2, hole2) ← lastChild first len arr1 hole1 secondChild
  push_heap first holeIndex value (len + 1) arr2 hole2

/-- `__pop_heap(first, last, result, comp)`. -/
def pop_heap (arr : List Value) (first last result : Nat) : Option (List Value) := do
  let value ← arr[result]?
  let top ← arr[first]?
  adjust_heap (arr.set result top) first 0 (last - first) value

/-- The loop of `__make_heap`, from `parent` down to 0. -/
def make_heap_loop (first len : Nat) : Nat → List Value → Option (List Value)
  | 0, arr => do
    let value ← arr[first]?
    adjust_heap arr first 0 len value
  | parent + 1, arr => do
    let value ← arr[first + (parent + 1)]?
    let arr1 ← adjust_heap arr first (parent + 1) len value
    make_heap_loop first len parent arr1

/-- `__make_heap(first, last, comp)`. -/
def make_heap (arr : List Value) (first last : Nat) : Option (List Value) :=
  if last - first < 2 then some arr
  else make_heap_loop first (last - first) ((last - first - 2) / 2) arr

/-- The loop of `__heap_select` over `i` in `[middle, last)`. -/
def heap_select_loop (first middle : Nat) : List Nat → List Value → Option (List Value)
  | [], arr => some arr
  | i :: rest, arr => do
    let x ← arr[i]?
    let top ← arr[first]?
    if comp x top then do
      let arr1 ← pop_heap arr first middle i
      heap_select_loop first middle rest arr1
    else heap_select_loop first middle rest arr

/-- `__heap_select(first, middle, last, comp)`. -/
def heap_select (arr : List Value) (first middle last : Nat) : Option (List Value) := do
  let arr1 ← make_heap arr first middle
  heap_select_loop first middle (List.range' middle (last - middle)) arr1

/-- `__sort_heap(first, last, comp)`; the first argument is the budget of the
loop. -/
def sort_heap (first : Nat) : Nat → List Value → Nat → Option (List Value)
  | 0, _, _ => none
  | budget + 1, arr, last =>
    if last - first > 1 then do
      let arr1 ← pop_heap arr first (last - 1) (last - 1)
      sort_heap first budget arr1 (last - 1)
    else some arr

/-- `__partial_sort(first, middle, last, comp)`. -/
def partialSort (arr : List Value) (first middle last : Nat) : Option (List Value) := do
  let arr1 ← heap_select arr first middle last
  sort_heap first (arr.length + 1) arr1 middle

/-- `__introsort_loop(first, last, depth_limit, comp)`: each round of the
`while` loop lowers `depth_limit` by one, sorts `[cut, last)` by the recursive
call and goes on with `[first, cut)`. -/
def introsort_loop : Nat → List Value → Nat → Nat → Option (List Value)
  | 0, arr, first, last =>
    if last - first > 16 then partialSort arr first last last else some arr
  | depth_limit + 1, arr, first, last =>
    if last - first > 16 then do
      let (cut, arr1) ← unguarded_partition_pivot arr first last
      let arr2 ← introsort_loop depth_limit arr1 cut last
      introsort_loop depth_limit arr2 first cut
    else some arr

/-- The loop of `__unguarded_linear_insert(last, comp)` with `val = *last`. -/
def linear_insert_loop (val : Value) : Nat → List Value → Nat → Option (List Value)
  | 0, _, _ => none
  | budget + 1, arr, last =>
    if last = 0 then none
    else do
      let next ← arr[last - 1]?
      if comp val next then linear_insert_loop val budget (arr.set last next) (last - 1)
      else some (arr.set last val)

/-- `__unguarded_linear_insert(last, comp)`. -/
def unguarded_linear_insert (arr : List Value) (last : Nat) : Option (List Value) := do
  let val ← arr[last]?
  linear_insert_loop val (arr.length + 1) arr last

/-- The branch `val = *i; move_backward(first, i, i + 1); *first = val` of
`__insertion_sort`. -/
def move_to_first (arr : List Value) (first i : Nat) (val : Value) : List Value :=
  arr.take first ++ val :: ((arr.drop first).take (i - first) ++ arr.drop (i + 1))

/-- The loop of `__insertion_sort` over `i`. -/
def insertion_sort_loop (first : Nat) : List Nat → List Value → Option (List Value)
  | [], arr => some arr
  | i :: rest, arr => do
    let x ← arr[i]?
    let f ← arr[first]?
    if comp x f then insertion_sort_loop first rest (move_to_first arr first i x)
    else do
      let arr1 ← unguarded_linear_insert arr i
      insertion_sort_loop first rest arr1

/-- `__insertion_sort(first, last, comp)`. -/
def insertion_sort (arr : List Value) (first last : Nat) : Option (List Value) :=
  if first = last then some arr
  else insertion_sort_loop first (List.range' (first + 1) (last - (first + 1))) arr

/-- The loop of `__unguarded_insertion_sort` over `i`. -/
def unguarded_insertion_sort_loop : List Nat → List Value → Option (List Value)
  | [], arr => some arr
  | i :: rest, arr => do
    let arr1 ← unguarded_linear_insert arr i
    unguarded_insertion_sort_loop rest arr1

/-- `__unguarded_insertion_sort(first, last, comp)`. -/
def unguarded_insertion_sort (arr : List Value) (first last : Nat) : Option (List Value) :=
  unguarded_insertion_sort_loop (List.range' first (last - first)) arr

/-- `__final_insertion_sort(first, last, comp)`. -/
def final_insertion_sort (arr : List Value) (first last : Nat) : Option (List Value) :=
  if last - first > 16 then do
    let arr1 ← insertion_sort arr first (first + 16)
    unguarded_insertion_sort arr1 (first + 16) last
  else insertion_sort arr first last

/-- The loop behind `__lg`: the number of halvings that bring `n` to 1. -/
def lgLoop : Nat → Nat → Nat
  | 0, _ => 0
  | budget + 1, n => if n ≤ 1 then 0 else lgLoop budget (n / 2) + 1

/-- `std::__lg(n)`: the position of the highest set bit of `n > 0`. -/
def lg (n : Nat) : Nat :=
  lgLoop n n

/-- `std::__sort(first, last, comp)` on the whole vector. -/
def sort (arr : List Value) : Option (List Value) :=
  if arr.length = 0 then some arr
  else do
    let arr1 ← introsort_loop (lg arr.length * 2) arr 0 arr.length
    final_insertion_sort arr1 0 arr.length

end LibStdCxx

/-- The `std::sort` of the GNU C++ library as a function on the vector: the
result of `LibStdCxx.sort`, whose checked reads all succeed when the comparator
is a strict weak order. -/
def librarySort (l : List Value) : List Value :=
  (LibStdCxx.sort l).getD l

/-- One course, one teacher, eight timeslots and four rooms that all fit: the
course has 32 candidate values. -/
def wideProblem : TimetableProblem :=
  { courses := [⟨0, "AI", 0, 25, [0]⟩]
    teachers := [⟨0, "Dr. Smith", []⟩]
    rooms := [⟨0, "Room A", 40, []⟩, ⟨1, "Room B", 35, []⟩, ⟨2, "Room C", 30, []⟩,
      ⟨3, "Room D", 50, []⟩]
    timeslots := 8 }

/-- The pair `(t, r)` of course `o` is hit by the pruning rule of
`forwardCheck(cid, t0, r0)`: it lies at the committed timeslot and `o` has the
committed course's teacher, or `r` is the committed room, or the two courses
share a student group. -/
def Prunable (p : TimetableProblem) (cid t0 r0 : Int) (o t r : Nat) : Prop :=
  ∃ assigned other, vecAt p.courses cid = some assigned ∧ p.courses[o]? = some other ∧
    (t : Int) = t0 ∧
    (other.teacher_id = assigned.teacher_id ∨ (r : Int) = r0 ∨
      shareStudentGroups assigned other = true)

/-- Course `o` has a `true` domain entry at some pair inside the table. -/
def HasValue (p : TimetableProblem) (d : List (List Bool)) (o : Nat) : Prop :=
  ∃ t r, t < p.timeslots.toNat ∧ r < p.rooms.length ∧ Viable d o (t * p.rooms.length + r)

/-- The common `backtrack()` with
`assert(unassigned(callee) < unassigned(caller))` in front of every recursive
call: a failed assertion aborts the run. -/
def genBacktrackDecreasing (fc : Bool) (srt : List Value → List Value) (p : TimetableProblem) :
    Nat → SolverState → Option (Bool × SolverState)
  | 0, _ => none
  | fuel + 1, s => do
    let course_id ← selectUnassignedVariableMRV p s.assignment s.domain
    if course_id = -1 then some (true, s)
    else do
      let ordered_values ← orderDomainValues srt p course_id s.domain
      genTry fc p
        (fun s2 =>
          if unassignedCount s2.assignment < unassignedCount s.assignment then
            genBacktrackDecreasing fc srt p fuel s2
          else none)
        course_id ordered_values s

/-- A property `Q` of `(assignment, domain)` that every commit keeps: when
`Q` holds, the unassigned course `c` takes a value `(t, r)` of its domain that
passes `isConsistent`, and the propagation does not report a wipeout, then `Q`
holds of the state in which `backtrack()` is called again. -/
def StepInv (fc : Bool) (p : TimetableProblem)
    (Q : List Assignment → List (List Bool) → Prop) : Prop :=
  ∀ (a : List Assignment) (d : List (List Bool)) (c t r : Nat) (bc ac : Int)
    (fcr : Bool × SolverState),
    Q a d → Sentinel a → (∃ x, a[c]? = some x ∧ x.timeslot = -1) →
    t < p.timeslots.toNat → r < p.rooms.length → Viable d c (t * p.rooms.length + r) →
    isConsistentBody p a (c : Int) (t : Int) (r : Int) = some true →
    genPropagate fc p ⟨a.set c ⟨(t : Int), (r : Int)⟩, d, bc, ac⟩ (c : Int) (t : Int) (r : Int)
      = some fcr →
    fcr.1 = true → Q fcr.2.assignment fcr.2.domain

/-- Every entry of the domain table is `true`. -/
def AllTrue (d : List (List Bool)) : Prop :=
  ∀ row ∈ d, ∀ b ∈ row, b = true

/-- The domain table the constructor builds: one row of
`timeslots * rooms.size()` entries per course, all `true`. -/
def fullDomain (p : TimetableProblem) : List (List Bool) :=
  List.replicate p.courses.length (List.replicate (p.timeslots.toNat * p.rooms.length) true)

/-- The domain of the state is the table the constructor built. -/
def fullDomainCheck (p : TimetableProblem) (s : SolverState) : Bool :=
  decide (s.domain = fullDomain p)

/-- The committed course `c'` sits at timeslot `t` and rules out the pair
`(t, r)` for course `o`: it has `o`'s teacher, or it occupies room `r`, or the
two courses share a student group. -/
def justifiedBy (p : TimetableProblem) (a : List Assignment) (o t r c' : Nat) : Bool :=
  match a[c']?, p.courses[o]?, p.courses[c']? with
  | some x, some co, some cc =>
    decide (x.timeslot = (t : Int)) &&
      (decide (co.teacher_id = cc.teacher_id) || decide (x.room = (r : Int)) ||
        shareStudentGroups cc co)
  | _, _, _ => false

/-- Every `false` entry in the row of an unassigned course is explained by a
course that is committed now: for an unassigned `o` and a pair `(t, r)` of the
table with `domain[o][t, r] = false` there is a course assigned to timeslot `t`
that has `o`'s teacher, or occupies room `r`, or shares a student group with
`o`. -/
def Justified (p : TimetableProblem) (a : List Assignment) (d : List (List Bool)) : Prop :=
  ∀ o t r : Nat, (∃ ao, a[o]? = some ao ∧ ao.timeslot = -1) →
    t < p.timeslots.toNat → r < p.rooms.length →
    (∃ row, d[o]? = some row ∧ row[t * p.rooms.length + r]? = some false) →
    ∃ (c' : Nat) (x : Assignment) (co cc : Course), a[c']? = some x ∧
      p.courses[o]? = some co ∧ p.courses[c']? = some cc ∧ x.timeslot = (t : Int) ∧
      (co.teacher_id = cc.teacher_id ∨ x.room = (r : Int) ∨ shareStudentGroups cc co = true)

/-- Executable form of `Justified` on a solver state. -/
def justifiedCheck (p : TimetableProblem) (s : SolverState) : Bool :=
  (List.range s.assignment.length).all fun o =>
    (List.range p.timeslots.toNat).all fun t =>
      (List.range p.rooms.length).all fun r =>
        !(s.assignment[o]?.map (fun x => x.timeslot) == some (-1)) ||
        !(s.domain[o]?.bind (fun row => row[t * p.rooms.length + r]?) == some false) ||
        (List.range s.assignment.length).any fun c' => justifiedBy p s.assignment o t r c'

/-- No two assigned courses have the same `(timeslot, room)` pair. -/
def RoomExclusive (a : List Assignment) : Prop :=
  ∀ (i j : Nat) (x y : Assignment), i ≠ j → a[i]? = some x → a[j]? = some y →
    x.timeslot ≠ -1 → y.timeslot ≠ -1 → ¬ (x.timeslot = y.timeslot ∧ x.room = y.room)

/-- The pair of every assigned course is `false` in the row of every
unassigned course. -/
def RoomsPruned (p : TimetableProblem) (a : List Assignment) (d : List (List Bool)) : Prop :=
  ∀ i o t r : Nat, a[i]? = some ⟨(t : Int), (r : Int)⟩ →
    (∃ ao, a[o]? = some ao ∧ ao.timeslot = -1) → ¬ Viable d o (t * p.rooms.length + r)

/-- Number of courses that have a timeslot. -/
def assignedCount (a : List Assignment) : Nat :=
  a.countP (fun x => decide (x.timeslot ≠ -1))

end Timetable

/-! # A* on a grid (`Problem1_AStar_Pathfinding`)

`Node*` pointers are modelled by the key under which `all_nodes` owns the node:
every node is created once, stored under the `cellToKey` it was created for and
never moved.  `cellToKey` is `int` arithmetic and is reduced to 32 bits.  `g_cost` is
kept in thousandths (`1.0` is `1000`, `1.414` is `1414`), the exact value of
the sums the source forms in `double`.  The heap operations on `open_list` are
modelled by a selector `pick`: which node `std::pop_heap` yields depends on the
`f_cost`s and on the layout of the heap; the validity of the path is shown for
every selector and every heuristic, and the run on `wideGrid` for every
selector that takes a node of least `f_cost`.  `nodes_expanded` is the exact
number of rounds of the loop; it is only reported, and it tells the selector
which pop it is asked for. -/

namespace Pathfinding

/-- A grid cell (`struct Cell`). -/
structure Cell where
  x : Int
  y : Int
deriving DecidableEq

/-- The grid (`struct Grid`); `obstacles[y][x]`. -/
structure Grid where
  obstacles : List (List Bool)
  start : Cell
  goal : Cell
  width : Int
  height : Int

/-- Method `Grid::isValidCell`. -/
def Grid.isValidCell (grid : Grid) (x y : Int) : Bool :=
  decide (x ≥ 0) && decide (x < grid.width) && decide (y ≥ 0) && decide (y < grid.height)

/-- Method `Grid::isObstacle`: `isValidCell(x, y) && obstacles[y][x]`, the
vector accesses checked. -/
def Grid.isObstacle (grid : Grid) (x y : Int) : Option Bool :=
  if grid.isValidCell x y then
    match Timetable.vecAt grid.obstacles y with
    | none => none
    | some row => Timetable.vecAt row x
  else some false

/-- A search node (`struct Node`); `parent` is the key of the parent node,
`none` for `nullptr`. -/
structure Node (H : Type) where
  cell : Cell
  g_cost : Nat
  h_cost : H
  parent : Option Int

/-- The members of `AStar` that `findPath` works on. -/
structure SearchState (H : Type) where
  open_list : List Int
  all_nodes : List (Int × Node H)
  path : List Cell
  nodes_expanded : Nat

/-- Method `AStar::cellToKey`: `cell.y * grid.width + cell.x` in `int`, so the
value is reduced to 32 bits. -/
def cellToKey (grid : Grid) (cell : Cell) : Int :=
  Timetable.toInt32 (cell.y * grid.width + cell.x)

/-- The keys of all cells of the grid fit an `int`: `width * height ≤ 2^31`. -/
def KeysFit (grid : Grid) : Prop :=
  grid.width * grid.height ≤ 2147483648

/-- The arrays `dx[]`, `dy[]` of `getNeighbors`, as pairs. -/
def offsets : List (Int × Int) :=
  [(-1, 0), (1, 0), (0, -1), (0, 1), (-1, -1), (-1, 1), (1, -1), (1, 1)]

/-- The loop of `getNeighbors`. -/
def getNeighborsLoop (grid : Grid) (cell : Cell) : List (Int × Int) → List Cell →
    Option (List Cell)
  | [], neighbors => some neighbors
  | (dx, dy) :: rest, neighbors =>
    if grid.isValidCell (cell.x + dx) (cell.y + dy) then
      match grid.isObstacle (cell.x + dx) (cell.y + dy) with
      | none => none
      | some true => getNeighborsLoop grid cell rest neighbors
      | some false =>
        getNeighborsLoop grid cell rest (neighbors ++ [⟨cell.x + dx, cell.y + dy⟩])
    else getNeighborsLoop grid cell rest neighbors

/-- Method `AStar::getNeighbors`. -/
def getNeighbors (grid : Grid) (cell : Cell) : Option (List Cell) :=
  getNeighborsLoop grid cell offsets []

/-- Method `AStar::getMoveCost`, in thousandths. -/
def getMoveCost (from_cell to_cell : Cell) : Nat :=
  if from_cell.x ≠ to_cell.x ∧ from_cell.y ≠ to_cell.y then 1414 else 1000

/-- The lookup `all_nodes.find(key)`. -/
def lookupNode {H : Type} (key : Int) : List (Int × Node H) → Option (Node H)
  | [] => none
  | (k, node) :: rest => if k = key then some node else lookupNode key rest

/-- A write through the pointer `all_nodes[key]`. -/
def setNode {H : Type} (key : Int) (node : Node H) : List (Int × Node H) → List (Int × Node H)
  | [] => []
  | (k, old) :: rest =>
    if k = key then (k, node) :: rest else (k, old) :: setNode key node rest

/-- Method `AStar::reconstructPath`: the `while (node != nullptr)` loop, then
`std::reverse`.  The loop has fuel; `findPath` gives it `all_nodes.size() + 1`,
which a parent chain without a repetition cannot use up. -/
def reconstructPath {H : Type} (all_nodes : List (Int × Node H)) :
    Nat → Option Int → List Cell → Option (List Cell)
  | _, none, path => some path.reverse
  | 0, some _, _ => none
  | fuel + 1, some key, path =>
    match lookupNode key all_nodes with
    | none => none
    | some node => reconstructPath all_nodes fuel node.parent (path ++ [node.cell])

/-- The `for (neighbor_cell : getNeighbors(current->cell))` loop of `findPath`;
`current_key` stands for the pointer `current`. -/
def relaxNeighbors {H : Type} (grid : Grid) (heuristic : Cell → Cell → H) (current_key : Int) :
    List Cell → SearchState H → Option (SearchState H)
  | [], st => some st
  | neighbor_cell :: rest, st =>
    match lookupNode current_key st.all_nodes with
    | none => none
    | some current =>
      match lookupNode (cellToKey grid neighbor_cell) st.all_nodes with
      | none =>
        relaxNeighbors grid heuristic current_key rest
          { st with
            all_nodes := (cellToKey grid neighbor_cell,
              ⟨neighbor_cell, current.g_cost + getMoveCost current.cell neighbor_cell,
                heuristic neighbor_cell grid.goal, some current_key⟩) :: st.all_nodes
            open_list := st.open_list ++ [cellToKey grid neighbor_cell] }
      | some existing_node =>
        if current.g_cost + getMoveCost current.cell neighbor_cell < existing_node.g_cost then
          relaxNeighbors grid heuristic current_key rest
            { st with
              all_nodes := setNode (cellToKey grid neighbor_cell)
                { existing_node with
                  g_cost := current.g_cost + getMoveCost current.cell neighbor_cell
                  parent := some current_key } st.all_nodes }
        else relaxNeighbors grid heuristic current_key rest st

/-- The `while (!open_list.empty())` loop of `findPath`.  `pick` stands for
`std::pop_heap`: from the number of nodes expanded so far and the nodes on the
open list it names the position of the node that is taken off. -/
def searchLoop {H : Type} (pick : Nat → List (Node H) → Nat) (grid : Grid)
    (heuristic : Cell → Cell → H) : Nat → SearchState H → Option (Bool × SearchState H)
  | 0, _ => none
  | fuel + 1, st =>
    if st.open_list.isEmpty then some (false, st)
    else
      match st.open_list[pick st.nodes_expanded
          (st.open_list.filterMap (fun k => lookupNode k st.all_nodes))]? with
      | none => none
      | some current_key =>
        match lookupNode current_key st.all_nodes with
        | none => none
        | some current =>
          if current.cell.x = grid.goal.x ∧ current.cell.y = grid.goal.y then
            match reconstructPath st.all_nodes (st.all_nodes.length + 1) (some current_key)
                [] with
            | none => none
            | some path =>
              some (true,
                { st with
                  open_list := st.open_list.eraseIdx (pick st.nodes_expanded
                    (st.open_list.filterMap (fun k => lookupNode k st.all_nodes)))
                  nodes_expanded := st.nodes_expanded + 1
                  path := path })
          else
            match getNeighbors grid current.cell with
            | none => none
            | some neighbors =>
              match relaxNeighbors grid heuristic current_key neighbors
                  { st with
                    open_list := st.open_list.eraseIdx (pick st.nodes_expanded
                      (st.open_list.filterMap (fun k => lookupNode k st.all_nodes)))
                    nodes_expanded := st.nodes_expanded + 1 } with
              | none => none
              | some st2 => searchLoop pick grid heuristic fuel st2

/-- Method `AStar::findPath`; the path is `getPath()` of the result state. -/
def findPath {H : Type} (pick : Nat → List (Node H) → Nat) (grid : Grid)
    (heuristic : Cell → Cell → H) (fuel : Nat) : Option (Bool × SearchState H) :=
  searchLoop pick grid heuristic fuel
    { open_list := [cellToKey grid grid.start]
      all_nodes := [(cellToKey grid grid.start,
        ⟨grid.start, 0, heuristic grid.start grid.goal, none⟩)]
      path := []
      nodes_expanded := 0 }

/-- Cell `b` is what `getNeighbors(a)` can return: one of the eight offsets
away from `a`, inside the grid and not an obstacle. -/
def Step (grid : Grid) (a b : Cell) : Prop :=
  (b.x - a.x, b.y - a.y) ∈ offsets ∧ grid.isValidCell b.x b.y = true ∧
    grid.isObstacle b.x b.y = some false

/-- The node stored under `key` has cell `cell`. -/
def CellAt {H : Type} (nodes : List (Int × Node H)) (key : Int) (cell : Cell) : Prop :=
  ∃ node, lookupNode key nodes = some node ∧ node.cell = cell

/-- Invariant of `all_nodes`: a node is stored under the key of its cell, its
cell is inside the grid, only the start cell has no parent, and every other
node was reached from its parent's cell by one step. -/
def NodesOK {H : Type} (grid : Grid) (nodes : List (Int × Node H)) : Prop :=
  ∀ key node, lookupNode key nodes = some node →
    cellToKey grid node.cell = key ∧ grid.isValidCell node.cell.x node.cell.y = true ∧
    (node.parent = none → node.cell = grid.start) ∧
    (∀ pk, node.parent = some pk → ∃ pcell, CellAt nodes pk pcell ∧ Step grid pcell node.cell)

/-- The heuristic `chebyshevDistance` of `heuristics.h`, in thousandths. -/
def chebyshevDistance (a b : Cell) : Nat :=
  1000 * max (a.x - b.x).natAbs (a.y - b.y).natAbs

/-- Method `Node::f_cost`, for costs in thousandths. -/
def f_cost (node : Node Nat) : Nat :=
  node.g_cost + node.h_cost

/-- Scan for the first node of least `f_cost`. -/
def pickMinFLoop : List (Node Nat) → Nat → Nat → Nat → Nat
  | [], _, best, _ => best
  | node :: rest, i, best, best_f =>
    if f_cost node < best_f then pickMinFLoop rest (i + 1) i (f_cost node)
    else pickMinFLoop rest (i + 1) best best_f

/-- One selector a heap with `NodeCompare` can realise: the first node of
least `f_cost` on the open list. -/
def pickMinF (_ : Nat) (nodes : List (Node Nat)) : Nat :=
  match nodes with
  | [] => 0
  | node :: rest => pickMinFLoop rest 1 0 (f_cost node)

/-- What every heap with `NodeCompare` does: the node taken off the open list
has the least `f_cost` of the nodes on it. -/
def LeastF (pick : Nat → List (Node Nat) → Nat) : Prop :=
  ∀ (n : Nat) (nodes : List (Node Nat)), nodes ≠ [] →
    ∃ node, nodes[pick n nodes]? = some node ∧ ∀ m ∈ nodes, f_cost node ≤ f_cost m

/-- A 3 x 3 grid with an obstacle in the middle, start `(0, 0)`, goal `(2, 2)`. -/
def demoGrid : Grid :=
  { obstacles := [[false, false, false], [false, true, false], [false, false, false]]
    start := ⟨0, 0⟩
    goal := ⟨2, 2⟩
    width := 3
    height := 3 }

/-- A grid of `INT_MAX` columns and 3 rows with obstacles at `(3, 0)`, `(2, 1)`
and `(2, 2)`, start `(4, 0)` and goal `(1, 1)`. -/
def wideGrid : Grid :=
  { obstacles :=
      [[false, false, false, true] ++ List.replicate 2147483643 false,
       [false, false, true] ++ List.replicate 2147483644 false,
       [false, false, true] ++ List.replicate 2147483644 false]
    start := ⟨4, 0⟩
    goal := ⟨1, 1⟩
    width := 2147483647
    height := 3 }

end Pathfinding

namespace Timetable

/-! ## Lemmas about the vectors and the index arithmetic -/

theorem vecAt_natCast {α : Type} (v : List α) (i : Nat) : vecAt v (i : Int) = v[i]? := by
  simp [vecAt]

theorem index_lt {T R t r : Nat} (ht : t < T) (hr : r < R) : t * R + r < T * R := by
  have h : (t + 1) * R ≤ T * R := Nat.mul_le_mul_right R ht
  have h2 : (t + 1) * R = t * R + R := by ring
  omega

theorem index_inj {R t r t' r' : Nat} (hr : r < R) (hr' : r' < R)
    (h : t * R + r = t' * R + r') : t = t' ∧ r = r' := by
  have hR : 0 < R := by omega
  have e1 : (t * R + r) / R = t := by
    rw [Nat.add_comm, Nat.add_mul_div_right _ _ hR, Nat.div_eq_of_lt hr]; simp
  have e2 : (t' * R + r') / R = t' := by
    rw [Nat.add_comm, Nat.add_mul_div_right _ _ hR, Nat.div_eq_of_lt hr']; simp
  have ht : t = t' := by rw [← e1, ← e2, h]
  subst ht
  exact ⟨rfl, by omega⟩

/-! ### MRV -/

theorem countRooms_le {d : List (List Bool)} {i R t : Nat} :
    ∀ (rs : List Nat) (rem k : Nat), countRooms d i R t rs rem = some k → k ≤ rem + rs.length := by
  intro rs
  induction rs with
  | nil => intro rem k h; simp [countRooms] at h; omega
  | cons r rs ih =>
    intro rem k h
    simp only [countRooms, Option.bind_eq_bind, Option.bind_eq_some] at h
    obtain ⟨row, -, b, -, h⟩ := h
    have := ih _ _ h
    simp only [List.length_cons]
    split at this <;> omega

theorem countSlots_le {d : List (List Bool)} {i R : Nat} :
    ∀ (ts : List Nat) (rem k : Nat), countSlots d i R ts rem = some k →
      k ≤ rem + ts.length * R := by
  intro ts
  induction ts with
  | nil => intro rem k h; simp [countSlots] at h; omega
  | cons t ts ih =>
    intro rem k h
    simp only [countSlots, Option.bind_eq_bind, Option.bind_eq_some] at h
    obtain ⟨k1, h1, h⟩ := h
    have h2 := countRooms_le _ _ _ h1
    have h3 := ih _ _ h
    simp only [List.length_cons, List.length_range] at *
    have : (ts.length + 1) * R = ts.length * R + R := by ring
    omega

theorem countRooms_total {d : List (List Bool)} {i R t : Nat} {row : List Bool}
    (hrow : d[i]? = some row) :
    ∀ (rs : List Nat) (rem : Nat), (∀ r ∈ rs, t * R + r < row.length) →
      ∃ k, countRooms d i R t rs rem = some k := by
  intro rs
  induction rs with
  | nil => intro rem _; exact ⟨rem, rfl⟩
  | cons r rs ih =>
    intro rem h
    have hr : t * R + r < row.length := h r (List.mem_cons_self _ _)
    simp only [countRooms, Option.bind_eq_bind, hrow, Option.some_bind,
      List.getElem?_eq_getElem hr]
    exact ih _ (fun r' hr' => h r' (List.mem_cons_of_mem _ hr'))

theorem countSlots_total {d : List (List Bool)} {i R : Nat} {row : List Bool}
    (hrow : d[i]? = some row) :
    ∀ (ts : List Nat) (rem : Nat), (∀ t ∈ ts, ∀ r < R, t * R + r < row.length) →
      ∃ k, countSlots d i R ts rem = some k := by
  intro ts
  induction ts with
  | nil => intro rem _; exact ⟨rem, rfl⟩
  | cons t ts ih =>
    intro rem h
    obtain ⟨k1, hk1⟩ := countRooms_total hrow (t := t) (R := R) (List.range R) rem
      (fun r hr => h t (List.mem_cons_self _ _) r (List.mem_range.mp hr))
    simp only [countSlots, Option.bind_eq_bind, hk1, Option.some_bind]
    exact ih _ (fun t' ht' => h t' (List.mem_cons_of_mem _ ht'))

/-! ## `selectUnassignedVariableMRV` -/

theorem mrvLoop_cases {p : TimetableProblem} {a : List Assignment} {d : List (List Bool)} :
    ∀ (is : List Nat) (minr sel x : Int), mrvLoop p a d is minr sel = some x →
      x = sel ∨ ∃ i ∈ is, x = (i : Int) ∧ ∃ ai, a[i]? = some ai ∧ ai.timeslot = -1 := by
  intro is
  induction is with
  | nil => intro minr sel x h; simp [mrvLoop] at h; exact Or.inl h.symm
  | cons i is ih =>
    intro minr sel x h
    simp only [mrvLoop, Option.bind_eq_bind, Option.bind_eq_some] at h
    obtain ⟨ai, hai, h⟩ := h
    split at h
    · rcases ih _ _ _ h with h1 | ⟨j, hj, h1⟩
      · exact Or.inl h1
      · exact Or.inr ⟨j, List.mem_cons_of_mem _ hj, h1⟩
    · rename_i hne
      have hts : ai.timeslot = -1 := by simpa using hne
      simp only [Option.bind_eq_some] at h
      obtain ⟨k, -, h⟩ := h
      split at h
      · rcases ih _ _ _ h with h1 | ⟨j, hj, h1⟩
        · exact Or.inr ⟨i, List.mem_cons_self _ _, h1, ai, hai, hts⟩
        · exact Or.inr ⟨j, List.mem_cons_of_mem _ hj, h1⟩
      · rcases ih _ _ _ h with h1 | ⟨j, hj, h1⟩
        · exact Or.inl h1
        · exact Or.inr ⟨j, List.mem_cons_of_mem _ hj, h1⟩

theorem mrvLoop_none {p : TimetableProblem} {a : List Assignment} {d : List (List Bool)} :
    ∀ (is : List Nat) (minr sel : Int),
      (sel = -1 → ((p.timeslots.toNat * p.rooms.length : Nat) : Int) < minr) →
      mrvLoop p a d is minr sel = some (-1) →
      ∀ i ∈ is, ∀ ai, a[i]? = some ai → ai.timeslot ≠ -1 := by
  intro is
  induction is with
  | nil => intro _ _ _ _ i hi; simp at hi
  | cons i is ih =>
    intro minr sel hsel h
    simp only [mrvLoop, Option.bind_eq_bind, Option.bind_eq_some] at h
    obtain ⟨ai, hai, h⟩ := h
    split at h
    · rename_i hne
      intro j hj aj haj
      rcases List.mem_cons.mp hj with rfl | hj
      · rw [hai] at haj; cases haj; exact hne
      · exact ih _ _ hsel h j hj aj haj
    · exfalso
      simp only [Option.bind_eq_some] at h
      obtain ⟨k, hk, h⟩ := h
      have hle := countSlots_le _ _ _ hk
      simp only [List.length_range, Nat.zero_add] at hle
      split at h
      · rcases mrvLoop_cases _ _ _ _ h with h1 | ⟨j, -, h1, -⟩ <;> omega
      · rename_i hnlt
        rcases mrvLoop_cases _ _ _ _ h with h1 | ⟨j, -, h1, -⟩
        · have := hsel h1.symm
          have : (k : Int) ≤ ((p.timeslots.toNat * p.rooms.length : Nat) : Int) := by
            exact_mod_cast hle
          omega
        · omega

theorem mrvLoop_total {p : TimetableProblem} {a : List Assignment} {d : List (List Bool)}
    (hrows : ∀ row ∈ d, row.length = p.timeslots.toNat * p.rooms.length) :
    ∀ (is : List Nat) (minr sel : Int), (∀ i ∈ is, i < a.length ∧ i < d.length) →
      ∃ x, mrvLoop p a d is minr sel = some x := by
  intro is
  induction is with
  | nil => intro minr sel _; exact ⟨sel, rfl⟩
  | cons i is ih =>
    intro minr sel h
    obtain ⟨hia, hid⟩ := h i (List.mem_cons_self _ _)
    have hrest : ∀ j ∈ is, j < a.length ∧ j < d.length :=
      fun j hj => h j (List.mem_cons_of_mem _ hj)
    simp only [mrvLoop, Option.bind_eq_bind, List.getElem?_eq_getElem hia, Option.some_bind]
    split
    · exact ih _ _ hrest
    · have hrow : d[i]? = some d[i] := List.getElem?_eq_getElem hid
      have hlen : d[i].length = p.timeslots.toNat * p.rooms.length :=
        hrows _ (List.getElem_mem hid)
      obtain ⟨k, hk⟩ := countSlots_total hrow (R := p.rooms.length)
        (List.range p.timeslots.toNat) 0
        (fun t ht r hr => by rw [hlen]; exact index_lt (List.mem_range.mp ht) hr)
      simp only [hk, Option.some_bind]
      split
      · exact ih _ _ hrest
      · exact ih _ _ hrest

theorem mrv_cases {p : TimetableProblem} {a : List Assignment} {d : List (List Bool)} {x : Int}
    (h : selectUnassignedVariableMRV p a d = some x) :
    x = -1 ∨ ∃ i, i < p.courses.length ∧ x = (i : Int) ∧
      ∃ ai, a[i]? = some ai ∧ ai.timeslot = -1 := by
  rcases mrvLoop_cases _ _ _ _ h with h1 | ⟨i, hi, h1, h2⟩
  · exact Or.inl h1
  · exact Or.inr ⟨i, List.mem_range.mp hi, h1, h2⟩

theorem toInt32_of_fits {z : Int} (h1 : -2147483648 ≤ z) (h2 : z ≤ 2147483647) :
    toInt32 z = z := by
  unfold toInt32
  omega

theorem toInt32_le (z : Int) : toInt32 z ≤ 2147483647 := by
  unfold toInt32
  omega

theorem toInt32_ge (z : Int) : -2147483648 ≤ toInt32 z := by
  unfold toInt32
  omega

theorem minRemaining_of_fits {p : TimetableProblem} (hT : 0 ≤ p.timeslots)
    (hfit : MinRemainingFits p) :
    toInt32 (p.timeslots * (p.rooms.length : Int) + 1) =
      p.timeslots * (p.rooms.length : Int) + 1 := by
  have h0 : 0 ≤ p.timeslots * (p.rooms.length : Int) := mul_nonneg hT (by omega)
  exact toInt32_of_fits (by omega) hfit

/-- When the initial `min_remaining` fits an `int`, the result `-1` means that
no course is unassigned. -/
theorem mrv_none {p : TimetableProblem} {a : List Assignment} {d : List (List Bool)}
    (hT : 0 ≤ p.timeslots) (hfit : MinRemainingFits p)
    (h : selectUnassignedVariableMRV p a d = some (-1)) :
    ∀ i, i < p.courses.length → ∀ ai, a[i]? = some ai → ai.timeslot ≠ -1 := by
  intro i hi
  unfold selectUnassignedVariableMRV at h
  rw [minRemaining_of_fits hT hfit] at h
  refine mrvLoop_none _ _ _ ?_ h i (List.mem_range.mpr hi)
  intro _
  have : ((p.timeslots.toNat : Nat) : Int) = p.timeslots := Int.toNat_of_nonneg hT
  push_cast
  rw [this]
  omega

/-- A course whose count is not below `min_remaining` is passed over. -/
theorem mrvLoop_skip {p : TimetableProblem} {a : List Assignment} {d : List (List Bool)} :
    ∀ (is : List Nat) (minr sel x : Int),
      (∀ i ∈ is, ∀ k, countSlots d i p.rooms.length (List.range p.timeslots.toNat) 0 = some k →
        minr ≤ (k : Int)) →
      mrvLoop p a d is minr sel = some x → x = sel := by
  intro is
  induction is with
  | nil => intro minr sel x _ h; simp [mrvLoop] at h; exact h.symm
  | cons i is ih =>
    intro minr sel x hk h
    have hrest : ∀ j ∈ is, ∀ k,
        countSlots d j p.rooms.length (List.range p.timeslots.toNat) 0 = some k →
        minr ≤ (k : Int) := fun j hj => hk j (List.mem_cons_of_mem _ hj)
    simp only [mrvLoop, Option.bind_eq_bind, Option.bind_eq_some] at h
    obtain ⟨ai, -, h⟩ := h
    split at h
    · exact ih _ _ _ hrest h
    · simp only [Option.bind_eq_some] at h
      obtain ⟨k, hcount, h⟩ := h
      have := hk i (List.mem_cons_self _ _) k hcount
      split at h
      · omega
      · exact ih _ _ _ hrest h

theorem mrv_total {p : TimetableProblem} {a : List Assignment} {d : List (List Bool)}
    (ha : a.length = p.courses.length) (hd : d.length = p.courses.length)
    (hrows : ∀ row ∈ d, row.length = p.timeslots.toNat * p.rooms.length) :
    ∃ x, selectUnassignedVariableMRV p a d = some x :=
  mrvLoop_total hrows _ _ _ (fun i hi => by
    have := List.mem_range.mp hi
    omega)

/-! ## `orderDomainValues` -/

theorem collectRooms_mem {d : List (List Bool)} {cid : Int} {R t : Nat} :
    ∀ (rs : List Nat) (acc vs : List Value), collectRooms d cid R t rs acc = some vs →
      ∀ v, v ∈ vs ↔ v ∈ acc ∨ ∃ r ∈ rs, v = ⟨(t : Int), (r : Int), cid⟩ ∧
        ∃ row, vecAt d cid = some row ∧ row[t * R + r]? = some true := by
  intro rs
  induction rs with
  | nil => intro acc vs h v; simp [collectRooms] at h; subst h; simp
  | cons r rs ih =>
    intro acc vs h v
    simp only [collectRooms, Option.bind_eq_bind, Option.bind_eq_some] at h
    obtain ⟨row, hrow, b, hb, h⟩ := h
    rw [ih _ _ h v]
    cases b with
    | true =>
      simp only [if_true, List.mem_append, List.mem_cons, List.not_mem_nil, or_false]
      constructor
      · rintro ((h1 | h1) | ⟨r', hr', h1⟩)
        · exact Or.inl h1
        · exact Or.inr ⟨r, Or.inl rfl, h1, row, hrow, hb⟩
        · exact Or.inr ⟨r', Or.inr hr', h1⟩
      · rintro (h1 | ⟨r', rfl | hr', h1⟩)
        · exact Or.inl (Or.inl h1)
        · exact Or.inl (Or.inr h1.1)
        · exact Or.inr ⟨r', hr', h1⟩
    | false =>
      simp only [Bool.false_eq_true, if_false, List.mem_cons]
      constructor
      · rintro (h1 | ⟨r', hr', h1⟩)
        · exact Or.inl h1
        · exact Or.inr ⟨r', Or.inr hr', h1⟩
      · rintro (h1 | ⟨r', rfl | hr', h1⟩)
        · exact Or.inl h1
        · obtain ⟨-, row', hrow', hb'⟩ := h1
          rw [hrow] at hrow'; cases hrow'
          rw [hb] at hb'; cases hb'
        · exact Or.inr ⟨r', hr', h1⟩

theorem collectSlots_mem {d : List (List Bool)} {cid : Int} {R : Nat} :
    ∀ (ts : List Nat) (acc vs : List Value), collectSlots d cid R ts acc = some vs →
      ∀ v, v ∈ vs ↔ v ∈ acc ∨ ∃ t ∈ ts, ∃ r, r < R ∧ v = ⟨(t : Int), (r : Int), cid⟩ ∧
        ∃ row, vecAt d cid = some row ∧ row[t * R + r]? = some true := by
  intro ts
  induction ts with
  | nil => intro acc vs h v; simp [collectSlots] at h; subst h; simp
  | cons t ts ih =>
    intro acc vs h v
    simp only [collectSlots, Option.bind_eq_bind, Option.bind_eq_some] at h
    obtain ⟨vs1, h1, h⟩ := h
    rw [ih _ _ h v, collectRooms_mem _ _ _ h1 v]
    simp only [List.mem_range, List.mem_cons]
    constructor
    · rintro ((h2 | ⟨r, hr, h2⟩) | ⟨t', ht', h2⟩)
      · exact Or.inl h2
      · exact Or.inr ⟨t, Or.inl rfl, r, hr, h2⟩
      · exact Or.inr ⟨t', Or.inr ht', h2⟩
    · rintro (h2 | ⟨t', rfl | ht', r, hr, h2⟩)
      · exact Or.inl (Or.inl h2)
      · exact Or.inl (Or.inr ⟨r, hr, h2⟩)
      · exact Or.inr ⟨t', ht', r, hr, h2⟩

theorem collectRooms_total {d : List (List Bool)} {cid : Int} {R t : Nat} {row : List Bool}
    (hrow : vecAt d cid = some row) :
    ∀ (rs : List Nat) (acc : List Value), (∀ r ∈ rs, t * R + r < row.length) →
      ∃ vs, collectRooms d cid R t rs acc = some vs := by
  intro rs
  induction rs with
  | nil => intro acc _; exact ⟨acc, rfl⟩
  | cons r rs ih =>
    intro acc h
    have hr : t * R + r < row.length := h r (List.mem_cons_self _ _)
    simp only [collectRooms, Option.bind_eq_bind, hrow, Option.some_bind,
      List.getElem?_eq_getElem hr]
    exact ih _ (fun r' hr' => h r' (List.mem_cons_of_mem _ hr'))

theorem collectSlots_total {d : List (List Bool)} {cid : Int} {R : Nat} {row : List Bool}
    (hrow : vecAt d cid = some row) :
    ∀ (ts : List Nat) (acc : List Value), (∀ t ∈ ts, ∀ r < R, t * R + r < row.length) →
      ∃ vs, collectSlots d cid R ts acc = some vs := by
  intro ts
  induction ts with
  | nil => intro acc _; exact ⟨acc, rfl⟩
  | cons t ts ih =>
    intro acc h
    obtain ⟨vs1, h1⟩ := collectRooms_total hrow (t := t) (R := R) (List.range R) acc
      (fun r hr => h t (List.mem_cons_self _ _) r (List.mem_range.mp hr))
    simp only [collectSlots, Option.bind_eq_bind, h1, Option.some_bind]
    exact ih _ (fun t' ht' => h t' (List.mem_cons_of_mem _ ht'))

/-- Membership in the list returned by `orderDomainValues`. -/
theorem odv_mem {srt : List Value → List Value} (hsrt : StdSort srt) {p : TimetableProblem}
    {cid : Int} {d : List (List Bool)} {vs : List Value}
    (h : orderDomainValues srt p cid d = some vs) (v : Value) :
    v ∈ vs ↔ ∃ t, t < p.timeslots.toNat ∧ ∃ r, r < p.rooms.length ∧
      v = ⟨(t : Int), (r : Int), cid⟩ ∧
      ∃ row, vecAt d cid = some row ∧ row[t * p.rooms.length + r]? = some true := by
  simp only [orderDomainValues, Option.bind_eq_bind, Option.bind_eq_some] at h
  obtain ⟨_, -, vals, hvals, h⟩ := h
  cases h
  rw [(hsrt vals).1.mem_iff, collectSlots_mem _ _ _ hvals v]
  simp

theorem odv_total (srt : List Value → List Value) {p : TimetableProblem}
    {c : Nat} {d : List (List Bool)} (hc : c < p.courses.length)
    (hd : d.length = p.courses.length)
    (hrows : ∀ row ∈ d, row.length = p.timeslots.toNat * p.rooms.length) :
    ∃ vs, orderDomainValues srt p (c : Int) d = some vs := by
  have hcd : c < d.length := by omega
  have hrow : vecAt d (c : Int) = some d[c] := by
    rw [vecAt_natCast]; exact List.getElem?_eq_getElem hcd
  have hlen : d[c].length = p.timeslots.toNat * p.rooms.length := hrows _ (List.getElem_mem hcd)
  obtain ⟨vals, hvals⟩ := collectSlots_total hrow (R := p.rooms.length)
    (List.range p.timeslots.toNat) []
    (fun t ht r hr => by rw [hlen]; exact index_lt (List.mem_range.mp ht) hr)
  refine ⟨srt vals, ?_⟩
  simp [orderDomainValues, vecAt_natCast, List.getElem?_eq_getElem hc, hvals]

/-! ## `isConsistent` -/

theorem teacherClashLoop_spec {p : TimetableProblem} {a : List Assignment} {course : Course}
    {cid t : Int} :
    ∀ (l : List Nat) (b : Bool), teacherClashLoop p a course cid t l = some b →
      (b = true ↔ ∃ o ∈ l, (o : Int) ≠ cid ∧ ∃ ao co, a[o]? = some ao ∧ ao.timeslot = t ∧
        t ≠ -1 ∧ p.courses[o]? = some co ∧ co.teacher_id = course.teacher_id) := by
  intro l
  induction l with
  | nil => intro b h; simp [teacherClashLoop] at h; subst h; simp
  | cons o l ih =>
    intro b h
    unfold teacherClashLoop at h
    split at h
    · rename_i heq
      rw [ih b h]
      constructor
      · rintro ⟨o', ho', h1⟩
        exact ⟨o', List.mem_cons_of_mem _ ho', h1⟩
      · rintro ⟨o', ho', h1⟩
        rcases List.mem_cons.mp ho' with rfl | ho'
        · exact absurd heq h1.1
        · exact ⟨o', ho', h1⟩
    · rename_i hne
      simp only [Option.bind_eq_bind, Option.bind_eq_some] at h
      obtain ⟨ao, hao, h⟩ := h
      split at h
      · rename_i hts
        simp only [Option.bind_eq_some] at h
        obtain ⟨co, hco, h⟩ := h
        split at h
        · rename_i hteach
          cases h
          simp only [true_iff]
          exact ⟨o, List.mem_cons_self _ _, hne, ao, co, hao, hts.1, hts.1 ▸ hts.2, hco, hteach⟩
        · rename_i hteach
          rw [ih b h]
          constructor
          · rintro ⟨o', ho', h1⟩
            exact ⟨o', List.mem_cons_of_mem _ ho', h1⟩
          · rintro ⟨o', ho', h1⟩
            rcases List.mem_cons.mp ho' with rfl | ho'
            · obtain ⟨-, ao', co', hao', -, -, hco', hteach'⟩ := h1
              rw [hco] at hco'; cases hco'
              exact absurd hteach' hteach
            · exact ⟨o', ho', h1⟩
      · rename_i hts
        rw [ih b h]
        constructor
        · rintro ⟨o', ho', h1⟩
          exact ⟨o', List.mem_cons_of_mem _ ho', h1⟩
        · rintro ⟨o', ho', h1⟩
          rcases List.mem_cons.mp ho' with rfl | ho'
          · obtain ⟨-, ao', co', hao', h2, h3, -⟩ := h1
            rw [hao] at hao'; cases hao'
            exact absurd ⟨h2, h2 ▸ h3⟩ hts
          · exact ⟨o', ho', h1⟩

theorem groupClashLoop_spec {p : TimetableProblem} {a : List Assignment} {course : Course}
    {cid t : Int} :
    ∀ (l : List Nat) (b : Bool), groupClashLoop p a course cid t l = some b →
      (b = true ↔ ∃ o ∈ l, (o : Int) ≠ cid ∧ ∃ ao co, a[o]? = some ao ∧ ao.timeslot = t ∧
        t ≠ -1 ∧ p.courses[o]? = some co ∧ shareStudentGroups course co = true) := by
  intro l
  induction l with
  | nil => intro b h; simp [groupClashLoop] at h; subst h; simp
  | cons o l ih =>
    intro b h
    unfold groupClashLoop at h
    split at h
    · rename_i heq
      rw [ih b h]
      constructor
      · rintro ⟨o', ho', h1⟩
        exact ⟨o', List.mem_cons_of_mem _ ho', h1⟩
      · rintro ⟨o', ho', h1⟩
        rcases List.mem_cons.mp ho' with rfl | ho'
        · exact absurd heq h1.1
        · exact ⟨o', ho', h1⟩
    · rename_i hne
      simp only [Option.bind_eq_bind, Option.bind_eq_some] at h
      obtain ⟨ao, hao, h⟩ := h
      split at h
      · rename_i hts
        simp only [Option.bind_eq_some] at h
        obtain ⟨co, hco, h⟩ := h
        split at h
        · rename_i hteach
          cases h
          simp only [true_iff]
          exact ⟨o, List.mem_cons_self _ _, hne, ao, co, hao, hts.1, hts.1 ▸ hts.2, hco, hteach⟩
        · rename_i hteach
          rw [ih b h]
          constructor
          · rintro ⟨o', ho', h1⟩
            exact ⟨o', List.mem_cons_of_mem _ ho', h1⟩
          · rintro ⟨o', ho', h1⟩
            rcases List.mem_cons.mp ho' with rfl | ho'
            · obtain ⟨-, ao', co', hao', -, -, hco', hteach'⟩ := h1
              rw [hco] at hco'; cases hco'
              exact absurd hteach' hteach
            · exact ⟨o', ho', h1⟩
      · rename_i hts
        rw [ih b h]
        constructor
        · rintro ⟨o', ho', h1⟩
          exact ⟨o', List.mem_cons_of_mem _ ho', h1⟩
        · rintro ⟨o', ho', h1⟩
          rcases List.mem_cons.mp ho' with rfl | ho'
          · obtain ⟨-, ao', co', hao', h2, h3, -⟩ := h1
            rw [hao] at hao'; cases hao'
            exact absurd ⟨h2, h2 ▸ h3⟩ hts
          · exact ⟨o', ho', h1⟩

theorem teacherClashLoop_total (p : TimetableProblem) (a : List Assignment) (course : Course)
    (cid t : Int) :
    ∀ (l : List Nat), (∀ o ∈ l, o < a.length ∧ o < p.courses.length) →
      ∃ b, teacherClashLoop p a course cid t l = some b := by
  intro l
  induction l with
  | nil => intro _; exact ⟨false, rfl⟩
  | cons o l ih =>
    intro h
    obtain ⟨h1, h2⟩ := h o (List.mem_cons_self _ _)
    have ih' := ih (fun o' ho' => h o' (List.mem_cons_of_mem _ ho'))
    unfold teacherClashLoop
    split
    · exact ih'
    · simp only [Option.bind_eq_bind, List.getElem?_eq_getElem h1, Option.some_bind,
        List.getElem?_eq_getElem h2]
      split
      · split
        · exact ⟨true, rfl⟩
        · exact ih'
      · exact ih'

theorem groupClashLoop_total (p : TimetableProblem) (a : List Assignment) (course : Course)
    (cid t : Int) :
    ∀ (l : List Nat), (∀ o ∈ l, o < a.length ∧ o < p.courses.length) →
      ∃ b, groupClashLoop p a course cid t l = some b := by
  intro l
  induction l with
  | nil => intro _; exact ⟨false, rfl⟩
  | cons o l ih =>
    intro h
    obtain ⟨h1, h2⟩ := h o (List.mem_cons_self _ _)
    have ih' := ih (fun o' ho' => h o' (List.mem_cons_of_mem _ ho'))
    unfold groupClashLoop
    split
    · exact ih'
    · simp only [Option.bind_eq_bind, List.getElem?_eq_getElem h1, Option.some_bind,
        List.getElem?_eq_getElem h2]
      split
      · split
        · exact ⟨true, rfl⟩
        · exact ih'
      · exact ih'

theorem clash_iff {p : TimetableProblem} {a : List Assignment} {c : Nat} {t : Int}
    {course : Course} (hc : p.courses[c]? = some course) :
    Clash p a c t ↔
      (∃ o ∈ List.range p.courses.length, (o : Int) ≠ (c : Int) ∧ ∃ ao co, a[o]? = some ao ∧
        ao.timeslot = t ∧ t ≠ -1 ∧ p.courses[o]? = some co ∧
        co.teacher_id = course.teacher_id) ∨
      (∃ o ∈ List.range p.courses.length, (o : Int) ≠ (c : Int) ∧ ∃ ao co, a[o]? = some ao ∧
        ao.timeslot = t ∧ t ≠ -1 ∧ p.courses[o]? = some co ∧
        shareStudentGroups course co = true) := by
  constructor
  · rintro ⟨o, ao, hne, hlt, hao, hts, ht, cc, co, hcc, hco, hconf⟩
    rw [hc] at hcc; cases hcc
    have hne' : (o : Int) ≠ (c : Int) := by exact_mod_cast hne
    rcases hconf with h | h
    · exact Or.inl ⟨o, List.mem_range.mpr hlt, hne', ao, co, hao, hts, ht, hco, h⟩
    · exact Or.inr ⟨o, List.mem_range.mpr hlt, hne', ao, co, hao, hts, ht, hco, h⟩
  · rintro (⟨o, ho, hne, ao, co, hao, hts, ht, hco, h⟩ | ⟨o, ho, hne, ao, co, hao, hts, ht, hco, h⟩)
    · exact ⟨o, ao, by exact_mod_cast hne, List.mem_range.mp ho, hao, hts, ht, course, co, hc, hco,
        Or.inl h⟩
    · exact ⟨o, ao, by exact_mod_cast hne, List.mem_range.mp ho, hao, hts, ht, course, co, hc, hco,
        Or.inr h⟩

/-- What `isConsistent` decides whenever it returns. -/
theorem isConsistent_iff {p : TimetableProblem} {a : List Assignment} {c : Nat} {t r : Int}
    {b : Bool} (h : isConsistentBody p a (c : Int) t r = some b) :
    b = true ↔ StaticOK p c t r ∧ ¬ Clash p a c t := by
  simp only [isConsistentBody, Option.bind_eq_bind, Option.bind_eq_some, vecAt_natCast] at h
  obtain ⟨course, hcourse, room_obj, hroom, teacher, hteacher, h⟩ := h
  have hstatic : StaticOK p c t r ↔ course.students ≤ room_obj.capacity ∧
      t ∉ teacher.busy_slots ∧ t ∉ room_obj.busy_slots := by
    constructor
    · rintro ⟨course', room', teacher', h1, h2, h3, h4⟩
      rw [hcourse] at h1; cases h1
      rw [hroom] at h2; cases h2
      rw [hteacher] at h3; cases h3
      exact h4
    · intro h4
      exact ⟨course, room_obj, teacher, hcourse, hroom, hteacher, h4⟩
  rw [hstatic, clash_iff hcourse]
  split at h
  · rename_i hcap
    cases h
    simp only [Bool.false_eq_true, false_iff]
    intro h1; omega
  · rename_i hcap
    split at h
    · rename_i hbusy
      cases h
      simp only [Bool.false_eq_true, false_iff]
      intro h1
      apply h1.1.2.1
      simpa using hbusy
    · rename_i hbusy
      split at h
      · rename_i hbusy2
        cases h
        simp only [Bool.false_eq_true, false_iff]
        intro h1
        apply h1.1.2.2
        simpa using hbusy2
      · rename_i hbusy2
        have hs : course.students ≤ room_obj.capacity ∧
            t ∉ teacher.busy_slots ∧ t ∉ room_obj.busy_slots := by
          refine ⟨by omega, ?_, ?_⟩
          · simpa using hbusy
          · simpa using hbusy2
        simp only [Option.bind_eq_some] at h
        obtain ⟨clash1, h1, h⟩ := h
        have s1 := teacherClashLoop_spec _ _ h1
        split at h
        · rename_i hcl
          cases h
          simp only [Bool.false_eq_true, false_iff]
          intro h2
          exact h2.2 (Or.inl (s1.mp hcl))
        · rename_i hcl
          simp only [Option.bind_eq_some] at h
          obtain ⟨clash2, h2, h⟩ := h
          have s2 := groupClashLoop_spec _ _ h2
          split at h
          · rename_i hcl2
            cases h
            simp only [Bool.false_eq_true, false_iff]
            intro h3
            exact h3.2 (Or.inr (s2.mp hcl2))
          · rename_i hcl2
            cases h
            simp only [true_iff]
            refine ⟨hs, ?_⟩
            rintro (h3 | h3)
            · exact hcl (s1.mpr h3)
            · exact hcl2 (s2.mpr h3)

theorem isConsistent_total {p : TimetableProblem} (hv : Validated p) {a : List Assignment}
    {c : Nat} {t : Int} {r : Nat} (ha : a.length = p.courses.length)
    (hc : c < p.courses.length) (hr : r < p.rooms.length) :
    ∃ b, isConsistentBody p a (c : Int) t (r : Int) = some b := by
  have hteach := hv.2 _ (List.getElem_mem hc)
  obtain ⟨k, hk⟩ : ∃ k : Nat, p.courses[c].teacher_id = (k : Int) :=
    ⟨p.courses[c].teacher_id.toNat, by omega⟩
  have hk2 : k < p.teachers.length := by omega
  have hidx : ∀ o ∈ List.range p.courses.length, o < a.length ∧ o < p.courses.length := by
    intro o ho
    have := List.mem_range.mp ho
    omega
  simp only [isConsistentBody, Option.bind_eq_bind, vecAt_natCast, List.getElem?_eq_getElem hc,
    Option.some_bind, List.getElem?_eq_getElem hr, hk, List.getElem?_eq_getElem hk2]
  split
  · exact ⟨false, rfl⟩
  · split
    · exact ⟨false, rfl⟩
    · split
      · exact ⟨false, rfl⟩
      · obtain ⟨b1, h1⟩ := teacherClashLoop_total p a p.courses[c] (c : Int) t _ hidx
        obtain ⟨b2, h2⟩ := groupClashLoop_total p a p.courses[c] (c : Int) t _ hidx
        simp only [h1, Option.some_bind, h2]
        split
        · exact ⟨false, rfl⟩
        · split
          · exact ⟨false, rfl⟩
          · exact ⟨true, rfl⟩

/-! ## `forwardCheck` -/

theorem PrunedFrom.refl (Reason : Nat → Nat → Prop) (d : List (List Bool)) :
    PrunedFrom Reason d d :=
  ⟨rfl, fun _ row h => ⟨row, h, rfl, fun _ => Or.inl rfl⟩⟩

theorem PrunedFrom.trans {Reason : Nat → Nat → Prop} {d d1 d2 : List (List Bool)}
    (h1 : PrunedFrom Reason d d1) (h2 : PrunedFrom Reason d1 d2) : PrunedFrom Reason d d2 := by
  refine ⟨h2.1.trans h1.1, ?_⟩
  intro o row hrow
  obtain ⟨row1, hrow1, hlen1, hent1⟩ := h1.2 o row hrow
  obtain ⟨row2, hrow2, hlen2, hent2⟩ := h2.2 o row1 hrow1
  refine ⟨row2, hrow2, hlen2.trans hlen1, ?_⟩
  intro idx
  rcases hent2 idx with e2 | ⟨t1, f2, r2⟩
  · rcases hent1 idx with e1 | ⟨t0, f1, r1⟩
    · exact Or.inl (e2.trans e1)
    · exact Or.inr ⟨t0, e2.trans f1, r1⟩
  · rcases hent1 idx with e1 | ⟨t0, f1, r1⟩
    · exact Or.inr ⟨e1 ▸ t1, f2, r2⟩
    · rw [f1] at t1; cases t1

theorem PrunedFrom.viable {Reason : Nat → Nat → Prop} {d d' : List (List Bool)}
    (h : PrunedFrom Reason d d') {o idx : Nat} (hv : Viable d o idx) :
    Viable d' o idx ∨ Reason o idx := by
  obtain ⟨row, hrow, hidx⟩ := hv
  obtain ⟨row', hrow', -, hent⟩ := h.2 o row hrow
  rcases hent idx with e | ⟨-, -, r⟩
  · exact Or.inl ⟨row', hrow', e.trans hidx⟩
  · exact Or.inr r

theorem PrunedFrom.rows {Reason : Nat → Nat → Prop} {d d' : List (List Bool)}
    (h : PrunedFrom Reason d d') {n : Nat} (hrows : ∀ row ∈ d, row.length = n) :
    ∀ row ∈ d', row.length = n := by
  intro row' hmem
  obtain ⟨o, ho, rfl⟩ := List.getElem_of_mem hmem
  have ho' : o < d.length := h.1 ▸ ho
  obtain ⟨row1, hrow1, hlen, -⟩ := h.2 o d[o] (List.getElem?_eq_getElem ho')
  rw [List.getElem?_eq_getElem ho] at hrow1
  cases hrow1
  rw [hlen]
  exact hrows _ (List.getElem_mem ho')

theorem scanRooms_spec {row : List Bool} {R t : Nat} :
    ∀ (rs : List Nat) (b : Bool), scanRooms row R t rs = some b →
      (b = true ↔ ∃ r ∈ rs, row[t * R + r]? = some true) := by
  intro rs
  induction rs with
  | nil => intro b h; simp [scanRooms] at h; subst h; simp
  | cons r rs ih =>
    intro b h
    simp only [scanRooms, Option.bind_eq_bind, Option.bind_eq_some] at h
    obtain ⟨x, hx, h⟩ := h
    split at h
    · rename_i hxt
      cases h
      subst hxt
      simp only [true_iff]
      exact ⟨r, List.mem_cons_self _ _, hx⟩
    · rename_i hxf
      rw [ih b h]
      constructor
      · rintro ⟨r', hr', h1⟩
        exact ⟨r', List.mem_cons_of_mem _ hr', h1⟩
      · rintro ⟨r', hr', h1⟩
        rcases List.mem_cons.mp hr' with rfl | hr'
        · rw [hx] at h1; cases h1; exact absurd rfl hxf
        · exact ⟨r', hr', h1⟩

theorem scanSlots_spec {row : List Bool} {R : Nat} :
    ∀ (ts : List Nat) (b : Bool), scanSlots row R ts = some b →
      (b = true ↔ ∃ t ∈ ts, ∃ r, r < R ∧ row[t * R + r]? = some true) := by
  intro ts
  induction ts with
  | nil => intro b h; simp [scanSlots] at h; subst h; simp
  | cons t ts ih =>
    intro b h
    simp only [scanSlots, Option.bind_eq_bind, Option.bind_eq_some] at h
    obtain ⟨x, hx, h⟩ := h
    have sx := scanRooms_spec _ _ hx
    split at h
    · rename_i hxt
      cases h
      simp only [true_iff]
      obtain ⟨r, hr, h1⟩ := sx.mp hxt
      exact ⟨t, List.mem_cons_self _ _, r, List.mem_range.mp hr, h1⟩
    · rename_i hxf
      rw [ih b h]
      constructor
      · rintro ⟨t', ht', h1⟩
        exact ⟨t', List.mem_cons_of_mem _ ht', h1⟩
      · rintro ⟨t', ht', r, hr, h1⟩
        rcases List.mem_cons.mp ht' with rfl | ht'
        · exact absurd (sx.mpr ⟨r, List.mem_range.mpr hr, h1⟩) hxf
        · exact ⟨t', ht', r, hr, h1⟩

theorem scanRooms_total (row : List Bool) {R t : Nat} :
    ∀ (rs : List Nat), (∀ r ∈ rs, t * R + r < row.length) →
      ∃ b, scanRooms row R t rs = some b := by
  intro rs
  induction rs with
  | nil => intro _; exact ⟨false, rfl⟩
  | cons r rs ih =>
    intro h
    have hr : t * R + r < row.length := h r (List.mem_cons_self _ _)
    simp only [scanRooms, Option.bind_eq_bind, List.getElem?_eq_getElem hr, Option.some_bind]
    split
    · exact ⟨true, rfl⟩
    · exact ih (fun r' hr' => h r' (List.mem_cons_of_mem _ hr'))

theorem scanSlots_total (row : List Bool) {R : Nat} :
    ∀ (ts : List Nat), (∀ t ∈ ts, ∀ r < R, t * R + r < row.length) →
      ∃ b, scanSlots row R ts = some b := by
  intro ts
  induction ts with
  | nil => intro _; exact ⟨false, rfl⟩
  | cons t ts ih =>
    intro h
    obtain ⟨x, hx⟩ := scanRooms_total row (R := R) (t := t) (List.range R)
      (fun r hr => h t (List.mem_cons_self _ _) r (List.mem_range.mp hr))
    simp only [scanSlots, Option.bind_eq_bind, hx, Option.some_bind]
    split
    · exact ⟨true, rfl⟩
    · exact ih (fun t' ht' => h t' (List.mem_cons_of_mem _ ht'))

theorem prunedFrom_set (Reason : Nat → Nat → Prop) {d : List (List Bool)} {o idx : Nat}
    {row : List Bool} (hrow : d[o]? = some row) (hidx : row[idx]? = some true)
    (hr : Reason o idx) : PrunedFrom Reason d (d.set o (row.set idx false)) := by
  have ho : o < d.length := by
    by_contra hcon
    rw [List.getElem?_eq_none (by omega)] at hrow
    cases hrow
  have hi : idx < row.length := by
    by_contra hcon
    rw [List.getElem?_eq_none (by omega)] at hidx
    cases hidx
  refine ⟨List.length_set _ _ _, ?_⟩
  intro o' row0 hrow0
  by_cases hoo : o' = o
  · subst hoo
    rw [hrow] at hrow0; cases hrow0
    refine ⟨row.set idx false, ?_, List.length_set _ _ _, ?_⟩
    · simp [List.getElem?_set, ho]
    · intro idx'
      by_cases hii : idx' = idx
      · subst hii
        exact Or.inr ⟨hidx, by simp [List.getElem?_set, hi], hr⟩
      · exact Or.inl (by rw [List.getElem?_set_ne (Ne.symm hii)])
  · exact ⟨row0, by rw [List.getElem?_set_ne (Ne.symm hoo)]; exact hrow0, rfl,
      fun _ => Or.inl rfl⟩

theorem fcRooms_spec {p : TimetableProblem} {a : List Assignment} {cid timeslot room : Int}
    {assigned other : Course} {o t : Nat}
    (hassigned : vecAt p.courses cid = some assigned) (hother : p.courses[o]? = some other)
    (hne : (o : Int) ≠ cid) (hao : ∃ ao, a[o]? = some ao ∧ ao.timeslot = -1) :
    ∀ (rs : List Nat) (d : List (List Bool)) (res : Bool × List (List Bool)),
      (∀ r ∈ rs, r < p.rooms.length) →
      fcRooms p assigned other o timeslot room t rs d = some res →
      PrunedFrom (PruneReason p a cid timeslot room) d res.2 ∧
        (res.1 = false → ∃ row', res.2[o]? = some row' ∧
          ∀ t', t' < p.timeslots.toNat → ∀ r', r' < p.rooms.length →
            row'[t' * p.rooms.length + r']? ≠ some true) := by
  intro rs
  induction rs with
  | nil =>
    intro d res _ h
    simp only [fcRooms, Option.some.injEq] at h
    subst h
    exact ⟨PrunedFrom.refl _ _, by simp⟩
  | cons r rs ih =>
    intro d res hrs h
    have hr : r < p.rooms.length := hrs r (List.mem_cons_self _ _)
    have hrs' : ∀ r' ∈ rs, r' < p.rooms.length := fun r' hr' => hrs r' (List.mem_cons_of_mem _ hr')
    simp only [fcRooms, Option.bind_eq_bind, Option.bind_eq_some] at h
    obtain ⟨row, hrow, b, hb, h⟩ := h
    split at h
    · exact ih d res hrs' h
    · rename_i hbt
      have hbt' : b = true := by simpa using hbt
      subst hbt'
      split at h
      · rename_i hincons
        simp only [Option.bind_eq_some, vecSetN] at h
        obtain ⟨row1, hrow1, d1, hd1, hvv, hscan, h⟩ := h
        split at hrow1
        case isFalse => cases hrow1
        rename_i hidxlt
        cases hrow1
        split at hd1
        case isFalse => cases hd1
        rename_i holt
        cases hd1
        have hreason : PruneReason p a cid timeslot room o (t * p.rooms.length + r) := by
          refine ⟨hne, hao, assigned, other, hassigned, hother, t, r, hr, rfl, ?_⟩
          by_cases hts : (t : Int) = timeslot
          · refine ⟨hts, ?_⟩
            simp only [fcConsistent, hts, if_true, Bool.not_not, Bool.or_eq_true,
              decide_eq_true_eq] at hincons
            rcases hincons with (h1 | h1) | h1
            · exact Or.inl h1
            · exact Or.inr (Or.inl h1)
            · exact Or.inr (Or.inr h1)
          · simp [fcConsistent, hts] at hincons
        have hstep := prunedFrom_set (PruneReason p a cid timeslot room) hrow hb hreason
        split at h
        · rename_i hnv
          cases h
          refine ⟨hstep, fun _ => ⟨row.set (t * p.rooms.length + r) false, ?_, ?_⟩⟩
          · simp [List.getElem?_set, holt]
          · intro t' ht' r' hr' hcon
            have hvf : hvv = false := by simpa using hnv
            subst hvf
            have := (scanSlots_spec _ _ hscan).mpr ⟨t', List.mem_range.mpr ht', r', hr', hcon⟩
            cases this
        · obtain ⟨h1, h2⟩ := ih _ res hrs' h
          exact ⟨hstep.trans h1, h2⟩
      · exact ih d res hrs' h

theorem fcRooms_total (p : TimetableProblem) (timeslot room : Int)
    (assigned other : Course) (o : Nat) {t : Nat} (ht : t < p.timeslots.toNat) :
    ∀ (rs : List Nat) (d : List (List Bool)), (∀ r ∈ rs, r < p.rooms.length) →
      (∃ row, d[o]? = some row ∧ row.length = p.timeslots.toNat * p.rooms.length) →
      ∃ res, fcRooms p assigned other o timeslot room t rs d = some res := by
  intro rs
  induction rs with
  | nil => intro d _ _; exact ⟨(true, d), rfl⟩
  | cons r rs ih =>
    intro d hrs hd
    have hr : r < p.rooms.length := hrs r (List.mem_cons_self _ _)
    have hrs' : ∀ r' ∈ rs, r' < p.rooms.length := fun r' hr' => hrs r' (List.mem_cons_of_mem _ hr')
    obtain ⟨row, hrow, hlen⟩ := hd
    have hidx : t * p.rooms.length + r < row.length := by rw [hlen]; exact index_lt ht hr
    have ho : o < d.length := by
      by_contra hcon
      rw [List.getElem?_eq_none (by omega)] at hrow
      cases hrow
    simp only [fcRooms, Option.bind_eq_bind, hrow, Option.some_bind,
      List.getElem?_eq_getElem hidx]
    split
    · exact ih d hrs' ⟨row, hrow, hlen⟩
    · split
      · simp only [vecSetN, hidx, if_true, Option.some_bind, ho]
        obtain ⟨hvv, hscan⟩ := scanSlots_total
          (row.set (t * p.rooms.length + r) false) (R := p.rooms.length)
          (List.range p.timeslots.toNat)
          (fun t' ht' r' hr' => by
            rw [List.length_set, hlen]; exact index_lt (List.mem_range.mp ht') hr')
        simp only [hscan, Option.some_bind]
        split
        · exact ⟨_, rfl⟩
        · exact ih _ hrs' ⟨row.set (t * p.rooms.length + r) false,
            by simp [List.getElem?_set, ho], by rw [List.length_set, hlen]⟩
      · exact ih d hrs' ⟨row, hrow, hlen⟩

theorem fcSlots_spec {p : TimetableProblem} {a : List Assignment} {cid timeslot room : Int}
    {assigned other : Course} {o : Nat}
    (hassigned : vecAt p.courses cid = some assigned) (hother : p.courses[o]? = some other)
    (hne : (o : Int) ≠ cid) (hao : ∃ ao, a[o]? = some ao ∧ ao.timeslot = -1) :
    ∀ (ts : List Nat) (d : List (List Bool)) (res : Bool × List (List Bool)),
      fcSlots p assigned other o timeslot room ts d = some res →
      PrunedFrom (PruneReason p a cid timeslot room) d res.2 ∧
        (res.1 = false → ∃ row', res.2[o]? = some row' ∧
          ∀ t', t' < p.timeslots.toNat → ∀ r', r' < p.rooms.length →
            row'[t' * p.rooms.length + r']? ≠ some true) := by
  intro ts
  induction ts with
  | nil =>
    intro d res h
    simp only [fcSlots, Option.some.injEq] at h
    subst h
    exact ⟨PrunedFrom.refl _ _, by simp⟩
  | cons t ts ih =>
    intro d res h
    simp only [fcSlots, Option.bind_eq_bind, Option.bind_eq_some] at h
    obtain ⟨res1, h1, h⟩ := h
    obtain ⟨s1, s2⟩ := fcRooms_spec hassigned hother hne hao _ _ _
      (fun r hr => List.mem_range.mp hr) h1
    split at h
    · obtain ⟨s3, s4⟩ := ih _ _ h
      exact ⟨s1.trans s3, s4⟩
    · rename_i hf
      cases h
      exact ⟨s1, fun _ => s2 (by simpa using hf)⟩

theorem fcSlots_total {p : TimetableProblem} {a : List Assignment} {cid : Int}
    (timeslot room : Int) {assigned other : Course} {o : Nat}
    (hassigned : vecAt p.courses cid = some assigned) (hother : p.courses[o]? = some other)
    (hne : (o : Int) ≠ cid) (hao : ∃ ao, a[o]? = some ao ∧ ao.timeslot = -1) :
    ∀ (ts : List Nat) (d : List (List Bool)), (∀ t ∈ ts, t < p.timeslots.toNat) →
      (∃ row, d[o]? = some row ∧ row.length = p.timeslots.toNat * p.rooms.length) →
      ∃ res, fcSlots p assigned other o timeslot room ts d = some res := by
  intro ts
  induction ts with
  | nil => intro d _ _; exact ⟨(true, d), rfl⟩
  | cons t ts ih =>
    intro d hts hd
    obtain ⟨res1, h1⟩ := fcRooms_total p timeslot room assigned other o
      (hts t (List.mem_cons_self _ _))
      (List.range p.rooms.length) d (fun r hr => List.mem_range.mp hr) hd
    obtain ⟨s1, -⟩ := fcRooms_spec hassigned hother hne hao _ _ _
      (fun r hr => List.mem_range.mp hr) h1
    simp only [fcSlots, Option.bind_eq_bind, h1, Option.some_bind]
    split
    · refine ih _ (fun t' ht' => hts t' (List.mem_cons_of_mem _ ht')) ?_
      obtain ⟨row, hrow, hlen⟩ := hd
      obtain ⟨row', hrow', hlen', -⟩ := s1.2 o row hrow
      exact ⟨row', hrow', hlen'.trans hlen⟩
    · exact ⟨_, rfl⟩

theorem fcCourses_spec {p : TimetableProblem} {a : List Assignment} {cid timeslot room : Int}
    {assigned : Course} (hassigned : vecAt p.courses cid = some assigned) :
    ∀ (l : List Nat) (d : List (List Bool)) (res : Bool × List (List Bool)),
      fcCourses p a assigned cid timeslot room l d = some res →
      PrunedFrom (PruneReason p a cid timeslot room) d res.2 ∧
        (res.1 = false → ∃ o ∈ l, (o : Int) ≠ cid ∧ (∃ ao, a[o]? = some ao ∧ ao.timeslot = -1) ∧
          ∃ row', res.2[o]? = some row' ∧
          ∀ t', t' < p.timeslots.toNat → ∀ r', r' < p.rooms.length →
            row'[t' * p.rooms.length + r']? ≠ some true) := by
  intro l
  induction l with
  | nil =>
    intro d res h
    simp only [fcCourses, Option.some.injEq] at h
    subst h
    exact ⟨PrunedFrom.refl _ _, by simp⟩
  | cons o l ih =>
    intro d res h
    have lift : (res.1 = false → ∃ o' ∈ l, (o' : Int) ≠ cid ∧
          (∃ ao, a[o']? = some ao ∧ ao.timeslot = -1) ∧
          ∃ row', res.2[o']? = some row' ∧
          ∀ t', t' < p.timeslots.toNat → ∀ r', r' < p.rooms.length →
            row'[t' * p.rooms.length + r']? ≠ some true) →
        (res.1 = false → ∃ o' ∈ o :: l, (o' : Int) ≠ cid ∧
          (∃ ao, a[o']? = some ao ∧ ao.timeslot = -1) ∧
          ∃ row', res.2[o']? = some row' ∧
          ∀ t', t' < p.timeslots.toNat → ∀ r', r' < p.rooms.length →
            row'[t' * p.rooms.length + r']? ≠ some true) := by
      intro hl hf
      obtain ⟨o', ho', rest⟩ := hl hf
      exact ⟨o', List.mem_cons_of_mem _ ho', rest⟩
    unfold fcCourses at h
    split at h
    · obtain ⟨s1, s2⟩ := ih _ _ h
      exact ⟨s1, lift s2⟩
    · rename_i hne
      simp only [Option.bind_eq_bind, Option.bind_eq_some] at h
      obtain ⟨ao, hao, h⟩ := h
      split at h
      · obtain ⟨s1, s2⟩ := ih _ _ h
        exact ⟨s1, lift s2⟩
      · rename_i hun
        have hun' : ao.timeslot = -1 := by simpa using hun
        simp only [Option.bind_eq_some] at h
        obtain ⟨other, hother, res1, h1, h⟩ := h
        obtain ⟨s1, s2⟩ := fcSlots_spec hassigned hother hne ⟨ao, hao, hun'⟩ _ _ _ h1
        split at h
        · obtain ⟨s3, s4⟩ := ih _ _ h
          exact ⟨s1.trans s3, lift s4⟩
        · rename_i hf
          cases h
          exact ⟨s1, fun _ => ⟨o, List.mem_cons_self _ _, hne, ⟨ao, hao, hun'⟩,
            s2 (by simpa using hf)⟩⟩

theorem fcCourses_total {p : TimetableProblem} (a : List Assignment) {cid : Int}
    (timeslot room : Int) {assigned : Course}
    (hassigned : vecAt p.courses cid = some assigned) :
    ∀ (l : List Nat) (d : List (List Bool)),
      (∀ o ∈ l, o < a.length ∧ o < p.courses.length) → d.length = p.courses.length →
      (∀ row ∈ d, row.length = p.timeslots.toNat * p.rooms.length) →
      ∃ res, fcCourses p a assigned cid timeslot room l d = some res := by
  intro l
  induction l with
  | nil => intro d _ _ _; exact ⟨(true, d), rfl⟩
  | cons o l ih =>
    intro d hl hd hrows
    obtain ⟨h1, h2⟩ := hl o (List.mem_cons_self _ _)
    have hl' : ∀ o' ∈ l, o' < a.length ∧ o' < p.courses.length :=
      fun o' ho' => hl o' (List.mem_cons_of_mem _ ho')
    unfold fcCourses
    split
    · exact ih d hl' hd hrows
    · rename_i hne
      simp only [Option.bind_eq_bind, List.getElem?_eq_getElem h1, Option.some_bind]
      split
      · exact ih d hl' hd hrows
      · rename_i hun
        have hun' : a[o].timeslot = -1 := by simpa using hun
        have hao : ∃ ao, a[o]? = some ao ∧ ao.timeslot = -1 :=
          ⟨a[o], List.getElem?_eq_getElem h1, hun'⟩
        have hother : p.courses[o]? = some p.courses[o] := List.getElem?_eq_getElem h2
        have hod : o < d.length := by omega
        obtain ⟨res1, hres1⟩ := fcSlots_total timeslot room hassigned hother hne hao
          (List.range p.timeslots.toNat) d (fun t ht => List.mem_range.mp ht)
          ⟨d[o], List.getElem?_eq_getElem hod, hrows _ (List.getElem_mem hod)⟩
        obtain ⟨s1, -⟩ := fcSlots_spec hassigned hother hne hao _ _ _ hres1
        simp only [List.getElem?_eq_getElem h2, Option.some_bind, hres1]
        split
        · exact ih _ hl' (s1.1.trans hd) (s1.rows hrows)
        · exact ⟨_, rfl⟩

/-! ## The two solvers and the common text -/

theorem bt_tryValues_eq (p : TimetableProblem)
    (recurse : SolverState → Option (Bool × SolverState)) (cid : Int) :
    ∀ (vs : List Value) (s : SolverState),
      BacktrackingSolver.tryValues p recurse cid vs s = genTry false p recurse cid vs s := by
  intro vs
  induction vs with
  | nil => intro s; rfl
  | cons v vs ih =>
    intro s
    simp only [BacktrackingSolver.tryValues, genTry, BacktrackingSolver.isConsistent, ih,
      genPropagate, genDescend, genRestore,
      Bool.false_eq_true, if_false, Option.bind_eq_bind, Option.some_bind, if_true]

theorem fc_tryValues_eq (p : TimetableProblem)
    (recurse : SolverState → Option (Bool × SolverState)) (cid : Int) :
    ∀ (vs : List Value) (s : SolverState),
      ForwardCheckingSolver.tryValues p recurse cid vs s = genTry true p recurse cid vs s := by
  intro vs
  induction vs with
  | nil => intro s; rfl
  | cons v vs ih =>
    intro s
    simp only [ForwardCheckingSolver.tryValues, genTry, ForwardCheckingSolver.isConsistent, ih,
      genPropagate, genDescend, genRestore, ForwardCheckingSolver.restore, if_true,
      Option.bind_eq_bind]
    cases isConsistentBody p s.assignment cid v.timeslot v.room with
    | none => rfl
    | some ok =>
      cases ok with
      | false => rfl
      | true =>
        simp only [Option.some_bind, if_true]
        cases vecSet s.assignment cid ⟨v.timeslot, v.room⟩ with
        | none => rfl
        | some a2 =>
          simp only [Option.some_bind]
          cases ForwardCheckingSolver.forwardCheck p
            { assignment := a2, domain := s.domain, backtrack_count := s.backtrack_count,
              assignment_count := toInt32 (s.assignment_count + 1) } cid v.timeslot v.room with
          | none => rfl
          | some fcr =>
            obtain ⟨b, s2⟩ := fcr
            cases b with
            | false =>
              simp only [Option.some_bind, Bool.false_eq_true, if_false]
              cases vecSet s2.assignment cid ⟨-1, -1⟩ <;> rfl
            | true =>
              simp only [Option.some_bind, if_true]
              cases recurse s2 with
              | none => rfl
              | some res =>
                obtain ⟨b2, s3⟩ := res
                cases b2 with
                | true => rfl
                | false =>
                  simp only [Option.some_bind, Bool.false_eq_true, if_false]
                  cases vecSet s3.assignment cid ⟨-1, -1⟩ <;> rfl

theorem bt_backtrack_eq (srt : List Value → List Value) (p : TimetableProblem) :
    ∀ (fuel : Nat) (s : SolverState),
      BacktrackingSolver.backtrack srt p fuel s = genBacktrack false srt p fuel s := by
  intro fuel
  induction fuel with
  | zero => intro s; rfl
  | succ fuel ih =>
    intro s
    have : BacktrackingSolver.backtrack srt p fuel = genBacktrack false srt p fuel := funext ih
    simp only [BacktrackingSolver.backtrack, genBacktrack, this, bt_tryValues_eq]

theorem fc_backtrack_eq (srt : List Value → List Value) (p : TimetableProblem) :
    ∀ (fuel : Nat) (s : SolverState),
      ForwardCheckingSolver.backtrack srt p fuel s = genBacktrack true srt p fuel s := by
  intro fuel
  induction fuel with
  | zero => intro s; rfl
  | succ fuel ih =>
    intro s
    have : ForwardCheckingSolver.backtrack srt p fuel = genBacktrack true srt p fuel := funext ih
    simp only [ForwardCheckingSolver.backtrack, genBacktrack, this, fc_tryValues_eq]

theorem getElem?_lt {α : Type} {l : List α} {i : Nat} {x : α} (h : l[i]? = some x) :
    i < l.length := by
  by_contra hcon
  rw [List.getElem?_eq_none (by omega)] at h
  cases h

theorem set_same {α : Type} {l : List α} {i : Nat} {x : α} (h : l[i]? = some x) :
    l.set i x = l := by
  apply List.ext_getElem?
  intro j
  by_cases hij : i = j
  · subst hij
    rw [List.getElem?_set_self (getElem?_lt h), h]
  · rw [List.getElem?_set_ne hij]

theorem restore_set {a : List Assignment} {c : Nat} {ac x : Assignment}
    (hs : Sentinel a) (hac : a[c]? = some ac) (hun : ac.timeslot = -1) :
    (a.set c x).set c ⟨-1, -1⟩ = a := by
  rw [List.set_set]
  apply set_same
  have hmem : ac ∈ a := by
    have hc := getElem?_lt hac
    rw [List.getElem?_eq_getElem hc] at hac
    exact Option.some.inj hac ▸ List.getElem_mem hc
  have hroom := hs ac hmem hun
  rw [hac]
  cases ac
  simp only at hun hroom
  subst hun; subst hroom
  rfl

theorem sentinel_set {a : List Assignment} {c : Nat} {x : Assignment}
    (hs : Sentinel a) (hx : x.timeslot ≠ -1) : Sentinel (a.set c x) := by
  intro y hy hyt
  rcases List.mem_or_eq_of_mem_set hy with h | h
  · exact hs y h hyt
  · subst h; exact absurd hyt hx

theorem unassignedCount_set {a : List Assignment} {c : Nat} {ac x : Assignment}
    (hac : a[c]? = some ac) (hun : ac.timeslot = -1) (hx : x.timeslot ≠ -1) :
    unassignedCount (a.set c x) + 1 = unassignedCount a := by
  have hc : c < a.length := getElem?_lt hac
  have hget : a[c] = ac := by
    rw [List.getElem?_eq_getElem hc] at hac
    exact Option.some.inj hac
  unfold unassignedCount
  rw [List.countP_set _ _ _ _ hc]
  have h1 := List.boole_getElem_le_countP (fun x : Assignment => decide (x.timeslot = -1)) a c hc
  simp only [hget, hun, decide_True, if_true, hx, decide_False, Bool.false_eq_true,
    if_false] at h1 ⊢
  omega

theorem vecSet_nat {α : Type} {v : List α} {i : Nat} (x : α) (h : i < v.length) :
    vecSet v (i : Int) x = some (v.set i x) := by
  simp [vecSet, h]

theorem vecSet_eq_some {α : Type} {v v' : List α} {i : Int} {x : α}
    (h : vecSet v i x = some v') : v' = v.set i.toNat x := by
  unfold vecSet at h
  split at h
  · cases h
  · split at h
    · exact (Option.some.inj h).symm
    · cases h

/-! ### `forwardCheck` as a whole -/

theorem forwardCheck_spec {p : TimetableProblem} {s : SolverState} {cid timeslot room : Int}
    {res : Bool × SolverState}
    (h : ForwardCheckingSolver.forwardCheck p s cid timeslot room = some res) :
    res.2.assignment = s.assignment ∧ res.2.backtrack_count = s.backtrack_count ∧
    res.2.assignment_count = s.assignment_count ∧
    PrunedFrom (PruneReason p s.assignment cid timeslot room) s.domain res.2.domain ∧
    (res.1 = false → ∃ o, o < p.courses.length ∧ (o : Int) ≠ cid ∧
      (∃ ao, s.assignment[o]? = some ao ∧ ao.timeslot = -1) ∧
      ∃ row', res.2.domain[o]? = some row' ∧
        ∀ t', t' < p.timeslots.toNat → ∀ r', r' < p.rooms.length →
          row'[t' * p.rooms.length + r']? ≠ some true) := by
  simp only [ForwardCheckingSolver.forwardCheck, Option.bind_eq_bind, Option.bind_eq_some] at h
  obtain ⟨assigned, hassigned, r1, hr1, h⟩ := h
  cases h
  obtain ⟨s1, s2⟩ := fcCourses_spec hassigned _ _ _ hr1
  refine ⟨rfl, rfl, rfl, s1, ?_⟩
  intro hf
  obtain ⟨o, ho, rest⟩ := s2 hf
  exact ⟨o, List.mem_range.mp ho, rest⟩

theorem forwardCheck_total {p : TimetableProblem} {s : SolverState} {c : Nat}
    {timeslot room : Int} (hshape : Shape p s) (hc : c < p.courses.length) :
    ∃ res, ForwardCheckingSolver.forwardCheck p s (c : Int) timeslot room = some res := by
  have hassigned : vecAt p.courses (c : Int) = some p.courses[c] := by
    rw [vecAt_natCast]; exact List.getElem?_eq_getElem hc
  obtain ⟨r1, hr1⟩ := fcCourses_total s.assignment timeslot room hassigned
    (List.range p.courses.length) s.domain
    (fun o ho => by
      have := List.mem_range.mp ho
      have := hshape.1
      omega) hshape.2.1 hshape.2.2
  refine ⟨(r1.1, { s with domain := r1.2 }), ?_⟩
  simp [ForwardCheckingSolver.forwardCheck, hassigned, hr1]

/-! ## The candidate loop -/

/-- Facts about one committed candidate, up to the point where `backtrack()`
either returns `true` or undoes the commit. -/
theorem attempt_facts {fc : Bool} {p : TimetableProblem}
    {recurse : SolverState → Option (Bool × SolverState)} {c : Nat} {v : Value}
    {s : SolverState} {a2 : List Assignment} {fcr r : Bool × SolverState}
    (ha2 : vecSet s.assignment (c : Int) ⟨v.timeslot, v.room⟩ = some a2)
    (hfcr : genPropagate fc p
      { s with assignment_count := toInt32 (s.assignment_count + 1), assignment := a2 } (c : Int)
      v.timeslot v.room = some fcr)
    (hr : genDescend recurse fcr = some r) :
    a2 = s.assignment.set c ⟨v.timeslot, v.room⟩ ∧ fcr.2.assignment = a2 ∧
    fcr.2.backtrack_count = s.backtrack_count ∧
    fcr.2.assignment_count = toInt32 (s.assignment_count + 1) ∧
    (fc = false → fcr.1 = true ∧ fcr.2.domain = s.domain) ∧
    (fcr.1 = true → recurse fcr.2 = some r) ∧ (fcr.1 = false → r = (false, fcr.2)) := by
  have e1 : a2 = s.assignment.set c ⟨v.timeslot, v.room⟩ := by
    have := vecSet_eq_some ha2
    simpa using this
  refine ⟨e1, ?_⟩
  unfold genDescend at hr
  unfold genPropagate at hfcr
  cases fc with
  | false =>
    simp only [Bool.false_eq_true, if_false, Option.some.injEq] at hfcr
    subst hfcr
    simp only [if_true] at hr
    simp [hr]
  | true =>
    simp only [if_true] at hfcr
    obtain ⟨f1, f2, f3, -, -⟩ := forwardCheck_spec hfcr
    refine ⟨f1, f2, f3, by simp, ?_, ?_⟩
    · intro ht; simpa [ht] using hr
    · intro hf
      rw [hf] at hr
      simp only [Bool.false_eq_true, if_false, Option.some.injEq] at hr
      exact hr.symm

/-- After an abandoned candidate the undo re-establishes the assignment and the
domain of the state in which the candidate was tried. -/
theorem attempt_undo {fc : Bool} {p : TimetableProblem}
    {recurse : SolverState → Option (Bool × SolverState)} {c : Nat}
    (hrec : ∀ s2 res, Sentinel s2.assignment → recurse s2 = some res → res.1 = false →
      res.2.assignment = s2.assignment ∧ res.2.domain = s2.domain)
    {v : Value} {s : SolverState} {a2 : List Assignment} {fcr r : Bool × SolverState}
    (hv : v.timeslot ≠ -1) (hsent : Sentinel s.assignment)
    (hc : ∃ ac, s.assignment[c]? = some ac ∧ ac.timeslot = -1)
    (ha2 : vecSet s.assignment (c : Int) ⟨v.timeslot, v.room⟩ = some a2)
    (hfcr : genPropagate fc p
      { s with assignment_count := toInt32 (s.assignment_count + 1), assignment := a2 } (c : Int)
      v.timeslot v.room = some fcr)
    (hr : genDescend recurse fcr = some r) (hr1 : r.1 = false) :
    vecSet r.2.assignment (c : Int) ⟨-1, -1⟩ = some s.assignment ∧
    ∀ a4, (genRestore fc s.domain r.2 a4).domain = s.domain := by
  obtain ⟨e1, e2, -, -, e5, e7, e8⟩ := attempt_facts ha2 hfcr hr
  have hsent2 : Sentinel a2 := e1 ▸ sentinel_set hsent hv
  have hr2 : r.2.assignment = a2 ∧ r.2.domain = fcr.2.domain := by
    cases hf : fcr.1 with
    | true =>
      have := hrec fcr.2 r (e2 ▸ hsent2) (e7 hf) hr1
      exact ⟨this.1.trans e2, this.2⟩
    | false =>
      rw [e8 hf]
      exact ⟨e2, rfl⟩
  obtain ⟨ac, hac, hun⟩ := hc
  have hclt : c < s.assignment.length := getElem?_lt hac
  constructor
  · rw [hr2.1, e1, vecSet_nat _ (by rw [List.length_set]; exact hclt)]
    exact congrArg some (restore_set hsent hac hun)
  · intro a4
    unfold genRestore
    cases fc with
    | true => simp
    | false =>
      simp only [Bool.false_eq_true, if_false]
      rw [hr2.2]
      exact (e5 rfl).2

/-- What a run of the candidate loop did, read off its result. -/
theorem genTry_run {fc : Bool} {p : TimetableProblem}
    {recurse : SolverState → Option (Bool × SolverState)} {c : Nat}
    (hrec : ∀ s2 res, Sentinel s2.assignment → recurse s2 = some res → res.1 = false →
      res.2.assignment = s2.assignment ∧ res.2.domain = s2.domain) :
    ∀ (vs : List Value) (s : SolverState) (res : Bool × SolverState),
      (∀ v ∈ vs, v.timeslot ≠ -1) → Sentinel s.assignment →
      (∃ ac, s.assignment[c]? = some ac ∧ ac.timeslot = -1) →
      genTry fc p recurse (c : Int) vs s = some res →
      (res.1 = false → res.2.assignment = s.assignment ∧ res.2.domain = s.domain ∧
        ∀ v ∈ vs, AttemptFails fc p recurse c s.assignment s.domain v) ∧
      (res.1 = true → ∃ v ∈ vs, AttemptSucceeds fc p recurse c s.assignment s.domain v res) := by
  intro vs
  induction vs with
  | nil =>
    intro s res _ _ _ h
    simp only [genTry, Option.some.injEq] at h
    subst h
    simp
  | cons v vs ih =>
    intro s res hvs hsent hc h
    have hvs' : ∀ v' ∈ vs, v'.timeslot ≠ -1 := fun v' hv' => hvs v' (List.mem_cons_of_mem _ hv')
    have hv : v.timeslot ≠ -1 := hvs v (List.mem_cons_self _ _)
    simp only [genTry, Option.bind_eq_bind, Option.bind_eq_some] at h
    obtain ⟨ok, hok, h⟩ := h
    split at h
    · rename_i hokt
      subst hokt
      simp only [Option.bind_eq_some] at h
      obtain ⟨a2, ha2, fcr, hfcr, r, hr, h⟩ := h
      obtain ⟨e1, -, -, -, -, e7, e8⟩ := attempt_facts ha2 hfcr hr
      subst e1
      split at h
      · rename_i hr1
        cases h
        refine ⟨fun hf => absurd hf (by simp), fun _ => ⟨v, List.mem_cons_self _ _, hok, ?_⟩⟩
        have hf1 : fcr.1 = true := by
          cases hf : fcr.1 with
          | true => rfl
          | false => rw [e8 hf] at hr1; simp at hr1
        refine ⟨_, _, fcr, hfcr, hf1, ?_⟩
        rw [e7 hf1]
        obtain ⟨r1, r2⟩ := r
        simp only at hr1
        subst hr1
        rfl
      · rename_i hr1
        have hr1' : r.1 = false := by simpa using hr1
        simp only [Option.bind_eq_some] at h
        obtain ⟨a4, ha4, h⟩ := h
        obtain ⟨u1, u2⟩ := attempt_undo hrec hv hsent hc ha2 hfcr hr hr1'
        rw [u1] at ha4
        cases ha4
        have hasg : (genRestore fc s.domain r.2 s.assignment).assignment = s.assignment := rfl
        have hdom := u2 s.assignment
        have := ih _ res hvs' (hasg ▸ hsent) (hasg ▸ hc) h
        rw [hasg, hdom] at this
        refine ⟨fun hf => ?_, fun ht => ?_⟩
        · obtain ⟨i1, i2, i3⟩ := this.1 hf
          refine ⟨i1, i2, ?_⟩
          intro v' hv'
          rcases List.mem_cons.mp hv' with rfl | hv'
          · exact Or.inr ⟨_, _, fcr, r, hfcr, hr, hr1'⟩
          · exact i3 v' hv'
        · obtain ⟨v', hv', i1⟩ := this.2 ht
          exact ⟨v', List.mem_cons_of_mem _ hv', i1⟩
    · rename_i hokf
      have hokf' : ok = false := by simpa using hokf
      subst hokf'
      have := ih { s with assignment_count := toInt32 (s.assignment_count + 1) } res hvs' hsent hc h
      refine ⟨fun hf => ?_, fun ht => ?_⟩
      · obtain ⟨i1, i2, i3⟩ := this.1 hf
        refine ⟨i1, i2, ?_⟩
        intro v' hv'
        rcases List.mem_cons.mp hv' with rfl | hv'
        · exact Or.inl hok
        · exact i3 v' hv'
      · obtain ⟨v', hv', i1⟩ := this.2 ht
        exact ⟨v', List.mem_cons_of_mem _ hv', i1⟩

theorem odv_timeslot_ne {srt : List Value → List Value} (hsrt : StdSort srt)
    {p : TimetableProblem} {cid : Int} {d : List (List Bool)} {vs : List Value}
    (h : orderDomainValues srt p cid d = some vs) : ∀ v ∈ vs, v.timeslot ≠ -1 := by
  intro v hv
  obtain ⟨t, -, r, -, rfl, -⟩ := (odv_mem hsrt h v).mp hv
  simp only
  omega

/-- A call of `backtrack()` that returns `false` leaves `assignment` and
`domain` as they were at entry. -/
theorem genBacktrack_frame {fc : Bool} {srt : List Value → List Value} (hsrt : StdSort srt)
    {p : TimetableProblem} :
    ∀ (fuel : Nat) (s : SolverState) (res : Bool × SolverState), Sentinel s.assignment →
      genBacktrack fc srt p fuel s = some res → res.1 = false →
      res.2.assignment = s.assignment ∧ res.2.domain = s.domain := by
  intro fuel
  induction fuel with
  | zero => intro s res _ h; simp [genBacktrack] at h
  | succ fuel ih =>
    intro s res hsent h hres
    simp only [genBacktrack, Option.bind_eq_bind, Option.bind_eq_some] at h
    obtain ⟨cid, hcid, h⟩ := h
    split at h
    · cases h; cases hres
    · rename_i hne
      simp only [Option.bind_eq_some] at h
      obtain ⟨vs, hvs, h⟩ := h
      rcases mrv_cases hcid with h1 | ⟨c, -, rfl, hc⟩
      · exact absurd h1 hne
      · have := (genTry_run ih vs s res (odv_timeslot_ne hsrt hvs) hsent hc h).1 hres
        exact ⟨this.1, this.2.1⟩

/-! ## Termination -/

theorem Shape.congr {p : TimetableProblem} {s s' : SolverState} (h : Shape p s)
    (ha : s'.assignment = s.assignment) (hd : s'.domain = s.domain) : Shape p s' := by
  unfold Shape at *
  rw [ha, hd]
  exact h

theorem genPropagate_shape {fc : Bool} {p : TimetableProblem} {s : SolverState}
    {cid timeslot room : Int} {fcr : Bool × SolverState} (hshape : Shape p s)
    (h : genPropagate fc p s cid timeslot room = some fcr) :
    Shape p fcr.2 ∧ fcr.2.assignment = s.assignment := by
  unfold genPropagate at h
  cases fc with
  | false =>
    simp only [Bool.false_eq_true, if_false, Option.some.injEq] at h
    subst h
    exact ⟨hshape, rfl⟩
  | true =>
    simp only [if_true] at h
    obtain ⟨f1, -, -, f4, -⟩ := forwardCheck_spec h
    exact ⟨⟨f1 ▸ hshape.1, f4.1.trans hshape.2.1, f4.rows hshape.2.2⟩, f1⟩

theorem genPropagate_total (fc : Bool) {p : TimetableProblem} {s : SolverState} {c : Nat}
    (timeslot room : Int) (hshape : Shape p s) (hc : c < p.courses.length) :
    ∃ fcr, genPropagate fc p s (c : Int) timeslot room = some fcr := by
  unfold genPropagate
  cases fc with
  | false => exact ⟨_, rfl⟩
  | true => simpa using forwardCheck_total hshape hc

theorem genTry_total {fc : Bool} {p : TimetableProblem}
    {recurse : SolverState → Option (Bool × SolverState)} {c fuel : Nat} (hval : Validated p)
    (hrec : ∀ s2 res, Sentinel s2.assignment → recurse s2 = some res → res.1 = false →
      res.2.assignment = s2.assignment ∧ res.2.domain = s2.domain)
    (htot : ∀ s2, Shape p s2 → Sentinel s2.assignment → unassignedCount s2.assignment < fuel →
      ∃ res, recurse s2 = some res)
    (hc : c < p.courses.length) :
    ∀ (vs : List Value) (s : SolverState),
      (∀ v ∈ vs, ∃ t r : Nat, v = ⟨(t : Int), (r : Int), (c : Int)⟩ ∧ r < p.rooms.length) →
      Shape p s → Sentinel s.assignment →
      (∃ ac, s.assignment[c]? = some ac ∧ ac.timeslot = -1) →
      unassignedCount s.assignment ≤ fuel →
      ∃ res, genTry fc p recurse (c : Int) vs s = some res := by
  intro vs
  induction vs with
  | nil => intro s _ _ _ _ _; exact ⟨(false, s), rfl⟩
  | cons v vs ih =>
    intro s hvs hshape hsent hun hcount
    have hvs' : ∀ v' ∈ vs, ∃ t r : Nat, v' = ⟨(t : Int), (r : Int), (c : Int)⟩ ∧
        r < p.rooms.length := fun v' hv' => hvs v' (List.mem_cons_of_mem _ hv')
    obtain ⟨t, r, rfl, hr⟩ := hvs _ (List.mem_cons_self _ _)
    have hvt : (⟨(t : Int), (r : Int), (c : Int)⟩ : Value).timeslot ≠ -1 := by
      simp only; omega
    obtain ⟨ok, hok⟩ := isConsistent_total hval (t := (t : Int)) hshape.1 hc hr
    have hca : c < s.assignment.length := by rw [hshape.1]; exact hc
    simp only [genTry, Option.bind_eq_bind, hok, Option.some_bind]
    cases ok with
    | false =>
      simp only [Bool.false_eq_true, if_false]
      exact ih _ hvs' (hshape.congr rfl rfl) hsent hun hcount
    | true =>
      simp only [if_true]
      have ha2 := vecSet_nat (⟨(t : Int), (r : Int)⟩ : Assignment) hca
      rw [ha2]
      simp only [Option.some_bind]
      have hshape2 : Shape p ⟨s.assignment.set c ⟨(t : Int), (r : Int)⟩, s.domain,
          s.backtrack_count, toInt32 (s.assignment_count + 1)⟩ :=
        ⟨by simp only [List.length_set]; exact hshape.1, hshape.2⟩
      obtain ⟨fcr, hfcr⟩ := genPropagate_total fc (t : Int) (r : Int) hshape2 hc
      obtain ⟨hshape3, hasg3⟩ := genPropagate_shape hshape2 hfcr
      obtain ⟨ac, hac, hact⟩ := hun
      have hcnt := unassignedCount_set (x := ⟨(t : Int), (r : Int)⟩) hac hact (by simp only; omega)
      have hsent3 : Sentinel fcr.2.assignment := by
        rw [hasg3]; exact sentinel_set hsent (by simp only; omega)
      obtain ⟨res, hres⟩ : ∃ res, genDescend recurse fcr = some res := by
        unfold genDescend
        cases hf : fcr.1 with
        | false => exact ⟨_, rfl⟩
        | true =>
          simp only [if_true]
          refine htot fcr.2 hshape3 hsent3 ?_
          rw [hasg3]
          simp only at hcnt ⊢
          omega
      rw [hfcr]
      simp only [Option.some_bind, hres]
      cases hr1 : res.1 with
      | true => exact ⟨_, rfl⟩
      | false =>
        simp only [Bool.false_eq_true, if_false]
        obtain ⟨u1, u2⟩ := attempt_undo (v := ⟨(t : Int), (r : Int), (c : Int)⟩) hrec hvt hsent
          ⟨ac, hac, hact⟩ ha2 hfcr hres hr1
        rw [u1]
        simp only [Option.some_bind]
        have hasg : (genRestore fc s.domain res.2 s.assignment).assignment = s.assignment := rfl
        exact ih _ hvs' (hshape.congr hasg (u2 _)) (hasg ▸ hsent) (hasg ▸ ⟨ac, hac, hact⟩)
          (hasg ▸ hcount)

/-- With more fuel than unassigned courses `backtrack()` returns. -/
theorem genBacktrack_total (fc : Bool) {srt : List Value → List Value} (hsrt : StdSort srt)
    {p : TimetableProblem} (hval : Validated p) :
    ∀ (fuel : Nat) (s : SolverState), Shape p s → Sentinel s.assignment →
      unassignedCount s.assignment < fuel → ∃ res, genBacktrack fc srt p fuel s = some res := by
  intro fuel
  induction fuel with
  | zero => intro s _ _ h; omega
  | succ fuel ih =>
    intro s hshape hsent hcount
    obtain ⟨cid, hcid⟩ := mrv_total hshape.1 hshape.2.1 hshape.2.2
    simp only [genBacktrack, Option.bind_eq_bind, hcid, Option.some_bind]
    split
    · exact ⟨_, rfl⟩
    · rename_i hne
      rcases mrv_cases hcid with h1 | ⟨c, hc, rfl, hun⟩
      · exact absurd h1 hne
      · obtain ⟨vs, hvs⟩ := odv_total srt hc hshape.2.1 hshape.2.2
        simp only [hvs, Option.some_bind]
        refine genTry_total hval (genBacktrack_frame hsrt fuel) ih hc vs s ?_ hshape hsent hun
          (by omega)
        intro v hv
        obtain ⟨t, -, r, hr, rfl, -⟩ := (odv_mem hsrt hvs v).mp hv
        exact ⟨t, r, rfl, hr⟩

/-! ## Soundness -/

theorem share_iff (c1 c2 : Course) :
    shareStudentGroups c1 c2 = true ↔ ∃ g, g ∈ c1.student_groups ∧ g ∈ c2.student_groups := by
  simp only [shareStudentGroups, List.any_eq_true, beq_iff_eq]
  constructor
  · rintro ⟨g1, h1, g2, h2, rfl⟩
    exact ⟨g1, h1, h2⟩
  · rintro ⟨g, h1, h2⟩
    exact ⟨g, h1, g, h2, rfl⟩

theorem share_comm (c1 c2 : Course) :
    shareStudentGroups c1 c2 = true ↔ shareStudentGroups c2 c1 = true := by
  rw [share_iff, share_iff]
  constructor <;> rintro ⟨g, h1, h2⟩ <;> exact ⟨g, h2, h1⟩

theorem Conflict.symm {p : TimetableProblem} {c o : Nat} (h : Conflict p c o) :
    Conflict p o c := by
  obtain ⟨cc, co, h1, h2, h3⟩ := h
  refine ⟨co, cc, h2, h1, ?_⟩
  rcases h3 with h3 | h3
  · exact Or.inl h3.symm
  · exact Or.inr ((share_comm _ _).mp h3)

theorem genPropagate_asg {fc : Bool} {p : TimetableProblem} {s : SolverState}
    {cid timeslot room : Int} {fcr : Bool × SolverState}
    (h : genPropagate fc p s cid timeslot room = some fcr) :
    fcr.2.assignment = s.assignment := by
  unfold genPropagate at h
  cases fc with
  | false =>
    simp only [Bool.false_eq_true, if_false, Option.some.injEq] at h
    subst h
    rfl
  | true =>
    simp only [if_true] at h
    exact (forwardCheck_spec h).1

theorem consistentAll_set {p : TimetableProblem} {a : List Assignment} {c : Nat}
    {ac : Assignment} {t r : Int} (hcons : ConsistentAll p a) (hac : a[c]? = some ac)
    (hstatic : StaticOK p c t r) (hclash : ¬ Clash p a c t) :
    ConsistentAll p (a.set c ⟨t, r⟩) := by
  have hc : c < a.length := getElem?_lt hac
  intro i x hx hxt
  by_cases hic : i = c
  · subst hic
    rw [List.getElem?_set_self hc] at hx
    cases hx
    refine ⟨hstatic, ?_⟩
    rintro ⟨o, ao, hne, hlt, hao, hts, ht, hconf⟩
    rw [List.getElem?_set_ne (Ne.symm hne)] at hao
    exact hclash ⟨o, ao, hne, hlt, hao, hts, ht, hconf⟩
  · rw [List.getElem?_set_ne (Ne.symm hic)] at hx
    obtain ⟨h1, h2⟩ := hcons i x hx hxt
    refine ⟨h1, ?_⟩
    rintro ⟨o, ao, hne, hlt, hao, hts, ht, hconf⟩
    by_cases hoc : o = c
    · subst hoc
      rw [List.getElem?_set_self hc] at hao
      cases hao
      simp only at hts
      apply hclash
      have hi : i < p.courses.length := by
        obtain ⟨cc, co, hcc, -, -⟩ := hconf
        exact getElem?_lt hcc
      exact ⟨i, x, hic, hi, hx, hts.symm, hts ▸ ht, hconf.symm⟩
    · rw [List.getElem?_set_ne (Ne.symm hoc)] at hao
      exact h2 ⟨o, ao, hne, hlt, hao, hts, ht, hconf⟩

theorem inRange_set {p : TimetableProblem} {a : List Assignment} {c t r : Nat}
    (h : InRange p a) (ht : t < p.timeslots.toNat) (hr : r < p.rooms.length) :
    InRange p (a.set c ⟨(t : Int), (r : Int)⟩) := by
  intro x hx hxt
  rcases List.mem_or_eq_of_mem_set hx with h1 | h1
  · exact h x h1 hxt
  · subst h1
    simp only
    omega

/-- When the initial `min_remaining` fits an `int`, a call of `backtrack()`
that returns `true` ends in a complete, in-range assignment in which every
course passes checks 1-5. -/
theorem genBacktrack_sound {fc : Bool} {srt : List Value → List Value} (hsrt : StdSort srt)
    {p : TimetableProblem} (hT : 0 ≤ p.timeslots) (hfit : MinRemainingFits p) :
    ∀ (fuel : Nat) (s : SolverState) (res : Bool × SolverState), Sentinel s.assignment →
      s.assignment.length = p.courses.length → InRange p s.assignment →
      ConsistentAll p s.assignment →
      genBacktrack fc srt p fuel s = some res → res.1 = true →
      res.2.assignment.length = p.courses.length ∧ InRange p res.2.assignment ∧
      ConsistentAll p res.2.assignment ∧ ∀ x ∈ res.2.assignment, x.timeslot ≠ -1 := by
  intro fuel
  induction fuel with
  | zero => intro s res _ _ _ _ h; simp [genBacktrack] at h
  | succ fuel ih =>
    intro s res hsent hlen hrange hcons h hres
    simp only [genBacktrack, Option.bind_eq_bind, Option.bind_eq_some] at h
    obtain ⟨cid, hcid, h⟩ := h
    split at h
    · rename_i hm1
      cases h
      subst hm1
      refine ⟨hlen, hrange, hcons, ?_⟩
      intro x hx
      obtain ⟨i, hi, rfl⟩ := List.getElem_of_mem hx
      exact mrv_none hT hfit hcid i (hlen ▸ hi) _ (List.getElem?_eq_getElem hi)
    · rename_i hne
      simp only [Option.bind_eq_some] at h
      obtain ⟨vs, hvs, h⟩ := h
      rcases mrv_cases hcid with h1 | ⟨c, hc, rfl, ac, hac, hun⟩
      · exact absurd h1 hne
      · obtain ⟨v, hv, hok, bc, acn, fcr, hfcr, -, hrec⟩ :=
          (genTry_run (genBacktrack_frame hsrt fuel) vs s res (odv_timeslot_ne hsrt hvs) hsent
            ⟨ac, hac, hun⟩ h).2 hres
        obtain ⟨t, ht, r, hr, rfl, -⟩ := (odv_mem hsrt hvs v).mp hv
        have hasg := genPropagate_asg hfcr
        simp only at hasg hok
        obtain ⟨hstatic, hclash⟩ := (isConsistent_iff hok).mp rfl
        refine ih fcr.2 res ?_ ?_ ?_ ?_ hrec hres
        · rw [hasg]; exact sentinel_set hsent (by simp only; omega)
        · rw [hasg, List.length_set]; exact hlen
        · rw [hasg]; exact inRange_set hrange ht hr
        · rw [hasg]; exact consistentAll_set hcons hac hstatic hclash

/-! ## The sentinel assertion -/

theorem sentinelCheck_iff (s : SolverState) : sentinelCheck s = true ↔ Sentinel s.assignment := by
  simp only [sentinelCheck, List.all_eq_true, decide_eq_true_eq, Sentinel]

/-- The candidate loop does not tell apart two versions of the recursive call
that agree on every state with a `Sentinel` assignment. -/
theorem genTry_congr {fc : Bool} {p : TimetableProblem}
    {rec1 rec2 : SolverState → Option (Bool × SolverState)} {c : Nat}
    (hagree : ∀ s2, Sentinel s2.assignment → rec1 s2 = rec2 s2)
    (hrec : ∀ s2 res, Sentinel s2.assignment → rec2 s2 = some res → res.1 = false →
      res.2.assignment = s2.assignment ∧ res.2.domain = s2.domain) :
    ∀ (vs : List Value) (s : SolverState),
      (∀ v ∈ vs, v.timeslot ≠ -1) → Sentinel s.assignment →
      (∃ ac, s.assignment[c]? = some ac ∧ ac.timeslot = -1) →
      genTry fc p rec1 (c : Int) vs s = genTry fc p rec2 (c : Int) vs s := by
  intro vs
  induction vs with
  | nil => intro s _ _ _; rfl
  | cons v vs ih =>
    intro s hvs hsent hc
    have hvs' : ∀ v' ∈ vs, v'.timeslot ≠ -1 := fun v' hv' => hvs v' (List.mem_cons_of_mem _ hv')
    have hv : v.timeslot ≠ -1 := hvs v (List.mem_cons_self _ _)
    simp only [genTry, Option.bind_eq_bind]
    cases isConsistentBody p s.assignment (c : Int) v.timeslot v.room with
    | none => rfl
    | some ok =>
      cases ok with
      | false =>
        simp only [Option.some_bind, Bool.false_eq_true, if_false]
        exact ih _ hvs' hsent hc
      | true =>
        simp only [Option.some_bind, if_true]
        cases ha2 : vecSet s.assignment (c : Int) ⟨v.timeslot, v.room⟩ with
        | none => rfl
        | some a2 =>
          simp only [Option.some_bind]
          cases hfcr : genPropagate fc p
            { assignment := a2, domain := s.domain, backtrack_count := s.backtrack_count,
              assignment_count := toInt32 (s.assignment_count + 1) } (c : Int) v.timeslot v.room with
          | none => rfl
          | some fcr =>
            simp only [Option.some_bind]
            have hasg := genPropagate_asg hfcr
            have e1 : a2 = s.assignment.set c ⟨v.timeslot, v.room⟩ := by
              have := vecSet_eq_some ha2
              simpa using this
            have hsent2 : Sentinel fcr.2.assignment := by
              rw [hasg, e1]
              exact sentinel_set hsent hv
            have hdesc : genDescend rec1 fcr = genDescend rec2 fcr := by
              unfold genDescend
              rw [hagree fcr.2 hsent2]
            rw [hdesc]
            cases hr : genDescend rec2 fcr with
            | none => rfl
            | some r =>
              simp only [Option.some_bind]
              cases hr1 : r.1 with
              | true => rfl
              | false =>
                simp only [Bool.false_eq_true, if_false]
                obtain ⟨u1, -⟩ := attempt_undo hrec hv hsent hc ha2 hfcr hr hr1
                rw [u1]
                simp only [Option.some_bind]
                have hasg4 : (genRestore fc s.domain r.2 s.assignment).assignment =
                    s.assignment := rfl
                exact ih _ hvs' (hasg4 ▸ hsent) (hasg4 ▸ hc)

/-- The assertion "every unassigned entry is `Assignment(-1, -1)`" at the entry
of `backtrack()` never fails in a run that starts from such a state. -/
theorem sentinel_at_every_call {fc : Bool} {srt : List Value → List Value}
    (hsrt : StdSort srt) {p : TimetableProblem} :
    ∀ (fuel : Nat) (s : SolverState), Sentinel s.assignment →
      genBacktrackAsserting sentinelCheck fc srt p fuel s = genBacktrack fc srt p fuel s := by
  intro fuel
  induction fuel with
  | zero => intro s _; rfl
  | succ fuel ih =>
    intro s hsent
    simp only [genBacktrackAsserting, genBacktrack, (sentinelCheck_iff s).mpr hsent, if_true,
      Option.bind_eq_bind]
    cases hcid : selectUnassignedVariableMRV p s.assignment s.domain with
    | none => rfl
    | some cid =>
      simp only [Option.some_bind]
      split
      · rfl
      · rename_i hne
        cases hvs : orderDomainValues srt p cid s.domain with
        | none => rfl
        | some vs =>
          simp only [Option.some_bind]
          rcases mrv_cases hcid with h1 | ⟨c, -, rfl, hc⟩
          · exact absurd h1 hne
          · exact genTry_congr ih (genBacktrack_frame hsrt fuel) vs s
              (odv_timeslot_ne hsrt hvs) hsent hc

/-! ## Completeness -/

theorem compat_no_clash {excl : Bool} {p : TimetableProblem} {S a : List Assignment}
    {d : List (List Bool)} {c t r : Nat} (hgood : GoodSolution excl p S)
    (hcompat : Compatible p S a d) (hS : S[c]? = some ⟨(t : Int), (r : Int)⟩) :
    ¬ Clash p a c (t : Int) := by
  rintro ⟨o, ao, hne, hlt, hao, hts, ht, hconf⟩
  obtain ⟨t', r', hx, -, -, -, hclash⟩ := hgood.2.1 c _ hS
  cases hx
  have hSo := (hcompat o ao hao).1 (by rw [hts]; exact ht)
  exact hclash ⟨o, ao, hne, hlt, hSo, hts, ht, hconf⟩

theorem propagate_compat {fc : Bool} {p : TimetableProblem} {S a : List Assignment}
    {d : List (List Bool)} {c t r : Nat} {bc acn : Int} {fcr : Bool × SolverState}
    (hgood : GoodSolution fc p S) (hcompat : Compatible p S a d)
    (hc : c < a.length) (hS : S[c]? = some ⟨(t : Int), (r : Int)⟩)
    (hfcr : genPropagate fc p ⟨a.set c ⟨(t : Int), (r : Int)⟩, d, bc, acn⟩ (c : Int)
      (t : Int) (r : Int) = some fcr) :
    Compatible p S fcr.2.assignment fcr.2.domain ∧ fcr.1 = true := by
  have hasg := genPropagate_asg hfcr
  simp only at hasg
  obtain ⟨tc, rc, hx, -, -, -, hclash⟩ := hgood.2.1 c _ hS
  cases hx
  -- the domain after propagation still holds the value of every unassigned course
  have hkeep : ∀ i x, i ≠ c → a[i]? = some x → x.timeslot = -1 →
      ∀ ti ri : Nat, S[i]? = some ⟨(ti : Int), (ri : Int)⟩ →
        Viable d i (ti * p.rooms.length + ri) → Viable fcr.2.domain i (ti * p.rooms.length + ri) := by
    intro i x hic hx hxt ti ri hSi hvi
    unfold genPropagate at hfcr
    cases fc with
    | false =>
      simp only [Bool.false_eq_true, if_false, Option.some.injEq] at hfcr
      subst hfcr
      exact hvi
    | true =>
      simp only [if_true] at hfcr
      obtain ⟨-, -, -, f4, -⟩ := forwardCheck_spec hfcr
      rcases f4.viable hvi with h1 | h1
      · exact h1
      · exfalso
        obtain ⟨-, -, assigned, other, hassigned, hother, t', r', hr', hidx, hts, hwhy⟩ := h1
        obtain ⟨ti', ri', hxi, -, hri, -, -⟩ := hgood.2.1 i _ hSi
        cases hxi
        obtain ⟨e1, e2⟩ := index_inj hri hr' hidx
        subst e1; subst e2
        have htt : ti = t := by exact_mod_cast hts
        subst htt
        rw [vecAt_natCast] at hassigned
        have hi : i < p.courses.length := getElem?_lt hother
        rcases hwhy with h2 | h2 | h2
        · exact hclash ⟨i, _, hic, hi, hSi, rfl, by omega, assigned, other, hassigned, hother,
            Or.inl h2⟩
        · have hrr : ri = r := by exact_mod_cast h2
          subst hrr
          exact hgood.2.2 rfl i c _ _ hic hSi hS rfl rfl
        · exact hclash ⟨i, _, hic, hi, hSi, rfl, by omega, assigned, other, hassigned, hother,
            Or.inr h2⟩
  have hcompat2 : Compatible p S fcr.2.assignment fcr.2.domain := by
    rw [hasg]
    intro i x hx
    by_cases hic : i = c
    · subst hic
      rw [List.getElem?_set_self hc] at hx
      cases hx
      refine ⟨fun _ => hS, fun h => ?_⟩
      simp only at h
      omega
    · rw [List.getElem?_set_ne (Ne.symm hic)] at hx
      refine ⟨(hcompat i x hx).1, fun hxt => ?_⟩
      obtain ⟨ti, ri, hSi, hvi⟩ := (hcompat i x hx).2 hxt
      exact ⟨ti, ri, hSi, hkeep i x hic hx hxt ti ri hSi hvi⟩
  refine ⟨hcompat2, ?_⟩
  cases hb : fcr.1 with
  | true => rfl
  | false =>
    exfalso
    unfold genPropagate at hfcr
    cases fc with
    | false =>
      simp only [Bool.false_eq_true, if_false, Option.some.injEq] at hfcr
      subst hfcr
      cases hb
    | true =>
      simp only [if_true] at hfcr
      obtain ⟨-, -, -, -, f5⟩ := forwardCheck_spec hfcr
      obtain ⟨o, -, -, ⟨ao, hao, haot⟩, row', hrow', hall⟩ := f5 hb
      simp only at hao
      rw [← hasg] at hao
      obtain ⟨t1, r1, hSo, row, hrow, hv⟩ := (hcompat2 o ao hao).2 haot
      obtain ⟨t2, r2, hxo, ht1, hr1, -, -⟩ := hgood.2.1 o _ hSo
      cases hxo
      rw [hrow'] at hrow
      cases hrow
      exact hall t1 ht1 r1 hr1 hv

/-- From a state that can still be extended to a good solution `S`,
`backtrack()` returns `true`. -/
theorem genBacktrack_complete {fc : Bool} {srt : List Value → List Value} (hsrt : StdSort srt)
    {p : TimetableProblem} (hval : Validated p) {S : List Assignment}
    (hgood : GoodSolution fc p S) :
    ∀ (fuel : Nat) (s : SolverState), Shape p s → Sentinel s.assignment →
      unassignedCount s.assignment < fuel → Compatible p S s.assignment s.domain →
      ∃ res, genBacktrack fc srt p fuel s = some res ∧ res.1 = true := by
  intro fuel
  induction fuel with
  | zero => intro s _ _ h; omega
  | succ fuel ih =>
    intro s hshape hsent hcount hcompat
    obtain ⟨res, hres⟩ := genBacktrack_total fc hsrt hval (fuel + 1) s hshape hsent hcount
    refine ⟨res, hres, ?_⟩
    cases hb : res.1 with
    | true => rfl
    | false =>
      exfalso
      simp only [genBacktrack, Option.bind_eq_bind, Option.bind_eq_some] at hres
      obtain ⟨cid, hcid, h⟩ := hres
      split at h
      · cases h; cases hb
      · rename_i hne
        simp only [Option.bind_eq_some] at h
        obtain ⟨vs, hvs, h⟩ := h
        rcases mrv_cases hcid with h1 | ⟨c, hc, rfl, ac, hac, hun⟩
        · exact absurd h1 hne
        · obtain ⟨-, -, hfail⟩ :=
            (genTry_run (genBacktrack_frame hsrt fuel) vs s res (odv_timeslot_ne hsrt hvs) hsent
              ⟨ac, hac, hun⟩ h).1 hb
          obtain ⟨t, r, hS, hviable⟩ := (hcompat c ac hac).2 hun
          obtain ⟨t', r', hx, ht, hr, hstatic, -⟩ := hgood.2.1 c _ hS
          cases hx
          have hmem : (⟨(t : Int), (r : Int), (c : Int)⟩ : Value) ∈ vs := by
            rw [odv_mem hsrt hvs]
            obtain ⟨row, hrow, hidx⟩ := hviable
            exact ⟨t, ht, r, hr, rfl, row, by rw [vecAt_natCast]; exact hrow, hidx⟩
          have hca : c < s.assignment.length := getElem?_lt hac
          rcases hfail _ hmem with hincons | ⟨bc, acn, fcr, r1, hfcr, hdesc, hr1⟩
          · have := (isConsistent_iff hincons).mpr ⟨hstatic, compat_no_clash hgood hcompat hS⟩
            cases this
          · simp only at hfcr
            obtain ⟨hcompat2, hf1⟩ := propagate_compat hgood hcompat hca hS hfcr
            have hasg := genPropagate_asg hfcr
            simp only at hasg
            have hshape2 : Shape p ⟨s.assignment.set c ⟨(t : Int), (r : Int)⟩, s.domain, bc,
                acn⟩ := ⟨by simp only [List.length_set]; exact hshape.1, hshape.2⟩
            obtain ⟨hshape3, -⟩ := genPropagate_shape hshape2 hfcr
            have hcnt := unassignedCount_set (x := ⟨(t : Int), (r : Int)⟩) hac hun
              (by simp only; omega)
            obtain ⟨res2, hres2, hb2⟩ := ih fcr.2 hshape3
              (by rw [hasg]; exact sentinel_set hsent (by simp only; omega))
              (by rw [hasg]; omega) hcompat2
            unfold genDescend at hdesc
            rw [hf1] at hdesc
            simp only [if_true] at hdesc
            rw [hres2] at hdesc
            cases hdesc
            rw [hb2] at hr1
            cases hr1

/-! ## `std::sort`, the constructor and `solve()` -/

theorem insertByTimeslot_perm (v : Value) :
    ∀ l : List Value, (insertByTimeslot v l).Perm (v :: l) := by
  intro l
  induction l with
  | nil => exact List.Perm.refl _
  | cons w ws ih =>
    unfold insertByTimeslot
    split
    · exact ((List.Perm.cons w ih).trans (List.Perm.swap v w ws))
    · exact List.Perm.refl _

theorem insertByTimeslot_sorted (v : Value) :
    ∀ l : List Value, l.Pairwise (fun a b => ¬ b.timeslot < a.timeslot) →
      (insertByTimeslot v l).Pairwise (fun a b => ¬ b.timeslot < a.timeslot) := by
  intro l
  induction l with
  | nil => intro _; simp [insertByTimeslot]
  | cons w ws ih =>
    intro h
    obtain ⟨h1, h2⟩ := List.pairwise_cons.mp h
    unfold insertByTimeslot
    split
    · rename_i hlt
      refine List.pairwise_cons.mpr ⟨?_, ih h2⟩
      intro x hx
      rcases List.mem_cons.mp ((insertByTimeslot_perm v ws).mem_iff.mp hx) with rfl | hx'
      · omega
      · exact h1 x hx'
    · rename_i hnlt
      refine List.pairwise_cons.mpr ⟨?_, h⟩
      intro x hx
      rcases List.mem_cons.mp hx with rfl | hx'
      · exact hnlt
      · have := h1 x hx'
        omega

/-- The insertion sort meets the contract of `std::sort`. -/
theorem insertionSort_stdSort : StdSort insertionSortByTimeslot := by
  intro l
  induction l with
  | nil => exact ⟨List.Perm.refl _, List.Pairwise.nil⟩
  | cons v vs ih =>
    unfold insertionSortByTimeslot
    exact ⟨(insertByTimeslot_perm v _).trans (List.Perm.cons v ih.1),
      insertByTimeslot_sorted v _ ih.2⟩

/-! ### The constructor -/

theorem newSolver_eq {p : TimetableProblem} {s : SolverState} (h : newSolver p = some s) :
    s = ⟨List.replicate p.courses.length ⟨-1, -1⟩,
      List.replicate p.courses.length
        (List.replicate (p.timeslots.toNat * p.rooms.length) true), 0, 0⟩ := by
  simp only [newSolver, initializeDomain, Option.bind_eq_bind, Option.bind_eq_some] at h
  obtain ⟨d, hd, h⟩ := h
  split at hd
  · cases hd
  · cases hd
    exact (Option.some.inj h).symm

theorem newSolver_total {p : TimetableProblem} (hT : 0 ≤ p.timeslots) :
    ∃ s, newSolver p = some s := by
  simp only [newSolver, initializeDomain, Option.bind_eq_bind]
  rw [if_neg (by omega)]
  exact ⟨_, rfl⟩

theorem newSolver_facts {p : TimetableProblem} {s : SolverState} (h : newSolver p = some s) :
    Shape p s ∧ Sentinel s.assignment ∧ InRange p s.assignment ∧ ConsistentAll p s.assignment ∧
    unassignedCount s.assignment < p.courses.length + 1 := by
  rw [newSolver_eq h]
  refine ⟨⟨by simp, by simp, ?_⟩, ?_, ?_, ?_, ?_⟩
  · intro row hrow
    simp only at hrow
    rw [List.eq_of_mem_replicate hrow, List.length_replicate]
  · intro x hx _
    simp only at hx
    rw [List.eq_of_mem_replicate hx]
  · intro x hx hxt
    simp only at hx
    rw [List.eq_of_mem_replicate hx] at hxt
    exact absurd rfl hxt
  · intro i x hx hxt
    simp only at hx
    have hi := getElem?_lt hx
    rw [List.getElem?_eq_getElem hi, List.getElem_replicate] at hx
    cases hx
    exact absurd rfl hxt
  · simp only
    have := List.countP_le_length (fun x : Assignment => decide (x.timeslot = -1))
      (l := List.replicate p.courses.length (⟨-1, -1⟩ : Assignment))
    simp only [List.length_replicate] at this
    unfold unassignedCount
    omega

theorem newSolver_compatible {excl : Bool} {p : TimetableProblem} {s : SolverState}
    {S : List Assignment} (h : newSolver p = some s) (hgood : GoodSolution excl p S) :
    Compatible p S s.assignment s.domain := by
  rw [newSolver_eq h]
  intro i x hx
  simp only at hx
  have hi := getElem?_lt hx
  rw [List.getElem?_eq_getElem hi, List.getElem_replicate] at hx
  cases hx
  simp only [List.length_replicate] at hi
  refine ⟨fun hne => absurd rfl hne, fun _ => ?_⟩
  have hiS : i < S.length := by rw [hgood.1]; exact hi
  obtain ⟨t, r, hx, ht, hr, -, -⟩ := hgood.2.1 i S[i] (List.getElem?_eq_getElem hiS)
  refine ⟨t, r, by rw [List.getElem?_eq_getElem hiS, hx], ?_⟩
  refine ⟨List.replicate (p.timeslots.toNat * p.rooms.length) true, ?_, ?_⟩
  · simp only
    rw [List.getElem?_replicate_of_lt hi]
  · rw [List.getElem?_replicate_of_lt (index_lt ht hr)]

/-! ### `solve()` of both solvers through the common text -/

theorem bt_solve_eq (srt : List Value → List Value) (p : TimetableProblem) :
    BacktrackingSolver.solve srt p =
      (newSolver p).bind (genBacktrack false srt p (p.courses.length + 1)) := by
  have : BacktrackingSolver.backtrack srt p (p.courses.length + 1) =
      genBacktrack false srt p (p.courses.length + 1) := funext (bt_backtrack_eq srt p _)
  simp only [BacktrackingSolver.solve, Option.bind_eq_bind, this]

theorem fc_solve_eq (srt : List Value → List Value) (p : TimetableProblem) :
    ForwardCheckingSolver.solve srt p =
      (newSolver p).bind (genBacktrack true srt p (p.courses.length + 1)) := by
  have : ForwardCheckingSolver.backtrack srt p (p.courses.length + 1) =
      genBacktrack true srt p (p.courses.length + 1) := funext (fc_backtrack_eq srt p _)
  simp only [ForwardCheckingSolver.solve, Option.bind_eq_bind, this]

theorem genSolve_total (fc : Bool) {srt : List Value → List Value} (hsrt : StdSort srt)
    {p : TimetableProblem} (hval : Validated p) :
    ∃ res, (newSolver p).bind (genBacktrack fc srt p (p.courses.length + 1)) = some res := by
  obtain ⟨s, hs⟩ := newSolver_total hval.1
  obtain ⟨h1, h2, -, -, h5⟩ := newSolver_facts hs
  rw [hs]
  exact genBacktrack_total fc hsrt hval _ s h1 h2 h5

theorem genSolve_sound {fc : Bool} {srt : List Value → List Value} (hsrt : StdSort srt)
    {p : TimetableProblem} (hval : Validated p) (hfit : MinRemainingFits p)
    {res : Bool × SolverState}
    (h : (newSolver p).bind (genBacktrack fc srt p (p.courses.length + 1)) = some res)
    (hres : res.1 = true) :
    res.2.assignment.length = p.courses.length ∧ InRange p res.2.assignment ∧
      ConsistentAll p res.2.assignment ∧ ∀ x ∈ res.2.assignment, x.timeslot ≠ -1 := by
  simp only [Option.bind_eq_some] at h
  obtain ⟨s, hs, h⟩ := h
  obtain ⟨h1, h2, h3, h4, -⟩ := newSolver_facts hs
  exact genBacktrack_sound hsrt hval.1 hfit _ s res h2 h1.1 h3 h4 h hres

theorem genSolve_complete {fc : Bool} {srt : List Value → List Value} (hsrt : StdSort srt)
    {p : TimetableProblem} (hval : Validated p) {S : List Assignment}
    (hgood : GoodSolution fc p S) :
    ∃ res, (newSolver p).bind (genBacktrack fc srt p (p.courses.length + 1)) = some res ∧
      res.1 = true := by
  obtain ⟨s, hs⟩ := newSolver_total hval.1
  obtain ⟨h1, h2, -, -, h5⟩ := newSolver_facts hs
  rw [hs]
  exact genBacktrack_complete hsrt hval hgood _ s h1 h2 h5 (newSolver_compatible hs hgood)

theorem genSolve_frame {fc : Bool} {srt : List Value → List Value} (hsrt : StdSort srt)
    {p : TimetableProblem} {res : Bool × SolverState}
    (h : (newSolver p).bind (genBacktrack fc srt p (p.courses.length + 1)) = some res)
    (hres : res.1 = false) :
    res.2.assignment = List.replicate p.courses.length ⟨-1, -1⟩ := by
  simp only [Option.bind_eq_some] at h
  obtain ⟨s, hs, h⟩ := h
  obtain ⟨-, h2, -, -, -⟩ := newSolver_facts hs
  rw [(genBacktrack_frame hsrt _ s res h2 h hres).1, newSolver_eq hs]

/-- A complete, in-range, consistent assignment is a good solution. -/
theorem goodSolution_of_consistent {p : TimetableProblem} {S : List Assignment}
    (hlen : S.length = p.courses.length) (hrange : InRange p S) (hcons : ConsistentAll p S)
    (hall : ∀ x ∈ S, x.timeslot ≠ -1) : GoodSolution false p S := by
  refine ⟨hlen, ?_, fun h => by cases h⟩
  intro i x hx
  have hmem : x ∈ S := by
    have hi := getElem?_lt hx
    rw [List.getElem?_eq_getElem hi] at hx
    exact Option.some.inj hx ▸ List.getElem_mem hi
  obtain ⟨r1, r2, r3, r4⟩ := hrange x hmem (hall x hmem)
  obtain ⟨c1, c2⟩ := hcons i x hx (hall x hmem)
  refine ⟨x.timeslot.toNat, x.room.toNat, ?_, by omega, by omega, ?_, ?_⟩
  · cases x
    simp only [Assignment.mk.injEq] at *
    omega
  · rw [Int.toNat_of_nonneg r1, Int.toNat_of_nonneg r3]; exact c1
  · rw [Int.toNat_of_nonneg r1]; exact c2

/-! ### The run when the initial `min_remaining` does not fit an `int` -/

theorem countRooms_allTrue {d : List (List Bool)} {i R t : Nat} {row : List Bool}
    (hrow : d[i]? = some row) :
    ∀ (rs : List Nat) (rem : Nat), (∀ r ∈ rs, row[t * R + r]? = some true) →
      countRooms d i R t rs rem = some (rem + rs.length) := by
  intro rs
  induction rs with
  | nil => intro rem _; rfl
  | cons r rs ih =>
    intro rem h
    simp only [countRooms, Option.bind_eq_bind, hrow, Option.some_bind,
      h r (List.mem_cons_self _ _), if_true]
    rw [ih _ (fun r' hr' => h r' (List.mem_cons_of_mem _ hr'))]
    simp only [List.length_cons]
    congr 1
    omega

theorem countSlots_allTrue {d : List (List Bool)} {i R : Nat} {row : List Bool}
    (hrow : d[i]? = some row) :
    ∀ (ts : List Nat) (rem : Nat), (∀ t ∈ ts, ∀ r, r < R → row[t * R + r]? = some true) →
      countSlots d i R ts rem = some (rem + ts.length * R) := by
  intro ts
  induction ts with
  | nil => intro rem _; simp [countSlots]
  | cons t ts ih =>
    intro rem h
    simp only [countSlots, Option.bind_eq_bind]
    rw [countRooms_allTrue hrow (List.range R) rem
      (fun r hr => h t (List.mem_cons_self _ _) r (List.mem_range.mp hr))]
    simp only [Option.some_bind, List.length_range]
    rw [ih _ (fun t' ht' => h t' (List.mem_cons_of_mem _ ht'))]
    simp only [List.length_cons]
    congr 1
    ring

/-- In the state the constructor builds every course counts
`timeslots * rooms.size()` values. -/
theorem countSlots_newSolver {p : TimetableProblem} {s0 : SolverState}
    (h : newSolver p = some s0) {i : Nat} (hi : i < p.courses.length) :
    countSlots s0.domain i p.rooms.length (List.range p.timeslots.toNat) 0 =
      some (p.timeslots.toNat * p.rooms.length) := by
  have hrow : s0.domain[i]? =
      some (List.replicate (p.timeslots.toNat * p.rooms.length) true) := by
    rw [newSolver_eq h]
    simp only
    rw [List.getElem?_replicate_of_lt hi]
  rw [countSlots_allTrue hrow (List.range p.timeslots.toNat) 0 (fun t ht r hr => by
    rw [List.getElem?_replicate_of_lt (index_lt (List.mem_range.mp ht) hr)])]
  simp

/-- When `timeslots * rooms.size() + 1` exceeds `INT_MAX`, the narrowed
`min_remaining` is not above the count of any course of the constructor's
state, and `selectUnassignedVariableMRV` returns `-1` there. -/
theorem mrv_unfit {p : TimetableProblem} (hT : 0 ≤ p.timeslots) (hw : ¬ MinRemainingFits p)
    {s0 : SolverState} (h : newSolver p = some s0) :
    selectUnassignedVariableMRV p s0.assignment s0.domain = some (-1) := by
  obtain ⟨h1, -, -, -, -⟩ := newSolver_facts h
  obtain ⟨x, hx⟩ := mrv_total h1.1 h1.2.1 h1.2.2
  have hx' := hx
  unfold selectUnassignedVariableMRV at hx'
  have := mrvLoop_skip _ _ _ _ (fun i hi k hk => by
    rw [countSlots_newSolver h (List.mem_range.mp hi)] at hk
    have hk' := Option.some.inj hk
    have hle := toInt32_le (p.timeslots * (p.rooms.length : Int) + 1)
    have hcast : ((p.timeslots.toNat : Nat) : Int) = p.timeslots := Int.toNat_of_nonneg hT
    have hprod : ((p.timeslots.toNat * p.rooms.length : Nat) : Int) =
        p.timeslots * (p.rooms.length : Int) := by
      push_cast
      rw [hcast]
    unfold MinRemainingFits at hw
    rw [← hk', hprod]
    omega) hx'
  rw [hx, this]

/-- When `timeslots * rooms.size() + 1` exceeds `INT_MAX`, `solve()` of either
solver returns `true` at once, in the state the constructor built. -/
theorem genSolve_unfit (fc : Bool) (srt : List Value → List Value) {p : TimetableProblem}
    (hT : 0 ≤ p.timeslots) (hw : ¬ MinRemainingFits p) :
    ∃ s0, newSolver p = some s0 ∧
      (newSolver p).bind (genBacktrack fc srt p (p.courses.length + 1)) = some (true, s0) := by
  obtain ⟨s0, hs0⟩ := newSolver_total hT
  refine ⟨s0, hs0, ?_⟩
  rw [hs0]
  simp only [Option.some_bind, genBacktrack, Option.bind_eq_bind, mrv_unfit hT hw hs0, if_true]

/-! ## The claims -/

/-- In a complete, in-range assignment whose assigned courses pass checks 1-5,
`isConsistent` returns `true` for every course. -/
theorem consistent_final {p : TimetableProblem} (hval : Validated p) {a : List Assignment}
    (hlen : a.length = p.courses.length) (hrange : InRange p a) (hcons : ConsistentAll p a)
    (hall : ∀ x ∈ a, x.timeslot ≠ -1) (c : Nat) (x : Assignment) (hx : a[c]? = some x) :
    isConsistentBody p a (c : Int) x.timeslot x.room = some true ∧
      StaticOK p c x.timeslot x.room ∧ ¬ Clash p a c x.timeslot := by
  have hc := getElem?_lt hx
  have hmem : x ∈ a := by
    rw [List.getElem?_eq_getElem hc] at hx
    exact Option.some.inj hx ▸ List.getElem_mem hc
  obtain ⟨-, -, r3, r4⟩ := hrange x hmem (hall x hmem)
  obtain ⟨c1, c2⟩ := hcons c x hx (hall x hmem)
  have hroom : x.room = ((x.room.toNat : Nat) : Int) := (Int.toNat_of_nonneg r3).symm
  obtain ⟨b, hb⟩ := isConsistent_total hval (a := a) (c := c) (t := x.timeslot)
    (r := x.room.toNat) hlen (hlen ▸ hc) (by omega)
  rw [← hroom] at hb
  have hbt : b = true := (isConsistent_iff hb).mpr ⟨c1, c2⟩
  subst hbt
  exact ⟨hb, c1, c2⟩

/-- Soundness of plain backtracking when the initial `min_remaining` fits an
`int`.  For a validated problem, if `BacktrackingSolver::solve()` returns
`true`, then for every course `c` with final assignment `(t, r)` the call
`isConsistent(c, t, r)` on the final assignment returns `true`: the capacity
and availability checks pass (`StaticOK`) and no other course assigned to `t`
has the same teacher or shares a student group with `c` (`¬ Clash`). -/
theorem backtracking_sound_of_fits (srt : List Value → List Value) (p : TimetableProblem)
    (s : SolverState) (hsrt : StdSort srt) (hval : Validated p) (hfit : MinRemainingFits p)
    (h : BacktrackingSolver.solve srt p = some (true, s)) :
    ∀ (c : Nat) (x : Assignment), s.assignment[c]? = some x →
      BacktrackingSolver.isConsistent p s (c : Int) x.timeslot x.room = some true ∧
      StaticOK p c x.timeslot x.room ∧ ¬ Clash p s.assignment c x.timeslot := by
  rw [bt_solve_eq] at h
  obtain ⟨h1, h2, h3, h4⟩ := genSolve_sound hsrt hval hfit h rfl
  exact consistent_final hval h1 h2 h3 h4

/-- The run of plain backtracking on `demoProblem`: course 1 ends at timeslot 2
in room 0 and passes `isConsistent` there. -/
theorem backtracking_sound_of_fits_demo :
    BacktrackingSolver.isConsistent demoProblem
      ⟨[⟨1, 1⟩, ⟨2, 0⟩], List.replicate 2 (List.replicate 6 true), 0, 9⟩ 1 2 0 = some true :=
  (backtracking_sound_of_fits insertionSortByTimeslot demoProblem
    ⟨[⟨1, 1⟩, ⟨2, 0⟩], List.replicate 2 (List.replicate 6 true), 0, 9⟩ insertionSort_stdSort
    (by unfold Validated; decide) (by unfold MinRemainingFits; decide) (by rfl) 1 ⟨2, 0⟩
    (by rfl)).1

/-- Soundness of forward checking when the initial `min_remaining` fits an
`int`.  For a validated problem, if `ForwardCheckingSolver::solve()` returns
`true`, then for every course `c` with final assignment `(t, r)` the call
`isConsistent(c, t, r)` on the final assignment returns `true`: no capacity or
availability violation, and no other course at the same timeslot has the same
teacher or shares a student group. -/
theorem forward_checking_sound_of_fits (srt : List Value → List Value) (p : TimetableProblem)
    (s : SolverState) (hsrt : StdSort srt) (hval : Validated p) (hfit : MinRemainingFits p)
    (h : ForwardCheckingSolver.solve srt p = some (true, s)) :
    ∀ (c : Nat) (x : Assignment), s.assignment[c]? = some x →
      ForwardCheckingSolver.isConsistent p s (c : Int) x.timeslot x.room = some true ∧
      StaticOK p c x.timeslot x.room ∧ ¬ Clash p s.assignment c x.timeslot := by
  rw [fc_solve_eq] at h
  obtain ⟨h1, h2, h3, h4⟩ := genSolve_sound hsrt hval hfit h rfl
  exact consistent_final hval h1 h2 h3 h4

/-- The run of forward checking on `demoProblem`: course 0 ends at timeslot 1
in room 1 and passes `isConsistent` there. -/
theorem forward_checking_sound_of_fits_demo :
    ForwardCheckingSolver.isConsistent demoProblem
      ⟨[⟨1, 1⟩, ⟨2, 0⟩], [List.replicate 6 true, [true, true, false, false, true, true]], 0, 7⟩
      0 1 1 = some true :=
  (forward_checking_sound_of_fits insertionSortByTimeslot demoProblem
    ⟨[⟨1, 1⟩, ⟨2, 0⟩], [List.replicate 6 true, [true, true, false, false, true, true]], 0, 7⟩
    insertionSort_stdSort (by unfold Validated; decide) (by unfold MinRemainingFits; decide)
    (by rfl) 0 ⟨1, 1⟩ (by rfl)).1

/-- A run that returns `false` started with a `min_remaining` that fits an
`int`: otherwise the first call of `backtrack` returns `true` at once. -/
theorem genSolve_false_fits {fc : Bool} {srt : List Value → List Value} {p : TimetableProblem}
    (hT : 0 ≤ p.timeslots) {s : SolverState}
    (h : (newSolver p).bind (genBacktrack fc srt p (p.courses.length + 1)) = some (false, s)) :
    MinRemainingFits p := by
  by_contra hw
  obtain ⟨s0, -, h0⟩ := genSolve_unfit fc srt hT hw
  rw [h0] at h
  cases h

/-- Claim C4: for a validated problem, if `BacktrackingSolver::solve()` returns
`false` then `ForwardCheckingSolver::solve()` on the same problem returns
`false` as well. -/
theorem fc_fails_when_bt_fails (srt : List Value → List Value) (p : TimetableProblem)
    (s : SolverState) (hsrt : StdSort srt) (hval : Validated p)
    (h : BacktrackingSolver.solve srt p = some (false, s)) :
    ∃ s', ForwardCheckingSolver.solve srt p = some (false, s') := by
  have hfit : MinRemainingFits p := by
    rw [bt_solve_eq] at h
    exact genSolve_false_fits hval.1 h
  obtain ⟨res, hres⟩ := genSolve_total true hsrt hval
  rw [fc_solve_eq, hres]
  obtain ⟨b, s'⟩ := res
  cases b with
  | false => exact ⟨s', rfl⟩
  | true =>
    exfalso
    obtain ⟨h1, h2, h3, h4⟩ := genSolve_sound hsrt hval hfit hres rfl
    obtain ⟨res2, hres2, hb2⟩ := genSolve_complete hsrt hval
      (goodSolution_of_consistent h1 h2 h3 h4)
    rw [bt_solve_eq, hres2] at h
    cases h
    cases hb2

/-- On `clashProblem` plain backtracking fails, and so does forward checking. -/
theorem fc_fails_when_bt_fails_witness :
    ∃ s', ForwardCheckingSolver.solve insertionSortByTimeslot clashProblem = some (false, s') :=
  fc_fails_when_bt_fails insertionSortByTimeslot clashProblem
    ⟨[⟨-1, -1⟩, ⟨-1, -1⟩], [[true], [true]], 1, 2⟩ insertionSort_stdSort
    (by unfold Validated; decide) (by rfl)

/-- Claim C5: completeness of plain backtracking.  For a validated problem, if
some complete assignment `S` maps every course to a timeslot in
`[0, timeslots)` and a room in `[0, rooms.size())` such that `isConsistent`
returns `true` for every course against `S`, then
`BacktrackingSolver::solve()` returns `true`. -/
theorem backtracking_complete (srt : List Value → List Value) (p : TimetableProblem)
    (S : List Assignment) (hsrt : StdSort srt) (hval : Validated p)
    (hlen : S.length = p.courses.length)
    (hS : ∀ (i : Nat) (x : Assignment), S[i]? = some x →
      0 ≤ x.timeslot ∧ x.timeslot < p.timeslots ∧ 0 ≤ x.room ∧
      x.room < (p.rooms.length : Int) ∧
      isConsistentBody p S (i : Int) x.timeslot x.room = some true) :
    ∃ s, BacktrackingSolver.solve srt p = some (true, s) := by
  have hall : ∀ x ∈ S, x.timeslot ≠ -1 := by
    intro x hx
    obtain ⟨i, hi, rfl⟩ := List.getElem_of_mem hx
    have := (hS i _ (List.getElem?_eq_getElem hi)).1
    omega
  have hrange : InRange p S := by
    intro x hx _
    obtain ⟨i, hi, rfl⟩ := List.getElem_of_mem hx
    obtain ⟨r1, r2, r3, r4, -⟩ := hS i _ (List.getElem?_eq_getElem hi)
    exact ⟨r1, r2, r3, r4⟩
  have hcons : ConsistentAll p S := by
    intro i x hx _
    exact (isConsistent_iff (hS i x hx).2.2.2.2).mp rfl
  obtain ⟨res, hres, hb⟩ := genSolve_complete hsrt hval
    (goodSolution_of_consistent hlen hrange hcons hall)
  rw [bt_solve_eq]
  obtain ⟨b, s'⟩ := res
  simp only at hb
  subst hb
  exact ⟨s', hres⟩

/-- The assignment `[(2, 1), (1, 1)]` is consistent for `demoProblem`, so plain
backtracking succeeds on it. -/
theorem backtracking_complete_witness :
    ∃ s, BacktrackingSolver.solve insertionSortByTimeslot demoProblem = some (true, s) :=
  backtracking_complete insertionSortByTimeslot demoProblem [⟨2, 1⟩, ⟨1, 1⟩]
    insertionSort_stdSort (by unfold Validated; decide) (by rfl) (by
      intro i x hx
      match i, hx with
      | 0, hx => cases hx; exact ⟨by decide, by decide, by decide, by decide, by rfl⟩
      | 1, hx => cases hx; exact ⟨by decide, by decide, by decide, by decide, by rfl⟩
      | (k + 2), hx => simp at hx)

/-- The final assignment of a successful search: one in-range pair per course. -/
theorem final_in_range {fc : Bool} {srt : List Value → List Value} (hsrt : StdSort srt)
    {p : TimetableProblem} (hval : Validated p) (hfit : MinRemainingFits p) {s : SolverState}
    (h : (newSolver p).bind (genBacktrack fc srt p (p.courses.length + 1)) = some (true, s)) :
    s.assignment.length = p.courses.length ∧
      ∀ x ∈ s.assignment, 0 ≤ x.timeslot ∧ x.timeslot < p.timeslots ∧ 0 ≤ x.room ∧
        x.room < (p.rooms.length : Int) ∧ x ≠ ⟨-1, -1⟩ := by
  obtain ⟨h1, h2, -, h4⟩ := genSolve_sound hsrt hval hfit h rfl
  refine ⟨h1, fun x hx => ?_⟩
  obtain ⟨r1, r2, r3, r4⟩ := h2 x hx (h4 x hx)
  refine ⟨r1, r2, r3, r4, ?_⟩
  intro hcon
  subst hcon
  exact h4 _ hx rfl

/-- For either solver and a validated problem whose initial `min_remaining`
fits an `int`, if `solve()` returns `true` then the final assignment has one
entry per course, every entry has its timeslot in `[0, timeslots)` and its room
in `[0, rooms.size())`, and no entry is left at `(-1, -1)`. -/
theorem success_assignment_complete_of_fits (srt : List Value → List Value)
    (p : TimetableProblem) (hsrt : StdSort srt) (hval : Validated p)
    (hfit : MinRemainingFits p) :
    (∀ s, BacktrackingSolver.solve srt p = some (true, s) →
      s.assignment.length = p.courses.length ∧
      ∀ x ∈ s.assignment, 0 ≤ x.timeslot ∧ x.timeslot < p.timeslots ∧ 0 ≤ x.room ∧
        x.room < (p.rooms.length : Int) ∧ x ≠ ⟨-1, -1⟩) ∧
    (∀ s, ForwardCheckingSolver.solve srt p = some (true, s) →
      s.assignment.length = p.courses.length ∧
      ∀ x ∈ s.assignment, 0 ≤ x.timeslot ∧ x.timeslot < p.timeslots ∧ 0 ≤ x.room ∧
        x.room < (p.rooms.length : Int) ∧ x ≠ ⟨-1, -1⟩) := by
  constructor
  · intro s h
    rw [bt_solve_eq] at h
    exact final_in_range hsrt hval hfit h
  · intro s h
    rw [fc_solve_eq] at h
    exact final_in_range hsrt hval hfit h

/-- The final assignment of plain backtracking on `demoProblem` is complete and
in range. -/
theorem success_assignment_complete_of_fits_demo :
    ([⟨1, 1⟩, ⟨2, 0⟩] : List Assignment).length = demoProblem.courses.length ∧
      ∀ x ∈ ([⟨1, 1⟩, ⟨2, 0⟩] : List Assignment), 0 ≤ x.timeslot ∧
        x.timeslot < demoProblem.timeslots ∧ 0 ≤ x.room ∧
        x.room < (demoProblem.rooms.length : Int) ∧ x ≠ ⟨-1, -1⟩ :=
  (success_assignment_complete_of_fits insertionSortByTimeslot demoProblem insertionSort_stdSort
    (by unfold Validated; decide) (by unfold MinRemainingFits; decide)).1
    ⟨[⟨1, 1⟩, ⟨2, 0⟩], List.replicate 2 (List.replicate 6 true), 0, 9⟩ (by rfl)

/-- Claim C7: no partial leakage on failure.  For either solver, if `solve()`
returns `false` then every entry of the final assignment is `(-1, -1)`; and
whenever a call of `backtrack()` returns `false`, the assignment vector is the
one the call was entered with.  The calls are those of a running solver, whose
unassigned entries are always exactly `Assignment(-1, -1)` (`Sentinel`): the
constructor builds such a state, and an assertion of `Sentinel` placed at the
entry of `backtrack()` never fails in a run that starts from such a state. -/
theorem failure_leaves_assignment (srt : List Value → List Value) (p : TimetableProblem)
    (hsrt : StdSort srt) :
    (∀ s, BacktrackingSolver.solve srt p = some (false, s) →
      s.assignment = List.replicate p.courses.length ⟨-1, -1⟩) ∧
    (∀ s, ForwardCheckingSolver.solve srt p = some (false, s) →
      s.assignment = List.replicate p.courses.length ⟨-1, -1⟩) ∧
    (∀ fuel s0 s, Sentinel s0.assignment →
      BacktrackingSolver.backtrack srt p fuel s0 = some (false, s) →
      s.assignment = s0.assignment) ∧
    (∀ fuel s0 s, Sentinel s0.assignment →
      ForwardCheckingSolver.backtrack srt p fuel s0 = some (false, s) →
      s.assignment = s0.assignment) ∧
    (∀ s0, newSolver p = some s0 → Sentinel s0.assignment) ∧
    (∀ fuel s0, Sentinel s0.assignment →
      genBacktrackAsserting sentinelCheck false srt p fuel s0 =
        BacktrackingSolver.backtrack srt p fuel s0) ∧
    (∀ fuel s0, Sentinel s0.assignment →
      genBacktrackAsserting sentinelCheck true srt p fuel s0 =
        ForwardCheckingSolver.backtrack srt p fuel s0) := by
  refine ⟨?_, ?_, ?_, ?_, fun s0 h0 => (newSolver_facts h0).2.1,
    fun fuel s0 hs => by rw [bt_backtrack_eq]; exact sentinel_at_every_call hsrt fuel s0 hs,
    fun fuel s0 hs => by rw [fc_backtrack_eq]; exact sentinel_at_every_call hsrt fuel s0 hs⟩
  · intro s h
    rw [bt_solve_eq] at h
    exact genSolve_frame hsrt h rfl
  · intro s h
    rw [fc_solve_eq] at h
    exact genSolve_frame hsrt h rfl
  · intro fuel s0 s hs h
    rw [bt_backtrack_eq] at h
    exact (genBacktrack_frame hsrt fuel s0 _ hs h rfl).1
  · intro fuel s0 s hs h
    rw [fc_backtrack_eq] at h
    exact (genBacktrack_frame hsrt fuel s0 _ hs h rfl).1

/-- After the failed run of plain backtracking on `clashProblem` both courses
are unassigned. -/
theorem failure_leaves_assignment_witness :
    (⟨[⟨-1, -1⟩, ⟨-1, -1⟩], [[true], [true]], 1, 2⟩ : SolverState).assignment =
      List.replicate clashProblem.courses.length ⟨-1, -1⟩ :=
  (failure_leaves_assignment insertionSortByTimeslot clashProblem insertionSort_stdSort).1
    ⟨[⟨-1, -1⟩, ⟨-1, -1⟩], [[true], [true]], 1, 2⟩ (by rfl)

/-- Claim C8: unsatisfiability detection.  On a validated problem with exactly
two courses that have the same `teacher_id` and a common student-group id, one
timeslot and exactly one room, both `BacktrackingSolver::solve()` and
`ForwardCheckingSolver::solve()` return `false`. -/
theorem two_clashing_courses_unsat (srt : List Value → List Value) (p : TimetableProblem)
    (c1 c2 : Course) (rm : Room) (hsrt : StdSort srt) (hval : Validated p)
    (hcourses : p.courses = [c1, c2]) (hteacher : c1.teacher_id = c2.teacher_id)
    (_hgroup : ∃ g, g ∈ c1.student_groups ∧ g ∈ c2.student_groups)
    (hslots : p.timeslots = 1) (_hrooms : p.rooms = [rm]) :
    (∃ s, BacktrackingSolver.solve srt p = some (false, s)) ∧
    (∃ s, ForwardCheckingSolver.solve srt p = some (false, s)) := by
  have key : ∀ fc : Bool, ∃ s,
      (newSolver p).bind (genBacktrack fc srt p (p.courses.length + 1)) = some (false, s) := by
    intro fc
    have hfit : MinRemainingFits p := by
      unfold MinRemainingFits
      rw [hslots, _hrooms]
      simp
    obtain ⟨res, hres⟩ := genSolve_total fc hsrt hval
    obtain ⟨b, s⟩ := res
    cases b with
    | false => exact ⟨s, hres⟩
    | true =>
      exfalso
      obtain ⟨h1, h2, h3, h4⟩ := genSolve_sound hsrt hval hfit hres rfl
      simp only at h1 h2 h3 h4
      have hn : p.courses.length = 2 := by rw [hcourses]; rfl
      have h0 : 0 < s.assignment.length := by omega
      have hl1 : 1 < s.assignment.length := by omega
      have m0 := List.getElem_mem h0
      have m1 := List.getElem_mem hl1
      have t0 := h2 _ m0 (h4 _ m0)
      have t1 := h2 _ m1 (h4 _ m1)
      have e0 : s.assignment[0].timeslot = 0 := by omega
      have e1 : s.assignment[1].timeslot = 0 := by omega
      apply (h3 0 _ (List.getElem?_eq_getElem h0) (h4 _ m0)).2
      refine ⟨1, s.assignment[1], by decide, by omega, List.getElem?_eq_getElem hl1,
        by rw [e0, e1], by rw [e0]; decide, c1, c2, by rw [hcourses]; rfl, by rw [hcourses]; rfl,
        Or.inl hteacher.symm⟩
  constructor
  · rw [bt_solve_eq]; exact key false
  · rw [fc_solve_eq]; exact key true

/-- Both solvers fail on `clashProblem`. -/
theorem two_clashing_courses_unsat_witness :
    (∃ s, BacktrackingSolver.solve insertionSortByTimeslot clashProblem = some (false, s)) ∧
    (∃ s, ForwardCheckingSolver.solve insertionSortByTimeslot clashProblem = some (false, s)) :=
  two_clashing_courses_unsat insertionSortByTimeslot clashProblem
    ⟨0, "AI", 0, 25, [0, 1]⟩ ⟨1, "ML", 0, 22, [1]⟩ ⟨0, "Room A", 40, []⟩
    insertionSort_stdSort (by unfold Validated; decide) rfl rfl ⟨1, by decide, by decide⟩ rfl rfl

theorem genPropagate_backtrack_count {fc : Bool} {p : TimetableProblem} {s : SolverState}
    {cid timeslot room : Int} {fcr : Bool × SolverState}
    (h : genPropagate fc p s cid timeslot room = some fcr) :
    fcr.2.backtrack_count = s.backtrack_count := by
  unfold genPropagate at h
  cases fc with
  | false =>
    simp only [Bool.false_eq_true, if_false, Option.some.injEq] at h
    subst h
    rfl
  | true =>
    simp only [if_true] at h
    exact (forwardCheck_spec h).2.1

/-- The run of either solver on a one-course problem without obstacles: the
first candidate is committed and the recursive call reports success. -/
theorem single_course_run (fc : Bool) {srt : List Value → List Value} (hsrt : StdSort srt)
    {p : TimetableProblem} {c : Course} {tch : Teacher} {rm : Room}
    (hcourses : p.courses = [c]) (hteach : c.teacher_id = 0) (hteachers : p.teachers = [tch])
    (htb : tch.busy_slots = []) (hrooms : p.rooms = [rm]) (hrb : rm.busy_slots = [])
    (hcap : c.students ≤ rm.capacity) (hT : 1 ≤ p.timeslots) :
    ∃ s, (newSolver p).bind (genBacktrack fc srt p (p.courses.length + 1)) = some (true, s) ∧
      s.backtrack_count = 0 := by
  have hn : p.courses.length = 1 := by rw [hcourses]; rfl
  have hR : p.rooms.length = 1 := by rw [hrooms]; rfl
  have hval : Validated p := by
    refine ⟨by omega, ?_⟩
    intro c' hc'
    rw [hcourses] at hc'
    simp only [List.mem_singleton] at hc'
    subst hc'
    rw [hteach, hteachers]
    simp
  by_cases hfit : MinRemainingFits p
  swap
  · obtain ⟨s0, hs0, h0⟩ := genSolve_unfit fc srt hval.1 hfit
    exact ⟨s0, h0, by rw [newSolver_eq hs0]⟩
  obtain ⟨s0, hs0⟩ := newSolver_total hval.1
  obtain ⟨hshape, hsent, -, -, -⟩ := newSolver_facts hs0
  have ha0 : s0.assignment[0]? = some ⟨-1, -1⟩ := by
    rw [newSolver_eq hs0]
    simp only
    rw [List.getElem?_replicate_of_lt (by omega)]
  have hbc0 : s0.backtrack_count = 0 := by rw [newSolver_eq hs0]
  have hstatic : ∀ t : Nat, StaticOK p 0 (t : Int) ((0 : Nat) : Int) := by
    intro t
    refine ⟨c, rm, tch, by rw [hcourses]; rfl, by rw [vecAt_natCast, hrooms]; rfl,
      by rw [hteach, hteachers]; rfl, hcap, by rw [htb]; simp, by rw [hrb]; simp⟩
  have hnoclash : ∀ (a : List Assignment) (t : Int), ¬ Clash p a 0 t := by
    rintro a t ⟨o, ao, hne, hlt, -⟩
    omega
  -- the variable chosen at the root is course 0
  obtain ⟨cid, hcid⟩ := mrv_total hshape.1 hshape.2.1 hshape.2.2
  have hcid0 : cid = ((0 : Nat) : Int) := by
    rcases mrv_cases hcid with h1 | ⟨i, hi, h1, -⟩
    · subst h1
      exact absurd rfl (mrv_none hval.1 hfit hcid 0 (by omega) _ ha0)
    · have : i = 0 := by omega
      subst this
      exact h1
  subst hcid0
  -- its candidate list is not empty
  obtain ⟨vs, hvs⟩ := odv_total srt (c := 0) (by omega) hshape.2.1 hshape.2.2
  have hmem0 : (⟨((0 : Nat) : Int), ((0 : Nat) : Int), ((0 : Nat) : Int)⟩ : Value) ∈ vs := by
    rw [odv_mem hsrt hvs]
    refine ⟨0, by omega, 0, by omega, rfl, ?_⟩
    have hgood0 : GoodSolution false p [⟨((0 : Nat) : Int), ((0 : Nat) : Int)⟩] := by
      refine ⟨by rw [hn]; rfl, ?_, fun h => by cases h⟩
      intro i x hx
      have hi := getElem?_lt hx
      simp only [List.length_singleton] at hi
      have : i = 0 := by omega
      subst this
      cases hx
      exact ⟨0, 0, rfl, by omega, by omega, hstatic 0, hnoclash _ _⟩
    obtain ⟨t, r, hS, row, hrow, hidx⟩ := (newSolver_compatible hs0 hgood0 0 _ ha0).2 rfl
    cases hS
    exact ⟨row, by rw [vecAt_natCast]; exact hrow, hidx⟩
  obtain ⟨v, rest, rfl⟩ : ∃ v rest, vs = v :: rest := by
    cases vs with
    | nil => simp at hmem0
    | cons v rest => exact ⟨v, rest, rfl⟩
  obtain ⟨t, ht, r, hr, rfl, -⟩ := (odv_mem hsrt hvs _).mp (List.mem_cons_self _ _)
  have hr0 : r = 0 := by omega
  subst hr0
  -- the first candidate passes `isConsistent`
  obtain ⟨b, hb⟩ := isConsistent_total hval (a := s0.assignment) (c := 0) (t := (t : Int))
    (r := 0) hshape.1 (by omega) (by omega)
  have hbt : b = true := (isConsistent_iff hb).mpr ⟨hstatic t, hnoclash _ _⟩
  subst hbt
  have hca : 0 < s0.assignment.length := by rw [hshape.1]; omega
  have ha2 := vecSet_nat (⟨(t : Int), ((0 : Nat) : Int)⟩ : Assignment) hca
  have hshape2 : Shape p ⟨s0.assignment.set 0 ⟨(t : Int), ((0 : Nat) : Int)⟩, s0.domain,
      s0.backtrack_count, toInt32 (s0.assignment_count + 1)⟩ :=
    ⟨by simp only [List.length_set]; exact hshape.1, hshape.2⟩
  obtain ⟨fcr, hfcr⟩ := genPropagate_total fc (t : Int) ((0 : Nat) : Int) (c := 0) hshape2
    (by omega)
  have hgood : GoodSolution fc p [⟨(t : Int), ((0 : Nat) : Int)⟩] := by
    refine ⟨by rw [hn]; rfl, ?_, ?_⟩
    · intro i x hx
      have hi := getElem?_lt hx
      simp only [List.length_singleton] at hi
      have : i = 0 := by omega
      subst this
      cases hx
      exact ⟨t, 0, rfl, ht, by omega, hstatic t, hnoclash _ _⟩
    · intro _ i j x y hij hx hy
      have hi := getElem?_lt hx
      have hj := getElem?_lt hy
      simp only [List.length_singleton] at hi hj
      omega
  obtain ⟨-, hf1⟩ := propagate_compat hgood (newSolver_compatible hs0 hgood) hca (by rfl) hfcr
  obtain ⟨hshape3, hasg3⟩ := genPropagate_shape hshape2 hfcr
  have hbc3 := genPropagate_backtrack_count hfcr
  simp only at hasg3 hbc3
  -- the recursive call finds every course assigned
  obtain ⟨cid2, hcid2⟩ := mrv_total hshape3.1 hshape3.2.1 hshape3.2.2
  have hcid2' : cid2 = -1 := by
    rcases mrv_cases hcid2 with h1 | ⟨i, hi, -, ai, hai, hait⟩
    · exact h1
    · exfalso
      have : i = 0 := by omega
      subst this
      rw [hasg3, List.getElem?_set_self hca] at hai
      cases hai
      simp only at hait
      omega
  subst hcid2'
  have hdesc : genDescend (genBacktrack fc srt p p.courses.length) fcr = some (true, fcr.2) := by
    unfold genDescend
    rw [hf1, hn]
    simp only [if_true, genBacktrack, Option.bind_eq_bind, hcid2, Option.some_bind]
  refine ⟨fcr.2, ?_, by rw [hbc3, hbc0]⟩
  rw [hs0]
  simp only [Option.some_bind, genBacktrack, Option.bind_eq_bind, hcid, hvs, genTry, hb, if_true,
    ha2, hfcr, hdesc]
  simp

/-- Claim C9: trivial instance.  On a problem with exactly one course
(`teacher_id = 0`), exactly one teacher with empty `busy_slots`, exactly one
room with empty `busy_slots` and capacity at least the course's students, and
`timeslots ≥ 1`, both solvers' `solve()` return `true` and
`getBacktrackCount()` is `0` afterwards. -/
theorem single_course_solved (srt : List Value → List Value) (p : TimetableProblem)
    (c : Course) (tch : Teacher) (rm : Room) (hsrt : StdSort srt)
    (hcourses : p.courses = [c]) (hteach : c.teacher_id = 0) (hteachers : p.teachers = [tch])
    (htb : tch.busy_slots = []) (hrooms : p.rooms = [rm]) (hrb : rm.busy_slots = [])
    (hcap : c.students ≤ rm.capacity) (hT : 1 ≤ p.timeslots) :
    (∃ s, BacktrackingSolver.solve srt p = some (true, s) ∧ s.backtrack_count = 0) ∧
    (∃ s, ForwardCheckingSolver.solve srt p = some (true, s) ∧ s.backtrack_count = 0) := by
  constructor
  · rw [bt_solve_eq]
    exact single_course_run false hsrt hcourses hteach hteachers htb hrooms hrb hcap hT
  · rw [fc_solve_eq]
    exact single_course_run true hsrt hcourses hteach hteachers htb hrooms hrb hcap hT

/-- Both solvers succeed without a backtrack on `singleProblem`. -/
theorem single_course_solved_witness :
    (∃ s, BacktrackingSolver.solve insertionSortByTimeslot singleProblem = some (true, s) ∧
      s.backtrack_count = 0) ∧
    (∃ s, ForwardCheckingSolver.solve insertionSortByTimeslot singleProblem = some (true, s) ∧
      s.backtrack_count = 0) :=
  single_course_solved insertionSortByTimeslot singleProblem ⟨0, "AI", 0, 25, [0, 1]⟩
    ⟨0, "Dr. Smith", []⟩ ⟨0, "Room A", 40, []⟩ insertionSort_stdSort rfl rfl rfl rfl rfl rfl
    (by decide) (by decide)

/-- The forward-checking candidate loop, when it runs out of candidates, hands
back the domain table it started with. -/
theorem genTry_domain {p : TimetableProblem}
    {recurse : SolverState → Option (Bool × SolverState)} {cid : Int} :
    ∀ (vs : List Value) (s : SolverState) (res : Bool × SolverState),
      genTry true p recurse cid vs s = some res → res.1 = false → res.2.domain = s.domain := by
  intro vs
  induction vs with
  | nil =>
    intro s res h _
    simp only [genTry, Option.some.injEq] at h
    subst h
    rfl
  | cons v vs ih =>
    intro s res h hres
    simp only [genTry, Option.bind_eq_bind, Option.bind_eq_some] at h
    obtain ⟨ok, -, h⟩ := h
    split at h
    · simp only [Option.bind_eq_some] at h
      obtain ⟨a2, -, fcr, -, r, -, h⟩ := h
      split at h
      · cases h
        exact absurd hres (by simp)
      · simp only [Option.bind_eq_some] at h
        obtain ⟨a4, -, h⟩ := h
        have := ih _ res h hres
        rw [this]
        simp [genRestore]
    · have := ih _ res h hres
      exact this

/-- One candidate of the forward-checking loop: either the recursive call
succeeded, or the loop goes on from a state with the domain table of before. -/
theorem fc_tryValues_step {p : TimetableProblem}
    {recurse : SolverState → Option (Bool × SolverState)} {cid : Int} {v : Value}
    {rest : List Value} {s : SolverState} {res : Bool × SolverState}
    (h : ForwardCheckingSolver.tryValues p recurse cid (v :: rest) s = some res) :
    (res.1 = true ∧ ∃ s2, recurse s2 = some res) ∨
      ∃ s4, s4.domain = s.domain ∧
        ForwardCheckingSolver.tryValues p recurse cid rest s4 = some res := by
  simp only [ForwardCheckingSolver.tryValues, Option.bind_eq_bind, Option.bind_eq_some] at h
  obtain ⟨ok, -, h⟩ := h
  split at h
  · simp only [Option.bind_eq_some] at h
    obtain ⟨a2, -, fcr, -, h⟩ := h
    split at h
    · simp only [Option.bind_eq_some] at h
      obtain ⟨r, hr, h⟩ := h
      split at h
      · rename_i hr1
        cases h
        obtain ⟨b, s3⟩ := r
        simp only at hr1
        subst hr1
        exact Or.inl ⟨rfl, fcr.2, hr⟩
      · simp only [Option.bind_eq_some, ForwardCheckingSolver.restore, Option.bind_eq_bind] at h
        obtain ⟨s4, ⟨a4, -, hs4⟩, h⟩ := h
        cases hs4
        refine Or.inr ⟨_, ?_, h⟩
        rfl
    · simp only [Option.bind_eq_some, ForwardCheckingSolver.restore, Option.bind_eq_bind] at h
      obtain ⟨s4, ⟨a4, -, hs4⟩, h⟩ := h
      cases hs4
      refine Or.inr ⟨_, ?_, h⟩
      rfl
  · refine Or.inr ⟨_, ?_, h⟩
    rfl

/-- Claim C10: restore exactness.  Whenever `ForwardCheckingSolver::backtrack()`
returns `false`, the whole domain table equals the table at entry to the call,
so every course's remaining-value count is the count at entry.  It is so
because each candidate that is tried and abandoned (after a wipeout reported
by `forwardCheck`, or after the recursive call returned `false`) leaves the
loop in a state whose domain table is the one of before the candidate. -/
theorem restore_exactness (srt : List Value → List Value) (p : TimetableProblem) (fuel : Nat)
    (s s' : SolverState)
    (h : ForwardCheckingSolver.backtrack srt p fuel s = some (false, s')) :
    s'.domain = s.domain ∧
    (∀ i, remainingCount p s'.domain i = remainingCount p s.domain i) ∧
    (∀ (recurse : SolverState → Option (Bool × SolverState)) (cid : Int) (v : Value)
      (rest : List Value) (s1 : SolverState) (res : Bool × SolverState),
      ForwardCheckingSolver.tryValues p recurse cid (v :: rest) s1 = some res →
      (res.1 = true ∧ ∃ s2, recurse s2 = some res) ∨
        ∃ s4, s4.domain = s1.domain ∧
          ForwardCheckingSolver.tryValues p recurse cid rest s4 = some res) := by
  have hdom : s'.domain = s.domain := by
    rw [fc_backtrack_eq] at h
    cases fuel with
    | zero => simp [genBacktrack] at h
    | succ fuel =>
      simp only [genBacktrack, Option.bind_eq_bind, Option.bind_eq_some] at h
      obtain ⟨cid, -, h⟩ := h
      split at h
      · cases h
      · simp only [Option.bind_eq_some] at h
        obtain ⟨vs, -, h⟩ := h
        exact genTry_domain vs s _ h rfl
  refine ⟨hdom, fun i => by rw [hdom], ?_⟩
  intro recurse cid v rest s1 res h1
  exact fc_tryValues_step h1

/-- The failed run of forward checking on `clashProblem` ends with the domain
table it started with. -/
theorem restore_exactness_witness :
    (⟨[⟨-1, -1⟩, ⟨-1, -1⟩], [[true], [true]], 1, 1⟩ : SolverState).domain =
      (⟨[⟨-1, -1⟩, ⟨-1, -1⟩], [[true], [true]], 0, 0⟩ : SolverState).domain :=
  (restore_exactness insertionSortByTimeslot clashProblem 3
    ⟨[⟨-1, -1⟩, ⟨-1, -1⟩], [[true], [true]], 0, 0⟩
    ⟨[⟨-1, -1⟩, ⟨-1, -1⟩], [[true], [true]], 1, 1⟩ (by rfl)).1

/-! ## Counting the `true` entries of a row -/

theorem trueCount_succ (row : List Bool) (lo len : Nat) :
    trueCount row lo (len + 1) =
      (if row[lo]? = some true then 1 else 0) + trueCount row (lo + 1) len := by
  unfold trueCount
  rw [List.range'_succ, List.countP_cons]
  simp only [beq_iff_eq]
  omega

theorem trueCount_add (row : List Bool) (lo a b : Nat) :
    trueCount row lo (a + b) = trueCount row lo a + trueCount row (lo + a) b := by
  unfold trueCount
  rw [← List.countP_append, List.range'_append_1, Nat.add_comm b a]

theorem trueCount_shift (x : Bool) (xs : List Bool) (lo len : Nat) :
    trueCount (x :: xs) (lo + 1) len = trueCount xs lo len := by
  unfold trueCount
  rw [Nat.add_comm lo 1, ← List.map_add_range' 1 lo len 1, List.countP_map]
  congr 1
  funext idx
  simp only [Function.comp, Nat.add_comm 1 idx, List.getElem?_cons_succ]

theorem trueCount_full (row : List Bool) : trueCount row 0 row.length = row.count true := by
  induction row with
  | nil => rfl
  | cons x xs ih =>
    rw [List.length_cons, trueCount_succ, trueCount_shift, ih, List.count_cons]
    cases x
    · simp
    · simp
      omega

theorem trueCount_mono {row row' : List Bool} (lo len : Nat)
    (h : ∀ idx : Nat, row'[idx]? = some true → row[idx]? = some true) :
    trueCount row' lo len ≤ trueCount row lo len := by
  unfold trueCount
  apply List.countP_mono_left
  intro idx _ hidx
  simp only [beq_iff_eq] at hidx ⊢
  exact h idx hidx

theorem countRooms_eq {d : List (List Bool)} {i R t : Nat} {row : List Bool}
    (hrow : d[i]? = some row) :
    ∀ (len r0 rem k : Nat), countRooms d i R t (List.range' r0 len) rem = some k →
      k = rem + trueCount row (t * R + r0) len := by
  intro len
  induction len with
  | zero =>
    intro r0 rem k h
    simp only [List.range'_zero, countRooms, Option.some.injEq] at h
    simp [trueCount, h]
  | succ len ih =>
    intro r0 rem k h
    rw [List.range'_succ] at h
    simp only [countRooms, Option.bind_eq_bind, hrow, Option.some_bind, Option.bind_eq_some] at h
    obtain ⟨b, hb, h⟩ := h
    have := ih _ _ _ h
    rw [trueCount_succ, hb, this, Nat.add_assoc (t * R) r0 1]
    cases b
    · simp
    · simp
      omega

theorem countSlots_eq {d : List (List Bool)} {i R : Nat} {row : List Bool}
    (hrow : d[i]? = some row) :
    ∀ (len t0 rem k : Nat), countSlots d i R (List.range' t0 len) rem = some k →
      k = rem + trueCount row (t0 * R) (len * R) := by
  intro len
  induction len with
  | zero =>
    intro t0 rem k h
    simp only [List.range'_zero, countSlots, Option.some.injEq] at h
    simp [trueCount, h]
  | succ len ih =>
    intro t0 rem k h
    rw [List.range'_succ] at h
    simp only [countSlots, Option.bind_eq_bind, Option.bind_eq_some] at h
    obtain ⟨k1, h1, h⟩ := h
    rw [List.range_eq_range'] at h1
    have e1 := countRooms_eq hrow _ _ _ _ h1
    have e2 := ih _ _ _ h
    have e3 : (len + 1) * R = R + len * R := by ring
    have e4 : (t0 + 1) * R = t0 * R + R := by ring
    rw [e3, trueCount_add, ← e4, e2, e1]
    simp only [Nat.add_zero]
    omega

/-- The `remaining` of MRV is the number of `true` entries of the course's row. -/
theorem remainingCount_eq {p : TimetableProblem} {d : List (List Bool)} {i : Nat}
    {row : List Bool} (hrow : d[i]? = some row)
    (hlen : row.length = p.timeslots.toNat * p.rooms.length) :
    remainingCount p d i = some (row.count true) := by
  obtain ⟨k, hk⟩ := countSlots_total hrow (R := p.rooms.length)
    (List.range p.timeslots.toNat) 0
    (fun t ht r hr => by rw [hlen]; exact index_lt (List.mem_range.mp ht) hr)
  unfold remainingCount
  rw [hk]
  rw [List.range_eq_range'] at hk
  have := countSlots_eq hrow _ _ _ _ hk
  rw [this, Nat.zero_mul, Nat.zero_add, ← hlen, trueCount_full]

/-! ## The five checks and the initial state -/

/-- Claim C11: `isConsistent(course, timeslot, room)`, the same text in both
solvers, on a validated problem and with `0 ≤ timeslot`, returns `true` if and
only if (1) the room's capacity is at least the course's students, (2) the
timeslot is not in the teacher's `busy_slots`, (3) it is not in the room's
`busy_slots`, (4) no other course assigned to the timeslot has the same
`teacher_id`, (5) no other course assigned to the timeslot shares a
student-group id with the course.  The function only returns a Boolean: it has
no effect on the assignment or the domain. -/
theorem isConsistent_five_checks (p : TimetableProblem) (s : SolverState) (c r : Nat) (t : Int)
    (course : Course) (room_obj : Room) (teacher : Teacher) (hval : Validated p)
    (hlen : s.assignment.length = p.courses.length)
    (hcourse : p.courses[c]? = some course) (hroom : p.rooms[r]? = some room_obj)
    (hteacher : vecAt p.teachers course.teacher_id = some teacher) (ht : 0 ≤ t) :
    ∃ b, BacktrackingSolver.isConsistent p s (c : Int) t (r : Int) = some b ∧
      ForwardCheckingSolver.isConsistent p s (c : Int) t (r : Int) = some b ∧
      (b = true ↔
        course.students ≤ room_obj.capacity ∧
        t ∉ teacher.busy_slots ∧
        t ∉ room_obj.busy_slots ∧
        (∀ (o : Nat) (other : Course) (ao : Assignment), o ≠ c → p.courses[o]? = some other →
          s.assignment[o]? = some ao → ao.timeslot = t →
          other.teacher_id ≠ course.teacher_id) ∧
        (∀ (o : Nat) (other : Course) (ao : Assignment), o ≠ c → p.courses[o]? = some other →
          s.assignment[o]? = some ao → ao.timeslot = t →
          shareStudentGroups course other = false)) := by
  obtain ⟨b, hb⟩ := isConsistent_total hval (a := s.assignment) (c := c) (t := t) (r := r) hlen
    (getElem?_lt hcourse) (getElem?_lt hroom)
  refine ⟨b, hb, hb, ?_⟩
  rw [isConsistent_iff hb]
  constructor
  · rintro ⟨⟨course', room', teacher', h1, h2, h3, h4, h5, h6⟩, hclash⟩
    rw [hcourse] at h1; cases h1
    rw [vecAt_natCast, hroom] at h2; cases h2
    rw [hteacher] at h3; cases h3
    refine ⟨h4, h5, h6, ?_, ?_⟩
    · intro o other ao hne hother hao hts hteach
      exact hclash ⟨o, ao, hne, getElem?_lt hother, hao, hts, by omega, course, other, hcourse,
        hother, Or.inl hteach⟩
    · intro o other ao hne hother hao hts
      cases hsh : shareStudentGroups course other with
      | false => rfl
      | true =>
        exact absurd ⟨o, ao, hne, getElem?_lt hother, hao, hts, by omega, course, other, hcourse,
          hother, Or.inr hsh⟩ hclash
  · rintro ⟨h4, h5, h6, h7, h8⟩
    refine ⟨⟨course, room_obj, teacher, hcourse, by rw [vecAt_natCast]; exact hroom, hteacher,
      h4, h5, h6⟩, ?_⟩
    rintro ⟨o, ao, hne, -, hao, hts, -, cc, co, hcc, hco, hconf⟩
    rw [hcourse] at hcc; cases hcc
    rcases hconf with h | h
    · exact h7 o co ao hne hco hao hts h
    · rw [h8 o co ao hne hco hao hts] at h
      cases h

/-- On `demoProblem` with course 0 at `(1, 1)`, the candidate `(2, 0)` of
course 1 passes all five checks. -/
theorem isConsistent_five_checks_witness :
    ∃ b, BacktrackingSolver.isConsistent demoProblem
        ⟨[⟨1, 1⟩, ⟨-1, -1⟩], List.replicate 2 (List.replicate 6 true), 0, 0⟩ 1 2 0 = some b ∧
      ForwardCheckingSolver.isConsistent demoProblem
        ⟨[⟨1, 1⟩, ⟨-1, -1⟩], List.replicate 2 (List.replicate 6 true), 0, 0⟩ 1 2 0 = some b ∧
      (b = true ↔
        (32 : Int) ≤ 40 ∧ (2 : Int) ∉ [(0 : Int)] ∧ (2 : Int) ∉ [(1 : Int)] ∧
        (∀ (o : Nat) (other : Course) (ao : Assignment), o ≠ 1 →
          demoProblem.courses[o]? = some other →
          ([⟨1, 1⟩, ⟨-1, -1⟩] : List Assignment)[o]? = some ao → ao.timeslot = 2 →
          other.teacher_id ≠ 0) ∧
        (∀ (o : Nat) (other : Course) (ao : Assignment), o ≠ 1 →
          demoProblem.courses[o]? = some other →
          ([⟨1, 1⟩, ⟨-1, -1⟩] : List Assignment)[o]? = some ao → ao.timeslot = 2 →
          shareStudentGroups ⟨1, "Web Dev", 0, 32, [2, 3]⟩ other = false)) :=
  isConsistent_five_checks demoProblem
    ⟨[⟨1, 1⟩, ⟨-1, -1⟩], List.replicate 2 (List.replicate 6 true), 0, 0⟩ 1 0 2
    ⟨1, "Web Dev", 0, 32, [2, 3]⟩ ⟨0, "Room A", 40, [1]⟩ ⟨0, "Dr. Smith", [0]⟩
    (by unfold Validated; decide) rfl rfl rfl rfl (by decide)

theorem teacherClashLoop_timeslots {p : TimetableProblem} {a a' : List Assignment}
    (h : a.map (fun x => x.timeslot) = a'.map (fun x => x.timeslot)) (course : Course)
    (cid t : Int) :
    ∀ l : List Nat, teacherClashLoop p a course cid t l = teacherClashLoop p a' course cid t l := by
  intro l
  induction l with
  | nil => rfl
  | cons o l ih =>
    have ho : (a[o]?).map (fun x => x.timeslot) = (a'[o]?).map (fun x => x.timeslot) := by
      rw [← List.getElem?_map, ← List.getElem?_map, h]
    unfold teacherClashLoop
    rw [ih]
    cases hao : a[o]? with
    | none =>
      rw [hao] at ho
      cases hao' : a'[o]? with
      | none => rfl
      | some y => rw [hao'] at ho; cases ho
    | some x =>
      rw [hao] at ho
      cases hao' : a'[o]? with
      | none => rw [hao'] at ho; cases ho
      | some y =>
        rw [hao'] at ho
        have hxy : x.timeslot = y.timeslot := by simpa using ho
        simp only [Option.bind_eq_bind, Option.some_bind, hxy]

theorem groupClashLoop_timeslots {p : TimetableProblem} {a a' : List Assignment}
    (h : a.map (fun x => x.timeslot) = a'.map (fun x => x.timeslot)) (course : Course)
    (cid t : Int) :
    ∀ l : List Nat, groupClashLoop p a course cid t l = groupClashLoop p a' course cid t l := by
  intro l
  induction l with
  | nil => rfl
  | cons o l ih =>
    have ho : (a[o]?).map (fun x => x.timeslot) = (a'[o]?).map (fun x => x.timeslot) := by
      rw [← List.getElem?_map, ← List.getElem?_map, h]
    unfold groupClashLoop
    rw [ih]
    cases hao : a[o]? with
    | none =>
      rw [hao] at ho
      cases hao' : a'[o]? with
      | none => rfl
      | some y => rw [hao'] at ho; cases ho
    | some x =>
      rw [hao] at ho
      cases hao' : a'[o]? with
      | none => rw [hao'] at ho; cases ho
      | some y =>
        rw [hao'] at ho
        have hxy : x.timeslot = y.timeslot := by simpa using ho
        simp only [Option.bind_eq_bind, Option.some_bind, hxy]

/-- Claim C12: room double-booking is not checked by `isConsistent`.  Its
result is the same on two assignment vectors that agree on all timeslots, so it
does not depend on the room of any other course; hence a candidate `(t, r)`
that passes checks 1-3 is accepted although another course `o` is already
committed to the same room `r` at the same timeslot `t`, as long as no course
assigned to `t` has the same teacher or shares a student group. -/
theorem isConsistent_ignores_rooms (p : TimetableProblem) (a a' : List Assignment)
    (c o r : Nat) (t : Int) (hval : Validated p)
    (hagree : a.map (fun x => x.timeslot) = a'.map (fun x => x.timeslot))
    (hlen : a.length = p.courses.length) (hc : c < p.courses.length) (_hoc : o ≠ c)
    (_hbooked : a[o]? = some ⟨t, (r : Int)⟩) (hstatic : StaticOK p c t (r : Int))
    (hclash : ¬ Clash p a c t) :
    (∀ cid t1 r1, isConsistentBody p a cid t1 r1 = isConsistentBody p a' cid t1 r1) ∧
    isConsistentBody p a (c : Int) t (r : Int) = some true ∧
    isConsistentBody p a' (c : Int) t (r : Int) = some true := by
  have hsame : ∀ cid t1 r1, isConsistentBody p a cid t1 r1 = isConsistentBody p a' cid t1 r1 := by
    intro cid t1 r1
    unfold isConsistentBody
    simp only [teacherClashLoop_timeslots hagree, groupClashLoop_timeslots hagree]
  have hr : r < p.rooms.length := by
    obtain ⟨_, room_obj, _, -, h2, -⟩ := hstatic
    rw [vecAt_natCast] at h2
    exact getElem?_lt h2
  obtain ⟨b, hb⟩ := isConsistent_total hval (a := a) (c := c) (t := t) (r := r) hlen hc hr
  have hbt : b = true := (isConsistent_iff hb).mpr ⟨hstatic, hclash⟩
  subst hbt
  exact ⟨hsame, hb, (hsame _ _ _) ▸ hb⟩

/-- On `roomShareProblem` course 0 sits in room 0 at timeslot 0; the candidate
`(0, 0)` of course 1 is accepted, whatever room course 0 has. -/
theorem isConsistent_ignores_rooms_witness :
    isConsistentBody roomShareProblem [⟨0, 0⟩, ⟨-1, -1⟩] 1 0 0 = some true ∧
    isConsistentBody roomShareProblem [⟨0, 7⟩, ⟨-1, 3⟩] 1 0 0 = some true :=
  (isConsistent_ignores_rooms roomShareProblem [⟨0, 0⟩, ⟨-1, -1⟩] [⟨0, 7⟩, ⟨-1, 3⟩] 1 0 0 0
    (by unfold Validated; decide) rfl rfl (by decide) (by decide) rfl
    ⟨⟨1, "Database", 1, 30, [2]⟩, ⟨0, "Room A", 40, []⟩, ⟨1, "Dr. Johnson", []⟩, rfl, rfl, rfl,
      by decide, by decide, by decide⟩
    (by
      rintro ⟨o, ao, hne, hlt, hao, hts, -, cc, co, hcc, hco, hconf⟩
      have ho : o = 0 := by
        have : o < 2 := hlt
        omega
      subst ho
      cases hcc; cases hco
      rcases hconf with h | h
      · exact absurd h (by decide)
      · exact absurd h (by decide))).2

/-- Claim C16: initial state.  Right after the construction of either solver
on a problem with `timeslots ≥ 0`, every course is unassigned, both counters
are `0`, and every course's domain row has exactly `timeslots * rooms.size()`
entries, all `true`, so that the remaining count of every course is
`timeslots * rooms.size()`. -/
theorem initial_state (p : TimetableProblem) (hT : 0 ≤ p.timeslots) :
    ∃ s, newSolver p = some s ∧
      s.assignment = List.replicate p.courses.length ⟨-1, -1⟩ ∧
      s.backtrack_count = 0 ∧ s.assignment_count = 0 ∧
      s.domain.length = p.courses.length ∧
      (∀ row ∈ s.domain, row.length = p.timeslots.toNat * p.rooms.length ∧
        ∀ b ∈ row, b = true) ∧
      (∀ i, i < p.courses.length →
        remainingCount p s.domain i = some (p.timeslots.toNat * p.rooms.length)) ∧
      ((p.timeslots.toNat * p.rooms.length : Nat) : Int) = p.timeslots * (p.rooms.length : Int) := by
  obtain ⟨s, hs⟩ := newSolver_total hT
  have hrows : ∀ row ∈ s.domain, row = List.replicate (p.timeslots.toNat * p.rooms.length) true := by
    intro row hrow
    rw [newSolver_eq hs] at hrow
    exact List.eq_of_mem_replicate hrow
  refine ⟨s, hs, by rw [newSolver_eq hs], by rw [newSolver_eq hs], by rw [newSolver_eq hs],
    by rw [newSolver_eq hs]; simp, ?_, ?_, ?_⟩
  · intro row hrow
    rw [hrows row hrow]
    exact ⟨List.length_replicate _ _, fun b hb => List.eq_of_mem_replicate hb⟩
  · intro i hi
    have hrow : s.domain[i]? =
        some (List.replicate (p.timeslots.toNat * p.rooms.length) true) := by
      rw [newSolver_eq hs]
      simp only
      rw [List.getElem?_replicate_of_lt hi]
    rw [remainingCount_eq hrow (List.length_replicate _ _)]
    simp
  · push_cast
    rw [Int.toNat_of_nonneg hT]

/-- The state built for `demoProblem`: two unassigned courses and two rows of
six `true` entries. -/
theorem initial_state_witness :
    ∃ s, newSolver demoProblem = some s ∧
      s.assignment = List.replicate demoProblem.courses.length ⟨-1, -1⟩ ∧
      s.backtrack_count = 0 ∧ s.assignment_count = 0 ∧
      s.domain.length = demoProblem.courses.length ∧
      (∀ row ∈ s.domain,
        row.length = demoProblem.timeslots.toNat * demoProblem.rooms.length ∧
        ∀ b ∈ row, b = true) ∧
      (∀ i, i < demoProblem.courses.length →
        remainingCount demoProblem s.domain i =
          some (demoProblem.timeslots.toNat * demoProblem.rooms.length)) ∧
      ((demoProblem.timeslots.toNat * demoProblem.rooms.length : Nat) : Int) =
        demoProblem.timeslots * (demoProblem.rooms.length : Int) :=
  initial_state demoProblem (by decide)

/-! ## The variable chosen by MRV -/

theorem remainingCount_le {p : TimetableProblem} {d : List (List Bool)} {i k : Nat}
    (h : remainingCount p d i = some k) : k ≤ p.timeslots.toNat * p.rooms.length := by
  have := countSlots_le _ _ _ h
  simpa using this

theorem mrvLoop_inv {p : TimetableProblem} {a : List Assignment} {d : List (List Bool)} :
    ∀ (len m : Nat) (minr sel x : Int),
      mrvLoop p a d (List.range' m len) minr sel = some x → MrvInv p a d m minr sel →
      ∃ minr', MrvInv p a d (m + len) minr' x := by
  intro len
  induction len with
  | zero =>
    intro m minr sel x h hinv
    simp only [List.range'_zero, mrvLoop, Option.some.injEq] at h
    subst h
    exact ⟨minr, hinv⟩
  | succ len ih =>
    intro m minr sel x h hinv
    rw [List.range'_succ] at h
    simp only [mrvLoop, Option.bind_eq_bind, Option.bind_eq_some] at h
    obtain ⟨am, ham, h⟩ := h
    have harith : m + (len + 1) = m + 1 + len := by omega
    rw [harith]
    split at h
    · rename_i hassigned
      refine ih (m + 1) minr sel x h ?_
      rcases hinv with ⟨h1, h2, h3⟩ | ⟨i, k, h1, h2, h3, h4, h5, h6, h7⟩
      · refine Or.inl ⟨h1, h2, ?_⟩
        intro j hj aj haj
        by_cases hjm : j = m
        · subst hjm
          rw [ham] at haj; cases haj
          exact hassigned
        · exact h3 j (by omega) aj haj
      · refine Or.inr ⟨i, k, h1, h2, by omega, h4, h5, ?_, h7⟩
        intro j hj hun kj hkj
        by_cases hjm : j = m
        · subst hjm
          obtain ⟨aj, haj, hajt⟩ := hun
          rw [ham] at haj; cases haj
          exact absurd hajt hassigned
        · exact h6 j (by omega) hun kj hkj
    · rename_i hnot
      have hun : am.timeslot = -1 := by simpa using hnot
      simp only [Option.bind_eq_some] at h
      obtain ⟨k', hk', h⟩ := h
      have hk'' : remainingCount p d m = some k' := hk'
      have hle := remainingCount_le hk''
      split at h
      · rename_i hlt
        refine ih (m + 1) (k' : Int) (m : Int) x h ?_
        refine Or.inr ⟨m, k', rfl, rfl, by omega, ⟨am, ham, hun⟩, hk'', ?_, ?_⟩
        · intro j hj hunj kj hkj
          by_cases hjm : j = m
          · subst hjm
            rw [hk''] at hkj; cases hkj
            exact Nat.le_refl _
          · rcases hinv with ⟨-, -, h3⟩ | ⟨i, k, -, h2, -, -, -, h6, -⟩
            · obtain ⟨aj, haj, hajt⟩ := hunj
              exact absurd hajt (h3 j (by omega) aj haj)
            · have := h6 j (by omega) hunj kj hkj
              omega
        · intro j hj hunj kj hkj
          rcases hinv with ⟨-, -, h3⟩ | ⟨i, k, -, h2, -, -, -, h6, -⟩
          · obtain ⟨aj, haj, hajt⟩ := hunj
            exact absurd hajt (h3 j (by omega) aj haj)
          · have := h6 j (by omega) hunj kj hkj
            omega
      · rename_i hnlt
        refine ih (m + 1) minr sel x h ?_
        rcases hinv with ⟨h1, h2, h3⟩ | ⟨i, k, h1, h2, h3, h4, h5, h6, h7⟩
        · exfalso
          have : (k' : Int) ≤ ((p.timeslots.toNat * p.rooms.length : Nat) : Int) := by
            exact_mod_cast hle
          omega
        · refine Or.inr ⟨i, k, h1, h2, by omega, h4, h5, ?_, h7⟩
          intro j hj hunj kj hkj
          by_cases hjm : j = m
          · subst hjm
            rw [hk''] at hkj; cases hkj
            omega
          · exact h6 j (by omega) hunj kj hkj

/-- When `timeslots * rooms.size() + 1` fits an `int`:
`selectUnassignedVariableMRV`, for `timeslots ≥ 0`, an assignment vector with
one entry per course and a domain table with `timeslots * rooms.size()` entries
per course, returns `-1` exactly when every course is assigned; otherwise it
returns the index `i` of an unassigned course whose number of `true` domain
entries is minimal among the unassigned courses, and every unassigned course
with a smaller index has strictly more. -/
theorem mrv_selects_first_minimum_of_fits (p : TimetableProblem) (a : List Assignment)
    (d : List (List Bool)) (hT : 0 ≤ p.timeslots) (hfit : MinRemainingFits p)
    (ha : a.length = p.courses.length) (hd : d.length = p.courses.length)
    (hrows : ∀ row ∈ d, row.length = p.timeslots.toNat * p.rooms.length) :
    ∃ x, selectUnassignedVariableMRV p a d = some x ∧
      (x = -1 ↔ ∀ i, i < p.courses.length → ∀ ai, a[i]? = some ai → ai.timeslot ≠ -1) ∧
      (x ≠ -1 → ∃ (i : Nat) (row : List Bool), x = (i : Int) ∧ i < p.courses.length ∧
        (∃ ai, a[i]? = some ai ∧ ai.timeslot = -1) ∧ d[i]? = some row ∧
        (∀ (j : Nat) (rowj : List Bool), (∃ aj, a[j]? = some aj ∧ aj.timeslot = -1) →
          d[j]? = some rowj → row.count true ≤ rowj.count true) ∧
        (∀ (j : Nat) (rowj : List Bool), j < i → (∃ aj, a[j]? = some aj ∧ aj.timeslot = -1) →
          d[j]? = some rowj → row.count true < rowj.count true)) := by
  obtain ⟨x, hx⟩ := mrv_total ha hd hrows
  have hcount : ∀ (j : Nat) (rowj : List Bool), d[j]? = some rowj →
      remainingCount p d j = some (rowj.count true) := by
    intro j rowj hj
    have hjl := getElem?_lt hj
    have hmem : rowj ∈ d := by
      rw [List.getElem?_eq_getElem hjl] at hj
      exact Option.some.inj hj ▸ List.getElem_mem hjl
    exact remainingCount_eq hj (hrows _ hmem)
  have hx' := hx
  unfold selectUnassignedVariableMRV at hx'
  rw [List.range_eq_range'] at hx'
  rw [minRemaining_of_fits hT hfit] at hx'
  obtain ⟨minr', hinv⟩ := mrvLoop_inv _ 0 _ _ _ hx' (Or.inl ⟨rfl, by
    push_cast
    rw [Int.toNat_of_nonneg hT]
    omega, fun j hj => by omega⟩)
  rw [Nat.zero_add] at hinv
  refine ⟨x, hx, ?_, ?_⟩
  · constructor
    · intro h
      subst h
      exact mrv_none hT hfit hx
    · intro hall
      rcases hinv with ⟨h1, -, -⟩ | ⟨i, k, -, -, h3, ⟨ai, hai, hait⟩, -⟩
      · exact h1
      · exact absurd hait (hall i h3 ai hai)
  · intro hne
    rcases hinv with ⟨h1, -, -⟩ | ⟨i, k, h1, -, h3, h4, h5, h6, h7⟩
    · exact absurd h1 hne
    · have hid : i < d.length := by omega
      refine ⟨i, d[i], h1, h3, h4, List.getElem?_eq_getElem hid, ?_, ?_⟩
      · intro j rowj hun hj
        have hjn : j < p.courses.length := hd ▸ getElem?_lt hj
        have e1 := hcount i _ (List.getElem?_eq_getElem hid)
        rw [h5] at e1
        have := h6 j hjn hun _ (hcount j rowj hj)
        rw [← Option.some.inj e1]
        exact this
      · intro j rowj hji hun hj
        have e1 := hcount i _ (List.getElem?_eq_getElem hid)
        rw [h5] at e1
        have := h7 j hji hun _ (hcount j rowj hj)
        rw [← Option.some.inj e1]
        exact this

/-- After `mrv_selects_first_minimum_of_fits`: with course 0 of `demoProblem`
assigned, course 1 is selected. -/
theorem mrv_selects_first_minimum_of_fits_demo :
    ∃ x, selectUnassignedVariableMRV demoProblem [⟨1, 1⟩, ⟨-1, -1⟩]
        (List.replicate 2 (List.replicate 6 true)) = some x ∧
      (x = -1 ↔ ∀ i, i < demoProblem.courses.length →
        ∀ ai, ([⟨1, 1⟩, ⟨-1, -1⟩] : List Assignment)[i]? = some ai → ai.timeslot ≠ -1) ∧
      (x ≠ -1 → ∃ (i : Nat) (row : List Bool), x = (i : Int) ∧ i < demoProblem.courses.length ∧
        (∃ ai, ([⟨1, 1⟩, ⟨-1, -1⟩] : List Assignment)[i]? = some ai ∧ ai.timeslot = -1) ∧
        (List.replicate 2 (List.replicate 6 true))[i]? = some row ∧
        (∀ (j : Nat) (rowj : List Bool),
          (∃ aj, ([⟨1, 1⟩, ⟨-1, -1⟩] : List Assignment)[j]? = some aj ∧ aj.timeslot = -1) →
          (List.replicate 2 (List.replicate 6 true))[j]? = some rowj →
          row.count true ≤ rowj.count true) ∧
        (∀ (j : Nat) (rowj : List Bool), j < i →
          (∃ aj, ([⟨1, 1⟩, ⟨-1, -1⟩] : List Assignment)[j]? = some aj ∧ aj.timeslot = -1) →
          (List.replicate 2 (List.replicate 6 true))[j]? = some rowj →
          row.count true < rowj.count true)) :=
  mrv_selects_first_minimum_of_fits demoProblem [⟨1, 1⟩, ⟨-1, -1⟩]
    (List.replicate 2 (List.replicate 6 true)) (by decide) (by unfold MinRemainingFits; decide)
    rfl rfl (by decide)

/-! ## The order of the candidate values -/

theorem collectRooms_sorted {d : List (List Bool)} {cid : Int} {R t : Nat} :
    ∀ (len r0 : Nat) (acc vs : List Value),
      collectRooms d cid R t (List.range' r0 len) acc = some vs → acc.Pairwise LexLt →
      (∀ v ∈ acc, v.timeslot < (t : Int) ∨ (v.timeslot = (t : Int) ∧ v.room < (r0 : Int))) →
      vs.Pairwise LexLt ∧
        ∀ v ∈ vs, v.timeslot < (t : Int) ∨
          (v.timeslot = (t : Int) ∧ v.room < ((r0 + len : Nat) : Int)) := by
  intro len
  induction len with
  | zero =>
    intro r0 acc vs h hp hb
    simp only [List.range'_zero, collectRooms, Option.some.injEq] at h
    subst h
    exact ⟨hp, by simpa using hb⟩
  | succ len ih =>
    intro r0 acc vs h hp hb
    rw [List.range'_succ] at h
    simp only [collectRooms, Option.bind_eq_bind, Option.bind_eq_some] at h
    obtain ⟨row, -, b, -, h⟩ := h
    have harith : r0 + (len + 1) = r0 + 1 + len := by omega
    rw [harith]
    refine ih (r0 + 1) _ vs h ?_ ?_
    · cases b with
      | false => simpa using hp
      | true =>
        simp only [if_true]
        rw [List.pairwise_append]
        refine ⟨hp, List.pairwise_singleton _ _, ?_⟩
        intro v hv w hw
        rw [List.mem_singleton] at hw
        subst hw
        exact hb v hv
    · intro v hv
      cases b with
      | false =>
        simp only [Bool.false_eq_true, if_false] at hv
        rcases hb v hv with h1 | h1
        · exact Or.inl h1
        · exact Or.inr ⟨h1.1, by push_cast; omega⟩
      | true =>
        simp only [if_true, List.mem_append, List.mem_singleton] at hv
        rcases hv with hv | hv
        · rcases hb v hv with h1 | h1
          · exact Or.inl h1
          · exact Or.inr ⟨h1.1, by push_cast; omega⟩
        · subst hv
          exact Or.inr ⟨rfl, by push_cast; omega⟩

theorem collectSlots_sorted {d : List (List Bool)} {cid : Int} {R : Nat} :
    ∀ (len t0 : Nat) (acc vs : List Value),
      collectSlots d cid R (List.range' t0 len) acc = some vs → acc.Pairwise LexLt →
      (∀ v ∈ acc, v.timeslot < (t0 : Int)) →
      vs.Pairwise LexLt ∧ ∀ v ∈ vs, v.timeslot < ((t0 + len : Nat) : Int) := by
  intro len
  induction len with
  | zero =>
    intro t0 acc vs h hp hb
    simp only [List.range'_zero, collectSlots, Option.some.injEq] at h
    subst h
    exact ⟨hp, by simpa using hb⟩
  | succ len ih =>
    intro t0 acc vs h hp hb
    rw [List.range'_succ] at h
    simp only [collectSlots, Option.bind_eq_bind, Option.bind_eq_some] at h
    obtain ⟨vs1, h1, h⟩ := h
    rw [List.range_eq_range'] at h1
    obtain ⟨s1, s2⟩ := collectRooms_sorted _ _ _ _ h1 hp (fun v hv => Or.inl (hb v hv))
    have harith : t0 + (len + 1) = t0 + 1 + len := by omega
    rw [harith]
    refine ih (t0 + 1) vs1 vs h s1 ?_
    intro v hv
    rcases s2 v hv with h2 | h2
    · push_cast; omega
    · push_cast; omega

theorem LexLt.ne {v w : Value} (h : LexLt v w) : v ≠ w := by
  intro hvw
  subst hvw
  rcases h with h | h
  · omega
  · omega

theorem insertionSort_of_sorted :
    ∀ l : List Value, l.Pairwise (fun a b => ¬ b.timeslot < a.timeslot) →
      insertionSortByTimeslot l = l := by
  intro l
  induction l with
  | nil => intro _; rfl
  | cons v vs ih =>
    intro h
    obtain ⟨h1, h2⟩ := List.pairwise_cons.mp h
    unfold insertionSortByTimeslot
    rw [ih h2]
    cases vs with
    | nil => rfl
    | cons w ws =>
      unfold insertByTimeslot
      rw [if_neg (h1 w (List.mem_cons_self _ _))]

/-- Claim C14, refuted as stated: on the full domain of `wideProblem` (one
course, 8 timeslots, 4 rooms, so 32 values) the sort of the GNU C++ library
reads every element it needs and `orderDomainValues` returns
`(0, 1), (0, 2), (0, 3), (0, 0), ...`: the values are ascending by timeslot,
but the pairs of timeslots 0, 2 and 4 are not ascending by room. -/
theorem orderDomainValues_ties_unordered :
    (newSolver wideProblem).map SolverState.domain = some [List.replicate 32 true] ∧
    (collectSlots [List.replicate 32 true] 0 4 (List.range 8) []).bind LibStdCxx.sort =
      some [⟨0, 1, 0⟩, ⟨0, 2, 0⟩, ⟨0, 3, 0⟩, ⟨0, 0, 0⟩, ⟨1, 0, 0⟩, ⟨1, 1, 0⟩, ⟨1, 2, 0⟩,
        ⟨1, 3, 0⟩, ⟨2, 1, 0⟩, ⟨2, 3, 0⟩, ⟨2, 2, 0⟩, ⟨2, 0, 0⟩, ⟨3, 0, 0⟩, ⟨3, 1, 0⟩,
        ⟨3, 2, 0⟩, ⟨3, 3, 0⟩, ⟨4, 0, 0⟩, ⟨4, 3, 0⟩, ⟨4, 2, 0⟩, ⟨4, 1, 0⟩, ⟨5, 0, 0⟩,
        ⟨5, 1, 0⟩, ⟨5, 2, 0⟩, ⟨5, 3, 0⟩, ⟨6, 0, 0⟩, ⟨6, 1, 0⟩, ⟨6, 2, 0⟩, ⟨6, 3, 0⟩,
        ⟨7, 0, 0⟩, ⟨7, 1, 0⟩, ⟨7, 2, 0⟩, ⟨7, 3, 0⟩] ∧
    orderDomainValues librarySort wideProblem 0 [List.replicate 32 true] =
      some [⟨0, 1, 0⟩, ⟨0, 2, 0⟩, ⟨0, 3, 0⟩, ⟨0, 0, 0⟩, ⟨1, 0, 0⟩, ⟨1, 1, 0⟩, ⟨1, 2, 0⟩,
        ⟨1, 3, 0⟩, ⟨2, 1, 0⟩, ⟨2, 3, 0⟩, ⟨2, 2, 0⟩, ⟨2, 0, 0⟩, ⟨3, 0, 0⟩, ⟨3, 1, 0⟩,
        ⟨3, 2, 0⟩, ⟨3, 3, 0⟩, ⟨4, 0, 0⟩, ⟨4, 3, 0⟩, ⟨4, 2, 0⟩, ⟨4, 1, 0⟩, ⟨5, 0, 0⟩,
        ⟨5, 1, 0⟩, ⟨5, 2, 0⟩, ⟨5, 3, 0⟩, ⟨6, 0, 0⟩, ⟨6, 1, 0⟩, ⟨6, 2, 0⟩, ⟨6, 3, 0⟩,
        ⟨7, 0, 0⟩, ⟨7, 1, 0⟩, ⟨7, 2, 0⟩, ⟨7, 3, 0⟩] :=
  ⟨by rfl, by rfl, by rfl⟩

/-- Claim C14, amended: `orderDomainValues(problem, course, domain)` returns
exactly the `(timeslot, room)` pairs whose domain entry for that course is
`true`, each once, ordered ascending by timeslot.  The comparator looks at the
timeslot only, so pairs with equal timeslots are in the order `std::sort`
leaves them; they are ascending by room, i.e. the list is strictly increasing
in the lexicographic order, when the sort returns an already ordered sequence
unchanged, as a stable sort does. -/
theorem orderDomainValues_contents (srt : List Value → List Value) (p : TimetableProblem)
    (cid : Int) (d : List (List Bool)) (vs : List Value) (hsrt : StdSort srt)
    (h : orderDomainValues srt p cid d = some vs) :
    (∀ v, v ∈ vs ↔ ∃ t, t < p.timeslots.toNat ∧ ∃ r, r < p.rooms.length ∧
      v = ⟨(t : Int), (r : Int), cid⟩ ∧
      ∃ row, vecAt d cid = some row ∧ row[t * p.rooms.length + r]? = some true) ∧
    vs.Nodup ∧
    vs.Pairwise (fun v w => v.timeslot ≤ w.timeslot) ∧
    ((∀ l : List Value, l.Pairwise (fun a b => ¬ b.timeslot < a.timeslot) → srt l = l) →
      vs.Pairwise LexLt) ∧
    (∀ l : List Value, l.Pairwise (fun a b => ¬ b.timeslot < a.timeslot) →
      insertionSortByTimeslot l = l) := by
  refine ⟨odv_mem hsrt h, ?_, ?_, ?_, insertionSort_of_sorted⟩
  all_goals
    simp only [orderDomainValues, Option.bind_eq_bind, Option.bind_eq_some] at h
    obtain ⟨_, -, vals, hvals, h⟩ := h
    cases h
    rw [List.range_eq_range'] at hvals
    obtain ⟨hlex, -⟩ := collectSlots_sorted _ _ _ _ hvals List.Pairwise.nil (by simp)
  · exact ((hsrt vals).1.nodup_iff).mpr (hlex.imp LexLt.ne)
  · exact (hsrt vals).2.imp (fun hab => by omega)
  · intro hstable
    rw [hstable vals (hlex.imp (fun hab => by
      rcases hab with h1 | h1
      · omega
      · omega))]
    exact hlex

/-- With the insertion sort, which keeps ordered input unchanged, the values of
course 0 of `demoProblem` come out in lexicographic order. -/
theorem orderDomainValues_contents_witness :
    ([⟨0, 0, 0⟩, ⟨0, 1, 0⟩, ⟨1, 0, 0⟩, ⟨1, 1, 0⟩, ⟨2, 0, 0⟩, ⟨2, 1, 0⟩] :
      List Value).Pairwise LexLt :=
  (orderDomainValues_contents insertionSortByTimeslot demoProblem 0
    (List.replicate 2 (List.replicate 6 true))
    [⟨0, 0, 0⟩, ⟨0, 1, 0⟩, ⟨1, 0, 0⟩, ⟨1, 1, 0⟩, ⟨2, 0, 0⟩, ⟨2, 1, 0⟩]
    insertionSort_stdSort (by rfl)).2.2.2.1 insertionSort_of_sorted

/-! ## Pruning is monotone -/

theorem countRooms_no_row {d : List (List Bool)} {i R t : Nat} (hrow : d[i]? = none) :
    ∀ (rs : List Nat) (rem k : Nat), countRooms d i R t rs rem = some k → k = rem := by
  intro rs rem k h
  cases rs with
  | nil => simp only [countRooms, Option.some.injEq] at h; exact h.symm
  | cons r rs => simp [countRooms, hrow] at h

theorem countSlots_no_row {d : List (List Bool)} {i R : Nat} (hrow : d[i]? = none) :
    ∀ (ts : List Nat) (rem k : Nat), countSlots d i R ts rem = some k → k = rem := by
  intro ts
  induction ts with
  | nil => intro rem k h; simp only [countSlots, Option.some.injEq] at h; exact h.symm
  | cons t ts ih =>
    intro rem k h
    simp only [countSlots, Option.bind_eq_bind, Option.bind_eq_some] at h
    obtain ⟨k1, h1, h⟩ := h
    rw [ih _ _ h, countRooms_no_row hrow _ _ _ h1]

/-- Pruning can only lower the `remaining` that MRV computes. -/
theorem PrunedFrom.remaining_le {Reason : Nat → Nat → Prop} {d d' : List (List Bool)}
    (h : PrunedFrom Reason d d') {p : TimetableProblem} {i k k' : Nat}
    (hk : remainingCount p d i = some k) (hk' : remainingCount p d' i = some k') : k' ≤ k := by
  unfold remainingCount at hk hk'
  cases hrow : d[i]? with
  | none =>
    have hrow' : d'[i]? = none := by
      rw [List.getElem?_eq_none_iff] at hrow ⊢
      rw [h.1]; exact hrow
    rw [countSlots_no_row hrow _ _ _ hk, countSlots_no_row hrow' _ _ _ hk']
  | some row =>
    obtain ⟨row', hrow', -, hent⟩ := h.2 i row hrow
    rw [List.range_eq_range'] at hk hk'
    rw [countSlots_eq hrow _ _ _ _ hk, countSlots_eq hrow' _ _ _ _ hk']
    have hmono : trueCount row' (0 * p.rooms.length) (p.timeslots.toNat * p.rooms.length) ≤
        trueCount row (0 * p.rooms.length) (p.timeslots.toNat * p.rooms.length) :=
      trueCount_mono _ _ (fun idx hidx => by
        rcases hent idx with e | ⟨e, -, -⟩
        · rw [← e]; exact hidx
        · exact e)
    omega

/-- Rows that the pruning rule does not address are returned as they were. -/
theorem PrunedFrom.row_eq {Reason : Nat → Nat → Prop} {d d' : List (List Bool)}
    (h : PrunedFrom Reason d d') {o : Nat} (hno : ∀ idx, ¬ Reason o idx) : d'[o]? = d[o]? := by
  cases hrow : d[o]? with
  | none =>
    rw [List.getElem?_eq_none_iff] at hrow ⊢
    rw [h.1]; exact hrow
  | some row =>
    obtain ⟨row', hrow', -, hent⟩ := h.2 o row hrow
    rw [hrow']
    congr 1
    apply List.ext_getElem?
    intro idx
    rcases hent idx with e | ⟨-, -, e⟩
    · exact e
    · exact absurd e (hno idx)

/-- Claim C15: pruning monotonicity.  A call of `forwardCheck`, whatever it
returns, leaves the assignment alone and only turns domain entries from `true`
to `false`, never from `false` to `true`; so every row keeps its length, the
remaining-value count of every course after the call is at most its count
before, and the committed course's own row is unchanged. -/
theorem forwardCheck_monotone (p : TimetableProblem) (s : SolverState) (cid t0 r0 : Int)
    (res : Bool × SolverState)
    (h : ForwardCheckingSolver.forwardCheck p s cid t0 r0 = some res) :
    res.2.assignment = s.assignment ∧
    res.2.domain.length = s.domain.length ∧
    (∀ (o : Nat) (row : List Bool), s.domain[o]? = some row →
      ∃ row', res.2.domain[o]? = some row' ∧ row'.length = row.length ∧
        (∀ idx : Nat, row[idx]? = some false → row'[idx]? = some false) ∧
        (∀ idx : Nat, row'[idx]? = some true → row[idx]? = some true) ∧
        row'.count true ≤ row.count true) ∧
    (∀ i k k', remainingCount p s.domain i = some k →
      remainingCount p res.2.domain i = some k' → k' ≤ k) ∧
    (∀ c : Nat, (c : Int) = cid → res.2.domain[c]? = s.domain[c]?) := by
  obtain ⟨f1, -, -, f4, -⟩ := forwardCheck_spec h
  refine ⟨f1, f4.1, ?_, fun i k k' hk hk' => f4.remaining_le hk hk', ?_⟩
  · intro o row hrow
    obtain ⟨row', hrow', hlen, hent⟩ := f4.2 o row hrow
    have hup : ∀ idx : Nat, row'[idx]? = some true → row[idx]? = some true := by
      intro idx hidx
      rcases hent idx with e | ⟨e, -, -⟩
      · rw [← e]; exact hidx
      · exact e
    refine ⟨row', hrow', hlen, ?_, hup, ?_⟩
    · intro idx hidx
      rcases hent idx with e | ⟨e, -, -⟩
      · rw [e]; exact hidx
      · rw [hidx] at e; cases e
    · rw [← trueCount_full, ← trueCount_full, hlen]
      exact trueCount_mono 0 row.length hup
  · intro c hc
    apply f4.row_eq
    rintro idx ⟨hne, -⟩
    exact hne hc

/-- After course 0 of `demoProblem` is committed to `(1, 1)`, `forwardCheck`
leaves course 1 with four of its six values and row 0 as it was. -/
theorem forwardCheck_monotone_witness :
    ([List.replicate 6 true, [true, true, false, false, true, true]] : List (List Bool))[0]? =
      (List.replicate 2 (List.replicate 6 true))[0]? :=
  (forwardCheck_monotone demoProblem
    ⟨[⟨1, 1⟩, ⟨-1, -1⟩], List.replicate 2 (List.replicate 6 true), 0, 4⟩ 0 1 1
    (true, ⟨[⟨1, 1⟩, ⟨-1, -1⟩],
      [List.replicate 6 true, [true, true, false, false, true, true]], 0, 4⟩)
    (by rfl)).2.2.2.2 0 rfl

/-! ## The exact effect of `forwardCheck` -/

theorem fcConsistent_false_iff (assigned other : Course) (t0 r0 : Int) (t r : Nat) :
    fcConsistent assigned other t0 r0 t r = false ↔
      (t : Int) = t0 ∧ (other.teacher_id = assigned.teacher_id ∨ (r : Int) = r0 ∨
        shareStudentGroups assigned other = true) := by
  unfold fcConsistent
  by_cases ht : (t : Int) = t0
  · simp only [ht, if_true, Bool.not_eq_false', Bool.or_eq_true, decide_eq_true_eq, true_and,
      or_assoc]
  · simp [ht]

theorem viable_set_of {d : List (List Bool)} {o idx o' idx' : Nat} {row : List Bool}
    (hrow : d[o]? = some row) (h : Viable (d.set o (row.set idx false)) o' idx') :
    Viable d o' idx' ∧ ¬ (o' = o ∧ idx' = idx) := by
  obtain ⟨row1, hrow1, hidx1⟩ := h
  have ho := getElem?_lt hrow
  by_cases hoo : o' = o
  · subst hoo
    rw [List.getElem?_set_self ho] at hrow1
    cases hrow1
    by_cases hii : idx' = idx
    · subst hii
      by_cases hlt : idx' < row.length
      · rw [List.getElem?_set_self hlt] at hidx1; cases hidx1
      · rw [List.getElem?_eq_none (by rw [List.length_set]; omega)] at hidx1; cases hidx1
    · rw [List.getElem?_set_ne (Ne.symm hii)] at hidx1
      exact ⟨⟨row, hrow, hidx1⟩, fun h => hii h.2⟩
  · rw [List.getElem?_set_ne (Ne.symm hoo)] at hrow1
    exact ⟨⟨row1, hrow1, hidx1⟩, fun h => hoo h.1⟩

/-- The loop over `r` of `forwardCheck`, read off its result: it touches only
row `o`, never switches an entry on, leaves no viable inconsistent pair among
those it visited, and reports a wipeout only right after it pruned a pair. -/
theorem fcRooms_exact {p : TimetableProblem} {timeslot room : Int} {assigned other : Course}
    {o t : Nat} :
    ∀ (rs : List Nat) (d : List (List Bool)) (res : Bool × List (List Bool)),
      fcRooms p assigned other o timeslot room t rs d = some res →
      (∀ o', o' ≠ o → res.2[o']? = d[o']?) ∧
      (∀ o' idx, Viable res.2 o' idx → Viable d o' idx) ∧
      (res.1 = true → ∀ r ∈ rs, Viable res.2 o (t * p.rooms.length + r) →
        fcConsistent assigned other timeslot room t r = true) ∧
      (res.1 = true → res.2[o]? = d[o]? ∨ HasValue p res.2 o) ∧
      (res.1 = false → (∃ r ∈ rs, Viable d o (t * p.rooms.length + r)) ∧
        ∃ row', res.2[o]? = some row' ∧
          ∀ t', t' < p.timeslots.toNat → ∀ r', r' < p.rooms.length →
            row'[t' * p.rooms.length + r']? ≠ some true) := by
  intro rs
  induction rs with
  | nil =>
    intro d res h
    simp only [fcRooms, Option.some.injEq] at h
    subst h
    exact ⟨fun _ _ => rfl, fun _ _ hv => hv, fun _ r hr => by simp at hr, fun _ => Or.inl rfl,
      fun hf => by simp at hf⟩
  | cons r rs ih =>
    intro d res h
    simp only [fcRooms, Option.bind_eq_bind, Option.bind_eq_some] at h
    obtain ⟨row, hrow, b, hb, h⟩ := h
    split at h
    · rename_i hbf
      have hbf' : b = false := by simpa using hbf
      subst hbf'
      obtain ⟨i1, i2, i3, i4, i5⟩ := ih d res h
      refine ⟨i1, i2, ?_, i4, ?_⟩
      · intro ht r' hr' hv
        rcases List.mem_cons.mp hr' with rfl | hr'
        · obtain ⟨row0, hrow0, hidx0⟩ := i2 _ _ hv
          rw [hrow] at hrow0; cases hrow0
          rw [hb] at hidx0; cases hidx0
        · exact i3 ht r' hr' hv
      · intro hf
        obtain ⟨⟨r', hr', hv⟩, rest⟩ := i5 hf
        exact ⟨⟨r', List.mem_cons_of_mem _ hr', hv⟩, rest⟩
    · rename_i hbt
      have hbt' : b = true := by simpa using hbt
      subst hbt'
      split at h
      · rename_i hincons
        simp only [Option.bind_eq_some, vecSetN] at h
        obtain ⟨row1, hrow1, d1, hd1, hvv, hscan, h⟩ := h
        split at hrow1
        case isFalse => cases hrow1
        cases hrow1
        split at hd1
        case isFalse => cases hd1
        rename_i holt
        cases hd1
        have hd1o : (d.set o (row.set (t * p.rooms.length + r) false))[o]? =
            some (row.set (t * p.rooms.length + r) false) := List.getElem?_set_self holt
        have hloc : ∀ o', o' ≠ o →
            (d.set o (row.set (t * p.rooms.length + r) false))[o']? = d[o']? :=
          fun o' ho' => List.getElem?_set_ne (Ne.symm ho')
        split at h
        · rename_i hnv
          cases h
          have hvf : hvv = false := by simpa using hnv
          subst hvf
          refine ⟨hloc, fun o' idx hv => (viable_set_of hrow hv).1,
            fun hc => absurd hc (by simp), fun hc => absurd hc (by simp),
            fun _ => ⟨⟨r, List.mem_cons_self _ _, row, hrow, hb⟩, _, hd1o, ?_⟩⟩
          intro t' ht' r' hr' hcon
          have := (scanSlots_spec _ _ hscan).mpr ⟨t', List.mem_range.mpr ht', r', hr', hcon⟩
          cases this
        · rename_i hv
          have hvt : hvv = true := by simpa using hv
          subst hvt
          obtain ⟨i1, i2, i3, i4, i5⟩ := ih _ res h
          have hmono : ∀ o' idx, Viable res.2 o' idx → Viable d o' idx :=
            fun o' idx hv => (viable_set_of hrow (i2 o' idx hv)).1
          refine ⟨fun o' ho' => (i1 o' ho').trans (hloc o' ho'), hmono, ?_, ?_, ?_⟩
          · intro ht r' hr' hv
            rcases List.mem_cons.mp hr' with rfl | hr'
            · exact absurd ⟨rfl, rfl⟩ (viable_set_of hrow (i2 _ _ hv)).2
            · exact i3 ht r' hr' hv
          · intro ht
            rcases i4 ht with e | e
            · right
              obtain ⟨t', ht', r', hr', hcon⟩ := (scanSlots_spec _ _ hscan).mp rfl
              exact ⟨t', r', List.mem_range.mp ht', hr', _, e.trans hd1o, hcon⟩
            · exact Or.inr e
          · intro hf
            obtain ⟨⟨r', hr', hv⟩, rest⟩ := i5 hf
            exact ⟨⟨r', List.mem_cons_of_mem _ hr', (viable_set_of hrow hv).1⟩, rest⟩
      · rename_i hcons
        have hcons' : fcConsistent assigned other timeslot room t r = true := by
          simpa using hcons
        obtain ⟨i1, i2, i3, i4, i5⟩ := ih d res h
        refine ⟨i1, i2, ?_, i4, ?_⟩
        · intro ht r' hr' hv
          rcases List.mem_cons.mp hr' with rfl | hr'
          · exact hcons'
          · exact i3 ht r' hr' hv
        · intro hf
          obtain ⟨⟨r', hr', hv⟩, rest⟩ := i5 hf
          exact ⟨⟨r', List.mem_cons_of_mem _ hr', hv⟩, rest⟩

theorem HasValue.of_row_eq {p : TimetableProblem} {d d' : List (List Bool)} {o : Nat}
    (h : HasValue p d o) (e : d'[o]? = d[o]?) : HasValue p d' o := by
  obtain ⟨t, r, ht, hr, row, hrow, hidx⟩ := h
  exact ⟨t, r, ht, hr, row, e.trans hrow, hidx⟩

/-- The loop over `t` of `forwardCheck` for one course, read off its result. -/
theorem fcSlots_exact {p : TimetableProblem} {timeslot room : Int} {assigned other : Course}
    {o : Nat} :
    ∀ (ts : List Nat) (d : List (List Bool)) (res : Bool × List (List Bool)),
      fcSlots p assigned other o timeslot room ts d = some res →
      (∀ o', o' ≠ o → res.2[o']? = d[o']?) ∧
      (∀ o' idx, Viable res.2 o' idx → Viable d o' idx) ∧
      (res.1 = true → ∀ t ∈ ts, ∀ r, r < p.rooms.length →
        Viable res.2 o (t * p.rooms.length + r) →
        fcConsistent assigned other timeslot room t r = true) ∧
      (res.1 = true → res.2[o]? = d[o]? ∨ HasValue p res.2 o) ∧
      (res.1 = false → (∃ t ∈ ts, ∃ r, r < p.rooms.length ∧
          Viable d o (t * p.rooms.length + r)) ∧
        ∃ row', res.2[o]? = some row' ∧
          ∀ t', t' < p.timeslots.toNat → ∀ r', r' < p.rooms.length →
            row'[t' * p.rooms.length + r']? ≠ some true) := by
  intro ts
  induction ts with
  | nil =>
    intro d res h
    simp only [fcSlots, Option.some.injEq] at h
    subst h
    exact ⟨fun _ _ => rfl, fun _ _ hv => hv, fun _ t ht => by simp at ht, fun _ => Or.inl rfl,
      fun hf => by simp at hf⟩
  | cons t ts ih =>
    intro d res h
    simp only [fcSlots, Option.bind_eq_bind, Option.bind_eq_some] at h
    obtain ⟨res1, h1, h⟩ := h
    obtain ⟨j1, j2, j3, j4, j5⟩ := fcRooms_exact _ _ _ h1
    split at h
    · rename_i hr1
      obtain ⟨i1, i2, i3, i4, i5⟩ := ih _ _ h
      refine ⟨fun o' ho' => (i1 o' ho').trans (j1 o' ho'),
        fun o' idx hv => j2 o' idx (i2 o' idx hv), ?_, ?_, ?_⟩
      · intro ht t' ht' r hr hv
        rcases List.mem_cons.mp ht' with rfl | ht'
        · exact j3 hr1 r (List.mem_range.mpr hr) (i2 _ _ hv)
        · exact i3 ht t' ht' r hr hv
      · intro ht
        rcases i4 ht with e | e
        · rcases j4 hr1 with e1 | e1
          · exact Or.inl (e.trans e1)
          · exact Or.inr (e1.of_row_eq e)
        · exact Or.inr e
      · intro hf
        obtain ⟨⟨t', ht', r, hr, hv⟩, rest⟩ := i5 hf
        exact ⟨⟨t', List.mem_cons_of_mem _ ht', r, hr, j2 _ _ hv⟩, rest⟩
    · rename_i hr1
      have hr1' : res1.1 = false := by simpa using hr1
      cases h
      refine ⟨j1, j2, fun hc => absurd hc (by simp), fun hc => absurd hc (by simp), fun _ => ?_⟩
      obtain ⟨⟨r, hr, hv⟩, rest⟩ := j5 hr1'
      exact ⟨⟨t, List.mem_cons_self _ _, r, List.mem_range.mp hr, hv⟩, rest⟩

/-- The loop over the courses of `forwardCheck`, read off its result. -/
theorem fcCourses_exact {p : TimetableProblem} {a : List Assignment}
    {cid timeslot room : Int} {assigned : Course} :
    ∀ (l : List Nat) (d : List (List Bool)) (res : Bool × List (List Bool)),
      fcCourses p a assigned cid timeslot room l d = some res →
      (∀ o' idx, Viable res.2 o' idx → Viable d o' idx) ∧
      (res.1 = true → ∀ o ∈ l, (o : Int) ≠ cid → (∃ ao, a[o]? = some ao ∧ ao.timeslot = -1) →
        ∀ other, p.courses[o]? = some other →
        ∀ t, t < p.timeslots.toNat → ∀ r, r < p.rooms.length →
        Viable res.2 o (t * p.rooms.length + r) →
        fcConsistent assigned other timeslot room t r = true) ∧
      (res.1 = true → ∀ o, res.2[o]? = d[o]? ∨ HasValue p res.2 o) ∧
      (res.1 = false → ∃ o ∈ l, (o : Int) ≠ cid ∧ (∃ ao, a[o]? = some ao ∧ ao.timeslot = -1) ∧
        HasValue p d o ∧
        ∃ row', res.2[o]? = some row' ∧
          ∀ t', t' < p.timeslots.toNat → ∀ r', r' < p.rooms.length →
            row'[t' * p.rooms.length + r']? ≠ some true) := by
  intro l
  induction l with
  | nil =>
    intro d res h
    simp only [fcCourses, Option.some.injEq] at h
    subst h
    exact ⟨fun _ _ hv => hv, fun _ o ho => by simp at ho, fun _ _ => Or.inl rfl,
      fun hf => by simp at hf⟩
  | cons o l ih =>
    intro d res h
    unfold fcCourses at h
    split at h
    · rename_i heq
      obtain ⟨i1, i2, i3, i4⟩ := ih _ _ h
      refine ⟨i1, ?_, i3, ?_⟩
      · intro ht o' ho' hne
        rcases List.mem_cons.mp ho' with rfl | ho'
        · exact absurd heq hne
        · exact i2 ht o' ho' hne
      · intro hf
        obtain ⟨o', ho', rest⟩ := i4 hf
        exact ⟨o', List.mem_cons_of_mem _ ho', rest⟩
    · rename_i hne
      simp only [Option.bind_eq_bind, Option.bind_eq_some] at h
      obtain ⟨ao, hao, h⟩ := h
      split at h
      · rename_i hassigned
        obtain ⟨i1, i2, i3, i4⟩ := ih _ _ h
        refine ⟨i1, ?_, i3, ?_⟩
        · intro ht o' ho' hne' hun
          rcases List.mem_cons.mp ho' with rfl | ho'
          · obtain ⟨ao', hao', haot⟩ := hun
            rw [hao] at hao'; cases hao'
            exact absurd haot hassigned
          · exact i2 ht o' ho' hne' hun
        · intro hf
          obtain ⟨o', ho', rest⟩ := i4 hf
          exact ⟨o', List.mem_cons_of_mem _ ho', rest⟩
      · rename_i hun
        have hun' : ao.timeslot = -1 := by simpa using hun
        simp only [Option.bind_eq_some] at h
        obtain ⟨other, hother, res1, h1, h⟩ := h
        obtain ⟨j1, j2, j3, j4, j5⟩ := fcSlots_exact _ _ _ h1
        split at h
        · rename_i hr1
          obtain ⟨i1, i2, i3, i4⟩ := ih _ _ h
          refine ⟨fun o' idx hv => j2 o' idx (i1 o' idx hv), ?_, ?_, ?_⟩
          · intro ht o' ho' hne' hun2 other' hother' t ht' r hr hv
            rcases List.mem_cons.mp ho' with rfl | ho'
            · rw [hother] at hother'; cases hother'
              exact j3 hr1 t (List.mem_range.mpr ht') r hr (i1 _ _ hv)
            · exact i2 ht o' ho' hne' hun2 other' hother' t ht' r hr hv
          · intro ht o'
            rcases i3 ht o' with e | e
            · by_cases hoo : o' = o
              · subst hoo
                rcases j4 hr1 with e1 | e1
                · exact Or.inl (e.trans e1)
                · exact Or.inr (e1.of_row_eq e)
              · exact Or.inl (e.trans (j1 o' hoo))
            · exact Or.inr e
          · intro hf
            obtain ⟨o', ho', g1, g2, ⟨t, r, ht, hr, hv⟩, rest⟩ := i4 hf
            exact ⟨o', List.mem_cons_of_mem _ ho', g1, g2, ⟨t, r, ht, hr, j2 _ _ hv⟩, rest⟩
        · rename_i hr1
          have hr1' : res1.1 = false := by simpa using hr1
          cases h
          refine ⟨j2, fun hc => absurd hc (by simp), fun hc => absurd hc (by simp), fun _ => ?_⟩
          obtain ⟨⟨t, ht, r, hr, hv⟩, rest⟩ := j5 hr1'
          exact ⟨o, List.mem_cons_self _ _, hne, ⟨ao, hao, hun'⟩,
            ⟨t, r, List.mem_range.mp ht, hr, hv⟩, rest⟩

/-! ## The pruning rule and the wipeout test -/

/-- `forwardCheck` as a whole, read off its result. -/
theorem forwardCheck_exact {p : TimetableProblem} {s : SolverState} {cid t0 r0 : Int}
    {res : Bool × SolverState} {assigned : Course}
    (h : ForwardCheckingSolver.forwardCheck p s cid t0 r0 = some res)
    (hassigned : vecAt p.courses cid = some assigned) :
    (res.1 = true → ∀ o, o < p.courses.length → (o : Int) ≠ cid →
      (∃ ao, s.assignment[o]? = some ao ∧ ao.timeslot = -1) →
      ∀ other, p.courses[o]? = some other →
      ∀ t, t < p.timeslots.toNat → ∀ r, r < p.rooms.length →
      Viable res.2.domain o (t * p.rooms.length + r) →
      fcConsistent assigned other t0 r0 t r = true) ∧
    (res.1 = true → ∀ o, res.2.domain[o]? = s.domain[o]? ∨ HasValue p res.2.domain o) ∧
    (res.1 = false → ∃ o, o < p.courses.length ∧ (o : Int) ≠ cid ∧
      (∃ ao, s.assignment[o]? = some ao ∧ ao.timeslot = -1) ∧ HasValue p s.domain o ∧
      ∃ row', res.2.domain[o]? = some row' ∧
        ∀ t', t' < p.timeslots.toNat → ∀ r', r' < p.rooms.length →
          row'[t' * p.rooms.length + r']? ≠ some true) := by
  simp only [ForwardCheckingSolver.forwardCheck, Option.bind_eq_bind, Option.bind_eq_some] at h
  obtain ⟨assigned', hassigned', r1, hr1, h⟩ := h
  rw [hassigned] at hassigned'
  cases hassigned'
  cases h
  obtain ⟨-, e2, e3, e4⟩ := fcCourses_exact _ _ _ hr1
  refine ⟨fun ht o ho => e2 ht o (List.mem_range.mpr ho), e3, fun hf => ?_⟩
  obtain ⟨o, ho, rest⟩ := e4 hf
  exact ⟨o, List.mem_range.mp ho, rest⟩

theorem pruneReason_prunable {p : TimetableProblem} {a : List Assignment} {cid t0 r0 : Int}
    {o t r : Nat} (hr : r < p.rooms.length)
    (h : PruneReason p a cid t0 r0 o (t * p.rooms.length + r)) : Prunable p cid t0 r0 o t r := by
  obtain ⟨-, -, assigned, other, h1, h2, t', r', hr', hidx, hts, hwhy⟩ := h
  obtain ⟨e1, e2⟩ := index_inj hr hr' hidx
  subst e1; subst e2
  exact ⟨assigned, other, h1, h2, hts, hwhy⟩

theorem prunable_iff {p : TimetableProblem} {cid t0 r0 : Int} {o t r : Nat}
    {assigned other : Course} (hassigned : vecAt p.courses cid = some assigned)
    (hother : p.courses[o]? = some other) :
    Prunable p cid t0 r0 o t r ↔ fcConsistent assigned other t0 r0 t r = false := by
  rw [fcConsistent_false_iff]
  constructor
  · rintro ⟨assigned', other', h1, h2, h3, h4⟩
    rw [hassigned] at h1; cases h1
    rw [hother] at h2; cases h2
    exact ⟨h3, h4⟩
  · rintro ⟨h3, h4⟩
    exact ⟨assigned, other, hassigned, hother, h3, h4⟩

/-- Claim C19: the pruning rule.  When `forwardCheck(a, t0, r0)` returns `true`,
then for every unassigned course `o ≠ a` and every pair `(t, r)` of the table
the new entry is the old entry and not (`t = t0` and (`o` has `a`'s teacher or
`r = r0` or the two courses share a student group)); the rows of assigned
courses and of `a` itself are unchanged, and so are all entries at timeslots
other than `t0`. -/
theorem forwardCheck_pruning_rule (p : TimetableProblem) (s s' : SolverState)
    (cid t0 r0 : Int) (assigned : Course)
    (h : ForwardCheckingSolver.forwardCheck p s cid t0 r0 = some (true, s'))
    (hassigned : vecAt p.courses cid = some assigned) :
    (∀ (o : Nat) (other : Course) (row : List Bool), (o : Int) ≠ cid →
      (∃ ao, s.assignment[o]? = some ao ∧ ao.timeslot = -1) →
      p.courses[o]? = some other → s.domain[o]? = some row →
      ∃ row', s'.domain[o]? = some row' ∧ row'.length = row.length ∧
        ∀ (t r : Nat) (b : Bool), t < p.timeslots.toNat → r < p.rooms.length →
          row[t * p.rooms.length + r]? = some b →
          row'[t * p.rooms.length + r]? =
            some (b && !(decide ((t : Int) = t0) &&
              (decide (other.teacher_id = assigned.teacher_id) || decide ((r : Int) = r0) ||
                shareStudentGroups assigned other)))) ∧
    (∀ o : Nat, ((o : Int) = cid ∨ ∃ ao, s.assignment[o]? = some ao ∧ ao.timeslot ≠ -1) →
      s'.domain[o]? = s.domain[o]?) ∧
    (∀ (o : Nat) (row row' : List Bool), s.domain[o]? = some row → s'.domain[o]? = some row' →
      ∀ t r : Nat, r < p.rooms.length → (t : Int) ≠ t0 →
        row'[t * p.rooms.length + r]? = row[t * p.rooms.length + r]?) := by
  obtain ⟨-, -, -, f4, -⟩ := forwardCheck_spec h
  obtain ⟨e1, -, -⟩ := forwardCheck_exact h hassigned
  simp only at f4 e1
  refine ⟨?_, ?_, ?_⟩
  · intro o other row hne hun hother hrow
    obtain ⟨row', hrow', hlen, hent⟩ := f4.2 o row hrow
    refine ⟨row', hrow', hlen, ?_⟩
    intro t r b ht hr hb
    have hrule : (!(decide ((t : Int) = t0) &&
        (decide (other.teacher_id = assigned.teacher_id) || decide ((r : Int) = r0) ||
          shareStudentGroups assigned other))) = fcConsistent assigned other t0 r0 t r := by
      unfold fcConsistent
      by_cases hts : (t : Int) = t0
      · simp [hts]
      · simp [hts]
    rw [hrule]
    rcases hent (t * p.rooms.length + r) with e | ⟨e1', e2', e3'⟩
    · rw [e, hb]
      cases b with
      | false => rfl
      | true =>
        have hv : Viable s'.domain o (t * p.rooms.length + r) := ⟨row', hrow', e.trans hb⟩
        rw [e1 trivial o (getElem?_lt hother) hne hun other hother t ht r hr hv]
        rfl
    · rw [hb] at e1'
      cases e1'
      rw [e2', (prunable_iff hassigned hother).mp (pruneReason_prunable hr e3')]
      rfl
  · intro o ho
    apply f4.row_eq
    rintro idx ⟨hne, ⟨ao, hao, haot⟩, -⟩
    rcases ho with ho | ⟨ao', hao', haot'⟩
    · exact hne ho
    · rw [hao] at hao'; cases hao'
      exact haot' haot
  · intro o row row' hrow hrow' t r hr hts
    obtain ⟨row1, hrow1, -, hent⟩ := f4.2 o row hrow
    rw [hrow'] at hrow1; cases hrow1
    rcases hent (t * p.rooms.length + r) with e | ⟨-, -, e3⟩
    · exact e
    · obtain ⟨_, _, _, _, h3, _⟩ := pruneReason_prunable hr e3
      exact absurd h3 hts

/-- After course 0 of `demoProblem` (the teacher of both courses) is committed
to `(1, 1)`, the row of course 1 loses exactly the two pairs of timeslot 1. -/
theorem forwardCheck_pruning_rule_witness :
    ∃ row', ([List.replicate 6 true, [true, true, false, false, true, true]] :
        List (List Bool))[1]? = some row' ∧
      row'.length = (List.replicate 6 true).length ∧
      ∀ (t r : Nat) (b : Bool), t < demoProblem.timeslots.toNat →
        r < demoProblem.rooms.length →
        (List.replicate 6 true)[t * demoProblem.rooms.length + r]? = some b →
        row'[t * demoProblem.rooms.length + r]? =
          some (b && !(decide ((t : Int) = 1) &&
            (decide ((0 : Int) = 0) || decide ((r : Int) = 1) ||
              shareStudentGroups ⟨0, "AI", 0, 25, [0, 1]⟩ ⟨1, "Web Dev", 0, 32, [2, 3]⟩))) :=
  (forwardCheck_pruning_rule demoProblem
    ⟨[⟨1, 1⟩, ⟨-1, -1⟩], List.replicate 2 (List.replicate 6 true), 0, 4⟩
    ⟨[⟨1, 1⟩, ⟨-1, -1⟩], [List.replicate 6 true, [true, true, false, false, true, true]], 0, 4⟩
    0 1 1 ⟨0, "AI", 0, 25, [0, 1]⟩ (by rfl) rfl).1 1 ⟨1, "Web Dev", 0, 32, [2, 3]⟩
    (List.replicate 6 true) (by decide) ⟨⟨-1, -1⟩, rfl, rfl⟩ rfl rfl

/-- Claim C20: wipeout detection.  `forwardCheck(a, t0, r0)` returns `false` if
and only if some unassigned course `o ≠ a` had at least one `true` entry in the
table on entry and every one of its `true` entries is hit by the pruning rule
(it lies at timeslot `t0` and `o` has `a`'s teacher, or it is room `r0`, or the
courses share a student group).  In particular, when every unassigned course
has a `true` entry on entry, it returns `false` exactly when pruning leaves
some unassigned course without a value. -/
theorem forwardCheck_wipeout_iff (p : TimetableProblem) (s : SolverState) (cid t0 r0 : Int)
    (res : Bool × SolverState)
    (h : ForwardCheckingSolver.forwardCheck p s cid t0 r0 = some res) :
    (res.1 = false ↔ ∃ o, o < p.courses.length ∧ (o : Int) ≠ cid ∧
      (∃ ao, s.assignment[o]? = some ao ∧ ao.timeslot = -1) ∧ HasValue p s.domain o ∧
      ∀ t r, t < p.timeslots.toNat → r < p.rooms.length →
        Viable s.domain o (t * p.rooms.length + r) → Prunable p cid t0 r0 o t r) ∧
    ((∀ o, o < p.courses.length → (o : Int) ≠ cid →
        (∃ ao, s.assignment[o]? = some ao ∧ ao.timeslot = -1) → HasValue p s.domain o) →
      (res.1 = false ↔ ∃ o, o < p.courses.length ∧ (o : Int) ≠ cid ∧
        (∃ ao, s.assignment[o]? = some ao ∧ ao.timeslot = -1) ∧
        ∀ t r, t < p.timeslots.toNat → r < p.rooms.length →
          Viable s.domain o (t * p.rooms.length + r) → Prunable p cid t0 r0 o t r)) := by
  have hassigned : ∃ assigned, vecAt p.courses cid = some assigned := by
    simp only [ForwardCheckingSolver.forwardCheck, Option.bind_eq_bind,
      Option.bind_eq_some] at h
    obtain ⟨assigned, h1, -⟩ := h
    exact ⟨assigned, h1⟩
  obtain ⟨assigned, hassigned⟩ := hassigned
  obtain ⟨-, -, -, f4, -⟩ := forwardCheck_spec h
  obtain ⟨e1, e2, e3⟩ := forwardCheck_exact h hassigned
  have main : res.1 = false ↔ ∃ o, o < p.courses.length ∧ (o : Int) ≠ cid ∧
      (∃ ao, s.assignment[o]? = some ao ∧ ao.timeslot = -1) ∧ HasValue p s.domain o ∧
      ∀ t r, t < p.timeslots.toNat → r < p.rooms.length →
        Viable s.domain o (t * p.rooms.length + r) → Prunable p cid t0 r0 o t r := by
    constructor
    · intro hf
      obtain ⟨o, ho, hne, hun, hhas, row', hrow', hall⟩ := e3 hf
      refine ⟨o, ho, hne, hun, hhas, ?_⟩
      intro t r ht hr hv
      rcases f4.viable hv with h1 | h1
      · obtain ⟨row1, hrow1, hidx1⟩ := h1
        rw [hrow'] at hrow1; cases hrow1
        exact absurd hidx1 (hall t ht r hr)
      · exact pruneReason_prunable hr h1
    · rintro ⟨o, ho, hne, hun, ⟨t1, r1, ht1, hr1, hv1⟩, hall⟩
      cases hb : res.1 with
      | false => rfl
      | true =>
        exfalso
        have hother : p.courses[o]? = some p.courses[o] := List.getElem?_eq_getElem ho
        have hno : ∀ t r, t < p.timeslots.toNat → r < p.rooms.length →
            ¬ Viable res.2.domain o (t * p.rooms.length + r) := by
          intro t r ht hr hv
          have hc := e1 hb o ho hne hun _ hother t ht r hr hv
          have hv0 : Viable s.domain o (t * p.rooms.length + r) := by
            obtain ⟨row', hrow', hidx'⟩ := hv
            obtain ⟨row, hrow⟩ : ∃ row, s.domain[o]? = some row := by
              have : o < s.domain.length := f4.1 ▸ getElem?_lt hrow'
              exact ⟨_, List.getElem?_eq_getElem this⟩
            obtain ⟨row1, hrow1, -, hent⟩ := f4.2 o row hrow
            rw [hrow'] at hrow1; cases hrow1
            rcases hent (t * p.rooms.length + r) with e | ⟨e, -, -⟩
            · exact ⟨row, hrow, e ▸ hidx'⟩
            · exact ⟨row, hrow, e⟩
          have := (prunable_iff hassigned hother).mp (hall t r ht hr hv0)
          rw [hc] at this
          cases this
        rcases e2 hb o with e | ⟨t, r, ht, hr, hv⟩
        · obtain ⟨row, hrow, hidx⟩ := hv1
          exact hno t1 r1 ht1 hr1 ⟨row, e.trans hrow, hidx⟩
        · exact hno t r ht hr hv
  refine ⟨main, fun hfull => ?_⟩
  rw [main]
  constructor
  · rintro ⟨o, ho, hne, hun, -, hall⟩
    exact ⟨o, ho, hne, hun, hall⟩
  · rintro ⟨o, ho, hne, hun, hall⟩
    exact ⟨o, ho, hne, hun, hfull o ho hne hun, hall⟩

/-- On `clashProblem`, after course 0 is committed to `(0, 0)`, `forwardCheck`
reports a wipeout: the only value of course 1 is hit by the rule. -/
theorem forwardCheck_wipeout_iff_witness :
    ((false, (⟨[⟨0, 0⟩, ⟨-1, -1⟩], [[true], [false]], 0, 1⟩ : SolverState)).1 = false ↔
      ∃ o, o < clashProblem.courses.length ∧ (o : Int) ≠ 0 ∧
      (∃ ao, ([⟨0, 0⟩, ⟨-1, -1⟩] : List Assignment)[o]? = some ao ∧ ao.timeslot = -1) ∧
      HasValue clashProblem [[true], [true]] o ∧
      ∀ t r, t < clashProblem.timeslots.toNat → r < clashProblem.rooms.length →
        Viable [[true], [true]] o (t * clashProblem.rooms.length + r) →
        Prunable clashProblem 0 0 0 o t r) :=
  (forwardCheck_wipeout_iff clashProblem ⟨[⟨0, 0⟩, ⟨-1, -1⟩], [[true], [true]], 0, 1⟩ 0 0 0
    (false, ⟨[⟨0, 0⟩, ⟨-1, -1⟩], [[true], [false]], 0, 1⟩) (by rfl)).1

/-! ## Recursion depth and vector bounds -/

/-- The candidate loop does not tell apart two versions of the recursive call
that agree on every `Sentinel` state with fewer than `k` unassigned courses,
when the loop runs in a state with `k` unassigned courses. -/
theorem genTry_congr_count {fc : Bool} {p : TimetableProblem}
    {rec1 rec2 : SolverState → Option (Bool × SolverState)} {c k : Nat}
    (hagree : ∀ s2, Sentinel s2.assignment → unassignedCount s2.assignment < k →
      rec1 s2 = rec2 s2)
    (hrec : ∀ s2 res, Sentinel s2.assignment → rec2 s2 = some res → res.1 = false →
      res.2.assignment = s2.assignment ∧ res.2.domain = s2.domain) :
    ∀ (vs : List Value) (s : SolverState),
      (∀ v ∈ vs, v.timeslot ≠ -1) → Sentinel s.assignment →
      (∃ ac, s.assignment[c]? = some ac ∧ ac.timeslot = -1) →
      unassignedCount s.assignment = k →
      genTry fc p rec1 (c : Int) vs s = genTry fc p rec2 (c : Int) vs s := by
  intro vs
  induction vs with
  | nil => intro s _ _ _ _; rfl
  | cons v vs ih =>
    intro s hvs hsent hc hk
    have hvs' : ∀ v' ∈ vs, v'.timeslot ≠ -1 := fun v' hv' => hvs v' (List.mem_cons_of_mem _ hv')
    have hv : v.timeslot ≠ -1 := hvs v (List.mem_cons_self _ _)
    simp only [genTry, Option.bind_eq_bind]
    cases isConsistentBody p s.assignment (c : Int) v.timeslot v.room with
    | none => rfl
    | some ok =>
      cases ok with
      | false =>
        simp only [Option.some_bind, Bool.false_eq_true, if_false]
        exact ih _ hvs' hsent hc hk
      | true =>
        simp only [Option.some_bind, if_true]
        cases ha2 : vecSet s.assignment (c : Int) ⟨v.timeslot, v.room⟩ with
        | none => rfl
        | some a2 =>
          simp only [Option.some_bind]
          cases hfcr : genPropagate fc p
            { assignment := a2, domain := s.domain, backtrack_count := s.backtrack_count,
              assignment_count := toInt32 (s.assignment_count + 1) } (c : Int) v.timeslot v.room with
          | none => rfl
          | some fcr =>
            simp only [Option.some_bind]
            have hasg := genPropagate_asg hfcr
            have e1 : a2 = s.assignment.set c ⟨v.timeslot, v.room⟩ := by
              have := vecSet_eq_some ha2
              simpa using this
            have hsent2 : Sentinel fcr.2.assignment := by
              rw [hasg, e1]
              exact sentinel_set hsent hv
            have hless : unassignedCount fcr.2.assignment < k := by
              obtain ⟨ac, hac, hact⟩ := hc
              have hx : (⟨v.timeslot, v.room⟩ : Assignment).timeslot ≠ -1 := hv
              have := unassignedCount_set hac hact hx
              rw [hasg, e1]
              show unassignedCount (s.assignment.set c ⟨v.timeslot, v.room⟩) < k
              omega
            have hdesc : genDescend rec1 fcr = genDescend rec2 fcr := by
              unfold genDescend
              rw [hagree fcr.2 hsent2 hless]
            rw [hdesc]
            cases hr : genDescend rec2 fcr with
            | none => rfl
            | some r =>
              simp only [Option.some_bind]
              cases hr1 : r.1 with
              | true => rfl
              | false =>
                simp only [Bool.false_eq_true, if_false]
                obtain ⟨u1, -⟩ := attempt_undo hrec hv hsent hc ha2 hfcr hr hr1
                rw [u1]
                simp only [Option.some_bind]
                have hasg4 : (genRestore fc s.domain r.2 s.assignment).assignment =
                    s.assignment := rfl
                exact ih _ hvs' (hasg4 ▸ hsent) (hasg4 ▸ hc) (hasg4 ▸ hk)

/-- The assertion in front of every recursive call, that the callee has
strictly fewer unassigned courses than the caller, never fails. -/
theorem decreasing_at_every_call {fc : Bool} {srt : List Value → List Value}
    (hsrt : StdSort srt) {p : TimetableProblem} :
    ∀ (fuel : Nat) (s : SolverState), Sentinel s.assignment →
      genBacktrackDecreasing fc srt p fuel s = genBacktrack fc srt p fuel s := by
  intro fuel
  induction fuel with
  | zero => intro s _; rfl
  | succ fuel ih =>
    intro s hsent
    simp only [genBacktrackDecreasing, genBacktrack, Option.bind_eq_bind]
    cases hcid : selectUnassignedVariableMRV p s.assignment s.domain with
    | none => rfl
    | some cid =>
      simp only [Option.some_bind]
      split
      · rfl
      · rename_i hne
        cases hvs : orderDomainValues srt p cid s.domain with
        | none => rfl
        | some vs =>
          simp only [Option.some_bind]
          rcases mrv_cases hcid with h1 | ⟨c, -, rfl, hc⟩
          · exact absurd h1 hne
          · refine genTry_congr_count ?_ (genBacktrack_frame hsrt fuel) vs s
              (odv_timeslot_ne hsrt hvs) hsent hc rfl
            intro s2 hs2 hlt
            simp only [hlt, if_true]
            exact ih s2 hs2

theorem unassignedCount_le (a : List Assignment) : unassignedCount a ≤ a.length :=
  List.countP_le_length _

/-- Claim C17: termination.  For a validated problem, `backtrack()` of both
solvers returns from the state the constructor builds within recursion depth
`courses.size() + 1`; from any well-shaped state it returns within depth
(number of unassigned courses) + 1, which is at most `courses.size() + 1`; and
every recursive call is made with strictly fewer unassigned courses than its
caller had on entry (the assertion saying so never fails). -/
theorem backtrack_terminates (srt : List Value → List Value) (p : TimetableProblem)
    (hsrt : StdSort srt) (hval : Validated p) :
    (∃ s0, newSolver p = some s0 ∧
      (∃ res, BacktrackingSolver.backtrack srt p (p.courses.length + 1) s0 = some res) ∧
      (∃ res, ForwardCheckingSolver.backtrack srt p (p.courses.length + 1) s0 = some res)) ∧
    (∀ (s : SolverState) (fuel : Nat), Shape p s → Sentinel s.assignment →
      unassignedCount s.assignment < fuel →
      (∃ res, BacktrackingSolver.backtrack srt p fuel s = some res) ∧
      (∃ res, ForwardCheckingSolver.backtrack srt p fuel s = some res) ∧
      unassignedCount s.assignment + 1 ≤ p.courses.length + 1) ∧
    (∀ (s : SolverState) (fuel : Nat), Sentinel s.assignment →
      genBacktrackDecreasing false srt p fuel s = BacktrackingSolver.backtrack srt p fuel s ∧
      genBacktrackDecreasing true srt p fuel s =
        ForwardCheckingSolver.backtrack srt p fuel s) := by
  have gen : ∀ (s : SolverState) (fuel : Nat), Shape p s → Sentinel s.assignment →
      unassignedCount s.assignment < fuel →
      (∃ res, BacktrackingSolver.backtrack srt p fuel s = some res) ∧
      (∃ res, ForwardCheckingSolver.backtrack srt p fuel s = some res) ∧
      unassignedCount s.assignment + 1 ≤ p.courses.length + 1 := by
    intro s fuel hshape hsent hfuel
    refine ⟨?_, ?_, ?_⟩
    · rw [bt_backtrack_eq]
      exact genBacktrack_total false hsrt hval fuel s hshape hsent hfuel
    · rw [fc_backtrack_eq]
      exact genBacktrack_total true hsrt hval fuel s hshape hsent hfuel
    · have := unassignedCount_le s.assignment
      have := hshape.1
      omega
  refine ⟨?_, gen, ?_⟩
  · obtain ⟨s0, hs0⟩ := newSolver_total hval.1
    obtain ⟨h1, h2, -, -, h5⟩ := newSolver_facts hs0
    obtain ⟨g1, g2, -⟩ := gen s0 _ h1 h2 h5
    exact ⟨s0, hs0, g1, g2⟩
  · intro s fuel hsent
    rw [bt_backtrack_eq, fc_backtrack_eq]
    exact ⟨decreasing_at_every_call hsrt fuel s hsent, decreasing_at_every_call hsrt fuel s hsent⟩

/-- On `demoProblem` both `backtrack()` functions return within depth 3. -/
theorem backtrack_terminates_witness :
    ∃ s0, newSolver demoProblem = some s0 ∧
      (∃ res, BacktrackingSolver.backtrack insertionSortByTimeslot demoProblem
        (demoProblem.courses.length + 1) s0 = some res) ∧
      (∃ res, ForwardCheckingSolver.backtrack insertionSortByTimeslot demoProblem
        (demoProblem.courses.length + 1) s0 = some res) :=
  (backtrack_terminates insertionSortByTimeslot demoProblem insertionSort_stdSort
    (by unfold Validated; decide)).1

/-- Claim C18: no vector access leaves its bounds.  For a validated problem,
`solve()` of both solvers runs through without an out-of-range access (the
checked embedding returns a result); in every well-shaped state each of
`selectUnassignedVariableMRV`, `orderDomainValues`, `isConsistent` and
`forwardCheck` does, for every course index and every room index; every
course's `teacher_id` indexes `teachers`; and every domain index
`t * rooms.size() + r` with `t < timeslots`, `r < rooms.size()` is below
`timeslots * rooms.size()`, the length of every domain row. -/
theorem solve_in_bounds (srt : List Value → List Value) (p : TimetableProblem)
    (hsrt : StdSort srt) (hval : Validated p) :
    (∃ res, BacktrackingSolver.solve srt p = some res) ∧
    (∃ res, ForwardCheckingSolver.solve srt p = some res) ∧
    (∀ c ∈ p.courses, ∃ teacher, vecAt p.teachers c.teacher_id = some teacher) ∧
    (∀ s : SolverState, Shape p s →
      (∃ x, selectUnassignedVariableMRV p s.assignment s.domain = some x) ∧
      (∀ c : Nat, c < p.courses.length →
        (∃ vs, orderDomainValues srt p (c : Int) s.domain = some vs) ∧
        (∀ (t : Int) (r : Nat), r < p.rooms.length →
          (∃ b, BacktrackingSolver.isConsistent p s (c : Int) t (r : Int) = some b) ∧
          (∃ b, ForwardCheckingSolver.isConsistent p s (c : Int) t (r : Int) = some b)) ∧
        (∀ t r : Int, ∃ res, ForwardCheckingSolver.forwardCheck p s (c : Int) t r = some res)) ∧
      (∀ row ∈ s.domain, ∀ t r : Nat, t < p.timeslots.toNat → r < p.rooms.length →
        t * p.rooms.length + r < p.timeslots.toNat * p.rooms.length ∧
        ∃ b, row[t * p.rooms.length + r]? = some b)) := by
  refine ⟨?_, ?_, ?_, ?_⟩
  · rw [bt_solve_eq]
    exact genSolve_total false hsrt hval
  · rw [fc_solve_eq]
    exact genSolve_total true hsrt hval
  · intro c hc
    obtain ⟨h1, h2⟩ := hval.2 c hc
    have hlt : c.teacher_id.toNat < p.teachers.length := by omega
    refine ⟨p.teachers[c.teacher_id.toNat], ?_⟩
    unfold vecAt
    rw [if_neg (by omega)]
    exact List.getElem?_eq_getElem hlt
  · intro s hshape
    refine ⟨mrv_total hshape.1 hshape.2.1 hshape.2.2, ?_, ?_⟩
    · intro c hc
      refine ⟨odv_total srt hc hshape.2.1 hshape.2.2, ?_, ?_⟩
      · intro t r hr
        exact ⟨isConsistent_total hval hshape.1 hc hr, isConsistent_total hval hshape.1 hc hr⟩
      · intro t r
        exact forwardCheck_total hshape hc
    · intro row hrow t r ht hr
      have hidx := index_lt ht hr
      have hlen : t * p.rooms.length + r < row.length := by
        rw [hshape.2.2 row hrow]; exact hidx
      exact ⟨hidx, row[t * p.rooms.length + r], List.getElem?_eq_getElem hlen⟩

/-- On `demoProblem` both solvers run through. -/
theorem solve_in_bounds_witness :
    (∃ res, BacktrackingSolver.solve insertionSortByTimeslot demoProblem = some res) ∧
    (∃ res, ForwardCheckingSolver.solve insertionSortByTimeslot demoProblem = some res) :=
  ⟨(solve_in_bounds insertionSortByTimeslot demoProblem insertionSort_stdSort
      (by unfold Validated; decide)).1,
    (solve_in_bounds insertionSortByTimeslot demoProblem insertionSort_stdSort
      (by unfold Validated; decide)).2.1⟩

/-! ## Properties kept by every commit -/

theorem odv_viable {srt : List Value → List Value} (hsrt : StdSort srt)
    {p : TimetableProblem} {c : Nat} {d : List (List Bool)} {vs : List Value}
    (h : orderDomainValues srt p (c : Int) d = some vs) :
    ∀ v ∈ vs, ∃ t r : Nat, v = ⟨(t : Int), (r : Int), (c : Int)⟩ ∧ t < p.timeslots.toNat ∧
      r < p.rooms.length ∧ Viable d c (t * p.rooms.length + r) := by
  intro v hv
  obtain ⟨t, ht, r, hr, rfl, row, hrow, hidx⟩ := (odv_mem hsrt h v).mp hv
  rw [vecAt_natCast] at hrow
  exact ⟨t, r, rfl, ht, hr, row, hrow, hidx⟩

/-- The candidate loop does not tell apart two versions of the recursive call
that agree on every state satisfying a property which every commit keeps. -/
theorem genTry_congr_inv {fc : Bool} {p : TimetableProblem}
    {rec1 rec2 : SolverState → Option (Bool × SolverState)} {c : Nat}
    {Q : List Assignment → List (List Bool) → Prop}
    (hagree : ∀ s2, Q s2.assignment s2.domain → Sentinel s2.assignment → rec1 s2 = rec2 s2)
    (hrec : ∀ s2 res, Sentinel s2.assignment → rec2 s2 = some res → res.1 = false →
      res.2.assignment = s2.assignment ∧ res.2.domain = s2.domain)
    (hstep : StepInv fc p Q) :
    ∀ (vs : List Value) (s : SolverState),
      (∀ v ∈ vs, ∃ t r : Nat, v = ⟨(t : Int), (r : Int), (c : Int)⟩ ∧ t < p.timeslots.toNat ∧
        r < p.rooms.length ∧ Viable s.domain c (t * p.rooms.length + r)) →
      Q s.assignment s.domain → Sentinel s.assignment →
      (∃ ac, s.assignment[c]? = some ac ∧ ac.timeslot = -1) →
      genTry fc p rec1 (c : Int) vs s = genTry fc p rec2 (c : Int) vs s := by
  intro vs
  induction vs with
  | nil => intro s _ _ _ _; rfl
  | cons v vs ih =>
    intro s hvs hQ hsent hc
    have hvs' : ∀ v' ∈ vs, ∃ t r : Nat, v' = ⟨(t : Int), (r : Int), (c : Int)⟩ ∧
        t < p.timeslots.toNat ∧ r < p.rooms.length ∧
        Viable s.domain c (t * p.rooms.length + r) :=
      fun v' hv' => hvs v' (List.mem_cons_of_mem _ hv')
    obtain ⟨t, r, rfl, ht, hr, hviable⟩ := hvs _ (List.mem_cons_self _ _)
    have hv : ((⟨(t : Int), (r : Int), (c : Int)⟩ : Value)).timeslot ≠ -1 := by
      simp only; omega
    simp only [genTry, Option.bind_eq_bind]
    cases hok : isConsistentBody p s.assignment (c : Int) (t : Int) (r : Int) with
    | none => rfl
    | some ok =>
      cases ok with
      | false =>
        simp only [Option.some_bind, Bool.false_eq_true, if_false]
        exact ih _ hvs' hQ hsent hc
      | true =>
        simp only [Option.some_bind, if_true]
        cases ha2 : vecSet s.assignment (c : Int) ⟨(t : Int), (r : Int)⟩ with
        | none => rfl
        | some a2 =>
          simp only [Option.some_bind]
          cases hfcr : genPropagate fc p
            { assignment := a2, domain := s.domain, backtrack_count := s.backtrack_count,
              assignment_count := toInt32 (s.assignment_count + 1) } (c : Int) (t : Int) (r : Int) with
          | none => rfl
          | some fcr =>
            simp only [Option.some_bind]
            have hasg := genPropagate_asg hfcr
            have e1 : a2 = s.assignment.set c ⟨(t : Int), (r : Int)⟩ := by
              have := vecSet_eq_some ha2
              simpa using this
            have hsent2 : Sentinel fcr.2.assignment := by
              rw [hasg, e1]
              exact sentinel_set hsent hv
            have hdesc : genDescend rec1 fcr = genDescend rec2 fcr := by
              unfold genDescend
              cases hf : fcr.1 with
              | false => rfl
              | true =>
                simp only [if_true]
                refine hagree fcr.2 ?_ hsent2
                subst e1
                exact hstep s.assignment s.domain c t r _ _ fcr hQ hsent hc ht hr hviable hok
                  hfcr hf
            rw [hdesc]
            cases hr' : genDescend rec2 fcr with
            | none => rfl
            | some res =>
              simp only [Option.some_bind]
              cases hr1 : res.1 with
              | true => rfl
              | false =>
                simp only [Bool.false_eq_true, if_false]
                obtain ⟨u1, u2⟩ := attempt_undo hrec hv hsent hc ha2 hfcr hr' hr1
                rw [u1]
                simp only [Option.some_bind]
                have hasg4 : (genRestore fc s.domain res.2 s.assignment).assignment =
                    s.assignment := rfl
                have hdom4 := u2 s.assignment
                refine ih _ ?_ ?_ (hasg4 ▸ hsent) (hasg4 ▸ hc)
                · rw [hdom4]; exact hvs'
                · rw [hasg4, hdom4]; exact hQ

/-- An assertion placed at the entry of `backtrack()` never fails when it
follows from a property that holds of the first state and that every commit
keeps. -/
theorem asserting_of_inv {fc : Bool} {srt : List Value → List Value} (hsrt : StdSort srt)
    {p : TimetableProblem} {P : SolverState → Bool}
    {Q : List Assignment → List (List Bool) → Prop} (hstep : StepInv fc p Q)
    (hP : ∀ s : SolverState, Q s.assignment s.domain → P s = true) :
    ∀ (fuel : Nat) (s : SolverState), Q s.assignment s.domain → Sentinel s.assignment →
      genBacktrackAsserting P fc srt p fuel s = genBacktrack fc srt p fuel s := by
  intro fuel
  induction fuel with
  | zero => intro s _ _; rfl
  | succ fuel ih =>
    intro s hQ hsent
    simp only [genBacktrackAsserting, genBacktrack, hP s hQ, if_true, Option.bind_eq_bind]
    cases hcid : selectUnassignedVariableMRV p s.assignment s.domain with
    | none => rfl
    | some cid =>
      simp only [Option.some_bind]
      split
      · rfl
      · rename_i hne
        cases hvs : orderDomainValues srt p cid s.domain with
        | none => rfl
        | some vs =>
          simp only [Option.some_bind]
          rcases mrv_cases hcid with h1 | ⟨c, -, rfl, hc⟩
          · exact absurd h1 hne
          · exact genTry_congr_inv ih (genBacktrack_frame hsrt fuel) hstep vs s
              (odv_viable hsrt hvs) hQ hsent hc

/-- A property that holds of the first state and that every commit keeps holds
of the final state of a successful `backtrack()`. -/
theorem genBacktrack_inv {fc : Bool} {srt : List Value → List Value} (hsrt : StdSort srt)
    {p : TimetableProblem} {Q : List Assignment → List (List Bool) → Prop}
    (hstep : StepInv fc p Q) :
    ∀ (fuel : Nat) (s : SolverState) (res : Bool × SolverState),
      Q s.assignment s.domain → Sentinel s.assignment →
      genBacktrack fc srt p fuel s = some res → res.1 = true →
      Q res.2.assignment res.2.domain := by
  intro fuel
  induction fuel with
  | zero => intro s res _ _ h; simp [genBacktrack] at h
  | succ fuel ih =>
    intro s res hQ hsent h hres
    simp only [genBacktrack, Option.bind_eq_bind, Option.bind_eq_some] at h
    obtain ⟨cid, hcid, h⟩ := h
    split at h
    · cases h
      exact hQ
    · rename_i hne
      simp only [Option.bind_eq_some] at h
      obtain ⟨vs, hvs, h⟩ := h
      rcases mrv_cases hcid with h1 | ⟨c, -, rfl, ac, hac, hun⟩
      · exact absurd h1 hne
      · obtain ⟨v, hv, hok, bc, acn, fcr, hfcr, hf1, hrec⟩ :=
          (genTry_run (genBacktrack_frame hsrt fuel) vs s res (odv_timeslot_ne hsrt hvs) hsent
            ⟨ac, hac, hun⟩ h).2 hres
        obtain ⟨t, r, rfl, ht, hr, hviable⟩ := odv_viable hsrt hvs v hv
        have hasg := genPropagate_asg hfcr
        simp only at hasg hok hfcr
        refine ih fcr.2 res ?_ ?_ hrec hres
        · exact hstep s.assignment s.domain c t r bc acn fcr hQ hsent ⟨ac, hac, hun⟩ ht hr
            hviable hok hfcr hf1
        · rw [hasg]; exact sentinel_set hsent (by simp only; omega)

/-! ## Plain backtracking never writes to the domain -/

theorem genTry_plain_domain {p : TimetableProblem}
    {recurse : SolverState → Option (Bool × SolverState)} {cid : Int}
    (hrec : ∀ s2 r, recurse s2 = some r → r.2.domain = s2.domain) :
    ∀ (vs : List Value) (s : SolverState) (res : Bool × SolverState),
      genTry false p recurse cid vs s = some res → res.2.domain = s.domain := by
  intro vs
  induction vs with
  | nil =>
    intro s res h
    simp only [genTry, Option.some.injEq] at h
    subst h
    rfl
  | cons v vs ih =>
    intro s res h
    simp only [genTry, Option.bind_eq_bind, Option.bind_eq_some] at h
    obtain ⟨ok, -, h⟩ := h
    split at h
    · simp only [Option.bind_eq_some] at h
      obtain ⟨a2, -, fcr, hfcr, r, hr, h⟩ := h
      simp only [genPropagate, Bool.false_eq_true, if_false, Option.some.injEq] at hfcr
      subst hfcr
      simp only [genDescend, if_true] at hr
      have hdom := hrec _ r hr
      split at h
      · cases h
        exact hdom
      · simp only [Option.bind_eq_some] at h
        obtain ⟨a4, -, h⟩ := h
        have := ih _ res h
        rw [this]
        simp only [genRestore, Bool.false_eq_true, if_false]
        exact hdom
    · have := ih _ res h
      exact this

/-- No call of the plain `backtrack()` changes the domain table. -/
theorem genBacktrack_plain_domain (srt : List Value → List Value) (p : TimetableProblem) :
    ∀ (fuel : Nat) (s : SolverState) (res : Bool × SolverState),
      genBacktrack false srt p fuel s = some res → res.2.domain = s.domain := by
  intro fuel
  induction fuel with
  | zero => intro s res h; simp [genBacktrack] at h
  | succ fuel ih =>
    intro s res h
    simp only [genBacktrack, Option.bind_eq_bind, Option.bind_eq_some] at h
    obtain ⟨cid, -, h⟩ := h
    split at h
    · cases h; rfl
    · simp only [Option.bind_eq_some] at h
      obtain ⟨vs, -, h⟩ := h
      exact genTry_plain_domain (ih) vs s res h

theorem stepInv_plain_domain (p : TimetableProblem) (d0 : List (List Bool)) :
    StepInv false p (fun _ d => d = d0) := by
  intro a d c t r bc ac fcr hQ _ _ _ _ _ _ hfcr _
  simp only [genPropagate, Bool.false_eq_true, if_false, Option.some.injEq] at hfcr
  subst hfcr
  exact hQ

theorem allTrue_fullDomain (p : TimetableProblem) : AllTrue (fullDomain p) := by
  intro row hrow b hb
  rw [fullDomain] at hrow
  rw [List.eq_of_mem_replicate hrow] at hb
  exact List.eq_of_mem_replicate hb

theorem remainingCount_fullDomain (p : TimetableProblem) {i : Nat} (hi : i < p.courses.length) :
    remainingCount p (fullDomain p) i = some (p.timeslots.toNat * p.rooms.length) := by
  have hrow : (fullDomain p)[i]? =
      some (List.replicate (p.timeslots.toNat * p.rooms.length) true) := by
    rw [fullDomain, List.getElem?_replicate_of_lt hi]
  rw [remainingCount_eq hrow (List.length_replicate _ _)]
  simp

/-- On the untouched domain table `selectUnassignedVariableMRV` returns the
lowest-index unassigned course. -/
theorem mrv_fullDomain {p : TimetableProblem} {a : List Assignment} (hT : 0 ≤ p.timeslots)
    {x : Int} (hx : selectUnassignedVariableMRV p a (fullDomain p) = some x) (hne : x ≠ -1) :
    ∃ c : Nat, x = (c : Int) ∧ c < p.courses.length ∧
      (∃ ac, a[c]? = some ac ∧ ac.timeslot = -1) ∧
      ∀ j, j < c → ∀ aj, a[j]? = some aj → aj.timeslot ≠ -1 := by
  have hx' := hx
  unfold selectUnassignedVariableMRV at hx'
  by_cases hfit : MinRemainingFits p
  swap
  · exfalso
    apply hne
    refine mrvLoop_skip _ _ _ _ (fun i hi k hk => ?_) hx'
    have hk' := remainingCount_fullDomain p (List.mem_range.mp hi)
    unfold remainingCount at hk'
    rw [hk'] at hk
    have hk2 := Option.some.inj hk
    have hle := toInt32_le (p.timeslots * (p.rooms.length : Int) + 1)
    have hcast : ((p.timeslots.toNat : Nat) : Int) = p.timeslots := Int.toNat_of_nonneg hT
    have hprod : ((p.timeslots.toNat * p.rooms.length : Nat) : Int) =
        p.timeslots * (p.rooms.length : Int) := by
      push_cast
      rw [hcast]
    unfold MinRemainingFits at hfit
    rw [← hk2, hprod]
    omega
  rw [minRemaining_of_fits hT hfit, List.range_eq_range'] at hx'
  obtain ⟨minr', hinv⟩ := mrvLoop_inv _ 0 _ _ _ hx' (Or.inl ⟨rfl, by
    push_cast
    rw [Int.toNat_of_nonneg hT]
    omega, fun j hj => by omega⟩)
  rw [Nat.zero_add] at hinv
  rcases hinv with ⟨h1, -, -⟩ | ⟨i, k, h1, -, h3, h4, h5, -, h7⟩
  · exact absurd h1 hne
  · refine ⟨i, h1, h3, h4, ?_⟩
    intro j hji aj haj hun
    have hk := remainingCount_fullDomain p h3
    rw [h5] at hk
    have := h7 j hji ⟨aj, haj, hun⟩ _ (remainingCount_fullDomain p (by omega))
    have := Option.some.inj hk
    omega

/-- In the plain backtracking solver the domain is never pruned.  No call of
`BacktrackingSolver::backtrack()` changes the domain table; the assertion "the
domain is the table the constructor built" at the entry of `backtrack()` never
fails in a run from the constructor's state; after `solve()` every entry is
still `true` and every course's remaining count is `timeslots * rooms.size()`;
on that table a course that `selectUnassignedVariableMRV` returns is the
lowest-index unassigned course; and when `timeslots * rooms.size() + 1` fits an
`int` it returns `-1` only if every course is assigned. -/
theorem plain_domain_never_pruned (srt : List Value → List Value) (p : TimetableProblem)
    (hsrt : StdSort srt) (hT : 0 ≤ p.timeslots) :
    (∀ fuel s res, BacktrackingSolver.backtrack srt p fuel s = some res →
      res.2.domain = s.domain) ∧
    (∃ s0, newSolver p = some s0 ∧ s0.domain = fullDomain p ∧
      ∀ fuel, genBacktrackAsserting (fullDomainCheck p) false srt p fuel s0 =
        BacktrackingSolver.backtrack srt p fuel s0) ∧
    (∀ res, BacktrackingSolver.solve srt p = some res →
      res.2.domain = fullDomain p ∧ AllTrue res.2.domain ∧
      ∀ i, i < p.courses.length →
        remainingCount p res.2.domain i = some (p.timeslots.toNat * p.rooms.length)) ∧
    (∀ s : SolverState, s.domain = fullDomain p →
      AllTrue s.domain ∧
      (∀ i, i < p.courses.length →
        remainingCount p s.domain i = some (p.timeslots.toNat * p.rooms.length)) ∧
      ∀ x, selectUnassignedVariableMRV p s.assignment s.domain = some x → x ≠ -1 →
        ∃ c : Nat, x = (c : Int) ∧ c < p.courses.length ∧
          (∃ ac, s.assignment[c]? = some ac ∧ ac.timeslot = -1) ∧
          ∀ j, j < c → ∀ aj, s.assignment[j]? = some aj → aj.timeslot ≠ -1) ∧
    (MinRemainingFits p → ∀ s : SolverState,
      selectUnassignedVariableMRV p s.assignment s.domain = some (-1) →
      ∀ i, i < p.courses.length → ∀ ai, s.assignment[i]? = some ai → ai.timeslot ≠ -1) := by
  have hfull : ∀ s0, newSolver p = some s0 → s0.domain = fullDomain p := by
    intro s0 hs0
    rw [newSolver_eq hs0]
    rfl
  refine ⟨?_, ?_, ?_, ?_, fun hfit s hx => mrv_none hT hfit hx⟩
  · intro fuel s res h
    rw [bt_backtrack_eq] at h
    exact genBacktrack_plain_domain srt p fuel s res h
  · obtain ⟨s0, hs0⟩ := newSolver_total hT
    refine ⟨s0, hs0, hfull s0 hs0, fun fuel => ?_⟩
    rw [bt_backtrack_eq]
    exact asserting_of_inv hsrt (stepInv_plain_domain p (fullDomain p))
      (fun s hs => by simp only [fullDomainCheck, hs, decide_True]) fuel s0 (hfull s0 hs0)
      (newSolver_facts hs0).2.1
  · intro res h
    rw [bt_solve_eq] at h
    simp only [Option.bind_eq_bind, Option.bind_eq_some] at h
    obtain ⟨s0, hs0, h⟩ := h
    have hdom : res.2.domain = fullDomain p :=
      (genBacktrack_plain_domain srt p _ s0 res h).trans (hfull s0 hs0)
    rw [hdom]
    exact ⟨rfl, allTrue_fullDomain p, fun i hi => remainingCount_fullDomain p hi⟩
  · intro s hs
    rw [hs]
    exact ⟨allTrue_fullDomain p, fun i hi => remainingCount_fullDomain p hi,
      fun x hx hne => mrv_fullDomain hT hx hne⟩

/-- On `demoProblem` the domain after plain backtracking is the full table. -/
theorem plain_domain_never_pruned_demo :
    (true, (⟨[⟨1, 1⟩, ⟨2, 0⟩], List.replicate 2 (List.replicate 6 true), 0, 9⟩ :
      SolverState)).2.domain = fullDomain demoProblem :=
  ((plain_domain_never_pruned insertionSortByTimeslot demoProblem insertionSort_stdSort
    (by decide)).2.2.1 (true, ⟨[⟨1, 1⟩, ⟨2, 0⟩], List.replicate 2 (List.replicate 6 true), 0, 9⟩)
    (by rfl)).1

/-! ## The domain invariant of forward checking -/

theorem justifiedBy_iff (p : TimetableProblem) (a : List Assignment) (o t r c' : Nat) :
    justifiedBy p a o t r c' = true ↔
      ∃ (x : Assignment) (co cc : Course), a[c']? = some x ∧
        p.courses[o]? = some co ∧ p.courses[c']? = some cc ∧ x.timeslot = (t : Int) ∧
        (co.teacher_id = cc.teacher_id ∨ x.room = (r : Int) ∨
          shareStudentGroups cc co = true) := by
  unfold justifiedBy
  constructor
  · intro h
    split at h
    · rename_i x co cc h1 h2 h3
      simp only [Bool.and_eq_true, Bool.or_eq_true, decide_eq_true_eq] at h
      refine ⟨x, co, cc, h1, h2, h3, h.1, ?_⟩
      rcases h.2 with (h4 | h4) | h4
      · exact Or.inl h4
      · exact Or.inr (Or.inl h4)
      · exact Or.inr (Or.inr h4)
    · cases h
  · rintro ⟨x, co, cc, h1, h2, h3, h4, h5⟩
    rw [h1, h2, h3]
    simp only [Bool.and_eq_true, Bool.or_eq_true, decide_eq_true_eq]
    refine ⟨h4, ?_⟩
    rcases h5 with h5 | h5 | h5
    · exact Or.inl (Or.inl h5)
    · exact Or.inl (Or.inr h5)
    · exact Or.inr h5

theorem justifiedCheck_iff (p : TimetableProblem) (s : SolverState) :
    justifiedCheck p s = true ↔ Justified p s.assignment s.domain := by
  unfold justifiedCheck Justified
  simp only [List.all_eq_true, List.mem_range, Bool.or_eq_true, Bool.not_eq_true',
    List.any_eq_true, justifiedBy_iff]
  constructor
  · intro h o t r ⟨ao, hao, hun⟩ ht hr ⟨row, hrow, hidx⟩
    rcases h o (getElem?_lt hao) t ht r hr with (h1 | h1) | ⟨c', -, h1⟩
    · rw [hao] at h1
      simp [hun] at h1
    · rw [hrow] at h1
      simp [hidx] at h1
    · exact ⟨c', h1⟩
  · intro h o ho t ht r hr
    by_cases h1 : (s.assignment[o]?.map (fun x => x.timeslot) == some (-1)) = false
    · exact Or.inl (Or.inl h1)
    · by_cases h2 : (s.domain[o]?.bind (fun row => row[t * p.rooms.length + r]?)
          == some false) = false
      · exact Or.inl (Or.inr h2)
      · right
        have hun : ∃ ao, s.assignment[o]? = some ao ∧ ao.timeslot = -1 := by
          refine ⟨s.assignment[o], List.getElem?_eq_getElem ho, ?_⟩
          rw [List.getElem?_eq_getElem ho] at h1
          simpa using h1
        have hfalse : ∃ row, s.domain[o]? = some row ∧
            row[t * p.rooms.length + r]? = some false := by
          cases hrow : s.domain[o]? with
          | none => rw [hrow] at h2; simp at h2
          | some row =>
            rw [hrow] at h2
            exact ⟨row, rfl, by simpa using h2⟩
        obtain ⟨c', x, co, cc, hx, rest⟩ := h o t r hun ht hr hfalse
        exact ⟨c', getElem?_lt hx, x, co, cc, hx, rest⟩

theorem stepInv_justified (p : TimetableProblem) : StepInv true p (Justified p) := by
  intro a d c t0 r0 bc ac fcr hQ _ hc ht0 _ _ _ hfcr _
  obtain ⟨xc, hxc, hxct⟩ := hc
  have hcl : c < a.length := getElem?_lt hxc
  simp only [genPropagate, if_true] at hfcr
  obtain ⟨f1, -, -, f4, -⟩ := forwardCheck_spec hfcr
  simp only at f1 f4
  rw [f1]
  intro o t r ⟨ao, hao, hun⟩ ht hr ⟨row', hrow', hidx'⟩
  have hoc : o ≠ c := by
    rintro rfl
    rw [List.getElem?_set_self hcl] at hao
    cases hao
    simp only at hun
    omega
  rw [List.getElem?_set_ne (Ne.symm hoc)] at hao
  have hod : o < d.length := f4.1 ▸ getElem?_lt hrow'
  obtain ⟨row1, hrow1, -, hent⟩ := f4.2 o d[o] (List.getElem?_eq_getElem hod)
  rw [hrow'] at hrow1
  cases hrow1
  rcases hent (t * p.rooms.length + r) with e | ⟨-, -, e3⟩
  · obtain ⟨c', x, co, cc, hx, h2, h3, h4, h5⟩ :=
      hQ o t r ⟨ao, hao, hun⟩ ht hr ⟨d[o], List.getElem?_eq_getElem hod, e ▸ hidx'⟩
    have hcc : c' ≠ c := by
      rintro rfl
      rw [hxc] at hx
      cases hx
      omega
    refine ⟨c', x, co, cc, ?_, h2, h3, h4, h5⟩
    rw [List.getElem?_set_ne (Ne.symm hcc)]
    exact hx
  · obtain ⟨-, -, assigned, other, hassigned, hother, t', r', hr', hidx, hts, hwhy⟩ := e3
    obtain ⟨e1, e2⟩ := index_inj hr hr' hidx
    subst e1; subst e2
    rw [vecAt_natCast] at hassigned
    refine ⟨c, ⟨(t0 : Int), (r0 : Int)⟩, other, assigned, List.getElem?_set_self hcl, hother,
      hassigned, hts.symm, ?_⟩
    rcases hwhy with h | h | h
    · exact Or.inl h
    · exact Or.inr (Or.inl h.symm)
    · exact Or.inr (Or.inr h)

theorem justified_newSolver {p : TimetableProblem} {s0 : SolverState}
    (h : newSolver p = some s0) : Justified p s0.assignment s0.domain := by
  intro o t r _ _ _ ⟨row, hrow, hidx⟩
  exfalso
  rw [newSolver_eq h] at hrow
  simp only at hrow
  have hmem : row ∈ List.replicate p.courses.length
      (List.replicate (p.timeslots.toNat * p.rooms.length) true) := by
    have hl := getElem?_lt hrow
    rw [List.getElem?_eq_getElem hl] at hrow
    exact Option.some.inj hrow ▸ List.getElem_mem hl
  rw [List.eq_of_mem_replicate hmem] at hidx
  have hl := getElem?_lt hidx
  rw [List.getElem?_eq_getElem hl, List.getElem_replicate] at hidx
  cases hidx

/-- Claim C22: the domain invariant of the forward-checking solver.  At every
entry to `ForwardCheckingSolver::backtrack()` in a run from the constructor's
state, each `false` entry `(t, r)` in the row of an unassigned course `c` is
explained by a course that is committed at that moment to timeslot `t` and has
`c`'s teacher, or occupies room `r`, or shares a student group with `c`: the
property holds of the constructor's state, every commit keeps it, and the
assertion of it at the entry of `backtrack()` never fails. -/
theorem forward_checking_domain_justified (srt : List Value → List Value)
    (p : TimetableProblem) (hsrt : StdSort srt) (hT : 0 ≤ p.timeslots) :
    (∀ s, justifiedCheck p s = true ↔ Justified p s.assignment s.domain) ∧
    (∃ s0, newSolver p = some s0 ∧ Justified p s0.assignment s0.domain ∧
      ∀ fuel, genBacktrackAsserting (justifiedCheck p) true srt p fuel s0 =
        ForwardCheckingSolver.backtrack srt p fuel s0) ∧
    (∀ s fuel, Justified p s.assignment s.domain → Sentinel s.assignment →
      genBacktrackAsserting (justifiedCheck p) true srt p fuel s =
        ForwardCheckingSolver.backtrack srt p fuel s) := by
  have key : ∀ s fuel, Justified p s.assignment s.domain → Sentinel s.assignment →
      genBacktrackAsserting (justifiedCheck p) true srt p fuel s =
        ForwardCheckingSolver.backtrack srt p fuel s := by
    intro s fuel hQ hsent
    rw [fc_backtrack_eq]
    exact asserting_of_inv hsrt (stepInv_justified p)
      (fun s hs => (justifiedCheck_iff p s).mpr hs) fuel s hQ hsent
  refine ⟨justifiedCheck_iff p, ?_, key⟩
  obtain ⟨s0, hs0⟩ := newSolver_total hT
  exact ⟨s0, hs0, justified_newSolver hs0,
    fun fuel => key s0 fuel (justified_newSolver hs0) (newSolver_facts hs0).2.1⟩

/-- On `demoProblem`, in the state after course 0 was committed to `(1, 1)`
and the two pairs of timeslot 1 were pruned from the row of course 1, the
assertion holds at every entry of `backtrack()`. -/
theorem forward_checking_domain_justified_witness :
    genBacktrackAsserting (justifiedCheck demoProblem) true insertionSortByTimeslot demoProblem 2
        ⟨[⟨1, 1⟩, ⟨-1, -1⟩], [List.replicate 6 true, [true, true, false, false, true, true]],
          0, 4⟩ =
      ForwardCheckingSolver.backtrack insertionSortByTimeslot demoProblem 2
        ⟨[⟨1, 1⟩, ⟨-1, -1⟩], [List.replicate 6 true, [true, true, false, false, true, true]],
          0, 4⟩ :=
  (forward_checking_domain_justified insertionSortByTimeslot demoProblem insertionSort_stdSort
    (by decide)).2.2
    ⟨[⟨1, 1⟩, ⟨-1, -1⟩], [List.replicate 6 true, [true, true, false, false, true, true]], 0, 4⟩
    2 ((justifiedCheck_iff demoProblem _).mp (by rfl)) ((sentinelCheck_iff _).mp (by rfl))

/-! ## Room exclusivity under forward checking -/

theorem PrunedFrom.viable_of {Reason : Nat → Nat → Prop} {d d' : List (List Bool)}
    (h : PrunedFrom Reason d d') {o idx : Nat} (hv : Viable d' o idx) : Viable d o idx := by
  obtain ⟨row', hrow', hidx'⟩ := hv
  have hod : o < d.length := h.1 ▸ getElem?_lt hrow'
  obtain ⟨row1, hrow1, -, hent⟩ := h.2 o d[o] (List.getElem?_eq_getElem hod)
  rw [hrow'] at hrow1
  cases hrow1
  rcases hent idx with e | ⟨e, -, -⟩
  · exact ⟨d[o], List.getElem?_eq_getElem hod, e ▸ hidx'⟩
  · exact ⟨d[o], List.getElem?_eq_getElem hod, e⟩

theorem stepInv_exclusive (p : TimetableProblem) :
    StepInv true p (fun a d => a.length = p.courses.length ∧ RoomExclusive a ∧
      RoomsPruned p a d) := by
  intro a d c t0 r0 bc ac fcr ⟨hlen, hex, hpr⟩ _ hc ht0 hr0 hviable _ hfcr hf1
  obtain ⟨xc, hxc, hxct⟩ := hc
  have hcl : c < a.length := getElem?_lt hxc
  simp only [genPropagate, if_true] at hfcr
  have hassigned : ∃ assigned, vecAt p.courses (c : Int) = some assigned := by
    have h := hfcr
    simp only [ForwardCheckingSolver.forwardCheck, Option.bind_eq_bind,
      Option.bind_eq_some] at h
    obtain ⟨assigned, h1, -⟩ := h
    exact ⟨assigned, h1⟩
  obtain ⟨assigned, hassigned⟩ := hassigned
  obtain ⟨f1, -, -, f4, -⟩ := forwardCheck_spec hfcr
  obtain ⟨e1, -, -⟩ := forwardCheck_exact hfcr hassigned
  simp only at f1 f4 e1
  rw [f1]
  refine ⟨by rw [List.length_set]; exact hlen, ?_, ?_⟩
  · intro i j x y hij hx hy hxt hyt hsame
    by_cases hic : i = c
    · subst hic
      have hjc : j ≠ i := Ne.symm hij
      rw [List.getElem?_set_self hcl] at hx
      rw [List.getElem?_set_ne (Ne.symm hjc)] at hy
      cases hx
      simp only at hsame
      have hy' : a[j]? = some ⟨(t0 : Int), (r0 : Int)⟩ := by
        rw [hy]
        obtain ⟨yt, yr⟩ := y
        simp only at hsame
        rw [← hsame.1, ← hsame.2]
      exact hpr j i t0 r0 hy' ⟨xc, hxc, hxct⟩ hviable
    · by_cases hjc : j = c
      · subst hjc
        rw [List.getElem?_set_self hcl] at hy
        rw [List.getElem?_set_ne (Ne.symm hic)] at hx
        cases hy
        simp only at hsame
        have hx' : a[i]? = some ⟨(t0 : Int), (r0 : Int)⟩ := by
          rw [hx]
          obtain ⟨xt, xr⟩ := x
          simp only at hsame
          rw [hsame.1, hsame.2]
        exact hpr i j t0 r0 hx' ⟨xc, hxc, hxct⟩ hviable
      · rw [List.getElem?_set_ne (Ne.symm hic)] at hx
        rw [List.getElem?_set_ne (Ne.symm hjc)] at hy
        exact hex i j x y hij hx hy hxt hyt hsame
  · intro i o t r hi ⟨ao, hao, hun⟩ hv
    have hoc : o ≠ c := by
      rintro rfl
      rw [List.getElem?_set_self hcl] at hao
      cases hao
      simp only at hun
      omega
    have hol : o < p.courses.length := by
      have := getElem?_lt hao
      rw [List.length_set] at this
      omega
    by_cases hic : i = c
    · subst hic
      rw [List.getElem?_set_self hcl] at hi
      have ht : t0 = t := by
        have := congrArg Assignment.timeslot (Option.some.inj hi)
        simp only at this
        omega
      have hr : r0 = r := by
        have := congrArg Assignment.room (Option.some.inj hi)
        simp only at this
        omega
      subst ht; subst hr
      have := e1 hf1 o hol (by omega) ⟨ao, hao, hun⟩ _ (List.getElem?_eq_getElem hol) t0 ht0
        r0 hr0 hv
      have hfalse := (fcConsistent_false_iff assigned p.courses[o] (t0 : Int) (r0 : Int) t0
        r0).mpr ⟨rfl, Or.inr (Or.inl rfl)⟩
      rw [this] at hfalse
      cases hfalse
    · rw [List.getElem?_set_ne (Ne.symm hic)] at hi
      rw [List.getElem?_set_ne (Ne.symm hoc)] at hao
      exact hpr i o t r hi ⟨ao, hao, hun⟩ (f4.viable_of hv)

theorem exclusive_newSolver {p : TimetableProblem} {s0 : SolverState}
    (h : newSolver p = some s0) :
    s0.assignment.length = p.courses.length ∧ RoomExclusive s0.assignment ∧
      RoomsPruned p s0.assignment s0.domain := by
  rw [newSolver_eq h]
  refine ⟨by simp, ?_, ?_⟩
  · intro i j x y _ hx _ hxt _ _
    have hl := getElem?_lt hx
    rw [List.getElem?_eq_getElem hl, List.getElem_replicate] at hx
    cases hx
    exact hxt rfl
  · intro i o t r hi _ _
    have hl := getElem?_lt hi
    rw [List.getElem?_eq_getElem hl, List.getElem_replicate] at hi
    have := congrArg Assignment.timeslot (Option.some.inj hi)
    simp only at this
    omega

/-- The final assignment of a successful forward-checking run gives no two
courses the same `(timeslot, room)` pair. -/
theorem fcSolve_exclusive {srt : List Value → List Value} (hsrt : StdSort srt)
    {p : TimetableProblem} {res : Bool × SolverState}
    (h : (newSolver p).bind (genBacktrack true srt p (p.courses.length + 1)) = some res)
    (hres : res.1 = true) : RoomExclusive res.2.assignment := by
  simp only [Option.bind_eq_bind, Option.bind_eq_some] at h
  obtain ⟨s0, hs0, h⟩ := h
  exact (genBacktrack_inv hsrt (stepInv_exclusive p) _ s0 res (exclusive_newSolver hs0)
    (newSolver_facts hs0).2.1 h hres).2.1

/-- Room exclusivity under forward checking when the initial `min_remaining`
fits an `int`.  For a validated problem, if `ForwardCheckingSolver::solve()`
returns `true` then no two distinct courses have the same `(timeslot, room)`
pair in the final assignment; this comes from the pruning in `forwardCheck`,
since the result of `isConsistent` is the same on any two assignment vectors
with equal timeslots, whatever their rooms. -/
theorem forward_checking_room_exclusive_of_fits (srt : List Value → List Value)
    (p : TimetableProblem) (s : SolverState) (hsrt : StdSort srt) (hval : Validated p)
    (hfit : MinRemainingFits p)
    (h : ForwardCheckingSolver.solve srt p = some (true, s)) :
    (∀ (i j : Nat) (x y : Assignment), i ≠ j → s.assignment[i]? = some x →
      s.assignment[j]? = some y → ¬ (x.timeslot = y.timeslot ∧ x.room = y.room)) ∧
    s.assignment.Nodup ∧
    (∀ (a a' : List Assignment),
      a.map (fun x => x.timeslot) = a'.map (fun x => x.timeslot) →
      ∀ cid t r, isConsistentBody p a cid t r = isConsistentBody p a' cid t r) := by
  rw [fc_solve_eq] at h
  have hex := fcSolve_exclusive hsrt h rfl
  obtain ⟨-, -, -, hall⟩ := genSolve_sound hsrt hval hfit h rfl
  simp only at hex hall
  have hpairs : ∀ (i j : Nat) (x y : Assignment), i ≠ j → s.assignment[i]? = some x →
      s.assignment[j]? = some y → ¬ (x.timeslot = y.timeslot ∧ x.room = y.room) := by
    intro i j x y hij hx hy
    have hxm : x ∈ s.assignment := by
      have hl := getElem?_lt hx
      rw [List.getElem?_eq_getElem hl] at hx
      exact Option.some.inj hx ▸ List.getElem_mem hl
    have hym : y ∈ s.assignment := by
      have hl := getElem?_lt hy
      rw [List.getElem?_eq_getElem hl] at hy
      exact Option.some.inj hy ▸ List.getElem_mem hl
    exact hex i j x y hij hx hy (hall x hxm) (hall y hym)
  refine ⟨hpairs, ?_, ?_⟩
  · rw [List.nodup_iff_getElem?_ne_getElem?]
    intro i j hij hj heq
    have hi : i < s.assignment.length := by omega
    have hx := List.getElem?_eq_getElem hi
    have hy := List.getElem?_eq_getElem hj
    rw [hx, hy] at heq
    have := Option.some.inj heq
    exact hpairs i j _ _ (by omega) hx hy ⟨by rw [this], by rw [this]⟩
  · intro a a' hagree cid t r
    unfold isConsistentBody
    simp only [teacherClashLoop_timeslots hagree, groupClashLoop_timeslots hagree]

/-- On `demoProblem` forward checking ends with the pairs `(1, 1)` and
`(2, 0)`. -/
theorem forward_checking_room_exclusive_of_fits_demo :
    (⟨[⟨1, 1⟩, ⟨2, 0⟩], [List.replicate 6 true, [true, true, false, false, true, true]], 0, 7⟩ :
      SolverState).assignment.Nodup :=
  (forward_checking_room_exclusive_of_fits insertionSortByTimeslot demoProblem
    ⟨[⟨1, 1⟩, ⟨2, 0⟩], [List.replicate 6 true, [true, true, false, false, true, true]], 0, 7⟩
    insertionSort_stdSort (by unfold Validated; decide) (by unfold MinRemainingFits; decide)
    (by rfl)).2.1

/-- Exact characterisation of forward checking when the initial
`min_remaining` fits an `int`.  For a validated problem
`ForwardCheckingSolver::solve()` returns, and it returns `true` if and only if
there is a complete in-range assignment in which every course passes the
capacity and availability checks and no two distinct courses at the same
timeslot have the same teacher, the same room or a common student group. -/
theorem forward_checking_exact_of_fits (srt : List Value → List Value)
    (p : TimetableProblem) (hsrt : StdSort srt) (hval : Validated p)
    (hfit : MinRemainingFits p) :
    ∃ res, ForwardCheckingSolver.solve srt p = some res ∧
      (res.1 = true ↔ ∃ S : List Assignment,
        S.length = p.courses.length ∧
        (∀ i x, S[i]? = some x → ∃ t r : Nat, x = ⟨(t : Int), (r : Int)⟩ ∧
          t < p.timeslots.toNat ∧ r < p.rooms.length ∧ StaticOK p i (t : Int) (r : Int) ∧
          ¬ Clash p S i (t : Int)) ∧
        (∀ (i j : Nat) (x y : Assignment), i ≠ j → S[i]? = some x → S[j]? = some y →
          x.timeslot = y.timeslot → x.room ≠ y.room)) := by
  rw [fc_solve_eq]
  obtain ⟨res, hres⟩ := genSolve_total true hsrt hval
  refine ⟨res, hres, ?_, ?_⟩
  · intro hb
    obtain ⟨h1, h2, h3, h4⟩ := genSolve_sound hsrt hval hfit hres hb
    have hgood := goodSolution_of_consistent h1 h2 h3 h4
    have hex := fcSolve_exclusive hsrt hres hb
    refine ⟨res.2.assignment, hgood.1, hgood.2.1, ?_⟩
    intro i j x y hij hx hy hts hrm
    have hxm : x ∈ res.2.assignment := by
      have hl := getElem?_lt hx
      rw [List.getElem?_eq_getElem hl] at hx
      exact Option.some.inj hx ▸ List.getElem_mem hl
    have hym : y ∈ res.2.assignment := by
      have hl := getElem?_lt hy
      rw [List.getElem?_eq_getElem hl] at hy
      exact Option.some.inj hy ▸ List.getElem_mem hl
    exact hex i j x y hij hx hy (h4 x hxm) (h4 y hym) ⟨hts, hrm⟩
  · rintro ⟨S, hS1, hS2, hS3⟩
    have hgood : GoodSolution true p S := ⟨hS1, hS2, fun _ => hS3⟩
    obtain ⟨res2, hres2, hb2⟩ := genSolve_complete hsrt hval hgood
    rw [hres] at hres2
    cases hres2
    exact hb2

/-- On `demoProblem` forward checking returns `true`. -/
theorem forward_checking_exact_of_fits_demo :
    ∃ res, ForwardCheckingSolver.solve insertionSortByTimeslot demoProblem = some res ∧
      (res.1 = true ↔ ∃ S : List Assignment,
        S.length = demoProblem.courses.length ∧
        (∀ i x, S[i]? = some x → ∃ t r : Nat, x = ⟨(t : Int), (r : Int)⟩ ∧
          t < demoProblem.timeslots.toNat ∧ r < demoProblem.rooms.length ∧
          StaticOK demoProblem i (t : Int) (r : Int) ∧ ¬ Clash demoProblem S i (t : Int)) ∧
        (∀ (i j : Nat) (x y : Assignment), i ≠ j → S[i]? = some x → S[j]? = some y →
          x.timeslot = y.timeslot → x.room ≠ y.room)) :=
  forward_checking_exact_of_fits insertionSortByTimeslot demoProblem insertionSort_stdSort
    (by unfold Validated; decide) (by unfold MinRemainingFits; decide)

/-! ## The two counters -/

theorem unassigned_add_assigned (a : List Assignment) :
    unassignedCount a + assignedCount a = a.length := by
  unfold unassignedCount assignedCount
  rw [List.length_eq_countP_add_countP (fun x : Assignment => decide (x.timeslot = -1)) a]
  congr 1
  apply List.countP_congr
  intro x _
  simp

/-! ## The first solution of plain backtracking -/

theorem wrapProblem_validated : Validated wrapProblem := by
  unfold Validated
  decide

theorem wrapProblem_unfit : ¬ MinRemainingFits wrapProblem := by
  unfold MinRemainingFits
  decide

theorem newSolver_wrap : newSolver wrapProblem = some wrapStart := by
  obtain ⟨s0, hs0⟩ := newSolver_total wrapProblem_validated.1
  rw [hs0, newSolver_eq hs0]
  rfl

/-- On `wrapProblem` the narrowed `min_remaining` is `INT_MIN`, so
`selectUnassignedVariableMRV` returns `-1` on the constructor's state. -/
theorem mrv_wrap :
    selectUnassignedVariableMRV wrapProblem wrapStart.assignment wrapStart.domain = some (-1) :=
  mrv_unfit wrapProblem_validated.1 wrapProblem_unfit newSolver_wrap

/-- On `wrapProblem` the first call of `backtrack()` of either solver returns
`true` and leaves the constructor's state. -/
theorem wrap_run (fc : Bool) (srt : List Value → List Value) :
    (newSolver wrapProblem).bind (genBacktrack fc srt wrapProblem (wrapProblem.courses.length + 1))
      = some (true, wrapStart) := by
  obtain ⟨s0, hs0, h0⟩ := genSolve_unfit fc srt wrapProblem_validated.1 wrapProblem_unfit
  rw [newSolver_wrap] at hs0
  cases hs0
  exact h0

/-- Claim C6 at `wrapProblem`: both solvers return `true`, and every entry of
the final assignment is `(-1, -1)`: no course has a timeslot in
`[0, timeslots)`. -/
theorem success_leaves_courses_unassigned :
    Validated wrapProblem ∧
    (∀ srt, BacktrackingSolver.solve srt wrapProblem = some (true, wrapStart)) ∧
    (∀ srt, ForwardCheckingSolver.solve srt wrapProblem = some (true, wrapStart)) ∧
    wrapStart.assignment.length = wrapProblem.courses.length ∧
    ∀ x ∈ wrapStart.assignment, x = ⟨-1, -1⟩ ∧ ¬ 0 ≤ x.timeslot := by
  refine ⟨wrapProblem_validated, fun srt => ?_, fun srt => ?_, rfl, ?_⟩
  · rw [bt_solve_eq]
    exact wrap_run false srt
  · rw [fc_solve_eq]
    exact wrap_run true srt
  · intro x hx
    have hx' : x ∈ ([⟨-1, -1⟩, ⟨-1, -1⟩] : List Assignment) := hx
    simp only [List.mem_cons, List.mem_singleton, List.not_mem_nil, or_false, or_self] at hx'
    subst hx'
    exact ⟨rfl, by decide⟩

/-- Claim C13 at the constructor's state of `wrapProblem`: `timeslots ≥ 0`,
the assignment has one entry per course, every domain row has
`timeslots * rooms.size()` entries, course 0 is unassigned, and
`selectUnassignedVariableMRV` returns `-1`. -/
theorem mrv_misses_unassigned_course :
    0 ≤ wrapProblem.timeslots ∧
    wrapStart.assignment.length = wrapProblem.courses.length ∧
    wrapStart.domain.length = wrapProblem.courses.length ∧
    (∀ row ∈ wrapStart.domain,
      row.length = wrapProblem.timeslots.toNat * wrapProblem.rooms.length) ∧
    wrapStart.assignment[0]? = some ⟨-1, -1⟩ ∧
    selectUnassignedVariableMRV wrapProblem wrapStart.assignment wrapStart.domain =
      some (-1) := by
  refine ⟨by decide, rfl, ?_, ?_, rfl, mrv_wrap⟩
  · exact List.length_replicate _ _
  · intro row hrow
    have hrow' : row ∈ List.replicate 2 (List.replicate 2147483647 true) := hrow
    rw [List.eq_of_mem_replicate hrow', List.length_replicate]
    rfl

/-- Claim C21 at `wrapProblem`: at the entry of the first call of
`BacktrackingSolver::backtrack()` the domain is the full table and course 0 is
the lowest-index unassigned course, yet `selectUnassignedVariableMRV` returns
`-1` and the call returns `true` without selecting any course. -/
theorem plain_mrv_selects_no_course :
    newSolver wrapProblem = some wrapStart ∧
    wrapStart.domain = fullDomain wrapProblem ∧ AllTrue wrapStart.domain ∧
    wrapStart.assignment[0]? = some ⟨-1, -1⟩ ∧
    selectUnassignedVariableMRV wrapProblem wrapStart.assignment wrapStart.domain =
      some (-1) ∧
    ∀ srt, BacktrackingSolver.backtrack srt wrapProblem (wrapProblem.courses.length + 1)
      wrapStart = some (true, wrapStart) := by
  have hdom : wrapStart.domain = fullDomain wrapProblem :=
    congrArg SolverState.domain (newSolver_eq newSolver_wrap)
  refine ⟨newSolver_wrap, hdom, ?_, rfl, mrv_wrap, fun srt => ?_⟩
  · rw [hdom]
    exact allTrue_fullDomain wrapProblem
  · have h := wrap_run false srt
    rw [newSolver_wrap, Option.some_bind] at h
    rw [bt_backtrack_eq]
    exact h

/-- Claim C23 at `wrapProblem`: `ForwardCheckingSolver::solve()` returns
`true`, although no complete in-range assignment passes the capacity check:
course 0 has 50 students and the only room holds 40. -/
theorem forward_checking_true_without_solution :
    Validated wrapProblem ∧
    (∀ srt, ForwardCheckingSolver.solve srt wrapProblem = some (true, wrapStart)) ∧
    ¬ ∃ S : List Assignment,
      S.length = wrapProblem.courses.length ∧
      (∀ i x, S[i]? = some x → ∃ t r : Nat, x = ⟨(t : Int), (r : Int)⟩ ∧
        t < wrapProblem.timeslots.toNat ∧ r < wrapProblem.rooms.length ∧
        StaticOK wrapProblem i (t : Int) (r : Int) ∧ ¬ Clash wrapProblem S i (t : Int)) ∧
      (∀ (i j : Nat) (x y : Assignment), i ≠ j → S[i]? = some x → S[j]? = some y →
        x.timeslot = y.timeslot → x.room ≠ y.room) := by
  refine ⟨wrapProblem_validated, fun srt => ?_, ?_⟩
  · rw [fc_solve_eq]
    exact wrap_run true srt
  · rintro ⟨S, hlen, hS, -⟩
    have h0 : 0 < S.length := by
      rw [hlen]
      decide
    obtain ⟨t, r, -, -, hr, ⟨c, rm, tch, hc, hrm, -, hcap, -⟩, -⟩ :=
      hS 0 _ (List.getElem?_eq_getElem h0)
    have hr0 : r = 0 := by
      have : wrapProblem.rooms.length = 1 := rfl
      omega
    subst hr0
    cases hc
    cases hrm
    revert hcap
    decide

/-- Claim C26 at `wrapProblem`: both solvers return `true` with
`assignment_count = 0` and `backtrack_count = 0`, so on success
`assignment_count` is below `backtrack_count` plus the number of courses. -/
theorem counters_miss_courses :
    Validated wrapProblem ∧
    (∀ srt, BacktrackingSolver.solve srt wrapProblem = some (true, wrapStart)) ∧
    (∀ srt, ForwardCheckingSolver.solve srt wrapProblem = some (true, wrapStart)) ∧
    wrapStart.backtrack_count = 0 ∧ wrapStart.assignment_count = 0 ∧
    assignedCount wrapStart.assignment = 0 ∧
    ¬ (wrapStart.backtrack_count + (wrapProblem.courses.length : Int) ≤
      wrapStart.assignment_count) := by
  refine ⟨wrapProblem_validated, fun srt => ?_, fun srt => ?_, rfl, rfl, by decide, by decide⟩
  · rw [bt_solve_eq]
    exact wrap_run false srt
  · rw [fc_solve_eq]
    exact wrap_run true srt

end Timetable

namespace Pathfinding

/-! ## The A* search -/

theorem isValidCell_iff (grid : Grid) (x y : Int) :
    grid.isValidCell x y = true ↔ 0 ≤ x ∧ x < grid.width ∧ 0 ≤ y ∧ y < grid.height := by
  simp only [Grid.isValidCell, Bool.and_eq_true, decide_eq_true_eq, ge_iff_le, and_assoc]

theorem cellToKey_inj {grid : Grid} (hfit : KeysFit grid) {a b : Cell}
    (ha : grid.isValidCell a.x a.y = true) (hb : grid.isValidCell b.x b.y = true)
    (h : cellToKey grid a = cellToKey grid b) : a = b := by
  rw [isValidCell_iff] at ha hb
  obtain ⟨a1, a2, a3, a4⟩ := ha
  obtain ⟨b1, b2, b3, b4⟩ := hb
  unfold KeysFit at hfit
  have hrange : ∀ c : Cell, 0 ≤ c.x → c.x < grid.width → 0 ≤ c.y → c.y < grid.height →
      0 ≤ c.y * grid.width + c.x ∧ c.y * grid.width + c.x ≤ 2147483647 := by
    intro c c1 c2 c3 c4
    have h1 : 0 ≤ c.y * grid.width := mul_nonneg c3 (by omega)
    have h2 : (c.y + 1) * grid.width ≤ grid.height * grid.width :=
      Int.mul_le_mul_of_nonneg_right (by omega) (by omega)
    have e1 : (c.y + 1) * grid.width = c.y * grid.width + grid.width := by ring
    have e2 : grid.height * grid.width = grid.width * grid.height := by ring
    omega
  unfold cellToKey at h
  obtain ⟨ra1, ra2⟩ := hrange a a1 a2 a3 a4
  obtain ⟨rb1, rb2⟩ := hrange b b1 b2 b3 b4
  rw [Timetable.toInt32_of_fits (by omega) ra2, Timetable.toInt32_of_fits (by omega) rb2] at h
  have hy : a.y = b.y := by
    by_contra hne
    rcases lt_or_gt_of_ne hne with hlt | hgt
    · have : (b.y - a.y) * grid.width ≥ 1 * grid.width :=
        Int.mul_le_mul_of_nonneg_right (by omega) (by omega)
      have e : (b.y - a.y) * grid.width = b.y * grid.width - a.y * grid.width := by ring
      omega
    · have : (a.y - b.y) * grid.width ≥ 1 * grid.width :=
        Int.mul_le_mul_of_nonneg_right (by omega) (by omega)
      have e : (a.y - b.y) * grid.width = a.y * grid.width - b.y * grid.width := by ring
      omega
  have hx : a.x = b.x := by
    rw [hy] at h
    omega
  cases a
  cases b
  simp only at hx hy
  rw [hx, hy]

theorem lookupNode_setNode {H : Type} (key k : Int) (node : Node H) :
    ∀ l : List (Int × Node H), lookupNode k (setNode key node l) =
      if k = key then (lookupNode key l).map (fun _ => node) else lookupNode k l := by
  intro l
  induction l with
  | nil => simp [setNode, lookupNode]
  | cons kv rest ih =>
    obtain ⟨k0, n0⟩ := kv
    by_cases h0 : k0 = key
    · subst h0
      by_cases hk : k = k0
      · subst hk
        simp [setNode, lookupNode]
      · have hk' : k0 ≠ k := fun e => hk e.symm
        simp [setNode, lookupNode, hk, hk']
    · by_cases hk : k = key
      · subst hk
        simp only [setNode, lookupNode, h0, if_false, if_true, ih]
      · by_cases hk0 : k0 = k
        · simp [setNode, lookupNode, h0, hk, hk0]
        · simp only [setNode, lookupNode, h0, hk, hk0, if_false, ih]

theorem cellAt_cons {H : Type} {nodes : List (Int × Node H)} {nk k : Int} {n : Node H}
    {c : Cell} (hfresh : lookupNode nk nodes = none) (h : CellAt nodes k c) :
    CellAt ((nk, n) :: nodes) k c := by
  obtain ⟨node, hnode, hcell⟩ := h
  refine ⟨node, ?_, hcell⟩
  have hne : nk ≠ k := by
    rintro rfl
    rw [hfresh] at hnode
    cases hnode
  simp only [lookupNode, hne, if_false]
  exact hnode

theorem cellAt_set {H : Type} {nodes : List (Int × Node H)} {nk k : Int}
    {existing upd : Node H} {c : Cell} (hex : lookupNode nk nodes = some existing)
    (hcell : upd.cell = existing.cell) (h : CellAt nodes k c) :
    CellAt (setNode nk upd nodes) k c := by
  obtain ⟨node, hnode, hc⟩ := h
  rw [CellAt, lookupNode_setNode]
  by_cases hk : k = nk
  · subst hk
    rw [hex] at hnode
    cases hnode
    simp only [if_true, hex, Option.map_some']
    exact ⟨upd, rfl, hcell.trans hc⟩
  · simp only [hk, if_false]
    exact ⟨node, hnode, hc⟩

theorem nodesOK_cons {H : Type} {grid : Grid} {nodes : List (Int × Node H)} {ck : Int}
    {ccell : Cell} {n : Node H} (hok : NodesOK grid nodes)
    (hfresh : lookupNode (cellToKey grid n.cell) nodes = none)
    (hparent : n.parent = some ck) (hcur : CellAt nodes ck ccell)
    (hstep : Step grid ccell n.cell) :
    NodesOK grid ((cellToKey grid n.cell, n) :: nodes) := by
  intro key node h
  simp only [lookupNode] at h
  split at h
  · rename_i hk
    cases h
    refine ⟨hk, hstep.2.1, fun hnone => ?_, fun pk hpk => ?_⟩
    · rw [hparent] at hnone
      cases hnone
    · rw [hparent] at hpk
      cases hpk
      exact ⟨ccell, cellAt_cons hfresh hcur, hstep⟩
  · obtain ⟨h1, h2, h3, h4⟩ := hok key node h
    refine ⟨h1, h2, h3, fun pk hpk => ?_⟩
    obtain ⟨pcell, hp, hs⟩ := h4 pk hpk
    exact ⟨pcell, cellAt_cons hfresh hp, hs⟩

theorem nodesOK_set {H : Type} {grid : Grid} {nodes : List (Int × Node H)} {nk ck : Int}
    {ccell : Cell} {existing : Node H} {g : Nat} (hok : NodesOK grid nodes)
    (hex : lookupNode nk nodes = some existing) (hcur : CellAt nodes ck ccell)
    (hstep : Step grid ccell existing.cell) :
    NodesOK grid (setNode nk { existing with g_cost := g, parent := some ck } nodes) := by
  intro key node h
  rw [lookupNode_setNode] at h
  by_cases hk : key = nk
  · subst hk
    simp only [if_true, hex, Option.map_some', Option.some.injEq] at h
    subst h
    obtain ⟨h1, h2, -, -⟩ := hok key existing hex
    refine ⟨h1, h2, fun hnone => absurd hnone (by simp), fun pk hpk => ?_⟩
    simp only [Option.some.injEq] at hpk
    subst hpk
    exact ⟨ccell, cellAt_set hex rfl hcur, hstep⟩
  · simp only [hk, if_false] at h
    obtain ⟨h1, h2, h3, h4⟩ := hok key node h
    refine ⟨h1, h2, h3, fun pk hpk => ?_⟩
    obtain ⟨pcell, hp, hs⟩ := h4 pk hpk
    exact ⟨pcell, cellAt_set hex rfl hp, hs⟩

theorem getNeighborsLoop_spec (grid : Grid) (cell : Cell) :
    ∀ (offs : List (Int × Int)) (acc res : List Cell), (∀ o ∈ offs, o ∈ offsets) →
      (∀ b ∈ acc, Step grid cell b) → getNeighborsLoop grid cell offs acc = some res →
      ∀ b ∈ res, Step grid cell b := by
  intro offs
  induction offs with
  | nil =>
    intro acc res _ hacc h
    simp only [getNeighborsLoop, Option.some.injEq] at h
    subst h
    exact hacc
  | cons o rest ih =>
    intro acc res hoffs hacc h
    obtain ⟨dx, dy⟩ := o
    have hrest : ∀ o ∈ rest, o ∈ offsets := fun o ho => hoffs o (List.mem_cons_of_mem _ ho)
    simp only [getNeighborsLoop] at h
    split at h
    · rename_i hvalid
      split at h
      · cases h
      · exact ih acc res hrest hacc h
      · rename_i hobst
        refine ih _ res hrest ?_ h
        intro b hb
        rcases List.mem_append.mp hb with hb | hb
        · exact hacc b hb
        · simp only [List.mem_singleton] at hb
          subst hb
          refine ⟨?_, hvalid, hobst⟩
          have e1 : cell.x + dx - cell.x = dx := by omega
          have e2 : cell.y + dy - cell.y = dy := by omega
          simp only [e1, e2]
          exact hoffs _ (List.mem_cons_self _ _)
    · exact ih acc res hrest hacc h

theorem getNeighbors_spec {grid : Grid} {cell : Cell} {res : List Cell}
    (h : getNeighbors grid cell = some res) : ∀ b ∈ res, Step grid cell b :=
  getNeighborsLoop_spec grid cell offsets [] res (fun _ ho => ho)
    (fun b hb => absurd hb (List.not_mem_nil b)) h

theorem relaxNeighbors_inv {H : Type} (grid : Grid) (hfit : KeysFit grid)
    (heuristic : Cell → Cell → H) (ck : Int) (ccell : Cell) :
    ∀ (nbrs : List Cell) (st st' : SearchState H), NodesOK grid st.all_nodes →
      CellAt st.all_nodes ck ccell → (∀ b ∈ nbrs, Step grid ccell b) →
      relaxNeighbors grid heuristic ck nbrs st = some st' → NodesOK grid st'.all_nodes := by
  intro nbrs
  induction nbrs with
  | nil =>
    intro st st' hok _ _ h
    simp only [relaxNeighbors, Option.some.injEq] at h
    subst h
    exact hok
  | cons nb rest ih =>
    intro st st' hok hcur hsteps h
    have hrest : ∀ b ∈ rest, Step grid ccell b := fun b hb => hsteps b (List.mem_cons_of_mem _ hb)
    have hnb : Step grid ccell nb := hsteps nb (List.mem_cons_self _ _)
    simp only [relaxNeighbors] at h
    split at h
    · cases h
    · rename_i current hcurrent
      split at h
      · rename_i hfresh
        refine ih _ st' ?_ ?_ hrest h
        · exact nodesOK_cons
            (n := ⟨nb, current.g_cost + getMoveCost current.cell nb, heuristic nb grid.goal,
              some ck⟩) hok hfresh rfl hcur hnb
        · exact cellAt_cons hfresh hcur
      · rename_i existing hex
        have hcell : existing.cell = nb := by
          obtain ⟨h1, h2, -, -⟩ := hok _ existing hex
          exact cellToKey_inj hfit h2 hnb.2.1 h1
        split at h
        · refine ih _ st' ?_ ?_ hrest h
          · exact nodesOK_set hok hex hcur (hcell ▸ hnb)
          · exact cellAt_set hex rfl hcur
        · exact ih st st' hok hcur hrest h

theorem reconstructPath_spec {H : Type} {grid : Grid} {nodes : List (Int × Node H)}
    (hok : NodesOK grid nodes) :
    ∀ (fuel : Nat) (key : Int) (node : Node H) (acc path : List Cell),
      lookupNode key nodes = some node →
      reconstructPath nodes fuel (some key) acc = some path →
      ∃ w, path = w ++ node.cell :: acc.reverse ∧
        (w ++ [node.cell]).head? = some grid.start ∧
        List.Chain' (Step grid) (w ++ [node.cell]) := by
  intro fuel
  induction fuel with
  | zero =>
    intro key node acc path _ h
    simp [reconstructPath] at h
  | succ fuel ih =>
    intro key node acc path hnode h
    simp only [reconstructPath, hnode] at h
    obtain ⟨-, -, hroot, hparent⟩ := hok key node hnode
    cases hp : node.parent with
    | none =>
      rw [hp] at h
      have h' : (acc ++ [node.cell]).reverse = path := by
        cases fuel <;> simpa [reconstructPath] using h
      refine ⟨[], ?_, ?_, ?_⟩
      · rw [← h']
        simp
      · simp [hroot hp]
      · simp
    | some pk =>
      rw [hp] at h
      obtain ⟨pcell, ⟨pnode, hpn, hpc⟩, hstep⟩ := hparent pk hp
      obtain ⟨w, hpath, hhead, hchain⟩ := ih pk pnode (acc ++ [node.cell]) path hpn h
      subst hpc
      refine ⟨w ++ [pnode.cell], ?_, ?_, ?_⟩
      · rw [hpath]
        simp
      · rw [List.head?_append_of_ne_nil _ (by simp)]
        exact hhead
      · refine List.Chain'.append hchain (List.chain'_singleton _) ?_
        intro x hx y hy
        simp only [List.getLast?_append, List.getLast?_singleton, Option.or_some,
          Option.mem_def, Option.some.injEq] at hx
        simp only [List.head?_cons, Option.mem_def, Option.some.injEq] at hy
        subst hx; subst hy
        exact hstep

theorem searchLoop_path {H : Type} (pick : Nat → List (Node H) → Nat) (grid : Grid)
    (hfit : KeysFit grid) (heuristic : Cell → Cell → H) :
    ∀ (fuel : Nat) (st st' : SearchState H), NodesOK grid st.all_nodes →
      searchLoop pick grid heuristic fuel st = some (true, st') →
      st'.path.head? = some grid.start ∧ st'.path.getLast? = some grid.goal ∧
        List.Chain' (Step grid) st'.path := by
  intro fuel
  induction fuel with
  | zero =>
    intro st st' _ h
    simp [searchLoop] at h
  | succ fuel ih =>
    intro st st' hok h
    simp only [searchLoop] at h
    split at h
    · simp at h
    · split at h
      · cases h
      · rename_i current_key _
        split at h
        · cases h
        · rename_i current hcurrent
          split at h
          · rename_i hgoal
            split at h
            · cases h
            · rename_i path hpath
              simp only [Option.some.injEq, Prod.mk.injEq, true_and] at h
              subst h
              simp only
              obtain ⟨w, hw, hhead, hchain⟩ :=
                reconstructPath_spec hok _ current_key current [] path hcurrent hpath
              have hcell : current.cell = grid.goal := by
                cases hc : current.cell
                cases hg : grid.goal
                rw [hc, hg] at hgoal
                simp only at hgoal
                rw [hgoal.1, hgoal.2]
              simp only [List.reverse_nil] at hw
              rw [hw]
              refine ⟨hhead, ?_, hchain⟩
              rw [List.getLast?_append, List.getLast?_singleton, hcell]
              rfl
          · split at h
            · cases h
            · rename_i neighbors hneighbors
              split at h
              · cases h
              · rename_i st2 hst2
                refine ih st2 st' ?_ h
                refine relaxNeighbors_inv grid hfit heuristic current_key current.cell neighbors _ st2
                  ?_ ?_ (getNeighbors_spec hneighbors) hst2
                · exact hok
                · exact ⟨current, hcurrent, rfl⟩

theorem Step.facts {grid : Grid} {a b : Cell} (h : Step grid a b) :
    a ≠ b ∧ |b.x - a.x| ≤ 1 ∧ |b.y - a.y| ≤ 1 := by
  obtain ⟨hoff, -, -⟩ := h
  simp only [offsets, List.mem_cons, Prod.mk.injEq, List.mem_singleton, List.not_mem_nil,
    or_false] at hoff
  refine ⟨?_, ?_, ?_⟩
  · rintro rfl
    simp only [sub_self] at hoff
    omega
  · rw [abs_le]
    omega
  · rw [abs_le]
    omega

theorem chain_tail {α : Type} {R : α → α → Prop} :
    ∀ l : List α, List.Chain' R l → ∀ b ∈ l.tail, ∃ a, R a b := by
  intro l
  induction l with
  | nil => intro _ b hb; simp at hb
  | cons x rest ih =>
    intro hchain b hb
    cases rest with
    | nil => simp at hb
    | cons y rest' =>
      rw [List.chain'_cons] at hchain
      simp only [List.tail_cons, List.mem_cons] at hb
      rcases hb with rfl | hb
      · exact ⟨x, hchain.1⟩
      · exact ih hchain.2 b (by simpa using hb)

/-- Validity of the A* path when the keys fit an `int`.  For every grid with
`width * height ≤ 2^31` whose start is a valid cell, every heuristic and every
behaviour of the heap, if `findPath()` returns `true` then `getPath()` is
non-empty, its first cell is `grid.start`, its last cell is `grid.goal`, every
two consecutive cells are distinct and differ by one of the eight offsets
(each coordinate by at most 1), and every cell after the first is inside the
grid and not an obstacle. -/
theorem findPath_path_valid_of_fits {H : Type} (pick : Nat → List (Node H) → Nat)
    (grid : Grid) (heuristic : Cell → Cell → H) (fuel : Nat) (st : SearchState H)
    (hfit : KeysFit grid) (hstart : grid.isValidCell grid.start.x grid.start.y = true)
    (h : findPath pick grid heuristic fuel = some (true, st)) :
    st.path ≠ [] ∧ st.path.head? = some grid.start ∧ st.path.getLast? = some grid.goal ∧
    List.Chain' (fun a b : Cell => a ≠ b ∧ |b.x - a.x| ≤ 1 ∧ |b.y - a.y| ≤ 1 ∧
      (b.x - a.x, b.y - a.y) ∈ offsets) st.path ∧
    ∀ c ∈ st.path.tail, grid.isValidCell c.x c.y = true ∧
      grid.isObstacle c.x c.y = some false := by
  have hok : NodesOK grid [(cellToKey grid grid.start,
      (⟨grid.start, 0, heuristic grid.start grid.goal, none⟩ : Node H))] := by
    intro key node hnode
    simp only [lookupNode] at hnode
    split at hnode
    · rename_i hk
      cases hnode
      exact ⟨hk, hstart, fun _ => rfl, fun pk hpk => by cases hpk⟩
    · cases hnode
  obtain ⟨hhead, hlast, hchain⟩ := searchLoop_path pick grid hfit heuristic fuel _ st hok h
  refine ⟨?_, hhead, hlast, ?_, ?_⟩
  · intro hnil
    rw [hnil] at hhead
    cases hhead
  · exact List.Chain'.imp (fun _ _ hs => ⟨hs.facts.1, hs.facts.2.1, hs.facts.2.2, hs.1⟩) hchain
  · intro c hc
    obtain ⟨a, hs⟩ := chain_tail _ hchain c hc
    exact ⟨hs.2.1, hs.2.2⟩

/-- On `demoGrid`, with the Chebyshev heuristic and the least-`f_cost`
selector, `findPath()` returns the path `(0,0), (1,0), (2,1), (2,2)` around the
obstacle. -/
theorem findPath_path_valid_of_fits_demo :
    ([⟨0, 0⟩, ⟨1, 0⟩, ⟨2, 1⟩, ⟨2, 2⟩] : List Cell) ≠ [] ∧
    ([⟨0, 0⟩, ⟨1, 0⟩, ⟨2, 1⟩, ⟨2, 2⟩] : List Cell).head? = some demoGrid.start ∧
    ([⟨0, 0⟩, ⟨1, 0⟩, ⟨2, 1⟩, ⟨2, 2⟩] : List Cell).getLast? = some demoGrid.goal ∧
    List.Chain' (fun a b : Cell => a ≠ b ∧ |b.x - a.x| ≤ 1 ∧ |b.y - a.y| ≤ 1 ∧
      (b.x - a.x, b.y - a.y) ∈ offsets) [⟨0, 0⟩, ⟨1, 0⟩, ⟨2, 1⟩, ⟨2, 2⟩] ∧
    ∀ c ∈ ([⟨0, 0⟩, ⟨1, 0⟩, ⟨2, 1⟩, ⟨2, 2⟩] : List Cell).tail,
      demoGrid.isValidCell c.x c.y = true ∧ demoGrid.isObstacle c.x c.y = some false :=
  findPath_path_valid_of_fits pickMinF demoGrid chebyshevDistance 20
    ⟨[2, 6],
      [(8, ⟨⟨2, 2⟩, 3414, 0, some 5⟩), (7, ⟨⟨1, 2⟩, 2414, 1000, some 3⟩),
        (6, ⟨⟨0, 2⟩, 2000, 2000, some 3⟩), (5, ⟨⟨2, 1⟩, 2414, 1000, some 1⟩),
        (2, ⟨⟨2, 0⟩, 2000, 2000, some 1⟩), (3, ⟨⟨0, 1⟩, 1000, 2000, some 0⟩),
        (1, ⟨⟨1, 0⟩, 1000, 2000, some 0⟩), (0, ⟨⟨0, 0⟩, 0, 2000, none⟩)],
      [⟨0, 0⟩, ⟨1, 0⟩, ⟨2, 1⟩, ⟨2, 2⟩], 6⟩
    (by unfold KeysFit; decide) (by rfl) (by rfl)

/-! ## A run on a grid whose keys do not fit an `int` -/

/-- One round of the `while` loop of `findPath` that expands a node other than
the goal; `i` is the position the heap takes the node from. -/
theorem searchLoop_expand {H : Type} (pick : Nat → List (Node H) → Nat) (grid : Grid)
    (heuristic : Cell → Cell → H) (fuel : Nat) (st st2 : SearchState H) (i : Nat)
    (current_key : Int) (current : Node H) (neighbors : List Cell)
    (hopen : st.open_list.isEmpty = false)
    (hidx : pick st.nodes_expanded
      (st.open_list.filterMap (fun k => lookupNode k st.all_nodes)) = i)
    (hpick : st.open_list[i]? = some current_key)
    (hcur : lookupNode current_key st.all_nodes = some current)
    (hgoal : ¬ (current.cell.x = grid.goal.x ∧ current.cell.y = grid.goal.y))
    (hnb : getNeighbors grid current.cell = some neighbors)
    (hrelax : relaxNeighbors grid heuristic current_key neighbors
      { st with
        open_list := st.open_list.eraseIdx i
        nodes_expanded := st.nodes_expanded + 1 } = some st2) :
    searchLoop pick grid heuristic (fuel + 1) st = searchLoop pick grid heuristic fuel st2 := by
  simp only [searchLoop, hopen, hidx, hpick, hcur, hgoal, hnb, hrelax, Bool.false_eq_true,
    if_false]

/-- The round of the `while` loop of `findPath` that takes the goal off the
open list. -/
theorem searchLoop_goal {H : Type} (pick : Nat → List (Node H) → Nat) (grid : Grid)
    (heuristic : Cell → Cell → H) (fuel : Nat) (st : SearchState H) (i : Nat)
    (current_key : Int) (current : Node H) (path : List Cell)
    (hopen : st.open_list.isEmpty = false)
    (hidx : pick st.nodes_expanded
      (st.open_list.filterMap (fun k => lookupNode k st.all_nodes)) = i)
    (hpick : st.open_list[i]? = some current_key)
    (hcur : lookupNode current_key st.all_nodes = some current)
    (hgoal : current.cell.x = grid.goal.x ∧ current.cell.y = grid.goal.y)
    (hpath : reconstructPath st.all_nodes (st.all_nodes.length + 1) (some current_key) [] =
      some path) :
    searchLoop pick grid heuristic (fuel + 1) st =
      some (true,
        { st with
          open_list := st.open_list.eraseIdx i
          nodes_expanded := st.nodes_expanded + 1
          path := path }) := by
  simp only [searchLoop, hopen, hidx, hpick, hcur, hgoal, hpath, Bool.false_eq_true, if_false,
    and_self, if_true]

/-- Reading an entry of a row of `wideGrid`: a few entries followed by
`false` entries. -/
theorem vecAt_append_replicate (pre : List Bool) (n : Nat) (x : Int) (h0 : 0 ≤ x) :
    Timetable.vecAt (pre ++ List.replicate n false) x =
      if x.toNat < pre.length then pre[x.toNat]?
      else if x.toNat - pre.length < n then some false else none := by
  unfold Timetable.vecAt
  rw [if_neg (by omega)]
  by_cases h : x.toNat < pre.length
  · rw [if_pos h, List.getElem?_append_left h]
  · rw [if_neg h, List.getElem?_append_right (by omega), List.getElem?_replicate]

theorem isObstacle_wideGrid (x y : Int) (hx0 : 0 ≤ x) (hx : x < 2147483647) (hy0 : 0 ≤ y)
    (hy : y < 3) :
    wideGrid.isObstacle x y =
      some (decide ((x = 3 ∧ y = 0) ∨ (x = 2 ∧ y = 1) ∨ (x = 2 ∧ y = 2))) := by
  have hv : wideGrid.isValidCell x y = true := by
    rw [isValidCell_iff]
    exact ⟨hx0, hx, hy0, hy⟩
  unfold Grid.isObstacle
  rw [if_pos hv]
  have hcases : y = 0 ∨ y = 1 ∨ y = 2 := by omega
  have hxn : x.toNat < 2147483647 := by omega
  rcases hcases with rfl | rfl | rfl
  · have hrow : Timetable.vecAt wideGrid.obstacles 0 =
        some ([false, false, false, true] ++ List.replicate 2147483643 false) := rfl
    simp only [hrow, vecAt_append_replicate _ _ _ hx0]
    by_cases h : x.toNat < 4
    · have : x = 0 ∨ x = 1 ∨ x = 2 ∨ x = 3 := by omega
      rcases this with rfl | rfl | rfl | rfl <;> rfl
    · have hlen : ([false, false, false, true] : List Bool).length = 4 := rfl
      rw [hlen, if_neg h, if_pos (by omega)]
      exact congrArg some (decide_eq_false (by omega)).symm
  · have hrow : Timetable.vecAt wideGrid.obstacles 1 =
        some ([false, false, true] ++ List.replicate 2147483644 false) := rfl
    simp only [hrow, vecAt_append_replicate _ _ _ hx0]
    by_cases h : x.toNat < 3
    · have : x = 0 ∨ x = 1 ∨ x = 2 := by omega
      rcases this with rfl | rfl | rfl <;> rfl
    · have hlen : ([false, false, true] : List Bool).length = 3 := rfl
      rw [hlen, if_neg h, if_pos (by omega)]
      exact congrArg some (decide_eq_false (by omega)).symm
  · have hrow : Timetable.vecAt wideGrid.obstacles 2 =
        some ([false, false, true] ++ List.replicate 2147483644 false) := rfl
    simp only [hrow, vecAt_append_replicate _ _ _ hx0]
    by_cases h : x.toNat < 3
    · have : x = 0 ∨ x = 1 ∨ x = 2 := by omega
      rcases this with rfl | rfl | rfl <;> rfl
    · have hlen : ([false, false, true] : List Bool).length = 3 := rfl
      rw [hlen, if_neg h, if_pos (by omega)]
      exact congrArg some (decide_eq_false (by omega)).symm

theorem isValidCell_wideGrid (x y : Int) :
    wideGrid.isValidCell x y = decide (0 ≤ x ∧ x < 2147483647 ∧ 0 ≤ y ∧ y < 3) := by
  rw [Bool.eq_iff_iff, isValidCell_iff, decide_eq_true_iff]
  rfl

/-- The obstacles of `wideGrid` are `(3, 0)`, `(2, 1)` and `(2, 2)`. -/
theorem isObstacle_wideGrid_eq (x y : Int) :
    wideGrid.isObstacle x y =
      some (decide ((0 ≤ x ∧ x < 2147483647 ∧ 0 ≤ y ∧ y < 3) ∧
        ((x = 3 ∧ y = 0) ∨ (x = 2 ∧ y = 1) ∨ (x = 2 ∧ y = 2)))) := by
  by_cases hv : 0 ≤ x ∧ x < 2147483647 ∧ 0 ≤ y ∧ y < 3
  · rw [isObstacle_wideGrid x y hv.1 hv.2.1 hv.2.2.1 hv.2.2.2]
    simp only [hv, and_self, true_and]
  · have hv2 : wideGrid.isValidCell x y = false := by
      rw [isValidCell_wideGrid]
      exact decide_eq_false hv
    unfold Grid.isObstacle
    rw [hv2]
    simp only [Bool.false_eq_true, if_false, hv, false_and, decide_False]

/-- When `ok` tells which cells are inside the grid and free, `getNeighbors`
keeps the offsets that lead to such a cell, in the order of the arrays. -/
theorem getNeighborsLoop_filter (grid : Grid) (cell : Cell) (ok : Int → Int → Bool)
    (hin : ∀ x y, grid.isValidCell x y = true → grid.isObstacle x y = some (!ok x y))
    (hout : ∀ x y, grid.isValidCell x y = false → ok x y = false) :
    ∀ (offs : List (Int × Int)) (acc : List Cell),
      getNeighborsLoop grid cell offs acc =
        some (acc ++ (offs.filter (fun o => ok (cell.x + o.1) (cell.y + o.2))).map
          (fun o => ⟨cell.x + o.1, cell.y + o.2⟩)) := by
  intro offs
  induction offs with
  | nil =>
    intro acc
    simp only [getNeighborsLoop, List.filter_nil, List.map_nil, List.append_nil]
  | cons o rest ih =>
    intro acc
    obtain ⟨dx, dy⟩ := o
    unfold getNeighborsLoop
    cases hv : grid.isValidCell (cell.x + dx) (cell.y + dy) with
    | false =>
      have hk := hout _ _ hv
      simp only [Bool.false_eq_true, if_false, ih acc, List.filter_cons, hk]
    | true =>
      have ho := hin _ _ hv
      cases hk : ok (cell.x + dx) (cell.y + dy) with
      | false =>
        rw [hk] at ho
        simp only [if_true, ho, Bool.not_false, ih acc, List.filter_cons, hk,
          Bool.false_eq_true, if_false]
      | true =>
        rw [hk] at ho
        simp only [if_true, ho, Bool.not_true, ih, List.filter_cons, hk, List.map_cons,
          List.append_assoc, List.singleton_append]

/-- The cells of `wideGrid` that are inside the grid and free. -/
theorem getNeighbors_wideGrid (cell : Cell) :
    getNeighbors wideGrid cell =
      some ((offsets.filter (fun o =>
        decide ((0 ≤ cell.x + o.1 ∧ cell.x + o.1 < 2147483647 ∧ 0 ≤ cell.y + o.2 ∧
          cell.y + o.2 < 3) ∧
          ¬ ((cell.x + o.1 = 3 ∧ cell.y + o.2 = 0) ∨ (cell.x + o.1 = 2 ∧ cell.y + o.2 = 1) ∨
            (cell.x + o.1 = 2 ∧ cell.y + o.2 = 2))))).map
        (fun o => ⟨cell.x + o.1, cell.y + o.2⟩)) := by
  unfold getNeighbors
  rw [getNeighborsLoop_filter wideGrid cell (fun x y =>
    decide ((0 ≤ x ∧ x < 2147483647 ∧ 0 ≤ y ∧ y < 3) ∧
      ¬ ((x = 3 ∧ y = 0) ∨ (x = 2 ∧ y = 1) ∨ (x = 2 ∧ y = 2))))]
  · rfl
  · intro x y hv
    rw [isValidCell_wideGrid, decide_eq_true_iff] at hv
    rw [isObstacle_wideGrid_eq]
    simp only [hv, and_self, true_and, decide_not, Bool.not_not]
  · intro x y hv
    rw [isValidCell_wideGrid, decide_eq_false_iff_not] at hv
    simp only [hv, false_and, decide_False]

theorem getNeighbors_wideGrid_start :
    getNeighbors wideGrid ⟨4, 0⟩ = some [⟨5, 0⟩, ⟨4, 1⟩, ⟨3, 1⟩, ⟨5, 1⟩] := by
  rw [getNeighbors_wideGrid]
  rfl

theorem getNeighbors_wideGrid_31 :
    getNeighbors wideGrid ⟨3, 1⟩ = some [⟨4, 1⟩, ⟨3, 2⟩, ⟨2, 0⟩, ⟨4, 0⟩, ⟨4, 2⟩] := by
  rw [getNeighbors_wideGrid]
  rfl

theorem getNeighbors_wideGrid_20 :
    getNeighbors wideGrid ⟨2, 0⟩ = some [⟨1, 0⟩, ⟨1, 1⟩, ⟨3, 1⟩] := by
  rw [getNeighbors_wideGrid]
  rfl

theorem getNeighbors_wideGrid_41 :
    getNeighbors wideGrid ⟨4, 1⟩ =
      some [⟨3, 1⟩, ⟨5, 1⟩, ⟨4, 0⟩, ⟨4, 2⟩, ⟨3, 2⟩, ⟨5, 0⟩, ⟨5, 2⟩] := by
  rw [getNeighbors_wideGrid]
  rfl

theorem pickMinFLoop_spec :
    ∀ (rest : List (Node Nat)) (pre : List (Node Nat)) (best : Nat) (bnode : Node Nat),
      pre[best]? = some bnode → (∀ m ∈ pre, f_cost bnode ≤ f_cost m) →
      ∃ node, (pre ++ rest)[pickMinFLoop rest pre.length best (f_cost bnode)]? = some node ∧
        ∀ m ∈ pre ++ rest, f_cost node ≤ f_cost m := by
  intro rest
  induction rest with
  | nil =>
    intro pre best bnode hb hmin
    simp only [pickMinFLoop, List.append_nil]
    exact ⟨bnode, hb, hmin⟩
  | cons nd rest ih =>
    intro pre best bnode hb hmin
    have happ : pre ++ nd :: rest = (pre ++ [nd]) ++ rest := by simp
    have hlen : (pre ++ [nd]).length = pre.length + 1 := by simp
    unfold pickMinFLoop
    split
    · rename_i hlt
      have h1 : (pre ++ [nd])[pre.length]? = some nd := by simp
      have := ih (pre ++ [nd]) pre.length nd h1 (by
        intro m hm
        rcases List.mem_append.mp hm with hm | hm
        · have := hmin m hm
          omega
        · rw [List.mem_singleton.mp hm])
      rw [happ, ← hlen]
      exact this
    · rename_i hge
      have h1 : (pre ++ [nd])[best]? = some bnode := by
        rw [List.getElem?_append_left (Timetable.getElem?_lt hb)]
        exact hb
      have := ih (pre ++ [nd]) best bnode h1 (by
        intro m hm
        rcases List.mem_append.mp hm with hm | hm
        · exact hmin m hm
        · rw [List.mem_singleton.mp hm]
          omega)
      rw [happ, ← hlen]
      exact this

/-- The selector `pickMinF` takes a node of least `f_cost`. -/
theorem pickMinF_leastF : LeastF pickMinF := by
  intro n nodes hne
  cases nodes with
  | nil => exact absurd rfl hne
  | cons nd rest =>
    have := pickMinFLoop_spec rest [nd] 0 nd rfl (by
      intro m hm
      rw [List.mem_singleton.mp hm])
    exact this

/-- A selector that takes a node of least `f_cost` takes the node at `j` when
that node is below all others. -/
theorem leastF_pick {pick : Nat → List (Node Nat) → Nat} (hpick : LeastF pick) (n : Nat)
    (nodes : List (Node Nat)) (j : Nat) (node : Node Nat) (hj : nodes[j]? = some node)
    (hall : ∀ q ∈ nodes.enum, q.1 = j ∨ f_cost node < f_cost q.2) : pick n nodes = j := by
  have hne : nodes ≠ [] := by
    intro h
    rw [h] at hj
    cases hj
  obtain ⟨nd, hnd, hmin⟩ := hpick n nodes hne
  rcases hall (pick n nodes, nd) (List.mk_mem_enum_iff_getElem?.mpr hnd) with h | h
  · exact h
  · exfalso
    have hmem : node ∈ nodes := by
      have hl := Timetable.getElem?_lt hj
      rw [List.getElem?_eq_getElem hl] at hj
      exact Option.some.inj hj ▸ List.getElem_mem hl
    have := hmin node hmem
    simp only at h
    omega

/-- The run of `findPath` on `wideGrid` with the Chebyshev heuristic, for every
heap that takes a node of least `f_cost`: four nodes are expanded, each the
only node of least `f_cost` on the open list, then the goal is taken off.  Expanding `(3, 1)` stores the node of `(2, 0)` under
key 2; expanding `(4, 1)` finds that node under the key of `(4, 2)` and makes
`(4, 1)` its parent. -/
theorem findPath_wideGrid_run (pick : Nat → List (Node Nat) → Nat) (hpick : LeastF pick)
    (k : Nat) :
    findPath pick wideGrid chebyshevDistance (k + 5) =
      some (true, ⟨[5, -2147483644, 1, 3],
      [(3, ⟨⟨5, 2⟩, 2414, 4000, some (-2147483645)⟩),
        (-2147483648, ⟨⟨1, 1⟩, 4242, 0, some 2⟩),
        (2, ⟨⟨2, 0⟩, 2000, 1000, some (-2147483645)⟩),
        (1, ⟨⟨3, 2⟩, 2414, 2000, some (-2147483646)⟩),
        (-2147483644, ⟨⟨5, 1⟩, 1414, 4000, some 4⟩), (-2147483646, ⟨⟨3, 1⟩, 1414, 2000, some 4⟩),
        (-2147483645, ⟨⟨4, 1⟩, 1000, 3000, some 4⟩), (5, ⟨⟨5, 0⟩, 1000, 4000, some 4⟩),
        (4, ⟨⟨4, 0⟩, 0, 3000, none⟩)],
      [⟨4, 0⟩, ⟨4, 1⟩, ⟨2, 0⟩, ⟨1, 1⟩], 5⟩) := by
  have e1 := searchLoop_expand pick wideGrid chebyshevDistance (k + 4)
    ⟨[4], [(4, ⟨⟨4, 0⟩, 0, 3000, none⟩)], [], 0⟩
    ⟨[5, -2147483645, -2147483646, -2147483644],
      [(-2147483644, ⟨⟨5, 1⟩, 1414, 4000, some 4⟩), (-2147483646, ⟨⟨3, 1⟩, 1414, 2000, some 4⟩),
        (-2147483645, ⟨⟨4, 1⟩, 1000, 3000, some 4⟩), (5, ⟨⟨5, 0⟩, 1000, 4000, some 4⟩),
        (4, ⟨⟨4, 0⟩, 0, 3000, none⟩)], [], 1⟩
    0 4 ⟨⟨4, 0⟩, 0, 3000, none⟩ _ (by rfl)
    (leastF_pick hpick _ _ 0 ⟨⟨4, 0⟩, 0, 3000, none⟩ (by rfl) (by decide))
    (by rfl) (by rfl) (by decide)
    getNeighbors_wideGrid_start (by rfl)
  have e2 := searchLoop_expand pick wideGrid chebyshevDistance (k + 3)
    ⟨[5, -2147483645, -2147483646, -2147483644],
      [(-2147483644, ⟨⟨5, 1⟩, 1414, 4000, some 4⟩), (-2147483646, ⟨⟨3, 1⟩, 1414, 2000, some 4⟩),
        (-2147483645, ⟨⟨4, 1⟩, 1000, 3000, some 4⟩), (5, ⟨⟨5, 0⟩, 1000, 4000, some 4⟩),
        (4, ⟨⟨4, 0⟩, 0, 3000, none⟩)], [], 1⟩
    ⟨[5, -2147483645, -2147483644, 1, 2],
      [(2, ⟨⟨2, 0⟩, 2828, 1000, some (-2147483646)⟩),
        (1, ⟨⟨3, 2⟩, 2414, 2000, some (-2147483646)⟩),
        (-2147483644, ⟨⟨5, 1⟩, 1414, 4000, some 4⟩), (-2147483646, ⟨⟨3, 1⟩, 1414, 2000, some 4⟩),
        (-2147483645, ⟨⟨4, 1⟩, 1000, 3000, some 4⟩), (5, ⟨⟨5, 0⟩, 1000, 4000, some 4⟩),
        (4, ⟨⟨4, 0⟩, 0, 3000, none⟩)], [], 2⟩
    2 (-2147483646) ⟨⟨3, 1⟩, 1414, 2000, some 4⟩ _ (by rfl)
    (leastF_pick hpick _ _ 2 ⟨⟨3, 1⟩, 1414, 2000, some 4⟩ (by rfl) (by decide))
    (by rfl) (by rfl) (by decide)
    getNeighbors_wideGrid_31 (by rfl)
  have e3 := searchLoop_expand pick wideGrid chebyshevDistance (k + 2)
    ⟨[5, -2147483645, -2147483644, 1, 2],
      [(2, ⟨⟨2, 0⟩, 2828, 1000, some (-2147483646)⟩),
        (1, ⟨⟨3, 2⟩, 2414, 2000, some (-2147483646)⟩),
        (-2147483644, ⟨⟨5, 1⟩, 1414, 4000, some 4⟩), (-2147483646, ⟨⟨3, 1⟩, 1414, 2000, some 4⟩),
        (-2147483645, ⟨⟨4, 1⟩, 1000, 3000, some 4⟩), (5, ⟨⟨5, 0⟩, 1000, 4000, some 4⟩),
        (4, ⟨⟨4, 0⟩, 0, 3000, none⟩)], [], 2⟩
    ⟨[5, -2147483645, -2147483644, 1, -2147483648],
      [(-2147483648, ⟨⟨1, 1⟩, 4242, 0, some 2⟩),
        (2, ⟨⟨2, 0⟩, 2828, 1000, some (-2147483646)⟩),
        (1, ⟨⟨3, 2⟩, 2414, 2000, some (-2147483646)⟩),
        (-2147483644, ⟨⟨5, 1⟩, 1414, 4000, some 4⟩), (-2147483646, ⟨⟨3, 1⟩, 1414, 2000, some 4⟩),
        (-2147483645, ⟨⟨4, 1⟩, 1000, 3000, some 4⟩), (5, ⟨⟨5, 0⟩, 1000, 4000, some 4⟩),
        (4, ⟨⟨4, 0⟩, 0, 3000, none⟩)], [], 3⟩
    4 2 ⟨⟨2, 0⟩, 2828, 1000, some (-2147483646)⟩ _ (by rfl)
    (leastF_pick hpick _ _ 4 ⟨⟨2, 0⟩, 2828, 1000, some (-2147483646)⟩ (by rfl) (by decide))
    (by rfl) (by rfl) (by decide)
    getNeighbors_wideGrid_20 (by rfl)
  have e4 := searchLoop_expand pick wideGrid chebyshevDistance (k + 1)
    ⟨[5, -2147483645, -2147483644, 1, -2147483648],
      [(-2147483648, ⟨⟨1, 1⟩, 4242, 0, some 2⟩),
        (2, ⟨⟨2, 0⟩, 2828, 1000, some (-2147483646)⟩),
        (1, ⟨⟨3, 2⟩, 2414, 2000, some (-2147483646)⟩),
        (-2147483644, ⟨⟨5, 1⟩, 1414, 4000, some 4⟩), (-2147483646, ⟨⟨3, 1⟩, 1414, 2000, some 4⟩),
        (-2147483645, ⟨⟨4, 1⟩, 1000, 3000, some 4⟩), (5, ⟨⟨5, 0⟩, 1000, 4000, some 4⟩),
        (4, ⟨⟨4, 0⟩, 0, 3000, none⟩)], [], 3⟩
    ⟨[5, -2147483644, 1, -2147483648, 3],
      [(3, ⟨⟨5, 2⟩, 2414, 4000, some (-2147483645)⟩),
        (-2147483648, ⟨⟨1, 1⟩, 4242, 0, some 2⟩),
        (2, ⟨⟨2, 0⟩, 2000, 1000, some (-2147483645)⟩),
        (1, ⟨⟨3, 2⟩, 2414, 2000, some (-2147483646)⟩),
        (-2147483644, ⟨⟨5, 1⟩, 1414, 4000, some 4⟩), (-2147483646, ⟨⟨3, 1⟩, 1414, 2000, some 4⟩),
        (-2147483645, ⟨⟨4, 1⟩, 1000, 3000, some 4⟩), (5, ⟨⟨5, 0⟩, 1000, 4000, some 4⟩),
        (4, ⟨⟨4, 0⟩, 0, 3000, none⟩)], [], 4⟩
    1 (-2147483645) ⟨⟨4, 1⟩, 1000, 3000, some 4⟩ _ (by rfl)
    (leastF_pick hpick _ _ 1 ⟨⟨4, 1⟩, 1000, 3000, some 4⟩ (by rfl) (by decide))
    (by rfl) (by rfl) (by decide)
    getNeighbors_wideGrid_41 (by rfl)
  have e5 := searchLoop_goal pick wideGrid chebyshevDistance k
    ⟨[5, -2147483644, 1, -2147483648, 3],
      [(3, ⟨⟨5, 2⟩, 2414, 4000, some (-2147483645)⟩),
        (-2147483648, ⟨⟨1, 1⟩, 4242, 0, some 2⟩),
        (2, ⟨⟨2, 0⟩, 2000, 1000, some (-2147483645)⟩),
        (1, ⟨⟨3, 2⟩, 2414, 2000, some (-2147483646)⟩),
        (-2147483644, ⟨⟨5, 1⟩, 1414, 4000, some 4⟩), (-2147483646, ⟨⟨3, 1⟩, 1414, 2000, some 4⟩),
        (-2147483645, ⟨⟨4, 1⟩, 1000, 3000, some 4⟩), (5, ⟨⟨5, 0⟩, 1000, 4000, some 4⟩),
        (4, ⟨⟨4, 0⟩, 0, 3000, none⟩)], [], 4⟩
    3 (-2147483648) ⟨⟨1, 1⟩, 4242, 0, some 2⟩ [⟨4, 0⟩, ⟨4, 1⟩, ⟨2, 0⟩, ⟨1, 1⟩] (by rfl)
    (leastF_pick hpick _ _ 3 ⟨⟨1, 1⟩, 4242, 0, some 2⟩ (by rfl) (by decide))
    (by rfl) (by rfl) (by decide) (by rfl)
  exact e1.trans (e2.trans (e3.trans (e4.trans e5)))

/-- Claim C27 at `wideGrid` (`INT_MAX` columns, 3 rows, obstacles `(3, 0)`,
`(2, 1)`, `(2, 2)`, start `(4, 0)`, goal `(1, 1)`): start and goal are valid
cells, the cells `(4, 2)` and `(2, 0)` have the same key 2, and with the
Chebyshev heuristic, for every heap that takes a node of least `f_cost`,
`findPath()` returns `true` with the path `(4, 0), (4, 1), (2, 0), (1, 1)`:
its step from `(4, 1)` to `(2, 0)` changes `x` by 2. -/
theorem findPath_invalid_step :
    wideGrid.isValidCell wideGrid.start.x wideGrid.start.y = true ∧
    wideGrid.isValidCell wideGrid.goal.x wideGrid.goal.y = true ∧
    cellToKey wideGrid ⟨4, 2⟩ = 2 ∧ cellToKey wideGrid ⟨2, 0⟩ = 2 ∧
    (∃ st, findPath pickMinF wideGrid chebyshevDistance 5 = some (true, st) ∧
      st.path = [⟨4, 0⟩, ⟨4, 1⟩, ⟨2, 0⟩, ⟨1, 1⟩]) ∧
    (∀ pick, LeastF pick → ∀ k, ∃ st,
      findPath pick wideGrid chebyshevDistance (k + 5) = some (true, st) ∧
      st.path = [⟨4, 0⟩, ⟨4, 1⟩, ⟨2, 0⟩, ⟨1, 1⟩]) ∧
    ¬ List.Chain' (fun a b : Cell => a ≠ b ∧ |b.x - a.x| ≤ 1 ∧ |b.y - a.y| ≤ 1 ∧
      (b.x - a.x, b.y - a.y) ∈ offsets) [⟨4, 0⟩, ⟨4, 1⟩, ⟨2, 0⟩, ⟨1, 1⟩] := by
  refine ⟨by decide, by decide, by decide, by decide,
    ⟨_, findPath_wideGrid_run pickMinF pickMinF_leastF 0, rfl⟩,
    fun pick hpick k => ⟨_, findPath_wideGrid_run pick hpick k, rfl⟩, ?_⟩
  intro h
  have h2 := (List.chain'_cons.mp (List.chain'_cons.mp h).2).1
  exact absurd h2.2.1 (by decide)

end Pathfinding
